import Mathlib

/-!
# Merkle-tree construction of the remote-execution client

A shallow embedding of `go/pkg/client/tree.go`: the flat map of file-system nodes, the nested
tree built from it, the two packagers that turn the tree into canonical directory descriptors,
the flattener, the path helpers and the file loader.

Conventions of the embedding.

* A Go `map[k]v` is an association list with pairwise distinct keys.  The order of the list is
  the order in which a `range` loop over the map visits the entries, so a statement about every
  enumeration order is a statement about every permutation of the list.
* A Go `string` is a Lean `String`; the order `<` of Go strings is the lexicographic order of
  the characters.
* Pointers that may be nil are `Option`s; functions returning `(value, error)` return `Except`.
* Packages that the file imports (digest, uploadinfo, filemetadata, the protobuf runtime, the
  operating system) are parameters of the functions that use them.
-/

namespace Client

/-- Equality of the results of fallible functions is decidable. -/
instance instDecidableEqExcept {ε α : Type} [DecidableEq ε] [DecidableEq α] :
    DecidableEq (Except ε α)
  | .ok a, .ok b =>
    if h : a = b then isTrue (by rw [h]) else isFalse (fun h' => h (by cases h'; rfl))
  | .error a, .error b =>
    if h : a = b then isTrue (by rw [h]) else isFalse (fun h' => h (by cases h'; rfl))
  | .ok _, .error _ => isFalse (fun h' => by cases h')
  | .error _, .ok _ => isFalse (fun h' => by cases h')

/-! ## Go maps -/

/-- The map read `m[k]`: the value stored under `k`, if any. -/
def mapGet {κ α : Type} [DecidableEq κ] : List (κ × α) → κ → Option α
  | [], _ => none
  | (k', v) :: rest, k => if k' = k then some v else mapGet rest k

/-- The map write `m[k] = v`: overwrites the entry of `k` in place, or adds one. -/
def mapSet {κ α : Type} [DecidableEq κ] : List (κ × α) → κ → α → List (κ × α)
  | [], k, v => [(k, v)]
  | (k', v') :: rest, k, v => if k' = k then (k, v) :: rest else (k', v') :: mapSet rest k v

/-- The keys of a map, in enumeration order. -/
def mapKeys {κ α : Type} (m : List (κ × α)) : List κ := m.map Prod.fst

/-- The loop `for k, v := range src { dst[k] = v }`. -/
def mapMerge {κ α : Type} [DecidableEq κ] (dst src : List (κ × α)) : List (κ × α) :=
  src.foldl (fun acc kv => mapSet acc kv.1 kv.2) dst

/-! ## Sorting -/

/-- The order `a < b` of Go strings, as a boolean. -/
def strLess (a b : String) : Bool := decide (a.data < b.data)

/-- Insertion of `x` in front of the first element that `x` is less than. -/
def insertSorted {α : Type} (less : α → α → Bool) (x : α) : List α → List α
  | [] => [x]
  | y :: ys => if less x y then x :: y :: ys else y :: insertSorted less x ys

/-- The call `sort.Slice(xs, less)`.  Go does not promise an order for elements that `less` does
not separate; the slices sorted in this file carry pairwise distinct names. -/
def sortSlice {α : Type} (less : α → α → Bool) (xs : List α) : List α :=
  xs.foldr (insertSorted less) []

/-- The call `sort.Strings(xs)`. -/
def sortStrings (xs : List String) : List String := sortSlice strLess xs

/-! ## Digests, upload entries and directory descriptors -/

/-- The type `digest.Digest`: the hash of a blob and its size in bytes (an `int64`). -/
structure Digest where
  Hash : String
  Size : Int
deriving DecidableEq, Repr

/-- The value `digest.Empty`, the digest of the blob of length zero. -/
def Digest.Empty : Digest :=
  ⟨"e3b0c44298fc1c149afbf4c8996fb92427ae41e4649b934ca495991b7852b855", 0⟩

/-- The message `repb.Digest`. -/
structure DigestPb where
  Hash : String
  SizeBytes : Int
deriving DecidableEq, Repr

/-- Modelled from the spec: `Digest.ToProto` of package digest, which is not under src; a digest
is the pair of hash and size, and the message carries the same two fields. -/
def Digest.ToProto (d : Digest) : DigestPb := ⟨d.Hash, d.Size⟩

/-- Modelled from the spec: `digest.NewFromProtoUnvalidated` of package digest, which is not
under src; it copies the two fields of the message without checking them. -/
def NewFromProtoUnvalidated (p : DigestPb) : Digest := ⟨p.Hash, p.SizeBytes⟩

/-- The record `cpb.NodeProperties`, opaque to this file. -/
structure NodeProperties where
  Properties : List (String × String)
deriving DecidableEq, Repr

/-- The message `repb.NodeProperties`, opaque to this file. -/
structure NodePropertiesPb where
  Properties : List (String × String)
deriving DecidableEq, Repr

/-- The message `repb.FileNode`. -/
structure FileNode where
  Name : String
  Digest : DigestPb
  IsExecutable : Bool
  NodeProperties : Option NodePropertiesPb
deriving DecidableEq, Repr

/-- The message `repb.DirectoryNode`. -/
structure DirectoryNode where
  Name : String
  Digest : DigestPb
deriving DecidableEq, Repr

/-- The message `repb.SymlinkNode`. -/
structure SymlinkNode where
  Name : String
  Target : String
  NodeProperties : Option NodePropertiesPb
deriving DecidableEq, Repr

/-- The message `repb.Directory`, the directory descriptor. -/
structure Directory where
  Files : List FileNode
  Directories : List DirectoryNode
  Symlinks : List SymlinkNode
  NodeProperties : Option NodePropertiesPb
deriving DecidableEq, Repr

/-- The message `repb.Tree`. -/
structure Tree where
  Root : Option Directory
  Children : List Directory
deriving DecidableEq, Repr

/-- The type `uploadinfo.Entry`: a blob to upload, held in memory or read from a path. -/
structure Entry where
  Digest : Digest
  Contents : List UInt8
  Path : String
deriving DecidableEq, Repr

/-- The error of a metadata lookup: a `*filemetadata.FileError` with its not-found flag, or any
other error. -/
inductive MetaError where
  | fileError (IsNotFound : Bool) (msg : String)
  | other (msg : String)
deriving DecidableEq, Repr

/-- The errors that the functions of this file return. -/
inductive Err where
  /-- The loader met the empty string in its queue. -/
  | emptyInput
  /-- A virtual input has the empty path. -/
  | emptyVirtualPath
  /-- The error of `filepath.Rel`. -/
  | relFailed (base targ : String)
  /-- The error of `getRelPath`: `path` is not under `base`. -/
  | notUnder (path base : String)
  /-- The error of `getRemotePath`. -/
  | remotePath (path : String) (cause : Err)
  /-- The target of a preserved symlink is outside the exec root. -/
  | symlinkTarget (normPath execRoot : String) (cause : Err)
  /-- A dangling symlink cannot be materialized. -/
  | danglingSymlink (normPath target : String)
  /-- The error reported by the metadata cache. -/
  | metadata (e : MetaError)
  /-- The error of opening or listing a directory. -/
  | os (msg : String)
  /-- The error of serializing a message. -/
  | marshal (msg : String)
  /-- The flattener did not find a directory. -/
  | missingDirectory (path : String) (d : Digest)
  /-- A nil tree node was dereferenced. -/
  | nilNode
deriving DecidableEq, Repr

/-- The functions of the imported packages that the packagers and the flattener call:
`proto.Marshal` on a directory descriptor and on a tree message, `digest.NewFromBlob`, and
`command.NodePropertiesToAPI`. -/
structure Deps where
  marshal : Directory → Except Err (List UInt8)
  marshalTree : Tree → Except Err (List UInt8)
  NewFromBlob : List UInt8 → Digest
  NodePropertiesToAPI : Option NodeProperties → Option NodePropertiesPb

/-- Modelled from the spec: `uploadinfo.EntryFromBlob`, not under src; the entry of an in-memory
blob carries the digest of the bytes. -/
def EntryFromBlob (deps : Deps) (blob : List UInt8) : Entry :=
  { Digest := deps.NewFromBlob blob, Contents := blob, Path := "" }

/-- Modelled from the spec: `uploadinfo.EntryFromFile`, not under src; the entry of a file
carries the given digest and the path to read from. -/
def EntryFromFile (dg : Digest) (path : String) : Entry :=
  { Digest := dg, Contents := [], Path := path }

/-- Modelled from the spec: `uploadinfo.EntryFromProto`, not under src; constructing an entry from
a directory descriptor serializes the descriptor and hashes the bytes. -/
def EntryFromProto (deps : Deps) (dir : Directory) : Except Err Entry :=
  match deps.marshal dir with
  | .error e => .error e
  | .ok blob => .ok (EntryFromBlob deps blob)

/-- Modelled from the spec: `digest.NewFromMessage`, not under src; the digest of a descriptor is
the hash of its serialization. -/
def NewFromMessage (deps : Deps) (dir : Directory) : Except Err Digest :=
  match deps.marshal dir with
  | .error e => .error e
  | .ok blob => .ok (deps.NewFromBlob blob)

/-! ## The tree of file-system nodes -/

/-- The struct `fileNode`. -/
structure fileNode where
  ue : Entry
  isExecutable : Bool
deriving DecidableEq, Repr

/-- The struct `symlinkNode`. -/
structure symlinkNode where
  target : String
deriving DecidableEq, Repr

/-- The struct `fileSysNode`; the pointer fields are nil when `none`. -/
structure fileSysNode where
  file : Option fileNode
  emptyDirectoryMarker : Bool
  symlink : Option symlinkNode
  nodeProperties : Option NodeProperties
deriving DecidableEq, Repr

/-- The struct `treeNode`: the leaves and the child directories of a directory, by name. -/
inductive treeNode where
  | mk (leaves : List (String × fileSysNode)) (children : List (String × treeNode)) : treeNode

/-- The field `leaves`. -/
def treeNode.leaves : treeNode → List (String × fileSysNode)
  | .mk l _ => l

/-- The field `children`. -/
def treeNode.children : treeNode → List (String × treeNode)
  | .mk _ c => c

/-- The struct `TreeStats`.  The three counters are Go `int`s that grow by one per node of an
in-memory tree; `TotalInputBytes` is an `int64` that sums sizes supplied from outside and wraps
around. -/
structure TreeStats where
  InputFiles : Int
  InputDirectories : Int
  InputSymlinks : Int
  TotalInputBytes : Int
deriving DecidableEq, Repr

/-- The value of an `int64` computation whose exact result is `x`. -/
def wrap64 (x : Int) : Int := (x + 9223372036854775808) % 18446744073709551616 - 9223372036854775808

/-! ## The tree packager -/

/-- The mutable state that `packageTree` reaches through its pointer arguments: the statistics
and the debugging map from path to digest, which is nil unless verbose logging is on. -/
structure pkgState where
  stats : TreeStats
  tree : Option (List (String × Digest))
deriving DecidableEq, Repr

/-- The loop of `packageTree` over `t.leaves`: a file leaf adds a file entry, its blob and its
statistics; a symlink leaf adds a symlink entry; any other leaf adds nothing. -/
def packageTreeLeaves (deps : Deps) (pfx : String) :
    List (String × fileSysNode) → Directory → List (Digest × Entry) → pkgState →
      Directory × List (Digest × Entry) × pkgState
  | [], dir, blobs, st => (dir, blobs, st)
  | (name, n) :: rest, dir, blobs, st =>
    match n.file with
    | some f =>
      let dg := f.ue.Digest
      let dir := { dir with Files := dir.Files ++
        [{ Name := name, Digest := dg.ToProto, IsExecutable := f.isExecutable,
           NodeProperties := deps.NodePropertiesToAPI n.nodeProperties }] }
      let blobs := mapSet blobs dg f.ue
      let stats := { st.stats with
        InputFiles := st.stats.InputFiles + 1
        TotalInputBytes := wrap64 (st.stats.TotalInputBytes + dg.Size) }
      let tree := st.tree.map (fun m => mapSet m (pfx ++ "/" ++ name) dg)
      packageTreeLeaves deps pfx rest dir blobs { stats := stats, tree := tree }
    | none =>
      match n.symlink with
      | some s =>
        let dir := { dir with Symlinks := dir.Symlinks ++
          [{ Name := name, Target := s.target,
             NodeProperties := deps.NodePropertiesToAPI n.nodeProperties }] }
        let stats := { st.stats with InputSymlinks := st.stats.InputSymlinks + 1 }
        packageTreeLeaves deps pfx rest dir blobs { st with stats := stats }
      | none => packageTreeLeaves deps pfx rest dir blobs st

/-- The part of the body of `packageTree` between its loop over the children and the
serialization: it sorts the directory entries, runs the loop over the leaves and sorts the file
and symlink entries.  The argument is what the loop over the children left. -/
def packageTreeSorted (deps : Deps) (pfx : String) (leaves : List (String × fileSysNode)) :
    Except Err (Directory × List (Digest × Entry)) × pkgState →
      Except Err (Directory × List (Digest × Entry)) × pkgState
  | (.error e, st) => (.error e, st)
  | (.ok (dir, blobs), st) =>
    let dir := { dir with
      Directories := sortSlice (fun a b => strLess a.Name b.Name) dir.Directories }
    match packageTreeLeaves deps pfx leaves dir blobs st with
    | (dir, blobs, st) =>
      let dir := { dir with
        Files := sortSlice (fun a b => strLess a.Name b.Name) dir.Files
        Symlinks := sortSlice (fun a b => strLess a.Name b.Name) dir.Symlinks }
      (.ok (dir, blobs), st)

/-- The end of the body of `packageTree`: it serializes the descriptor, registers it as a blob
under its digest and counts the directory. -/
def packageTreeFinish (deps : Deps) (pfx : String) :
    Except Err (Directory × List (Digest × Entry)) × pkgState →
      Except Err (Digest × List (Digest × Entry)) × pkgState
  | (.error e, st) => (.error e, st)
  | (.ok (dir, blobs), st) =>
    match EntryFromProto deps dir with
    | .error e => (.error e, st)
    | .ok ue =>
      let dg := ue.Digest
      let tree := st.tree.map (fun m => mapSet m pfx dg)
      let blobs := mapSet blobs dg ue
      let stats := { st.stats with
        TotalInputBytes := wrap64 (st.stats.TotalInputBytes + dg.Size)
        InputDirectories := st.stats.InputDirectories + 1 }
      (.ok (dg, blobs), { stats := stats, tree := tree })

/-- The variable `path` of `packageTree` in a round of the loop over the children: it is set to
the path of the child when the debugging map `tree` is not nil, and stays empty otherwise. -/
def packageTreePath (tree : Option (List (String × Digest))) (pfx name : String) : String :=
  match tree with
  | some _ => pfx ++ "/" ++ name
  | none => ""

/-- The empty descriptor `&repb.Directory{}`. -/
def Directory.empty : Directory :=
  { Files := [], Directories := [], Symlinks := [], NodeProperties := none }

/-!
`packageTree` and the loop over `t.children` that it runs.  Both return the state that they
leave behind also when they fail, as the Go code mutates `stats` and `tree` through pointers.
-/
mutual
/-- The function `packageTree`. -/
def packageTree (deps : Deps) :
    treeNode → pkgState → String → Except Err (Digest × List (Digest × Entry)) × pkgState
  | .mk leaves children, st, pfx =>
    packageTreeFinish deps pfx
      (packageTreeSorted deps pfx leaves
        (packageTreeChildren deps pfx children Directory.empty [] st))
/-- The loop of `packageTree` over `t.children`. -/
def packageTreeChildren (deps : Deps) (pfx : String) :
    List (String × treeNode) → Directory → List (Digest × Entry) → pkgState →
      Except Err (Directory × List (Digest × Entry)) × pkgState
  | [], dir, blobs, st => (.ok (dir, blobs), st)
  | (name, child) :: rest, dir, blobs, st =>
    let path := packageTreePath st.tree pfx name
    match packageTree deps child st path with
    | (.error e, st) => (.error e, st)
    | (.ok (dg, childBlobs), st) =>
      let tree := st.tree.map (fun m => mapSet m path dg)
      let dir := { dir with Directories := dir.Directories ++
        [{ Name := name, Digest := dg.ToProto }] }
      let blobs := mapMerge blobs childBlobs
      packageTreeChildren deps pfx rest dir blobs { st with tree := tree }
end

/-- The descriptor `dir` that `packageTree` has built for `t` when it reaches the call of
`EntryFromProto`, with the blobs collected so far. -/
def packageTreeDir (deps : Deps) (t : treeNode) (st : pkgState) (pfx : String) :
    Except Err (Directory × List (Digest × Entry)) × pkgState :=
  packageTreeSorted deps pfx t.leaves
    (packageTreeChildren deps pfx t.children Directory.empty [] st)

/-! ## The output packager of directories -/

/-- The loop of `packageDirectories` over `t.leaves`. -/
def packageDirectoriesLeaves (deps : Deps) :
    List (String × fileSysNode) → Directory → List (Digest × Entry) →
      Directory × List (Digest × Entry)
  | [], root, files => (root, files)
  | (name, n) :: rest, root, files =>
    match n.file with
    | some f =>
      let dg := f.ue.Digest
      let root := { root with Files := root.Files ++
        [{ Name := name, Digest := dg.ToProto, IsExecutable := f.isExecutable,
           NodeProperties := deps.NodePropertiesToAPI n.nodeProperties }] }
      packageDirectoriesLeaves deps rest root (mapSet files dg f.ue)
    | none =>
      match n.symlink with
      | some s =>
        let root := { root with Symlinks := root.Symlinks ++
          [{ Name := name, Target := s.target,
             NodeProperties := deps.NodePropertiesToAPI n.nodeProperties }] }
        packageDirectoriesLeaves deps rest root files
      | none => packageDirectoriesLeaves deps rest root files

/-- One round of the loop of `packageDirectories` over the sorted child names, given what the
earlier rounds left and what the recursive call on the child returned: it hashes the child's
descriptor, adds the directory entry, merges the child's files and appends the child's
descriptor and its descendants to the tree.  After an error the loop has returned, and the
error stays. -/
def packageDirectoriesStep (deps : Deps) (name : String) :
    Except Err (Directory × List (Digest × Entry) × Tree) →
    Except Err (Directory × List (Digest × Entry) × Tree) →
      Except Err (Directory × List (Digest × Entry) × Tree)
  | .error e, _ => .error e
  | .ok _, .error e => .error e
  | .ok (root, files, treePb), .ok (chRoot, childFiles, chTree) =>
    match EntryFromProto deps chRoot with
    | .error e => .error e
    | .ok ue =>
      let dg := ue.Digest
      let root := { root with Directories := root.Directories ++
        [{ Name := name, Digest := dg.ToProto }] }
      let files := mapMerge files childFiles
      let treePb := { treePb with
        Children := (treePb.Children ++ [chRoot]) ++ chTree.Children }
      .ok (root, files, treePb)

/-- The end of the body of `packageDirectories`, after the loop over the children. -/
def packageDirectoriesSorted (deps : Deps) (leaves : List (String × fileSysNode)) :
    Except Err (Directory × List (Digest × Entry) × Tree) →
      Except Err (Directory × List (Digest × Entry) × Tree)
  | .error e => .error e
  | .ok (root, files, treePb) =>
    let root := { root with
      Directories := sortSlice (fun a b => strLess a.Name b.Name) root.Directories }
    match packageDirectoriesLeaves deps leaves root files with
    | (root, files) =>
      let root := { root with
        Files := sortSlice (fun a b => strLess a.Name b.Name) root.Files
        Symlinks := sortSlice (fun a b => strLess a.Name b.Name) root.Symlinks }
      .ok (root, files, treePb)

/-!
`packageDirectories`, and the read `t.children[name]` followed by the recursive call on the child
that its loop makes for every name of the sorted list `childDirs`.
-/
mutual
/-- The function `packageDirectories`. -/
def packageDirectories (deps : Deps) :
    treeNode → Except Err (Directory × List (Digest × Entry) × Tree)
  | .mk leaves children =>
    let childDirs := sortStrings (mapKeys children)
    packageDirectoriesSorted deps leaves
      (childDirs.foldl
        (fun acc name =>
          packageDirectoriesStep deps name acc (packageDirectoriesChild deps name children))
        (.ok (Directory.empty, [], { Root := none, Children := [] })))
/-- The read `child := t.children[name]` and the call `packageDirectories(child)`. -/
def packageDirectoriesChild (deps : Deps) (name : String) :
    List (String × treeNode) → Except Err (Directory × List (Digest × Entry) × Tree)
  | [] => .error .nilNode
  | (n, child) :: rest =>
    if n = name then packageDirectories deps child
    else packageDirectoriesChild deps name rest
end

/-! ## Paths: the functions of `strings` and `path/filepath` on a Unix host -/

/-- The elements of a string between the separators `/`, as `strings.Split(s, "/")` cuts them:
the list is never empty, and a separator at either end gives an empty element. -/
def splitChars : List Char → List (List Char)
  | [] => [[]]
  | c :: cs =>
    if c = '/' then [] :: splitChars cs
    else
      match splitChars cs with
      | [] => [[c]]
      | seg :: rest => (c :: seg) :: rest

/-- The call `strings.Split(s, string(filepath.Separator))`. -/
def splitSep (s : String) : List String := (splitChars s.data).map String.mk

/-- The call `strings.Join(elems, string(filepath.Separator))`. -/
def joinSep (elems : List String) : String :=
  String.mk (List.intercalate ['/'] (elems.map String.data))

/-- The call `strings.HasPrefix(s, p)`. -/
def HasPrefix (s p : String) : Bool := p.data.isPrefixOf s.data

/-- The call `filepath.IsAbs(path)`. -/
def IsAbs (path : String) : Bool := HasPrefix path "/"

/-- The loop of `filepath.Clean` over the elements of the path; `out` holds the elements written
so far, the last one first.  An empty element and `.` are dropped; `..` removes the element
written last, unless nothing is written (it is dropped when the path is rooted and written
otherwise) or the element written last is itself a `..`. -/
def cleanElems (rooted : Bool) : List String → List String → List String
  | [], out => out.reverse
  | e :: es, out =>
    if e = "" ∨ e = "." then cleanElems rooted es out
    else if e = ".." then
      match out with
      | [] => if rooted then cleanElems rooted es [] else cleanElems rooted es [".."]
      | o :: os =>
        if o = ".." then cleanElems rooted es (".." :: o :: os)
        else cleanElems rooted es os
    else cleanElems rooted es (e :: out)

/-- The call `filepath.Clean(path)`. -/
def Clean (path : String) : String :=
  if path = "" then "."
  else
    let rooted := IsAbs path
    let out := cleanElems rooted (splitSep path) []
    if rooted then "/" ++ joinSep out
    else if out = [] then "." else joinSep out

/-- The call `filepath.Join(elem...)`: the elements from the first non-empty one on are joined
with separators and cleaned; the result is empty when every element is. -/
def Join (elem : List String) : String :=
  match elem.dropWhile (fun e => e = "") with
  | [] => ""
  | es => Clean (joinSep es)

/-- The call `filepath.Dir(path)`: the path up to its last separator, cleaned. -/
def Dir (path : String) : String :=
  Clean (String.mk ((path.data.reverse.dropWhile (fun c => c ≠ '/')).reverse))

/-- The elements that the loop of `filepath.Rel` walks over in a cleaned path: none for the
empty string, the one empty element for the root. -/
def relElems (s : String) : List String :=
  if s = "" then [] else if s = "/" then [""] else splitSep s

/-- The loop of `filepath.Rel` and the construction of its result, given the elements of the
base and the target that are left.  When the base is used up the rest of the target is the
result; when the elements differ and the base has `..` there is no result; otherwise the result
goes up once for every element left in the base and then down the rest of the target. -/
def relLoop : List String → List String → Option String
  | [], ts => some (joinSep ts)
  | _ :: bs, [] => some (joinSep (List.replicate (bs.length + 1) ".."))
  | b :: bs, t :: ts =>
    if b = t then relLoop bs ts
    else if b = ".." then none
    else some (joinSep (List.replicate (bs.length + 1) ".." ++ t :: ts))

/-- The call `filepath.Rel(basepath, targpath)`. -/
def Rel (basepath targpath : String) : Except Err String :=
  let base := Clean basepath
  let targ := Clean targpath
  if targ = base then .ok "."
  else
    let base := if base = "." then "" else base
    if IsAbs base ≠ IsAbs targ then .error (.relFailed basepath targpath)
    else
      match relLoop (relElems base) (relElems targ) with
      | none => .error (.relFailed basepath targpath)
      | some rel => .ok rel

/-- The function `getRelPath`. -/
def getRelPath (base path : String) : Except Err String :=
  match Rel base path with
  | .error e => .error e
  | .ok rel =>
    if HasPrefix rel ".." then .error (.notUnder path base)
    else .ok rel

/-- The function `getTargetRelPath`. -/
def getTargetRelPath (execRoot symlinkRelPath targetPath : String) :
    Except Err (String × String) :=
  let symlinkAbsDir := Join [execRoot, Dir symlinkRelPath]
  let targetPath := if ¬ IsAbs targetPath then Join [symlinkAbsDir, targetPath] else targetPath
  match getRelPath execRoot targetPath with
  | .error e => .error e
  | .ok relExecRoot =>
    match Rel symlinkAbsDir targetPath with
    | .error e => .error e
    | .ok relSymlinkDir => .ok (relExecRoot, relSymlinkDir)

/-- The function `getRemotePath`. -/
def getRemotePath (path workingDir remoteWorkingDir : String) : Except Err String :=
  match Rel workingDir path with
  | .error e => .error (.remotePath path e)
  | .ok workingDirRelPath => .ok (Join [remoteWorkingDir, workingDirRelPath])

/-- The function `getExecRootRelPaths`. -/
def getExecRootRelPaths (absPath execRoot workingDir remoteWorkingDir : String) :
    Except Err (String × String) :=
  match getRelPath execRoot absPath with
  | .error e => .error e
  | .ok relPath =>
    if remoteWorkingDir = "" ∨ remoteWorkingDir = workingDir then .ok (relPath, relPath)
    else
      match getRemotePath relPath workingDir remoteWorkingDir with
      | .error e => .error e
      | .ok remoteRelPath => .ok (relPath, remoteRelPath)

/-! ## The host: metadata cache, directory listing, regular expressions -/

/-- The struct `filemetadata.SymlinkMetadata`. -/
structure SymlinkMetadata where
  Target : String
  IsDangling : Bool
deriving DecidableEq, Repr

/-- The struct `filemetadata.Metadata`. -/
structure Metadata where
  Digest : Digest
  IsExecutable : Bool
  IsDirectory : Bool
  Symlink : Option SymlinkMetadata
  Err : Option MetaError
deriving DecidableEq, Repr

/-- The state of the file system and the functions that read it: `Get` of the metadata cache,
`os.Open` followed by `Readdirnames(-1)`, and `regexp.MatchString`. -/
structure Host where
  Get : String → Metadata
  Readdirnames : String → Except Err (List String)
  MatchString : String → String → Except Err Bool

/-- The struct `TreeSymlinkOpts`. -/
structure TreeSymlinkOpts where
  Preserved : Bool
  FollowsTarget : Bool
  MaterializeOutsideExecRoot : Bool
deriving DecidableEq, Repr

/-- The function `DefaultTreeSymlinkOpts`. -/
def DefaultTreeSymlinkOpts : TreeSymlinkOpts :=
  { Preserved := false, FollowsTarget := true, MaterializeOutsideExecRoot := false }

/-- The type `command.SymlinkBehaviorType`. -/
inductive SymlinkBehaviorType where
  | UnspecifiedSymlinkBehavior
  | ResolveSymlink
  | PreserveSymlink
deriving DecidableEq, Repr

/-- The function `treeSymlinkOpts`. -/
def treeSymlinkOpts (opts : Option TreeSymlinkOpts) (sb : SymlinkBehaviorType) :
    TreeSymlinkOpts :=
  let opts := opts.getD DefaultTreeSymlinkOpts
  match sb with
  | .ResolveSymlink => { opts with Preserved := false }
  | .PreserveSymlink => { opts with Preserved := true }
  | .UnspecifiedSymlinkBehavior => opts

/-- The type `command.InputType`. -/
inductive InputType where
  | UnspecifiedInputType
  | DirectoryInputType
  | FileInputType
  | SymlinkInputType
deriving DecidableEq, Repr

/-- The struct `command.InputExclusion`; `Typ` is its field `Type`. -/
structure InputExclusion where
  Regex : String
  Typ : InputType
deriving DecidableEq, Repr

/-- The function `shouldIgnore`.  The result `m` of `regexp.MatchString` is false when the
expression does not compile. -/
def shouldIgnore (host : Host) (inp : String) (t : InputType) : List InputExclusion → Bool
  | [] => false
  | r :: rest =>
    if r.Typ ≠ .UnspecifiedInputType ∧ r.Typ ≠ t then shouldIgnore host inp t rest
    else
      match host.MatchString r.Regex inp with
      | .ok true => true
      | _ => shouldIgnore host inp t rest

/-! ## The symlink resolver -/

/-- The loop of `evalParentSymlinks` over the elements `ps` of the path; `first` tells the
round with index zero, `evaled` and `target` are the contents of the two builders. -/
def evalParentSymlinksLoop (host : Host) (execRoot : String) (materializeOutsideExecRoot : Bool) :
    Bool → List String → String → String → List String → Except Err (String × List String)
  | _, [], evaled, _, symlinks => .ok (evaled, symlinks)
  | first, p :: rest, evaled, target, symlinks =>
    let evaled := if first then evaled else evaled ++ "/"
    let target := if first then target else target ++ "/"
    match rest with
    | [] => .ok (evaled ++ p, symlinks)
    | _ :: _ =>
      let relP := evaled ++ p
      let absP := Join [execRoot, relP]
      let fmd := host.Get absP
      match fmd.Symlink with
      | none =>
        evalParentSymlinksLoop host execRoot materializeOutsideExecRoot false rest
          (evaled ++ p) (target ++ p) symlinks
      | some sl =>
        let target := (if IsAbs sl.Target then "" else target) ++ sl.Target
        match getTargetRelPath execRoot relP target with
        | .error e =>
          if materializeOutsideExecRoot then
            evalParentSymlinksLoop host execRoot materializeOutsideExecRoot false rest
              (evaled ++ p) target symlinks
          else .error e
        | .ok (_, targetRelSymlinkDir) =>
          evalParentSymlinksLoop host execRoot materializeOutsideExecRoot false rest
            (evaled ++ targetRelSymlinkDir) target (symlinks ++ [relP])

/-- The function `evalParentSymlinks`. -/
def evalParentSymlinks (host : Host) (execRoot relPath : String)
    (materializeOutsideExecRoot : Bool) : Except Err (String × List String) :=
  evalParentSymlinksLoop host execRoot materializeOutsideExecRoot true (splitSep relPath)
    "" (execRoot ++ "/") []

/-! ## The file loader -/

/-- The variables that the loop of `loadFiles` changes: the queue, the flat map and the map of
ancestor symlinks (nil, hence empty, unless symlinks are preserved). -/
structure loadState where
  filesToProcess : List String
  fs : List (String × fileSysNode)
  seenAncestorSymlinkRel : List (String × Bool)
deriving DecidableEq, Repr

/-- The loop of `loadFiles` over the parent symlinks of a path: each one that is not yet a key
of `seenAncestorSymlinkRel` is marked and appended to the queue. -/
def loadFilesAncestors : List String → loadState → loadState
  | [], s => s
  | p :: ps, s =>
    match mapGet s.seenAncestorSymlinkRel p with
    | some _ => loadFilesAncestors ps s
    | none =>
      loadFilesAncestors ps { s with
        seenAncestorSymlinkRel := mapSet s.seenAncestorSymlinkRel p true
        filesToProcess := s.filesToProcess ++ [p] }

/-- The block `processNonSymlink` of `loadFiles`: a directory is listed and its entries are
appended to the queue, or it is recorded as an empty directory; a file is recorded. -/
def loadFilesNonSymlink (host : Host) (excl : List InputExclusion)
    (absPath normPath remoteNormPath : String) (np : Option NodeProperties) (md : Metadata)
    (s : loadState) : Except Err loadState :=
  if md.IsDirectory then
    if shouldIgnore host absPath .DirectoryInputType excl then .ok s
    else
      match md.Err with
      | some e => .error (.metadata e)
      | none =>
        match host.Readdirnames absPath with
        | .error e => .error e
        | .ok files =>
          if files.length = 0 then
            if normPath ≠ "." then
              let node : fileSysNode :=
                { file := none, emptyDirectoryMarker := true, symlink := none,
                  nodeProperties := np }
              .ok { s with fs := mapSet s.fs remoteNormPath node }
            else .ok s
          else
            .ok { s with filesToProcess :=
              s.filesToProcess ++ files.map (fun f => Join [normPath, f]) }
  else
    if shouldIgnore host absPath .FileInputType excl then .ok s
    else
      match md.Err with
      | some e => .error (.metadata e)
      | none =>
        let node : fileSysNode :=
          { file := some { ue := EntryFromFile md.Digest absPath,
                           isExecutable := md.IsExecutable },
            emptyDirectoryMarker := false, symlink := none, nodeProperties := np }
        .ok { s with fs := mapSet s.fs remoteNormPath node }

/-- One round of the loop of `loadFiles`, for the path taken from the front of the queue; `s`
holds the rest of the queue. -/
def loadFilesStep (host : Host) (execRoot localWorkingDir remoteWorkingDir : String)
    (excl : List InputExclusion) (opts : TreeSymlinkOpts)
    (nodeProperties : List (String × NodeProperties)) (path : String) (s : loadState) :
    Except Err loadState :=
  if path = "" then .error .emptyInput
  else
    let resolved : Except Err (String × loadState) :=
      if opts.Preserved then
        match evalParentSymlinks host execRoot path opts.MaterializeOutsideExecRoot with
        | .error e => .error e
        | .ok (evaledPath, parentSymlinks) =>
          .ok (Join [execRoot, evaledPath], loadFilesAncestors parentSymlinks s)
      else .ok (Join [execRoot, path], s)
    match resolved with
    | .error e => .error e
    | .ok (absPath, s) =>
      match getExecRootRelPaths absPath execRoot localWorkingDir remoteWorkingDir with
      | .error e => .error e
      | .ok (normPath, remoteNormPath) =>
        let np := mapGet nodeProperties remoteNormPath
        let md := host.Get absPath
        match md.Symlink with
        | none =>
          loadFilesNonSymlink host excl absPath normPath remoteNormPath np md s
        | some sl =>
          if sl.IsDangling ∧ ¬ opts.Preserved then .ok s
          else if opts.Preserved then
            if shouldIgnore host absPath .SymlinkInputType excl then .ok s
            else
              match getTargetRelPath execRoot normPath sl.Target with
              | .error e =>
                if ¬ opts.MaterializeOutsideExecRoot then
                  .error (.symlinkTarget normPath execRoot e)
                else if sl.IsDangling then .error (.danglingSymlink normPath sl.Target)
                else loadFilesNonSymlink host excl absPath normPath remoteNormPath np md s
              | .ok (targetExecRoot, targetSymDir) =>
                let node : fileSysNode :=
                  { file := none, emptyDirectoryMarker := false,
                    symlink := some { target := targetSymDir }, nodeProperties := np }
                let s := { s with fs := mapSet s.fs remoteNormPath node }
                let seen := mapGet s.seenAncestorSymlinkRel normPath = some true
                let followsTarget := if seen then false else opts.FollowsTarget
                let s := if seen then
                    { s with seenAncestorSymlinkRel :=
                        mapSet s.seenAncestorSymlinkRel normPath false }
                  else s
                if ¬ sl.IsDangling ∧ followsTarget then
                  .ok { s with filesToProcess := s.filesToProcess ++ [targetExecRoot] }
                else .ok s
          else loadFilesNonSymlink host excl absPath normPath remoteNormPath np md s

/-- The loop `for len(filesToProcess) != 0` of `loadFiles`, run for at most `fuel` rounds; the
result is `none` when the queue is not empty after that many rounds. -/
def loadFilesLoop (host : Host) (execRoot localWorkingDir remoteWorkingDir : String)
    (excl : List InputExclusion) (opts : TreeSymlinkOpts)
    (nodeProperties : List (String × NodeProperties)) :
    Nat → loadState → Option (Except Err (List (String × fileSysNode)))
  | fuel, s =>
    match s.filesToProcess with
    | [] => some (.ok s.fs)
    | path :: rest =>
      match fuel with
      | 0 => none
      | fuel + 1 =>
        match loadFilesStep host execRoot localWorkingDir remoteWorkingDir excl opts
            nodeProperties path { s with filesToProcess := rest } with
        | .error e => some (.error e)
        | .ok s => loadFilesLoop host execRoot localWorkingDir remoteWorkingDir excl opts
            nodeProperties fuel s

/-- The function `loadFiles`; it returns the flat map `fs` that the Go code fills in place. -/
def loadFiles (host : Host) (fuel : Nat) (execRoot localWorkingDir remoteWorkingDir : String)
    (excl : List InputExclusion) (filesToProcess : List String)
    (fs : List (String × fileSysNode)) (opts : Option TreeSymlinkOpts)
    (nodeProperties : List (String × NodeProperties)) :
    Option (Except Err (List (String × fileSysNode))) :=
  let opts := opts.getD DefaultTreeSymlinkOpts
  loadFilesLoop host execRoot localWorkingDir remoteWorkingDir excl opts nodeProperties fuel
    { filesToProcess := filesToProcess, fs := fs, seenAncestorSymlinkRel := [] }

/-! ## The tree builder -/

/-- The body of the loop of `buildTree` for one entry of the flat map, once its key is split:
the walk from `node` down the directories `segs`, creating those that are missing, and the
placement of the leaf `base`, or of an empty child directory for an empty-directory marker. -/
def buildTreeInsert : List String → String → fileSysNode → treeNode → treeNode
  | [], base, fn, .mk leaves children =>
    if fn.emptyDirectoryMarker then
      match mapGet children base with
      | none => .mk leaves (mapSet children base (.mk [] []))
      | some _ => .mk leaves children
    else .mk (mapSet leaves base fn) children
  | s :: segs, base, fn, .mk leaves children =>
    let child := (mapGet children s).getD (.mk [] [])
    .mk leaves (mapSet children s (buildTreeInsert segs base fn child))

/-- The function `buildTree`; its error result is always nil. -/
def buildTree (files : List (String × fileSysNode)) : treeNode :=
  files.foldl
    (fun root kv =>
      let segs := splitSep kv.1
      buildTreeInsert segs.dropLast (segs.getLastD "") kv.2 root)
    (.mk [] [])

/-! ## The flattener -/

/-- The struct `TreeOutput`. -/
structure TreeOutput where
  Digest : Digest
  Path : String
  IsExecutable : Bool
  IsEmptyDirectory : Bool
  SymlinkTarget : String
  NodeProperties : Option NodePropertiesPb
deriving DecidableEq, Repr

/-- The zero value of `digest.Digest`. -/
def Digest.zero : Digest := ⟨"", 0⟩

/-- The loop of `flattenTree` over the files of a directory at path `p`. -/
def flattenTreeFiles (p : String) :
    List FileNode → List (String × TreeOutput) → List (String × TreeOutput)
  | [], flatFiles => flatFiles
  | file :: rest, flatFiles =>
    let out : TreeOutput :=
      { Path := Join [p, file.Name], Digest := NewFromProtoUnvalidated file.Digest,
        IsExecutable := file.IsExecutable, IsEmptyDirectory := false, SymlinkTarget := "",
        NodeProperties := file.NodeProperties }
    flattenTreeFiles p rest (mapSet flatFiles out.Path out)

/-- The loop of `flattenTree` over the symlinks of a directory at path `p`. -/
def flattenTreeSymlinks (p : String) :
    List SymlinkNode → List (String × TreeOutput) → List (String × TreeOutput)
  | [], flatFiles => flatFiles
  | sm :: rest, flatFiles =>
    let out : TreeOutput :=
      { Path := Join [p, sm.Name], Digest := Digest.zero, IsExecutable := false,
        IsEmptyDirectory := false, SymlinkTarget := sm.Target,
        NodeProperties := sm.NodeProperties }
    flattenTreeSymlinks p rest (mapSet flatFiles out.Path out)

/-- The loop `for len(queue) > 0` of `flattenTree`, run for at most `fuel` rounds; the result
is `none` when the queue is not empty after that many rounds. -/
def flattenTreeLoop (dirs : List (Digest × Directory)) :
    Nat → List (Digest × String) → List (String × TreeOutput) →
      Option (Except Err (List (String × TreeOutput)))
  | _, [], flatFiles => some (.ok flatFiles)
  | 0, _ :: _, _ => none
  | fuel + 1, (d, p) :: queue, flatFiles =>
    match mapGet dirs d with
    | none => some (.error (.missingDirectory p d))
    | some dir =>
      if dir.Files.length + dir.Directories.length + dir.Symlinks.length = 0 then
        flattenTreeLoop dirs fuel queue
          (mapSet flatFiles p
            { Path := p, Digest := Digest.Empty, IsExecutable := false,
              IsEmptyDirectory := true, SymlinkTarget := "",
              NodeProperties := dir.NodeProperties })
      else
        let flatFiles := flattenTreeFiles p dir.Files flatFiles
        let flatFiles := flattenTreeSymlinks p dir.Symlinks flatFiles
        let queue := queue ++ dir.Directories.map
          (fun subdir => (NewFromProtoUnvalidated subdir.Digest, Join [p, subdir.Name]))
        flattenTreeLoop dirs fuel queue flatFiles

/-- The function `flattenTree`. -/
def flattenTree (fuel : Nat) (root : Digest) (rootPath : String)
    (dirs : List (Digest × Directory)) : Option (Except Err (List (String × TreeOutput))) :=
  flattenTreeLoop dirs fuel [(root, rootPath)] []

/-- The loop of `FlattenTree` over `tree.Children`, which stores every descriptor under its
digest. -/
def FlattenTreeChildren (deps : Deps) :
    List Directory → List (Digest × Directory) → Except Err (List (Digest × Directory))
  | [], dirs => .ok dirs
  | ue :: rest, dirs =>
    match NewFromMessage deps ue with
    | .error e => .error e
    | .ok dg => FlattenTreeChildren deps rest (mapSet dirs dg ue)

/-- The method `FlattenTree`.  A tree without a root makes the Go code dereference nil. -/
def FlattenTree (deps : Deps) (fuel : Nat) (tree : Tree) (rootPath : String) :
    Option (Except Err (List (String × TreeOutput))) :=
  match tree.Root with
  | none => some (.error .nilNode)
  | some rootDir =>
    match NewFromMessage deps rootDir with
    | .error e => some (.error e)
    | .ok root =>
      match FlattenTreeChildren deps tree.Children [(root, rootDir)] with
      | .error e => some (.error e)
      | .ok dirs => flattenTree fuel root rootPath dirs

/-! ## The entry point -/

/-- The struct `command.VirtualInput`. -/
structure VirtualInput where
  Path : String
  Contents : List UInt8
  IsExecutable : Bool
  IsEmptyDirectory : Bool
deriving DecidableEq, Repr

/-- The fields of the struct `command.InputSpec` that the tree construction reads. -/
structure InputSpec where
  Inputs : List String
  VirtualInputs : List VirtualInput
  InputExclusions : List InputExclusion
  InputNodeProperties : List (String × NodeProperties)
  SymlinkBehavior : SymlinkBehaviorType
deriving DecidableEq, Repr

/-- The loop of `ComputeMerkleTree` over the virtual inputs, which records each of them in the
flat map. -/
def ComputeMerkleTreeVirtual (deps : Deps) (execRoot workingDir remoteWorkingDir : String)
    (nodeProperties : List (String × NodeProperties)) :
    List VirtualInput → List (String × fileSysNode) → Except Err (List (String × fileSysNode))
  | [], fs => .ok fs
  | i :: rest, fs =>
    if i.Path = "" then .error .emptyVirtualPath
    else
      let absPath := Join [execRoot, i.Path]
      match getExecRootRelPaths absPath execRoot workingDir remoteWorkingDir with
      | .error e => .error e
      | .ok (normPath, remoteNormPath) =>
        let np := mapGet nodeProperties remoteNormPath
        if i.IsEmptyDirectory then
          if normPath ≠ "." then
            ComputeMerkleTreeVirtual deps execRoot workingDir remoteWorkingDir nodeProperties
              rest (mapSet fs remoteNormPath
                { file := none, emptyDirectoryMarker := true, symlink := none,
                  nodeProperties := np })
          else
            ComputeMerkleTreeVirtual deps execRoot workingDir remoteWorkingDir nodeProperties
              rest fs
        else
          ComputeMerkleTreeVirtual deps execRoot workingDir remoteWorkingDir nodeProperties
            rest (mapSet fs remoteNormPath
              { file := some { ue := EntryFromBlob deps i.Contents,
                               isExecutable := i.IsExecutable },
                emptyDirectoryMarker := false, symlink := none, nodeProperties := np })

/-- The first part of `ComputeMerkleTree`: the flat map that holds the virtual inputs and then
the files that `loadFiles` adds. -/
def ComputeMerkleTreeFlat (deps : Deps) (host : Host) (fuel : Nat)
    (clientOpts : Option TreeSymlinkOpts) (execRoot workingDir remoteWorkingDir : String)
    (is : InputSpec) : Option (Except Err (List (String × fileSysNode))) :=
  match ComputeMerkleTreeVirtual deps execRoot workingDir remoteWorkingDir
      is.InputNodeProperties is.VirtualInputs [] with
  | .error e => some (.error e)
  | .ok fs =>
    loadFiles host fuel execRoot workingDir remoteWorkingDir is.InputExclusions is.Inputs fs
      (some (treeSymlinkOpts clientOpts is.SymlinkBehavior)) is.InputNodeProperties

/-- The zero value `&TreeStats{}`. -/
def TreeStats.zero : TreeStats :=
  { InputFiles := 0, InputDirectories := 0, InputSymlinks := 0, TotalInputBytes := 0 }

/-- The method `ComputeMerkleTree`.  `clientOpts` is the field `TreeSymlinkOpts` of the client
and `verbose` tells whether the log level is five or more; the text that the function then writes
for the logger is left out. -/
def ComputeMerkleTree (deps : Deps) (host : Host) (fuel : Nat)
    (clientOpts : Option TreeSymlinkOpts) (verbose : Bool)
    (execRoot workingDir remoteWorkingDir : String) (is : InputSpec) :
    Option (Except Err (Digest × List Entry × TreeStats)) :=
  match ComputeMerkleTreeFlat deps host fuel clientOpts execRoot workingDir remoteWorkingDir
      is with
  | none => none
  | some (.error e) => some (.error e)
  | some (.ok fs) =>
    let ft := buildTree fs
    let tree : Option (List (String × Digest)) := if verbose then some [] else none
    match packageTree deps ft { stats := TreeStats.zero, tree := tree } "" with
    | (.error e, _) => some (.error e)
    | (.ok (root, blobs), st) => some (.ok (root, blobs.map Prod.snd, st.stats))

/-! ## Notions in which the properties are stated -/

/-!
The directory nodes of a tree: the node itself, then the nodes of its children in turn.
-/
mutual
/-- The directory nodes of the tree rooted at a node, the node itself first. -/
def treeNode.nodes : treeNode → List treeNode
  | .mk leaves children => .mk leaves children :: childrenNodes children
/-- The directory nodes below the entries of a children map. -/
def childrenNodes : List (String × treeNode) → List treeNode
  | [] => []
  | (_, child) :: rest => child.nodes ++ childrenNodes rest
end

/-- A tree of Go maps: at every directory node the names of the leaves are pairwise distinct
and so are the names of the children, as they are the keys of a map. -/
def treeNode.WF (t : treeNode) : Prop :=
  ∀ n ∈ t.nodes, (mapKeys n.leaves).Nodup ∧ (mapKeys n.children).Nodup

/-- Whether a tree is a tree of Go maps can be computed. -/
instance treeNode.decidableWF (t : treeNode) : Decidable t.WF := by
  unfold treeNode.WF
  infer_instance

/-- The state in which `ComputeMerkleTree` starts the packager when logging is not verbose. -/
def pkgState.zero : pkgState := { stats := TreeStats.zero, tree := none }

/-- What `packageTree` returns for a node: the root digest and the blobs, or the error. -/
def packageTreeRes (deps : Deps) (t : treeNode) : Except Err (Digest × List (Digest × Entry)) :=
  (packageTree deps t pkgState.zero "").1

/-- The digest that `packageTree` returns for a node; it is `digest.Empty` with an error. -/
def rootDigest (deps : Deps) (t : treeNode) : Digest :=
  match packageTreeRes deps t with
  | .ok (dg, _) => dg
  | .error _ => Digest.Empty

/-- The blobs that `packageTree` returns for a node; there are none with an error. -/
def blobsOf (deps : Deps) (t : treeNode) : List (Digest × Entry) :=
  match packageTreeRes deps t with
  | .ok (_, blobs) => blobs
  | .error _ => []

/-- A file leaf: a leaf whose `file` is set. -/
def fileSysNode.isFile (n : fileSysNode) : Bool := n.file.isSome

/-- A symlink leaf: a leaf whose `symlink` is set and whose `file` is not. -/
def fileSysNode.isSymlink (n : fileSysNode) : Bool := n.file.isNone && n.symlink.isSome

/-- The file entries of a descriptor that the leaves of a directory stand for, one for each
file leaf, in the order of the leaves. -/
def leafFiles (deps : Deps) (leaves : List (String × fileSysNode)) : List FileNode :=
  leaves.filterMap (fun kv =>
    kv.2.file.map (fun f =>
      { Name := kv.1, Digest := f.ue.Digest.ToProto, IsExecutable := f.isExecutable,
        NodeProperties := deps.NodePropertiesToAPI kv.2.nodeProperties }))

/-- The symlink entries of a descriptor that the leaves of a directory stand for, one for each
symlink leaf, in the order of the leaves. -/
def leafSymlinks (deps : Deps) (leaves : List (String × fileSysNode)) : List SymlinkNode :=
  leaves.filterMap (fun kv =>
    match kv.2.file with
    | some _ => none
    | none =>
      kv.2.symlink.map (fun s =>
        { Name := kv.1, Target := s.target,
          NodeProperties := deps.NodePropertiesToAPI kv.2.nodeProperties }))

/-- The directory entries of a descriptor that the children of a directory stand for, one for
each child, with the digest that `packageTree` returns for the child. -/
def childEntries (deps : Deps) (children : List (String × treeNode)) : List DirectoryNode :=
  children.map (fun nc => { Name := nc.1, Digest := (rootDigest deps nc.2).ToProto })

/-- The descriptor of a directory node as the specification describes it: the file entries of
its file leaves, the directory entries of its children with their digests, and the symlink
entries of its symlink leaves, each list sorted by name. -/
def descriptorOf (deps : Deps) (t : treeNode) : Directory :=
  { Files := sortSlice (fun a b => strLess a.Name b.Name) (leafFiles deps t.leaves)
    Directories := sortSlice (fun a b => strLess a.Name b.Name) (childEntries deps t.children)
    Symlinks := sortSlice (fun a b => strLess a.Name b.Name) (leafSymlinks deps t.leaves)
    NodeProperties := none }

/-- The upload entries of the file leaves of one directory. -/
def leafBlobs (leaves : List (String × fileSysNode)) : List (Digest × Entry) :=
  leaves.filterMap (fun kv => kv.2.file.map (fun f => (f.ue.Digest, f.ue)))

/-- The upload entries of all file leaves of a tree, a leaf that occurs several times counted
as often. -/
def treeNode.fileEntries (t : treeNode) : List Entry :=
  (t.nodes.map (fun n => (leafBlobs n.leaves).map Prod.snd)).flatten

/-- The number of symlink leaves of a tree. -/
def treeNode.symlinkCount (t : treeNode) : Nat :=
  ((t.nodes.map (fun n => (n.leaves.filter (fun kv => kv.2.isSymlink)).length))).sum

/-- The descriptor digests of all directory nodes of a tree. -/
def treeNode.dirDigests (deps : Deps) (t : treeNode) : List Digest :=
  t.nodes.map (rootDigest deps)

/-- The sum of the digest sizes of all file leaves of a tree, a leaf that occurs several times
counted as often, plus the sum of the descriptor digest sizes of all its directory nodes. -/
def treeNode.totalBytes (deps : Deps) (t : treeNode) : Int :=
  (t.fileEntries.map (fun e => e.Digest.Size)).sum +
    ((t.dirDigests deps).map (fun d => d.Size)).sum

/-- The statistics `s2` are `s1` advanced by the given numbers of files, symlinks and
directories, and by the given number of bytes up to the wrap-around of `int64`. -/
def TreeStats.advanced (s1 s2 : TreeStats) (files symlinks dirs : Nat) (bytes : Int) : Prop :=
  s2.InputFiles = s1.InputFiles + files ∧ s2.InputSymlinks = s1.InputSymlinks + symlinks ∧
  s2.InputDirectories = s1.InputDirectories + dirs ∧
  s2.TotalInputBytes % 18446744073709551616 =
    (s1.TotalInputBytes + bytes) % 18446744073709551616

/-- The result of `packageTree` does not depend on the statistics, the debugging map or the
path it is given, and its statistics advance by the counts of the tree. -/
def treeNode.Good (deps : Deps) (t : treeNode) : Prop :=
  ∀ st pfx, (packageTree deps t st pfx).1 = packageTreeRes deps t ∧
    ((packageTreeRes deps t).isOk = true →
      TreeStats.advanced st.stats (packageTree deps t st pfx).2.stats
        t.fileEntries.length t.symlinkCount t.nodes.length (t.totalBytes deps))

/-- What `packageTree` makes of two trees agrees: both succeed or both fail, with the same root
digest, the same file entries and descriptor digests up to their order, and the same counts. -/
def treeNode.Same (deps : Deps) (t1 t2 : treeNode) : Prop :=
  (packageTreeRes deps t1).isOk = (packageTreeRes deps t2).isOk ∧
  rootDigest deps t1 = rootDigest deps t2 ∧
  t1.fileEntries.Perm t2.fileEntries ∧
  t1.symlinkCount = t2.symlinkCount ∧
  t1.nodes.length = t2.nodes.length ∧
  (t1.dirDigests deps).Perm (t2.dirDigests deps)

/-- The descriptor that `packageDirectories` returns for a node; the empty one with an error. -/
def pdRoot (deps : Deps) (t : treeNode) : Directory :=
  match packageDirectories deps t with
  | .ok (root, _, _) => root
  | .error _ => Directory.empty

/-- The files that `packageDirectories` returns for a node; there are none with an error. -/
def pdFiles (deps : Deps) (t : treeNode) : List (Digest × Entry) :=
  match packageDirectories deps t with
  | .ok (_, files, _) => files
  | .error _ => []

/-- The children of the tree message that `packageDirectories` returns for a node; there are
none with an error. -/
def pdChildren (deps : Deps) (t : treeNode) : List Directory :=
  match packageDirectories deps t with
  | .ok (_, _, treePb) => treePb.Children
  | .error _ => []

/-- The digest that `packageDirectories` computes for the descriptor of a child. -/
def pdDigest (deps : Deps) (t : treeNode) : Digest :=
  match EntryFromProto deps (pdRoot deps t) with
  | .ok ue => ue.Digest
  | .error _ => Digest.Empty

/-- The child that the read `t.children[name]` finds; an empty node stands for nil. -/
def childAt (children : List (String × treeNode)) (name : String) : treeNode :=
  (mapGet children name).getD (.mk [] [])

/-- A child for which a round of the loop of `packageDirectories` succeeds: the recursive call
succeeds and the descriptor it returns can be serialized. -/
def pdGood (deps : Deps) (c : treeNode) : Prop :=
  (packageDirectories deps c).isOk = true ∧ (EntryFromProto deps (pdRoot deps c)).isOk = true

/-- What `packageDirectories` does on a node: when `packageTree` succeeds on every child it
returns the descriptor of the node and a tree message without root whose children are the
descriptors of the nodes below the node, in some order; otherwise it fails. -/
def pdSpec (deps : Deps) (t : treeNode) : Prop :=
  ((∀ nc ∈ t.children, (packageTreeRes deps nc.2).isOk = true) →
    ∃ files ch, packageDirectories deps t = .ok (descriptorOf deps t, files,
        { Root := none, Children := ch }) ∧
      ch.Perm (t.nodes.tail.map (descriptorOf deps))) ∧
  ((¬ ∀ nc ∈ t.children, (packageTreeRes deps nc.2).isOk = true) →
    (packageDirectories deps t).isOk = false)

/-- The three lists of a descriptor are strictly ascending by name. -/
def Directory.Sorted (dir : Directory) : Prop :=
  dir.Files.Pairwise (fun a b => a.Name < b.Name) ∧
  dir.Directories.Pairwise (fun a b => a.Name < b.Name) ∧
  dir.Symlinks.Pairwise (fun a b => a.Name < b.Name)

/-- An element of a path that holds no separator. -/
def NoSep (e : String) : Prop := '/' ∉ e.data

/-- A plain element of a path: a name other than the empty one, `.` and `..`, without a
separator. -/
def Plain (e : String) : Prop := e ≠ "" ∧ e ≠ "." ∧ e ≠ ".." ∧ NoSep e

/-- The elements of a cleaned path after its root: plain elements only in a rooted path, and a
run of `..` followed by plain elements in a path that is not rooted. -/
def CleanForm (rooted : Bool) (es : List String) : Prop :=
  ∃ k plain, es = List.replicate k ".." ++ plain ∧ (∀ e ∈ plain, Plain e) ∧
    (rooted = true → k = 0)

/-- One round of the loop of `filepath.Clean`, on the elements written so far in their order. -/
def cleanStep (rooted : Bool) (stack : List String) (e : String) : List String :=
  if e = "" ∨ e = "." then stack
  else if e = ".." then
    match stack.reverse with
    | [] => if rooted then [] else [".."]
    | o :: os => if o = ".." then stack ++ [".."] else os.reverse
  else stack ++ [e]

/-- The elements that the loop of `filepath.Rel` walks over in a cleaned base path. -/
def baseElems (rooted : Bool) (es : List String) : List String :=
  if rooted then "" :: es else es

/-- The elements that the loop of `filepath.Rel` walks over in a cleaned target path. -/
def targElems (rooted : Bool) (es : List String) : List String :=
  if rooted then "" :: es else if es = [] then ["."] else es

/-- The text of a cleaned path with the given elements after its root. -/
def render (rooted : Bool) (es : List String) : String :=
  if rooted then "/" ++ joinSep es else if es = [] then "." else joinSep es

/-!
Two trees that hold the same maps, enumerated in different orders: at every level the leaves
of the one are a permutation of the leaves of the other, and so are the children, child by
child of the same name.
-/
mutual
/-- The second tree is the first with the enumeration order of its maps changed. -/
def treeNode.Reordered : treeNode → treeNode → Prop
  | .mk leaves children, t =>
    leaves.Perm t.leaves ∧ ∃ cs, cs.Perm t.children ∧ childrenReordered children cs
/-- Entry by entry the second list has the name of the first and a reordered child. -/
def childrenReordered : List (String × treeNode) → List (String × treeNode) → Prop
  | [], cs => cs = []
  | (name, child) :: rest, cs =>
    match cs with
    | [] => False
    | (name2, child2) :: rest2 =>
      name = name2 ∧ child.Reordered child2 ∧ childrenReordered rest rest2
end

/-! ## A concrete instance -/

/-- The bytes of the characters of a string. -/
def exampleBytes (s : String) : List UInt8 := s.data.map (fun c => c.toNat.toUInt8)

/-- A serialization of descriptors for the examples: every entry is written as its kind, its
name and its digest or target. -/
def exampleMarshal (d : Directory) : List UInt8 :=
  (d.Files.map (fun f => exampleBytes ("f" ++ f.Name ++ "=" ++ f.Digest.Hash ++ ";"))).flatten ++
  (d.Directories.map
    (fun f => exampleBytes ("d" ++ f.Name ++ "=" ++ f.Digest.Hash ++ ";"))).flatten ++
  (d.Symlinks.map (fun s => exampleBytes ("s" ++ s.Name ++ "=" ++ s.Target ++ ";"))).flatten

/-- The imported functions for the examples: the digest of a blob has the blob itself, read as
text, for its hash. -/
def exampleDeps : Deps :=
  { marshal := fun d => .ok (exampleMarshal d)
    marshalTree := fun _ => .ok []
    NewFromBlob := fun b =>
      { Hash := String.mk (b.map (fun x => Char.ofNat x.toNat)), Size := b.length }
    NodePropertiesToAPI := fun np => np.map (fun p => { Properties := p.Properties }) }

/-- A file leaf for the examples, with the given hash and a size of three bytes. -/
def exampleFile (hash : String) : fileSysNode :=
  { file := some { ue := EntryFromFile { Hash := hash, Size := 3 } ("/e/" ++ hash),
                   isExecutable := false },
    emptyDirectoryMarker := false, symlink := none, nodeProperties := none }

/-- A symlink leaf for the examples. -/
def exampleSymlink (target : String) : fileSysNode :=
  { file := none, emptyDirectoryMarker := false, symlink := some { target := target },
    nodeProperties := none }

/-- A tree for the examples: two files and a symlink in the root, a directory with one file
whose content is that of a file of the root, and an empty directory. -/
def exampleTree : treeNode :=
  .mk [("b", exampleFile "B"), ("a", exampleFile "A"), ("l", exampleSymlink "a")]
    [("sub", .mk [("c", exampleFile "A")] []), ("e", .mk [] [])]

/-- The tree `exampleTree` with the entries of its maps in another order. -/
def exampleTreeReordered : treeNode :=
  .mk [("a", exampleFile "A"), ("b", exampleFile "B"), ("l", exampleSymlink "a")]
    [("e", .mk [] []), ("sub", .mk [("c", exampleFile "A")] [])]

/-- The root digest of `exampleTree`. -/
def exampleRootDigest : Digest := { Hash := "fa=A;fb=B;de=;dsub=fc=A;;sl=a;", Size := 30 }

/-- The blob map of `exampleTree`: the two file contents, and the descriptors of the directory
`sub`, of the empty directory and of the root. -/
def exampleBlobs : List (Digest × Entry) :=
  [({ Hash := "A", Size := 3 }, EntryFromFile { Hash := "A", Size := 3 } "/e/A"),
   ({ Hash := "fc=A;", Size := 5 }, EntryFromBlob exampleDeps (exampleBytes "fc=A;")),
   ({ Hash := "", Size := 0 }, EntryFromBlob exampleDeps []),
   ({ Hash := "B", Size := 3 }, EntryFromFile { Hash := "B", Size := 3 } "/e/B"),
   (exampleRootDigest, EntryFromBlob exampleDeps (exampleBytes "fa=A;fb=B;de=;dsub=fc=A;;sl=a;"))]

/-- The statistics of `exampleTree`. -/
def exampleStats : TreeStats :=
  { InputFiles := 3, InputDirectories := 3, InputSymlinks := 1, TotalInputBytes := 44 }

end Client

namespace Client

/-! ## A concrete file system -/

/-- The metadata of a regular file whose digest has the given hash. -/
def exampleFileMd (hash : String) : Metadata :=
  { Digest := { Hash := hash, Size := 3 }, IsExecutable := false, IsDirectory := false,
    Symlink := none, Err := none }

/-- The metadata of a directory. -/
def exampleDirMd : Metadata :=
  { Digest := Digest.Empty, IsExecutable := false, IsDirectory := true, Symlink := none,
    Err := none }

/-- The metadata of a symlink with the given target that is not dangling; the digest is that of
the content of the target. -/
def exampleLinkMd (hash target : String) : Metadata :=
  { Digest := { Hash := hash, Size := 3 }, IsExecutable := false, IsDirectory := false,
    Symlink := some { Target := target, IsDangling := false }, Err := none }

/-- The metadata of a path that does not exist. -/
def exampleMissingMd : Metadata :=
  { Digest := Digest.Empty, IsExecutable := false, IsDirectory := false, Symlink := none,
    Err := some (.fileError true "not found") }

/-- A file system for the examples, with the exec root `/e`: the files `/e/a.txt`, `/e/d/b.txt`,
`/e/build/out.o` and `/e/remote_build/out.o`, and the symlink `/e/d/l` to `../a.txt`.  No
regular expression matches. -/
def exampleHost : Host :=
  { Get := fun p =>
      if p = "/e" ∨ p = "/e/d" ∨ p = "/e/build" ∨ p = "/e/remote_build" then exampleDirMd
      else if p = "/e/a.txt" then exampleFileMd "A"
      else if p = "/e/d/b.txt" then exampleFileMd "B"
      else if p = "/e/d/l" then exampleLinkMd "A" "../a.txt"
      else if p = "/e/build/out.o" then exampleFileMd "O1"
      else if p = "/e/remote_build/out.o" then exampleFileMd "O2"
      else exampleMissingMd
    Readdirnames := fun p =>
      if p = "/e" then .ok ["a.txt", "build", "d", "remote_build"]
      else if p = "/e/d" then .ok ["b.txt", "l"]
      else if p = "/e/build" ∨ p = "/e/remote_build" then .ok ["out.o"]
      else .error (.os "open")
    MatchString := fun _ _ => .ok false }

/-- A second file system for the examples, with the exec root `/e`: the symlink `/e/a` to
`sub/b2`, the symlink `/e/sub/b2` to `../c`, the directory `/e/c` with the symlink `x` to
`../z`, the directory `/e/z` with the file `h`, and the directory `/e/sub/z` with the files `f`
and `g`.  The path `/e/sub/b2/x` names the symlink `/e/c/x`. -/
def exampleLinkHost : Host :=
  { Get := fun p =>
      if p = "/e" ∨ p = "/e/sub" ∨ p = "/e/c" ∨ p = "/e/z" ∨ p = "/e/sub/z" then exampleDirMd
      else if p = "/e/a" then exampleLinkMd "" "sub/b2"
      else if p = "/e/sub/b2" then exampleLinkMd "" "../c"
      else if p = "/e/sub/b2/x" ∨ p = "/e/c/x" then exampleLinkMd "" "../z"
      else if p = "/e/z/h" then exampleFileMd "H"
      else if p = "/e/sub/z/f" then exampleFileMd "F"
      else if p = "/e/sub/z/g" then exampleFileMd "G"
      else exampleMissingMd
    Readdirnames := fun p =>
      if p = "/e" then .ok ["a", "c", "sub", "z"]
      else if p = "/e/sub" then .ok ["b2", "z"]
      else if p = "/e/c" ∨ p = "/e/sub/b2" then .ok ["x"]
      else if p = "/e/z" then .ok ["h"]
      else if p = "/e/sub/z" then .ok ["f", "g"]
      else .error (.os "open")
    MatchString := fun _ _ => .ok false }

/-- The options of the preserve policy: symlinks are kept as symlinks and their targets are
followed. -/
def examplePreserve : TreeSymlinkOpts :=
  { Preserved := true, FollowsTarget := true, MaterializeOutsideExecRoot := false }

/-- The file node that the loader records for a regular file of `exampleHost`. -/
def exampleLoaded (hash path : String) : fileSysNode :=
  { file := some { ue := EntryFromFile { Hash := hash, Size := 3 } path, isExecutable := false },
    emptyDirectoryMarker := false, symlink := none, nodeProperties := none }

/-! ## Paths into a tree -/

/-- The directory node that the walk from a node down the children named by `q` reaches, if
every one of them exists. -/
def treeNode.sub : treeNode → List String → Option treeNode
  | t, [] => some t
  | .mk _ children, s :: q =>
    match mapGet children s with
    | none => none
    | some c => c.sub q

/-- The leaf named `b` of the directory node that the walk along `q` reaches. -/
def treeNode.leafAt (t : treeNode) (q : List String) (b : String) : Option fileSysNode :=
  match t.sub q with
  | none => none
  | some n => mapGet n.leaves b

/-- The body of the loop of `buildTree` for one entry of the flat map. -/
def buildTreeStep (root : treeNode) (kv : String × fileSysNode) : treeNode :=
  buildTreeInsert (splitSep kv.1).dropLast ((splitSep kv.1).getLastD "") kv.2 root

/-! ## Concrete input specifications -/

/-- An input specification with two virtual files, `x` and `x/y`, and no other input. -/
def exampleVirtualSpec : InputSpec :=
  { Inputs := []
    VirtualInputs :=
      [{ Path := "x", Contents := exampleBytes "X", IsExecutable := false,
         IsEmptyDirectory := false },
       { Path := "x/y", Contents := exampleBytes "Y", IsExecutable := false,
         IsEmptyDirectory := false }]
    InputExclusions := []
    InputNodeProperties := []
    SymlinkBehavior := .UnspecifiedSymlinkBehavior }

/-- The file node that `ComputeMerkleTree` records for a virtual file with the given
contents. -/
def exampleVirtual (contents : String) : fileSysNode :=
  { file := some { ue := EntryFromBlob exampleDeps (exampleBytes contents),
                   isExecutable := false },
    emptyDirectoryMarker := false, symlink := none, nodeProperties := none }

/-- The names of the entries of the three lists of a descriptor, the files first, then the
directories, then the symlinks. -/
def Directory.names (dir : Directory) : List String :=
  dir.Files.map (fun f => f.Name) ++ dir.Directories.map (fun d => d.Name) ++
    dir.Symlinks.map (fun s => s.Name)

/-- No entry of the flat map lies below a file or symlink entry: the key of an entry that is
not an empty-directory marker is not a proper prefix, element by element, of another key. -/
def NoEntryBelowLeaf (fs : List (String × fileSysNode)) : Prop :=
  ∀ kv1 ∈ fs, ∀ kv2 ∈ fs, kv1.2.emptyDirectoryMarker = false →
    splitSep kv1.1 <+: splitSep kv2.1 → kv1.1 = kv2.1

/-- The node that the loader records for an empty directory. -/
def exampleMarker : fileSysNode :=
  { file := none, emptyDirectoryMarker := true, symlink := none, nodeProperties := none }

/-- A flat map for the examples: three files, two of them in directories, and an empty
directory. -/
def exampleFlat : List (String × fileSysNode) :=
  [("a.txt", exampleLoaded "A" "/e/a.txt"), ("d/b.txt", exampleLoaded "B" "/e/d/b.txt"),
   ("d/sub/c.txt", exampleLoaded "C" "/e/d/sub/c.txt"), ("d/empty", exampleMarker)]

/-! ## What the flattener records -/

/-- A set of entries in which the key determines the value. -/
def Functional {κ α : Type} (W : κ × α → Prop) : Prop :=
  ∀ x y, W x → W y → x.1 = y.1 → x = y

/-- The output that `flattenTree` records for an empty directory at path `p`. -/
def emptyDirOut (p : String) (dir : Directory) : String × TreeOutput :=
  (p, { Path := p, Digest := Digest.Empty, IsExecutable := false, IsEmptyDirectory := true,
        SymlinkTarget := "", NodeProperties := dir.NodeProperties })

/-- The output that `flattenTree` records for a file of a directory at path `p`. -/
def fileOut (p : String) (file : FileNode) : String × TreeOutput :=
  (Join [p, file.Name],
    { Path := Join [p, file.Name], Digest := NewFromProtoUnvalidated file.Digest,
      IsExecutable := file.IsExecutable, IsEmptyDirectory := false, SymlinkTarget := "",
      NodeProperties := file.NodeProperties })

/-- The output that `flattenTree` records for a symlink of a directory at path `p`. -/
def symlinkOut (p : String) (sm : SymlinkNode) : String × TreeOutput :=
  (Join [p, sm.Name],
    { Path := Join [p, sm.Name], Digest := Digest.zero, IsExecutable := false,
      IsEmptyDirectory := false, SymlinkTarget := sm.Target,
      NodeProperties := sm.NodeProperties })

/-- The outputs that a round of the loop of `flattenTree` records for the descriptor `dir` at
path `p`: the directory itself when it is empty, and its files and symlinks otherwise. -/
def dirOutputs (p : String) (dir : Directory) : List (String × TreeOutput) :=
  if dir.Files.length + dir.Directories.length + dir.Symlinks.length = 0 then
    [emptyDirOut p dir]
  else dir.Files.map (fileOut p) ++ dir.Symlinks.map (symlinkOut p)

/-!
The outputs of all directory nodes of a tree whose root is at path `p`, every node at the
path that `flattenTree` computes for it.
-/
mutual
/-- The outputs of the descriptors of a node at path `p` and of the nodes below it. -/
def treeNode.outputs (deps : Deps) : treeNode → String → List (String × TreeOutput)
  | .mk leaves children, p =>
    dirOutputs p (descriptorOf deps (.mk leaves children)) ++ childrenOutputs deps children p
/-- The outputs of the nodes below the entries of a children map of a node at path `p`. -/
def childrenOutputs (deps : Deps) : List (String × treeNode) → String →
    List (String × TreeOutput)
  | [], _ => []
  | (name, child) :: rest, p =>
    child.outputs deps (Join [p, name]) ++ childrenOutputs deps rest p
end

/-- The nodes that stand behind the queue of `flattenTree` and their paths, as the queue
holds them: every node by the digest that `packageTree` returns for it. -/
def nodeQueue (deps : Deps) (nq : List (treeNode × String)) : List (Digest × String) :=
  nq.map (fun np => (rootDigest deps np.1, np.2))

/-- The path that `flattenTree` computes for the directory that the names `q` lead to from a
directory at path `p`. -/
def pathFrom (p : String) (q : List String) : String :=
  q.foldl (fun p s => Join [p, s]) p

/-- The packaging of the tree of a flat map by `packageDirectories`, followed by `FlattenTree`
on the tree message with the root descriptor set, as `ComputeOutputsToUpload` sets it, and
with the empty root path. -/
def flattenFlat (deps : Deps) (fuel : Nat) (fs : List (String × fileSysNode)) :
    Option (Except Err (List (String × TreeOutput))) :=
  match packageDirectories deps (buildTree fs) with
  | .error e => some (.error e)
  | .ok (root, _, treePb) => FlattenTree deps fuel { treePb with Root := some root } ""

/-- Whether some other key of the flat map lies below the key `k`, which is then a proper
prefix of it, element by element. -/
def entryBelow (fs : List (String × fileSysNode)) (k : String) : Bool :=
  fs.any (fun kv => (splitSep k).isPrefixOf (splitSep kv.1) && decide (kv.1 ≠ k))

/-- The triples of path, digest and executable bit of the entries of a flat map: those of its
files, and those of its empty-directory markers that have no entry below them, for which the
digest is the empty one and the bit is not set. -/
def flatTriples (fs : List (String × fileSysNode)) : List (String × Digest × Bool) :=
  fs.filterMap (fun kv =>
    if kv.2.emptyDirectoryMarker then
      if entryBelow fs kv.1 then none else some (kv.1, Digest.Empty, false)
    else kv.2.file.map (fun f => (kv.1, f.ue.Digest, f.isExecutable)))

/-- The triples of path, digest and executable bit of the entries of a flattened tree. -/
def outTriples (out : List (String × TreeOutput)) : List (String × Digest × Bool) :=
  out.map (fun x => (x.1, x.2.Digest, x.2.IsExecutable))

/-- The output that stands for an entry of a flat map in the flattened tree. -/
def expectedOut (deps : Deps) (kv : String × fileSysNode) : TreeOutput :=
  if kv.2.emptyDirectoryMarker then
    { Path := kv.1, Digest := Digest.Empty, IsExecutable := false, IsEmptyDirectory := true,
      SymlinkTarget := "", NodeProperties := none }
  else
    match kv.2.file with
    | some f =>
      { Path := kv.1, Digest := f.ue.Digest, IsExecutable := f.isExecutable,
        IsEmptyDirectory := false, SymlinkTarget := "",
        NodeProperties := deps.NodePropertiesToAPI kv.2.nodeProperties }
    | none =>
      { Path := kv.1, Digest := Digest.zero, IsExecutable := false, IsEmptyDirectory := false,
        SymlinkTarget := "", NodeProperties := none }

/-! ## The loader under the resolve policy -/

/-- The state in which nothing is queued and nothing is recorded. -/
def loadState.empty : loadState :=
  { filesToProcess := [], fs := [], seenAncestorSymlinkRel := [] }

/-- What a round of the loader does for a path when symlinks are resolved and the remote
working directory is the local one, read off the round on the empty state: the paths that it
appends to the queue and the entry that it writes, if any. -/
def resolveEffect (host : Host) (execRoot : String) (excl : List InputExclusion)
    (np : List (String × NodeProperties)) (path : String) :
    Except Err (List String × Option (String × fileSysNode)) :=
  match loadFilesStep host execRoot "" "" excl DefaultTreeSymlinkOpts np path
      loadState.empty with
  | .error e => .error e
  | .ok s => .ok (s.filesToProcess, s.fs.head?)

/-- The write of an entry to a map, if there is one to write. -/
def applyWrite (fs : List (String × fileSysNode)) :
    Option (String × fileSysNode) → List (String × fileSysNode)
  | none => fs
  | some kv => mapSet fs kv.1 kv.2

/-- The node that the loader records under the key `k` when symlinks are resolved and the
remote working directory is the local one: what the metadata of the path `k` under the exec
root says. -/
def resolveNode (host : Host) (execRoot : String) (np : List (String × NodeProperties))
    (k : String) : fileSysNode :=
  if (host.Get (Join [execRoot, k])).IsDirectory then
    { file := none, emptyDirectoryMarker := true, symlink := none,
      nodeProperties := mapGet np k }
  else
    { file := some { ue := EntryFromFile (host.Get (Join [execRoot, k])).Digest
                             (Join [execRoot, k]),
                     isExecutable := (host.Get (Join [execRoot, k])).IsExecutable },
      emptyDirectoryMarker := false, symlink := none, nodeProperties := mapGet np k }

/-- The rounds that a queue of paths unfolds into, when every round succeeds and there are
finitely many: `Unfolds e queue n keys` says that the paths of the queue, the paths that their
rounds append, and so on, make `n` rounds in all, which write under the keys `keys`. -/
inductive Unfolds (e : String → Except Err (List String × Option (String × fileSysNode))) :
    List String → Nat → List String → Prop
  | nil : Unfolds e [] 0 []
  | cons (p : String) (rest adds : List String) (w : Option (String × fileSysNode))
      (n1 n2 : Nat) (W1 W2 : List String) :
      e p = .ok (adds, w) → Unfolds e adds n1 W1 → Unfolds e rest n2 W2 →
      Unfolds e (p :: rest) (n1 + n2 + 1) ((w.map Prod.fst).toList ++ W1 ++ W2)

end Client

namespace Client

/-! ## The exclusion rules -/

/-- A rule applies to inputs of type `t`: its type is unspecified or is `t`. -/
def InputExclusion.appliesTo (r : InputExclusion) (t : InputType) : Prop :=
  r.Typ = .UnspecifiedInputType ∨ r.Typ = t

/-- A host for the examples whose regular expressions are plain texts, a text matching the
inputs that hold it as a prefix, except for the text `(`, which does not compile. -/
def examplePrefixHost : Host :=
  { Get := exampleHost.Get
    Readdirnames := exampleHost.Readdirnames
    MatchString := fun re inp => if re = "(" then .error (.os "regexp") else .ok (HasPrefix inp re) }

/-! ## Paths below a directory -/

/-- A local path: a relative path whose cleaned form has no `..` element, so that it leads
nowhere but to the directory that it starts from or below it. -/
def IsLocalPath (p : String) : Prop := IsAbs p = false ∧ ".." ∉ splitSep (Clean p)

/-- The path `path` is under the directory `base`: its cleaned form is the join of `base` and
a local path. -/
def Under (base path : String) : Prop := ∃ r, IsLocalPath r ∧ Join [base, r] = Clean path

/-- The path of the target of a symlink as `getTargetRelPath` resolves it: the target itself
when it is absolute, and its join with the directory of the link under the exec root
otherwise. -/
def targetAbs (execRoot symlinkRelPath targetPath : String) : String :=
  if ¬ IsAbs targetPath then Join [Join [execRoot, Dir symlinkRelPath], targetPath]
  else targetPath

/-! ## What the flattener reaches -/

/-- The element that `flattenTree` appends to its queue for a subdirectory entry of a
directory at path `p`: the digest of the entry and the joined path. -/
def subdirElem (p : String) (subdir : DirectoryNode) : Digest × String :=
  (NewFromProtoUnvalidated subdir.Digest, Join [p, subdir.Name])

/-- The directories that `flattenTree` reaches, with their paths: `ReachedAt dirs x y` says that
from the queue element `x`, a digest and a path, the subdirectory entries of the descriptors
that `dirs` holds lead to the queue element `y`. -/
inductive ReachedAt (dirs : List (Digest × Directory)) : Digest × String → Digest × String → Prop
  | start (x : Digest × String) : ReachedAt dirs x x
  | descend (x : Digest × String) (dir : Directory) (subdir : DirectoryNode)
      (y : Digest × String) :
      mapGet dirs x.1 = some dir → subdir ∈ dir.Directories →
      ReachedAt dirs (subdirElem x.2 subdir) y → ReachedAt dirs x y

/-- Whether every chain of subdirectory entries that starts at the digest `d` ends, at a
directory without subdirectories or at a digest that `dirs` does not hold, before it has `n`
directories. -/
def depthWithin (dirs : List (Digest × Directory)) : Nat → Digest → Bool
  | 0, _ => false
  | n + 1, d =>
    match mapGet dirs d with
    | none => true
    | some dir =>
      dir.Directories.all (fun subdir => depthWithin dirs n (NewFromProtoUnvalidated subdir.Digest))

/-- The number of rounds that `flattenTree` spends on the directory with the digest `d` and on
the directories below it, counted down to the depth `n`. -/
def unfoldSize (dirs : List (Digest × Directory)) : Nat → Digest → Nat
  | 0, _ => 1
  | n + 1, d =>
    match mapGet dirs d with
    | none => 1
    | some dir =>
      1 + (dir.Directories.map
        (fun subdir => unfoldSize dirs n (NewFromProtoUnvalidated subdir.Digest))).sum

/-- An entry that `flattenTree` records when it starts from the queue element `x`: one of the
outputs of a round for a directory that is reached from `x` and that `dirs` holds. -/
def Emitted (dirs : List (Digest × Directory)) (x : Digest × String)
    (kv : String × TreeOutput) : Prop :=
  ∃ d p dir, ReachedAt dirs x (d, p) ∧ mapGet dirs d = some dir ∧ kv ∈ dirOutputs p dir

/-- A descriptor that lists a directory with the digest `r` as its subdirectory `a`. -/
def exampleLoopDir : Directory :=
  { Files := [], Directories := [{ Name := "a", Digest := { Hash := "r", SizeBytes := 1 } }],
    Symlinks := [], NodeProperties := none }

/-- A map of descriptors in which the only directory lists itself as its subdirectory `a`. -/
def exampleLoopDirs : List (Digest × Directory) :=
  [({ Hash := "r", Size := 1 }, exampleLoopDir)]

/-- A map of descriptors with a root that holds the subdirectory `d`, which holds the file
`b.txt` and the empty subdirectory `e`. -/
def exampleDirs : List (Digest × Directory) :=
  [({ Hash := "r", Size := 1 },
    { Files := [], Directories := [{ Name := "d", Digest := { Hash := "c", SizeBytes := 1 } }],
      Symlinks := [], NodeProperties := none }),
   ({ Hash := "c", Size := 1 },
    { Files := [{ Name := "b.txt", Digest := { Hash := "B", SizeBytes := 3 },
                  IsExecutable := true, NodeProperties := none }],
      Directories := [{ Name := "e", Digest := { Hash := "", SizeBytes := 0 } }],
      Symlinks := [], NodeProperties := none }),
   ({ Hash := "", Size := 0 }, Directory.empty)]

/-- The flat map that `flattenTree` returns for `exampleDirs`. -/
def exampleDirsOut : List (String × TreeOutput) :=
  [("d/b.txt",
    { Digest := { Hash := "B", Size := 3 }, Path := "d/b.txt", IsExecutable := true,
      IsEmptyDirectory := false, SymlinkTarget := "", NodeProperties := none }),
   ("d/e",
    { Digest := Digest.Empty, Path := "d/e", IsExecutable := false, IsEmptyDirectory := true,
      SymlinkTarget := "", NodeProperties := none })]

/-- A map of descriptors whose root holds a file and a symlink of the same name `x`. -/
def exampleClashDirs : List (Digest × Directory) :=
  [({ Hash := "r", Size := 1 },
    { Files := [{ Name := "x", Digest := { Hash := "A", SizeBytes := 3 }, IsExecutable := false,
                  NodeProperties := none }],
      Directories := [],
      Symlinks := [{ Name := "x", Target := "t", NodeProperties := none }],
      NodeProperties := none })]

/-- The flat map that `flattenTree` returns for `exampleClashDirs`: the entry of the symlink
`x` only. -/
def exampleClashOut : List (String × TreeOutput) :=
  [("x",
    { Digest := Digest.zero, Path := "x", IsExecutable := false, IsEmptyDirectory := false,
      SymlinkTarget := "t", NodeProperties := none })]

/-- The flat map of the two virtual files `x` and `x/y`. -/
def exampleNestedFlat : List (String × fileSysNode) :=
  [("x", exampleVirtual "X"), ("x/y", exampleVirtual "Y")]

/-- The root descriptor of the tree that `buildTree` makes of `exampleNestedFlat`: it holds
the file `x` and the directory `x`. -/
def exampleNestedRoot : Directory :=
  { Files := [{ Name := "x", Digest := { Hash := "X", SizeBytes := 1 }, IsExecutable := false,
                NodeProperties := none }],
    Directories := [{ Name := "x", Digest := { Hash := "fy=Y;", SizeBytes := 5 } }],
    Symlinks := [], NodeProperties := none }

/-- The descriptors of the tree that `buildTree` makes of `exampleNestedFlat`, by their
digests: the root, and the directory `x`, which holds the file `y`. -/
def exampleNestedDirs : List (Digest × Directory) :=
  [({ Hash := "fx=X;dx=fy=Y;;", Size := 14 }, exampleNestedRoot),
   ({ Hash := "fy=Y;", Size := 5 },
    { Files := [{ Name := "y", Digest := { Hash := "Y", SizeBytes := 1 }, IsExecutable := false,
                  NodeProperties := none }],
      Directories := [], Symlinks := [], NodeProperties := none })]

/-- The flat map that `flattenTree` returns for `exampleNestedDirs`. -/
def exampleNestedOut : List (String × TreeOutput) :=
  [("x",
    { Digest := { Hash := "X", Size := 1 }, Path := "x", IsExecutable := false,
      IsEmptyDirectory := false, SymlinkTarget := "", NodeProperties := none }),
   ("x/y",
    { Digest := { Hash := "Y", Size := 1 }, Path := "x/y", IsExecutable := false,
      IsEmptyDirectory := false, SymlinkTarget := "", NodeProperties := none })]

/-! ## A round of the loader, independent of the queue and of the flat map -/

/-- The part of a round of `loadFiles` that follows the computation of `absPath`: the
computation of the local and remote paths, the metadata lookup, and the treatment of the path
as a symlink, a directory or a file. -/
def loadFilesClassify (host : Host) (execRoot localWorkingDir remoteWorkingDir : String)
    (excl : List InputExclusion) (opts : TreeSymlinkOpts)
    (nodeProperties : List (String × NodeProperties)) (absPath : String) (s : loadState) :
    Except Err loadState :=
  match getExecRootRelPaths absPath execRoot localWorkingDir remoteWorkingDir with
  | .error e => .error e
  | .ok (normPath, remoteNormPath) =>
    let np := mapGet nodeProperties remoteNormPath
    let md := host.Get absPath
    match md.Symlink with
    | none =>
      loadFilesNonSymlink host excl absPath normPath remoteNormPath np md s
    | some sl =>
      if sl.IsDangling ∧ ¬ opts.Preserved then .ok s
      else if opts.Preserved then
        if shouldIgnore host absPath .SymlinkInputType excl then .ok s
        else
          match getTargetRelPath execRoot normPath sl.Target with
          | .error e =>
            if ¬ opts.MaterializeOutsideExecRoot then
              .error (.symlinkTarget normPath execRoot e)
            else if sl.IsDangling then .error (.danglingSymlink normPath sl.Target)
            else loadFilesNonSymlink host excl absPath normPath remoteNormPath np md s
          | .ok (targetExecRoot, targetSymDir) =>
            let node : fileSysNode :=
              { file := none, emptyDirectoryMarker := false,
                symlink := some { target := targetSymDir }, nodeProperties := np }
            let s := { s with fs := mapSet s.fs remoteNormPath node }
            let seen := mapGet s.seenAncestorSymlinkRel normPath = some true
            let followsTarget := if seen then false else opts.FollowsTarget
            let s := if seen then
                { s with seenAncestorSymlinkRel :=
                    mapSet s.seenAncestorSymlinkRel normPath false }
              else s
            if ¬ sl.IsDangling ∧ followsTarget then
              .ok { s with filesToProcess := s.filesToProcess ++ [targetExecRoot] }
            else .ok s
      else loadFilesNonSymlink host excl absPath normPath remoteNormPath np md s

/-- The state after a round, put together from the queue and the flat map before the round
and from what the round does to the empty queue and the empty flat map: the paths that it
appends and the entry that it writes, if any. -/
def loadState.framed (q : List String) (m : List (String × fileSysNode)) (s2 : loadState) :
    loadState :=
  { filesToProcess := q ++ s2.filesToProcess
    fs := applyWrite m s2.fs.head?
    seenAncestorSymlinkRel := s2.seenAncestorSymlinkRel }

/-- The result of a round, put together in the same way; an error stays what it is. -/
def framedResult (q : List String) (m : List (String × fileSysNode)) :
    Except Err loadState → Except Err loadState
  | .error e => .error e
  | .ok s2 => .ok (s2.framed q m)

/-- The flat map `over`, laid over the flat map `under`: the entry of `over` for a key, and
that of `under` for a key that `over` does not hold. -/
def overlayGet (over under : List (String × fileSysNode)) (k : String) : Option fileSysNode :=
  match mapGet over k with
  | some n => some n
  | none => mapGet under k

/-! ## Dangling symlinks -/

/-- The metadata of a symlink with the given target that does not exist. -/
def exampleDanglingMd (target : String) : Metadata :=
  { Digest := Digest.Empty, IsExecutable := false, IsDirectory := false,
    Symlink := some { Target := target, IsDangling := true },
    Err := some (.fileError true "not found") }

/-- A file system for the examples, with the directory `/e` that holds the file `a.txt` and
the symlink `l` to `nowhere`, and with the symlink `/l` to `nowhere`; neither target exists. -/
def exampleDanglingHost : Host :=
  { Get := fun p =>
      if p = "/e" then exampleDirMd
      else if p = "/e/a.txt" then exampleFileMd "A"
      else if p = "/e/l" ∨ p = "/l" then exampleDanglingMd "nowhere"
      else exampleMissingMd
    Readdirnames := fun p => if p = "/e" then .ok ["a.txt", "l"] else .error (.os "open")
    MatchString := fun _ _ => .ok false }

/-- An input path of the loader whose metadata reports a dangling symlink, and for which the
round of the loader comes to look at the metadata: the path is not empty and the local and
remote paths of its absolute path under the exec root can be computed. -/
def DanglingInput (host : Host) (execRoot lwd rwd path : String) : Prop :=
  path ≠ "" ∧
  (∃ r, getExecRootRelPaths (Join [execRoot, path]) execRoot lwd rwd = .ok r) ∧
  ∃ sl, (host.Get (Join [execRoot, path])).Symlink = some sl ∧ sl.IsDangling = true

/-! ## Concrete inputs for the loader -/

/-- An input specification with the real input `a.txt`, the virtual file `v.txt`, and node
properties for the path `a.txt` only. -/
def examplePropsSpec : InputSpec :=
  { Inputs := ["a.txt"]
    VirtualInputs :=
      [{ Path := "v.txt", Contents := exampleBytes "V", IsExecutable := false,
         IsEmptyDirectory := false }]
    InputExclusions := []
    InputNodeProperties := [("a.txt", { Properties := [("mtime", "1")] })]
    SymlinkBehavior := .UnspecifiedSymlinkBehavior }

/-- An input specification in which the virtual file `a.txt` has the path of the real input
`a.txt`. -/
def exampleCollideSpec : InputSpec :=
  { Inputs := ["a.txt"]
    VirtualInputs :=
      [{ Path := "a.txt", Contents := exampleBytes "V", IsExecutable := false,
         IsEmptyDirectory := false },
       { Path := "v.txt", Contents := exampleBytes "V", IsExecutable := false,
         IsEmptyDirectory := false }]
    InputExclusions := []
    InputNodeProperties := []
    SymlinkBehavior := .UnspecifiedSymlinkBehavior }

/-- An input specification with a virtual input whose path is empty. -/
def exampleEmptyPathSpec : InputSpec :=
  { Inputs := ["a.txt"]
    VirtualInputs :=
      [{ Path := "v.txt", Contents := exampleBytes "V", IsExecutable := false,
         IsEmptyDirectory := false },
       { Path := "", Contents := exampleBytes "W", IsExecutable := false,
         IsEmptyDirectory := false }]
    InputExclusions := []
    InputNodeProperties := []
    SymlinkBehavior := .UnspecifiedSymlinkBehavior }

end Client

namespace Client

/-! ## The packaging of outputs -/

/-- The message `repb.OutputFile`. -/
structure OutputFile where
  Path : String
  Digest : DigestPb
  IsExecutable : Bool
  NodeProperties : Option NodePropertiesPb
deriving DecidableEq, Repr

/-- The message `repb.OutputDirectory`. -/
structure OutputDirectory where
  Path : String
  TreeDigest : DigestPb
deriving DecidableEq, Repr

/-- The fields of the message `repb.ActionResult` that `ComputeOutputsToUpload` fills. -/
structure ActionResult where
  OutputFiles : List OutputFile
  OutputDirectories : List OutputDirectory
deriving DecidableEq, Repr

/-- The empty message `&repb.ActionResult{}`. -/
def ActionResult.empty : ActionResult := { OutputFiles := [], OutputDirectories := [] }

/-- Modelled from the spec: `uploadinfo.EntryFromProto` on a tree message, not under src;
constructing an entry from a tree message serializes the message and hashes the bytes. -/
def EntryFromProtoTree (deps : Deps) (tree : Tree) : Except Err Entry :=
  match deps.marshalTree tree with
  | .error e => .error e
  | .ok blob => .ok (EntryFromBlob deps blob)

/-- The tree message that `ComputeOutputsToUpload` assembles from the results of
`packageDirectories`: the statement `treePb.Root = rootDir`. -/
def outputTree (rootDir : Directory) (treePb : Tree) : Tree :=
  { treePb with Root := some rootDir }

/-- The loop of `ComputeOutputsToUpload` over `files`, which registers every entry under its
own digest. -/
def ComputeOutputsToUploadFiles (files : List (Digest × Entry))
    (outs : List (Digest × Entry)) : List (Digest × Entry) :=
  files.foldl (fun o kv => mapSet o kv.2.Digest kv.2) outs

/-- The end of the body of the loop of `ComputeOutputsToUpload` for a directory: the root
descriptor and every child descriptor are registered as blobs of their own.  The error of
`EntryFromProto` is dropped there, and the entry is then nil. -/
def ComputeOutputsToUploadChildren (deps : Deps) :
    List Directory → List (Digest × Entry) → Except Err (List (Digest × Entry))
  | [], outs => .ok outs
  | child :: rest, outs =>
    match EntryFromProto deps child with
    | .error _ => .error .nilNode
    | .ok ueChild => ComputeOutputsToUploadChildren deps rest (mapSet outs ueChild.Digest ueChild)

/-- The body of the loop of `ComputeOutputsToUpload` for a path that is a directory: the
directory is loaded as an exec root of its own, built into a tree and packaged, and the root
descriptor, the tree message, the files and the descriptors are registered as blobs. -/
def ComputeOutputsToUploadDir (deps : Deps) (host : Host) (fuel : Nat)
    (clientOpts : Option TreeSymlinkOpts) (sb : SymlinkBehaviorType)
    (nodeProperties : List (String × NodeProperties)) (absPath normPath : String)
    (outs : List (Digest × Entry)) (resPb : ActionResult) :
    Option (Except Err (List (Digest × Entry) × ActionResult)) :=
  match loadFiles host fuel absPath "" "" [] ["."] [] (some (treeSymlinkOpts clientOpts sb))
      nodeProperties with
  | none => none
  | some (.error e) => some (.error e)
  | some (.ok fs) =>
    let ft := buildTree fs
    match packageDirectories deps ft with
    | .error e => some (.error e)
    | .ok (rootDir, files, treePb) =>
      match EntryFromProto deps rootDir with
      | .error e => some (.error e)
      | .ok ueRootDir =>
        let outs := mapSet outs ueRootDir.Digest ueRootDir
        let treePb := outputTree rootDir treePb
        match EntryFromProtoTree deps treePb with
        | .error e => some (.error e)
        | .ok ue =>
          let outs := mapSet outs ue.Digest ue
          let outs := ComputeOutputsToUploadFiles files outs
          let resPb := { resPb with OutputDirectories := resPb.OutputDirectories ++
            [{ Path := normPath, TreeDigest := ue.Digest.ToProto }] }
          match ComputeOutputsToUploadChildren deps (rootDir :: treePb.Children) outs with
          | .error e => some (.error e)
          | .ok outs => some (.ok (outs, resPb))

/-- The body of the loop of `ComputeOutputsToUpload` for one path: `none` stands for a loader
that has not returned within the fuel. -/
def ComputeOutputsToUploadStep (deps : Deps) (host : Host) (fuel : Nat)
    (clientOpts : Option TreeSymlinkOpts) (execRoot workingDir : String)
    (sb : SymlinkBehaviorType) (nodeProperties : List (String × NodeProperties))
    (path : String) (outs : List (Digest × Entry)) (resPb : ActionResult) :
    Option (Except Err (List (Digest × Entry) × ActionResult)) :=
  let absPath := Join [execRoot, workingDir, path]
  match getRelPath execRoot absPath with
  | .error e => some (.error e)
  | .ok _ =>
    let md := host.Get absPath
    match md.Err with
    | some (.fileError true _) => some (.ok (outs, resPb))
    | some e => some (.error (.metadata e))
    | none =>
      match Rel (Join [execRoot, workingDir]) absPath with
      | .error e => some (.error e)
      | .ok normPath =>
        if ¬ md.IsDirectory then
          let ue := EntryFromFile md.Digest absPath
          let outs := mapSet outs md.Digest ue
          let resPb := { resPb with OutputFiles := resPb.OutputFiles ++
            [{ Path := normPath, Digest := md.Digest.ToProto, IsExecutable := md.IsExecutable,
               NodeProperties := deps.NodePropertiesToAPI (mapGet nodeProperties normPath) }] }
          some (.ok (outs, resPb))
        else
          ComputeOutputsToUploadDir deps host fuel clientOpts sb nodeProperties absPath normPath
            outs resPb

/-- The loop of `ComputeOutputsToUpload` over the paths, from the blob map and the action
result that the earlier rounds left. -/
def ComputeOutputsToUploadLoop (deps : Deps) (host : Host) (fuel : Nat)
    (clientOpts : Option TreeSymlinkOpts) (execRoot workingDir : String)
    (sb : SymlinkBehaviorType) (nodeProperties : List (String × NodeProperties)) :
    List String → List (Digest × Entry) → ActionResult →
      Option (Except Err (List (Digest × Entry) × ActionResult))
  | [], outs, resPb => some (.ok (outs, resPb))
  | path :: rest, outs, resPb =>
    match ComputeOutputsToUploadStep deps host fuel clientOpts execRoot workingDir sb
        nodeProperties path outs resPb with
    | none => none
    | some (.error e) => some (.error e)
    | some (.ok (outs, resPb)) =>
      ComputeOutputsToUploadLoop deps host fuel clientOpts execRoot workingDir sb nodeProperties
        rest outs resPb

/-- The method `ComputeOutputsToUpload`; `fuel` bounds the rounds of every run of the loader,
and `clientOpts` is the field `TreeSymlinkOpts` of the client. -/
def ComputeOutputsToUpload (deps : Deps) (host : Host) (fuel : Nat)
    (clientOpts : Option TreeSymlinkOpts) (execRoot workingDir : String) (paths : List String)
    (sb : SymlinkBehaviorType) (nodeProperties : List (String × NodeProperties)) :
    Option (Except Err (List (Digest × Entry) × ActionResult)) :=
  ComputeOutputsToUploadLoop deps host fuel clientOpts execRoot workingDir sb nodeProperties
    paths [] ActionResult.empty

/-- Whether the error of a metadata lookup is a `*filemetadata.FileError` marked not-found. -/
def MetaError.isNotFound : MetaError → Bool
  | .fileError true _ => true
  | _ => false

/-- Whether the metadata of an output path carries a `FileError` marked not-found. -/
def notFoundOutput (host : Host) (execRoot workingDir path : String) : Bool :=
  match (host.Get (Join [execRoot, workingDir, path])).Err with
  | some e => e.isNotFound
  | none => false

/-- A file system for the examples: the one of `exampleHost`, in which the lookup of the path
`/e/bad` fails with an error other than not-found. -/
def exampleErrHost : Host :=
  { Get := fun p =>
      if p = "/e/bad" then
        { Digest := Digest.Empty, IsExecutable := false, IsDirectory := false, Symlink := none,
          Err := some (.other "input/output error") }
      else exampleHost.Get p
    Readdirnames := exampleHost.Readdirnames
    MatchString := exampleHost.MatchString }

/-! ## Trees of directories, nested -/

/-!
The number of levels of directories below a node.
-/
mutual
/-- The height of a node: the largest number of directories on a way down from it. -/
def treeNode.height : treeNode → Nat
  | .mk _ children => childrenHeight children
/-- The height of a node with the given children. -/
def childrenHeight : List (String × treeNode) → Nat
  | [] => 0
  | (_, c) :: rest => max (c.height + 1) (childrenHeight rest)
end

/-- No two directories below a node have the same digest unless they have the same
descriptor. -/
def treeNode.CollisionFree (deps : Deps) (t : treeNode) : Prop :=
  ∀ a ∈ t.nodes.tail, ∀ b ∈ t.nodes.tail,
    rootDigest deps a = rootDigest deps b → descriptorOf deps a = descriptorOf deps b

/-- Whether a tree is free of collisions can be computed. -/
instance treeNode.decidableCollisionFree (deps : Deps) (t : treeNode) :
    Decidable (t.CollisionFree deps) := by
  unfold treeNode.CollisionFree
  infer_instance

/-- A directory for the examples that holds the file `g`. -/
def exampleDeepB : treeNode := .mk [("g", exampleFile "G")] []

/-- A directory for the examples that holds the directory `b`. -/
def exampleDeepA : treeNode := .mk [] [("b", exampleDeepB)]

/-- A directory for the examples that holds the file `h`. -/
def exampleDeepZ : treeNode := .mk [("h", exampleFile "H")] []

/-- A tree for the examples: the directory `z`, and the directory `a` with the directory `b`
nested below it. -/
def exampleDeepTree : treeNode := .mk [] [("z", exampleDeepZ), ("a", exampleDeepA)]

/-! ## Symlinks that point outside the exec root -/

/-- The options of the preserve policy with materialization: symlinks whose target is outside
the exec root are converted into their targets. -/
def exampleMaterialize : TreeSymlinkOpts :=
  { Preserved := true, FollowsTarget := true, MaterializeOutsideExecRoot := true }

/-- A file system for the examples, with the exec root `/e`: the symlink `/e/m` to the file
`/o/t`, the symlink `/e/g` to `/o/none`, which does not exist, and the symlink `/l` to the
file `/o/t`. -/
def exampleOutsideHost : Host :=
  { Get := fun p =>
      if p = "/e" then exampleDirMd
      else if p = "/e/m" ∨ p = "/l" then exampleLinkMd "T" "/o/t"
      else if p = "/e/g" then exampleDanglingMd "/o/none"
      else if p = "/o/t" then exampleFileMd "T"
      else exampleMissingMd
    Readdirnames := fun p => if p = "/e" then .ok ["g", "m"] else .error (.os "open")
    MatchString := fun _ _ => .ok false }

/-! ## Ancestor symlinks -/

/-- The node that the loader records for a regular file with the metadata `md`. -/
def fileNodeOf (md : Metadata) (absPath : String) (np : Option NodeProperties) : fileSysNode :=
  { file := some { ue := EntryFromFile md.Digest absPath, isExecutable := md.IsExecutable },
    emptyDirectoryMarker := false, symlink := none, nodeProperties := np }

/-- The node that the loader records for a preserved symlink. -/
def symlinkNodeOf (target : String) (np : Option NodeProperties) : fileSysNode :=
  { file := none, emptyDirectoryMarker := false, symlink := some { target := target },
    nodeProperties := np }


/-- The metadata of a symlink to a directory, with the given target. -/
def exampleDirLinkMd (target : String) : Metadata :=
  { Digest := Digest.Empty, IsExecutable := false, IsDirectory := true,
    Symlink := some { Target := target, IsDangling := false }, Err := none }

/-- A file system for the examples, with the exec root `/e`: the directory `realdir` with the
files `x.txt` and `y.txt`, the symlink `a` to `realdir`, and the symlink `l` to `a`.  A regular
expression is a plain text here, which matches the inputs that begin with it. -/
def exampleAncestorHost : Host :=
  { Get := fun p =>
      if p = "/e" ∨ p = "/e/realdir" then exampleDirMd
      else if p = "/e/a" then exampleDirLinkMd "realdir"
      else if p = "/e/l" then exampleDirLinkMd "a"
      else if p = "/e/realdir/x.txt" ∨ p = "/e/a/x.txt" ∨ p = "/e/l/x.txt" then exampleFileMd "X"
      else if p = "/e/realdir/y.txt" ∨ p = "/e/a/y.txt" ∨ p = "/e/l/y.txt" then exampleFileMd "Y"
      else exampleMissingMd
    Readdirnames := fun p =>
      if p = "/e" then .ok ["a", "l", "realdir"]
      else if p = "/e/realdir" ∨ p = "/e/a" ∨ p = "/e/l" then .ok ["x.txt", "y.txt"]
      else .error (.os "open")
    MatchString := fun re inp => .ok (HasPrefix inp re) }

/-- A rule that excludes the symlink `/e/a`. -/
def exampleExcludeLink : InputExclusion := { Regex := "/e/a", Typ := .SymlinkInputType }

/-! ## The rounds that the loader unfolds into -/

/-- The paths that the treatment of a path by the loader appends to the empty queue when no
ancestor symlink is marked; none when the treatment fails. -/
def loadFilesClassifyAdds (host : Host) (execRoot localWorkingDir remoteWorkingDir : String)
    (excl : List InputExclusion) (opts : TreeSymlinkOpts)
    (nodeProperties : List (String × NodeProperties)) (absPath : String) : List String :=
  match loadFilesClassify host execRoot localWorkingDir remoteWorkingDir excl opts
      nodeProperties absPath loadState.empty with
  | .error _ => []
  | .ok s => s.filesToProcess

/-- The paths that a round of `loadFiles` for `path` can append to the queue, whatever
ancestor symlinks are marked: the parent symlinks of the path, then the entries of the
directory that the path names, or the target of the symlink that it names when targets are
followed. -/
def loadFilesAdds (host : Host) (execRoot localWorkingDir remoteWorkingDir : String)
    (excl : List InputExclusion) (opts : TreeSymlinkOpts)
    (nodeProperties : List (String × NodeProperties)) (path : String) : List String :=
  if path = "" then []
  else if opts.Preserved then
    match evalParentSymlinks host execRoot path opts.MaterializeOutsideExecRoot with
    | .error _ => []
    | .ok (evaledPath, parentSymlinks) =>
      parentSymlinks ++ loadFilesClassifyAdds host execRoot localWorkingDir remoteWorkingDir
        excl opts nodeProperties (Join [execRoot, evaledPath])
  else
    loadFilesClassifyAdds host execRoot localWorkingDir remoteWorkingDir excl opts
      nodeProperties (Join [execRoot, path])

/-- Whether every chain of paths that starts at `p`, each path being one that the round of
the path before it can append, ends before it has `n` paths. -/
def loadFilesWithin (adds : String → List String) : Nat → String → Bool
  | 0, _ => false
  | n + 1, p => (adds p).all (loadFilesWithin adds n)

/-- The number of rounds that a path unfolds into when every round appends all that it can
append, counted down to the depth `n`. -/
def loadFilesRounds (adds : String → List String) : Nat → String → Nat
  | 0, _ => 1
  | n + 1, p => 1 + ((adds p).map (loadFilesRounds adds n)).sum

/-- A file system for the examples, with the exec root `/e`: the directory `d`, which holds
the symlink `l` to `..`, the exec root. -/
def exampleCycleHost : Host :=
  { Get := fun p =>
      if p = "/e" ∨ p = "/e/d" then exampleDirMd
      else if p = "/e/d/l" then exampleDirLinkMd ".."
      else exampleMissingMd
    Readdirnames := fun p =>
      if p = "/e" then .ok ["d"]
      else if p = "/e/d" then .ok ["l"]
      else .error (.os "open")
    MatchString := fun _ _ => .ok false }

/-- The flat map of the loader after it has recorded the symlink `d/l` of
`exampleCycleHost`. -/
def exampleCycleFlat : List (String × fileSysNode) := [("d/l", symlinkNodeOf ".." none)]

/-! ## What the symlink resolver makes of a path -/

/-- What `evalParentSymlinks` makes of the parent elements of a path, one after the other:
`ParentsResolved host execRoot mat pre tgt parents parts symlinks` says that, with the elements
`pre` written to the evaluated path so far and with `tgt` the text of the target builder, the
separator before the next element included, the elements `parents` are written as `parts` and
the links `symlinks` are recorded.  The target builder starts as the exec root; it takes every
element that names no symlink as it is, and for an element that names a symlink the target of
the link, after being emptied if that target is absolute: it is the path of the directory that
the target of the next link is relative to.  An element that names no symlink is kept; an
element that names a symlink is replaced by the target of the link, read from the target
builder, in the form relative to the directory of the link, and the path of the link is
recorded; when the target cannot be brought into that form, as it is not under the exec root,
the element is kept if links that point outside are to be materialized. -/
inductive ParentsResolved (host : Host) (execRoot : String) (mat : Bool) :
    List String → String → List String → List String → List String → Prop
  | done (pre : List String) (tgt : String) : ParentsResolved host execRoot mat pre tgt [] [] []
  | keep (pre : List String) (tgt p : String) (rest parts symlinks : List String) :
      (host.Get (Join [execRoot, joinSep (pre ++ [p])])).Symlink = none →
      ParentsResolved host execRoot mat (pre ++ [p]) (tgt ++ p ++ "/") rest parts symlinks →
      ParentsResolved host execRoot mat pre tgt (p :: rest) (p :: parts) symlinks
  | replace (pre : List String) (tgt p : String) (rest parts symlinks : List String)
      (sl : SymlinkMetadata) (r1 r2 : String) :
      (host.Get (Join [execRoot, joinSep (pre ++ [p])])).Symlink = some sl →
      getTargetRelPath execRoot (joinSep (pre ++ [p]))
        ((if IsAbs sl.Target then "" else tgt) ++ sl.Target) = .ok (r1, r2) →
      ParentsResolved host execRoot mat (pre ++ [r2])
        ((if IsAbs sl.Target then "" else tgt) ++ sl.Target ++ "/") rest parts symlinks →
      ParentsResolved host execRoot mat pre tgt (p :: rest) (r2 :: parts)
        (joinSep (pre ++ [p]) :: symlinks)
  | materialize (pre : List String) (tgt p : String) (rest parts symlinks : List String)
      (sl : SymlinkMetadata) (e : Err) :
      (host.Get (Join [execRoot, joinSep (pre ++ [p])])).Symlink = some sl →
      getTargetRelPath execRoot (joinSep (pre ++ [p]))
        ((if IsAbs sl.Target then "" else tgt) ++ sl.Target) = .error e →
      mat = true →
      ParentsResolved host execRoot mat (pre ++ [p])
        ((if IsAbs sl.Target then "" else tgt) ++ sl.Target ++ "/") rest parts symlinks →
      ParentsResolved host execRoot mat pre tgt (p :: rest) (p :: parts) symlinks

/-- How `evalParentSymlinks` fails on the parent elements of a path when links that point
outside the exec root are not materialized: `ParentsFail host execRoot pre tgt parents e` says
that, with the elements `pre` written to the evaluated path so far and with `tgt` the text of
the target builder, the elements `parents` are gone through as `ParentsResolved` says up to an
element that names a symlink whose target, read from the target builder, cannot be brought
into the form relative to the directory of the link, `getTargetRelPath` failing with the
error `e`. -/
inductive ParentsFail (host : Host) (execRoot : String) :
    List String → String → List String → Err → Prop
  | here (pre : List String) (tgt p : String) (rest : List String) (sl : SymlinkMetadata)
      (e : Err) :
      (host.Get (Join [execRoot, joinSep (pre ++ [p])])).Symlink = some sl →
      getTargetRelPath execRoot (joinSep (pre ++ [p]))
        ((if IsAbs sl.Target then "" else tgt) ++ sl.Target) = .error e →
      ParentsFail host execRoot pre tgt (p :: rest) e
  | keep (pre : List String) (tgt p : String) (rest : List String) (e : Err) :
      (host.Get (Join [execRoot, joinSep (pre ++ [p])])).Symlink = none →
      ParentsFail host execRoot (pre ++ [p]) (tgt ++ p ++ "/") rest e →
      ParentsFail host execRoot pre tgt (p :: rest) e
  | replace (pre : List String) (tgt p : String) (rest : List String) (sl : SymlinkMetadata)
      (r1 r2 : String) (e : Err) :
      (host.Get (Join [execRoot, joinSep (pre ++ [p])])).Symlink = some sl →
      getTargetRelPath execRoot (joinSep (pre ++ [p]))
        ((if IsAbs sl.Target then "" else tgt) ++ sl.Target) = .ok (r1, r2) →
      ParentsFail host execRoot (pre ++ [r2])
        ((if IsAbs sl.Target then "" else tgt) ++ sl.Target ++ "/") rest e →
      ParentsFail host execRoot pre tgt (p :: rest) e

/-- A file system for the examples, with the exec root `/a`: the symlink `/a/b` to `bb`, and
the directory `/a/bb` with the file `c/d/e.go`. -/
def exampleEvalHost : Host :=
  { Get := fun p =>
      if p = "/a" ∨ p = "/a/bb" ∨ p = "/a/bb/c" ∨ p = "/a/bb/c/d" then exampleDirMd
      else if p = "/a/b" then
        { Digest := Digest.Empty, IsExecutable := false, IsDirectory := true,
          Symlink := some { Target := "bb", IsDangling := false }, Err := none }
      else if p = "/a/bb/c/d/e.go" then exampleFileMd "E"
      else exampleMissingMd
    Readdirnames := fun p =>
      if p = "/a" then .ok ["b", "bb"]
      else if p = "/a/bb" then .ok ["c"]
      else if p = "/a/bb/c" then .ok ["d"]
      else if p = "/a/bb/c/d" then .ok ["e.go"]
      else .error (.os "open")
    MatchString := fun _ _ => .ok false }

end Client

namespace Client

/-! ## Sizes beyond the range of the byte counter -/

/-- A file leaf for the examples, with the given hash and a size of 2^62 bytes. -/
def exampleHugeFile (hash : String) : fileSysNode :=
  { file := some { ue := EntryFromFile { Hash := hash, Size := 4611686018427387904 }
                     ("/e/" ++ hash),
                   isExecutable := false },
    emptyDirectoryMarker := false, symlink := none, nodeProperties := none }

/-- A tree for the examples: a directory with two files of 2^62 bytes each. -/
def exampleHugeTree : treeNode :=
  .mk [("a", exampleHugeFile "A"), ("b", exampleHugeFile "B")] []

/-! ## What a round of the loader computes for a path when symlinks are preserved -/

/-- The paths that a round of `loadFiles` computes for a dequeued path when symlinks are
preserved, before it reads the metadata: the absolute path with the parent symlinks resolved,
the path relative to the exec root, the remote form of that path, which is the key of the flat
map, and the parent symlinks that the resolver returned. -/
structure roundPaths where
  absPath : String
  normPath : String
  key : String
  parents : List String
deriving DecidableEq, Repr

/-- The paths of a round of `loadFiles` under the preserve policy, or the error with which
the round ends before it reads the metadata. -/
def loadFilesPaths (host : Host) (execRoot localWorkingDir remoteWorkingDir : String)
    (opts : TreeSymlinkOpts) (path : String) : Except Err roundPaths :=
  if path = "" then .error .emptyInput
  else
    match evalParentSymlinks host execRoot path opts.MaterializeOutsideExecRoot with
    | .error e => .error e
    | .ok (evaledPath, parentSymlinks) =>
      match getExecRootRelPaths (Join [execRoot, evaledPath]) execRoot localWorkingDir
          remoteWorkingDir with
      | .error e => .error e
      | .ok (normPath, remoteNormPath) =>
        .ok { absPath := Join [execRoot, evaledPath], normPath := normPath,
              key := remoteNormPath, parents := parentSymlinks }

/-- The paths of a round, with empty paths when the round ends before the metadata. -/
def pathsOf (host : Host) (execRoot localWorkingDir remoteWorkingDir : String)
    (opts : TreeSymlinkOpts) (path : String) : roundPaths :=
  match loadFilesPaths host execRoot localWorkingDir remoteWorkingDir opts path with
  | .error _ => { absPath := "", normPath := "", key := "", parents := [] }
  | .ok r => r

/-- Whether the round of a path under the preserve policy comes to the metadata and finds a
regular file that no rule excludes and whose metadata carries no error. -/
def isLoadedFile (host : Host) (execRoot localWorkingDir remoteWorkingDir : String)
    (excl : List InputExclusion) (opts : TreeSymlinkOpts) (path : String) : Bool :=
  match loadFilesPaths host execRoot localWorkingDir remoteWorkingDir opts path with
  | .error _ => false
  | .ok r =>
    (host.Get r.absPath).Symlink.isNone && !(host.Get r.absPath).IsDirectory &&
      !shouldIgnore host r.absPath .FileInputType excl && (host.Get r.absPath).Err.isNone

/-- Whether the round of a path under the preserve policy comes to the metadata with the path
itself as the path relative to the exec root, the name under which the loader looks up the
mark of an ancestor symlink, and finds a symlink that no rule excludes and whose target is
under the exec root. -/
def isAncestorLink (host : Host) (execRoot localWorkingDir remoteWorkingDir : String)
    (excl : List InputExclusion) (opts : TreeSymlinkOpts) (path : String) : Bool :=
  match loadFilesPaths host execRoot localWorkingDir remoteWorkingDir opts path with
  | .error _ => false
  | .ok r =>
    r.normPath == path &&
      match (host.Get r.absPath).Symlink with
      | none => false
      | some sl =>
        !shouldIgnore host r.absPath .SymlinkInputType excl &&
          (getTargetRelPath execRoot r.normPath sl.Target).isOk

/-- The node that the loader records for a symlink with the paths `r` when symlinks are
preserved and the target of the link is under the exec root; none for another path. -/
def ancestorNode (host : Host) (execRoot : String)
    (nodeProperties : List (String × NodeProperties)) (r : roundPaths) : Option fileSysNode :=
  match (host.Get r.absPath).Symlink with
  | none => none
  | some sl =>
    match getTargetRelPath execRoot r.normPath sl.Target with
    | .error _ => none
    | .ok (_, targetSymDir) => some (symlinkNodeOf targetSymDir (mapGet nodeProperties r.key))

/-- A file system for the examples, with the exec root `/e`, the working directory `build`
and the remote working directory `out`: the symlink `build/a` to the directory `build/real`,
which holds the file `x.txt`, and the directory `out` with the file `a`. -/
def exampleRemapLinkHost : Host :=
  { Get := fun p =>
      if p = "/e" ∨ p = "/e/build" ∨ p = "/e/build/real" ∨ p = "/e/out" then exampleDirMd
      else if p = "/e/build/a" then exampleDirLinkMd "real"
      else if p = "/e/build/real/x.txt" then exampleFileMd "X"
      else if p = "/e/out/a" then exampleFileMd "A"
      else exampleMissingMd
    Readdirnames := fun p =>
      if p = "/e" then .ok ["build", "out"]
      else if p = "/e/build" then .ok ["a", "real"]
      else if p = "/e/build/real" then .ok ["x.txt"]
      else if p = "/e/out" then .ok ["a"]
      else .error (.os "open")
    MatchString := fun _ _ => .ok false }

end Client

namespace Client

/-! ## Induction over trees -/

mutual
theorem treeNode.induct_aux (P : treeNode → Prop)
    (h : ∀ leaves children, (∀ nc ∈ children, P nc.2) → P (.mk leaves children)) :
    ∀ t, P t
  | .mk leaves children => h leaves children (treeNode.induct_children P h children)
theorem treeNode.induct_children (P : treeNode → Prop)
    (h : ∀ leaves children, (∀ nc ∈ children, P nc.2) → P (.mk leaves children)) :
    ∀ cs : List (String × treeNode), ∀ nc ∈ cs, P nc.2
  | [] => fun _ hnc => by cases hnc
  | (_, c) :: rest => fun nc hnc => by
    rcases List.mem_cons.1 hnc with h1 | h1
    · subst h1
      exact treeNode.induct_aux P h c
    · exact treeNode.induct_children P h rest nc h1
end

theorem childrenNodes_eq (cs : List (String × treeNode)) :
    childrenNodes cs = (cs.map (fun nc => nc.2.nodes)).flatten := by
  induction cs with
  | nil => simp [childrenNodes]
  | cons nc rest ih =>
    obtain ⟨n, c⟩ := nc
    simp [childrenNodes, ih]

theorem treeNode.nodes_mk (leaves : List (String × fileSysNode))
    (children : List (String × treeNode)) :
    (treeNode.mk leaves children).nodes =
      .mk leaves children :: (children.map (fun nc => nc.2.nodes)).flatten := by
  rw [treeNode.nodes, childrenNodes_eq]

theorem treeNode.WF_mk {leaves : List (String × fileSysNode)}
    {children : List (String × treeNode)} :
    (treeNode.mk leaves children).WF ↔
      (mapKeys leaves).Nodup ∧ (mapKeys children).Nodup ∧ ∀ nc ∈ children, nc.2.WF := by
  simp only [treeNode.WF, treeNode.nodes_mk, List.mem_cons, List.mem_flatten, List.mem_map]
  constructor
  · intro h
    refine ⟨(h _ (Or.inl rfl)).1, (h _ (Or.inl rfl)).2, ?_⟩
    intro nc hnc n hn
    exact h n (Or.inr ⟨_, ⟨nc, hnc, rfl⟩, hn⟩)
  · rintro ⟨h1, h2, h3⟩ n (rfl | ⟨l, ⟨nc, hnc, rfl⟩, hn⟩)
    · exact ⟨h1, h2⟩
    · exact h3 nc hnc n hn

/-! ## Maps -/

section Maps
variable {κ α : Type} [DecidableEq κ]

theorem mem_mapKeys_mapSet (m : List (κ × α)) (k : κ) (v : α) (k' : κ) :
    k' ∈ mapKeys (mapSet m k v) ↔ k' = k ∨ k' ∈ mapKeys m := by
  induction m with
  | nil => simp [mapSet, mapKeys]
  | cons kv rest ih =>
    obtain ⟨a, b⟩ := kv
    simp only [mapSet]
    split
    · rename_i h
      subst h
      simp [mapKeys]
    · simp only [mapKeys, List.map_cons, List.mem_cons] at ih ⊢
      rw [ih]
      tauto

theorem mapKeys_mapSet_nodup (m : List (κ × α)) (k : κ) (v : α) (h : (mapKeys m).Nodup) :
    (mapKeys (mapSet m k v)).Nodup := by
  induction m with
  | nil => simp [mapSet, mapKeys]
  | cons kv rest ih =>
    obtain ⟨a, b⟩ := kv
    simp only [mapKeys, List.map_cons, List.nodup_cons] at h
    simp only [mapSet]
    split
    · rename_i h1
      subst h1
      simpa [mapKeys] using h
    · rename_i h1
      simp only [mapKeys, List.map_cons, List.nodup_cons]
      refine ⟨?_, ih h.2⟩
      intro hmem
      have := (mem_mapKeys_mapSet rest k v a).1 hmem
      rcases this with h2 | h2
      · exact h1 h2
      · exact h.1 h2

theorem mapGet_mapSet (m : List (κ × α)) (k : κ) (v : α) (k' : κ) :
    mapGet (mapSet m k v) k' = if k' = k then some v else mapGet m k' := by
  induction m with
  | nil =>
    simp only [mapSet, mapGet]
    by_cases h : k = k'
    · simp [h]
    · have : ¬ k' = k := fun h' => h h'.symm
      simp [h, this]
  | cons kv rest ih =>
    obtain ⟨a, b⟩ := kv
    simp only [mapSet]
    split
    · rename_i h
      subst h
      simp only [mapGet]
      by_cases h : a = k'
      · simp [h]
      · have : ¬ k' = a := fun h' => h h'.symm
        simp [h, this]
    · rename_i h
      simp only [mapGet, ih]
      by_cases h2 : a = k'
      · subst h2
        simp [h]
      · simp [h2]

theorem mapGet_eq_none_iff (m : List (κ × α)) (k : κ) :
    mapGet m k = none ↔ k ∉ mapKeys m := by
  induction m with
  | nil => simp [mapGet, mapKeys]
  | cons kv rest ih =>
    obtain ⟨a, b⟩ := kv
    simp only [mapGet, mapKeys, List.map_cons, List.mem_cons, not_or]
    by_cases h : a = k
    · simp [h]
    · have : ¬ k = a := fun h' => h h'.symm
      simp [h, this, ih, mapKeys]

theorem mapGet_eq_some_of_mem (m : List (κ × α)) (k : κ) (v : α) (hnd : (mapKeys m).Nodup)
    (h : (k, v) ∈ m) : mapGet m k = some v := by
  induction m with
  | nil => cases h
  | cons kv rest ih =>
    obtain ⟨a, b⟩ := kv
    simp only [mapKeys, List.map_cons, List.nodup_cons] at hnd
    rcases List.mem_cons.1 h with h1 | h1
    · cases h1
      simp [mapGet]
    · have hne : ¬ a = k := by
        intro h2
        subst h2
        exact hnd.1 (List.mem_map.2 ⟨(a, v), h1, rfl⟩)
      simp [mapGet, hne, ih hnd.2 h1]

theorem mem_of_mapGet_eq_some (m : List (κ × α)) (k : κ) (v : α)
    (h : mapGet m k = some v) : (k, v) ∈ m := by
  induction m with
  | nil => simp [mapGet] at h
  | cons kv rest ih =>
    obtain ⟨a, b⟩ := kv
    simp only [mapGet] at h
    split at h
    · rename_i h1
      cases h
      subst h1
      exact List.mem_cons_self _ _
    · exact List.mem_cons_of_mem _ (ih h)

theorem mem_mapSet (m : List (κ × α)) (k : κ) (v : α) (kv : κ × α)
    (h : kv ∈ mapSet m k v) : kv = (k, v) ∨ kv ∈ m := by
  induction m with
  | nil => simpa [mapSet] using h
  | cons x rest ih =>
    obtain ⟨a, b⟩ := x
    simp only [mapSet] at h
    split at h
    · rcases List.mem_cons.1 h with h1 | h1
      · exact Or.inl h1
      · exact Or.inr (List.mem_cons_of_mem _ h1)
    · rcases List.mem_cons.1 h with h1 | h1
      · exact Or.inr (h1 ▸ List.mem_cons_self _ _)
      · rcases ih h1 with h2 | h2
        · exact Or.inl h2
        · exact Or.inr (List.mem_cons_of_mem _ h2)

theorem mem_mapKeys_mapMerge (dst src : List (κ × α)) (k : κ) :
    k ∈ mapKeys (mapMerge dst src) ↔ k ∈ mapKeys dst ∨ k ∈ mapKeys src := by
  induction src generalizing dst with
  | nil => simp [mapMerge, mapKeys]
  | cons kv rest ih =>
    have := ih (mapSet dst kv.1 kv.2)
    simp only [mapMerge, List.foldl_cons] at this ⊢
    rw [this, mem_mapKeys_mapSet]
    simp only [mapKeys, List.map_cons, List.mem_cons]
    tauto

theorem mapKeys_mapMerge_nodup (dst src : List (κ × α)) (h : (mapKeys dst).Nodup) :
    (mapKeys (mapMerge dst src)).Nodup := by
  induction src generalizing dst with
  | nil => simpa [mapMerge] using h
  | cons kv rest ih =>
    have := ih (mapSet dst kv.1 kv.2) (mapKeys_mapSet_nodup dst kv.1 kv.2 h)
    simpa [mapMerge] using this

theorem mem_mapMerge (dst src : List (κ × α)) (kv : κ × α)
    (h : kv ∈ mapMerge dst src) : kv ∈ dst ∨ kv ∈ src := by
  induction src generalizing dst with
  | nil => exact Or.inl (by simpa [mapMerge] using h)
  | cons x rest ih =>
    have h' : kv ∈ mapMerge (mapSet dst x.1 x.2) rest := by simpa [mapMerge] using h
    rcases ih _ h' with h1 | h1
    · rcases mem_mapSet dst x.1 x.2 kv h1 with h2 | h2
      · exact Or.inr (h2 ▸ List.mem_cons_self _ _)
      · exact Or.inl h2
    · exact Or.inr (List.mem_cons_of_mem _ h1)

end Maps

/-! ## Sorting -/

theorem strLess_iff (a b : String) : strLess a b = true ↔ a < b := by
  simp [strLess, String.lt_iff_toList_lt]

section Sorting
variable {α : Type} (key : α → String)

theorem insertSorted_perm (less : α → α → Bool) (x : α) (l : List α) :
    (insertSorted less x l).Perm (x :: l) := by
  induction l with
  | nil => simp [insertSorted]
  | cons y ys ih =>
    simp only [insertSorted]
    split
    · exact List.Perm.refl _
    · exact (List.Perm.cons y ih).trans (List.Perm.swap x y ys)

theorem sortSlice_perm (less : α → α → Bool) (l : List α) : (sortSlice less l).Perm l := by
  induction l with
  | nil => simp [sortSlice]
  | cons x xs ih =>
    have h1 : sortSlice less (x :: xs) = insertSorted less x (sortSlice less xs) := by
      simp [sortSlice]
    rw [h1]
    exact (insertSorted_perm less x _).trans (List.Perm.cons x ih)

theorem insertSorted_pairwise (x : α) (l : List α)
    (hs : l.Pairwise (fun a b => key a < key b)) (hx : ∀ y ∈ l, key y ≠ key x) :
    (insertSorted (fun a b => strLess (key a) (key b)) x l).Pairwise
      (fun a b => key a < key b) := by
  induction l with
  | nil => simp [insertSorted]
  | cons y ys ih =>
    simp only [insertSorted]
    rw [List.pairwise_cons] at hs
    split
    · rename_i hlt
      have hlt' : key x < key y := (strLess_iff _ _).1 hlt
      refine List.pairwise_cons.2 ⟨?_, List.pairwise_cons.2 hs⟩
      intro z hz
      rcases List.mem_cons.1 hz with h1 | h1
      · subst h1; exact hlt'
      · exact lt_trans hlt' (hs.1 z h1)
    · rename_i hlt
      have hlt' : ¬ key x < key y := fun h => hlt ((strLess_iff _ _).2 h)
      have hne : key y ≠ key x := hx y (List.mem_cons_self _ _)
      have hyx : key y < key x := lt_of_le_of_ne (not_lt.1 hlt') hne
      refine List.pairwise_cons.2 ⟨?_, ih hs.2 (fun z hz => hx z (List.mem_cons_of_mem _ hz))⟩
      intro z hz
      have hz' := (insertSorted_perm (fun a b => strLess (key a) (key b)) x ys).mem_iff.1 hz
      rcases List.mem_cons.1 hz' with h1 | h1
      · subst h1; exact hyx
      · exact hs.1 z h1

theorem sortSlice_pairwise (l : List α) (hnd : (l.map key).Nodup) :
    (sortSlice (fun a b => strLess (key a) (key b)) l).Pairwise
      (fun a b => key a < key b) := by
  induction l with
  | nil => simp [sortSlice]
  | cons x xs ih =>
    have h1 : sortSlice (fun a b => strLess (key a) (key b)) (x :: xs) =
        insertSorted (fun a b => strLess (key a) (key b)) x
          (sortSlice (fun a b => strLess (key a) (key b)) xs) := by
      simp [sortSlice]
    rw [h1]
    simp only [List.map_cons, List.nodup_cons] at hnd
    refine insertSorted_pairwise key x _ (ih hnd.2) ?_
    intro y hy heq
    have hy' := (sortSlice_perm (fun a b => strLess (key a) (key b)) xs).mem_iff.1 hy
    exact hnd.1 (heq ▸ List.mem_map.2 ⟨y, hy', rfl⟩)

theorem sortSlice_eq_of_perm (l1 l2 : List α) (hp : l1.Perm l2) (hnd : (l1.map key).Nodup) :
    sortSlice (fun a b => strLess (key a) (key b)) l1 =
      sortSlice (fun a b => strLess (key a) (key b)) l2 := by
  have hnd2 : (l2.map key).Nodup := (hp.map key).nodup_iff.1 hnd
  have s1 := sortSlice_pairwise key l1 hnd
  have s2 := sortSlice_pairwise key l2 hnd2
  have p : (sortSlice (fun a b => strLess (key a) (key b)) l1).Perm
      (sortSlice (fun a b => strLess (key a) (key b)) l2) :=
    ((sortSlice_perm _ l1).trans hp).trans (sortSlice_perm _ l2).symm
  haveI : IsAntisymm α (fun a b => key a < key b) :=
    ⟨fun a b h1 h2 => absurd (lt_trans h1 h2) (lt_irrefl _)⟩
  exact List.eq_of_perm_of_sorted p s1 s2

end Sorting

/-! ## Arithmetic of `int64` -/

theorem wrap64_wrap64_add (a b : Int) : wrap64 (wrap64 a + b) = wrap64 (a + b) := by
  unfold wrap64
  omega

theorem wrap64_of_range (a : Int) (h1 : -9223372036854775808 ≤ a) (h2 : a < 9223372036854775808) :
    wrap64 a = a := by
  unfold wrap64
  omega

theorem wrap64_congr (a b : Int) (h : a % 18446744073709551616 = b % 18446744073709551616) :
    wrap64 a = wrap64 b := by
  unfold wrap64
  omega

theorem wrap64_emod (a : Int) : wrap64 a % 18446744073709551616 = a % 18446744073709551616 := by
  unfold wrap64
  omega

end Client

namespace Client

/-! ## The loop over the leaves -/

theorem packageTreeLeaves_dir (deps : Deps) (pfx : String) (leaves : List (String × fileSysNode))
    (dir : Directory) (blobs : List (Digest × Entry)) (st : pkgState) :
    (packageTreeLeaves deps pfx leaves dir blobs st).1 =
      { dir with Files := dir.Files ++ leafFiles deps leaves
                 Symlinks := dir.Symlinks ++ leafSymlinks deps leaves } := by
  induction leaves generalizing dir blobs st with
  | nil => simp [packageTreeLeaves, leafFiles, leafSymlinks]
  | cons kv rest ih =>
    obtain ⟨name, n⟩ := kv
    simp only [packageTreeLeaves]
    cases hf : n.file with
    | some f =>
      simp only [ih]
      simp [leafFiles, leafSymlinks, hf]
    | none =>
      cases hs : n.symlink with
      | some s =>
        simp only [ih]
        simp [leafFiles, leafSymlinks, hf, hs]
      | none =>
        simp only [ih]
        simp [leafFiles, leafSymlinks, hf, hs]

theorem packageTreeLeaves_blobs (deps : Deps) (pfx : String)
    (leaves : List (String × fileSysNode))
    (dir : Directory) (blobs : List (Digest × Entry)) (st : pkgState) :
    (packageTreeLeaves deps pfx leaves dir blobs st).2.1 = mapMerge blobs (leafBlobs leaves) := by
  induction leaves generalizing dir blobs st with
  | nil => simp [packageTreeLeaves, leafBlobs, mapMerge]
  | cons kv rest ih =>
    obtain ⟨name, n⟩ := kv
    simp only [packageTreeLeaves]
    cases hf : n.file with
    | some f =>
      simp only [ih]
      simp [leafBlobs, hf, mapMerge]
    | none =>
      cases hs : n.symlink with
      | some s =>
        simp only [ih]
        simp [leafBlobs, hf, mapMerge]
      | none =>
        simp only [ih]
        simp [leafBlobs, hf, mapMerge]

theorem packageTreeLeaves_stats (deps : Deps) (pfx : String)
    (leaves : List (String × fileSysNode))
    (dir : Directory) (blobs : List (Digest × Entry)) (st : pkgState) :
    (packageTreeLeaves deps pfx leaves dir blobs st).2.2.stats.InputFiles =
        st.stats.InputFiles + (leafBlobs leaves).length ∧
    (packageTreeLeaves deps pfx leaves dir blobs st).2.2.stats.InputSymlinks =
        st.stats.InputSymlinks + (leaves.filter (fun kv => kv.2.isSymlink)).length ∧
    (packageTreeLeaves deps pfx leaves dir blobs st).2.2.stats.InputDirectories =
        st.stats.InputDirectories ∧
    (packageTreeLeaves deps pfx leaves dir blobs st).2.2.stats.TotalInputBytes
        % 18446744073709551616 =
      (st.stats.TotalInputBytes + ((leafBlobs leaves).map (fun kv => kv.2.Digest.Size)).sum)
        % 18446744073709551616 := by
  induction leaves generalizing dir blobs st with
  | nil => simp [packageTreeLeaves, leafBlobs]
  | cons kv rest ih =>
    obtain ⟨name, n⟩ := kv
    simp only [packageTreeLeaves]
    cases hf : n.file with
    | some f =>
      simp only []
      obtain ⟨h1, h2, h3, h4⟩ := ih
        { dir with Files := dir.Files ++
          [{ Name := name, Digest := f.ue.Digest.ToProto, IsExecutable := f.isExecutable,
             NodeProperties := deps.NodePropertiesToAPI n.nodeProperties }] }
        (mapSet blobs f.ue.Digest f.ue)
        { stats := { st.stats with
            InputFiles := st.stats.InputFiles + 1
            TotalInputBytes := wrap64 (st.stats.TotalInputBytes + f.ue.Digest.Size) },
          tree := st.tree.map (fun m => mapSet m (pfx ++ "/" ++ name) f.ue.Digest) }
      refine ⟨?_, ?_, ?_, ?_⟩
      · rw [h1]; simp [leafBlobs, hf]; ring
      · rw [h2]; simp [fileSysNode.isSymlink, hf]
      · rw [h3]
      · rw [h4]
        have := wrap64_emod (st.stats.TotalInputBytes + f.ue.Digest.Size)
        simp only [leafBlobs, List.filterMap_cons, hf, Option.map_some', List.map_cons,
          List.sum_cons]
        omega
    | none =>
      cases hs : n.symlink with
      | some s =>
        simp only []
        obtain ⟨h1, h2, h3, h4⟩ := ih
          { dir with Symlinks := dir.Symlinks ++
            [{ Name := name, Target := s.target,
               NodeProperties := deps.NodePropertiesToAPI n.nodeProperties }] }
          blobs
          { st with stats := { st.stats with InputSymlinks := st.stats.InputSymlinks + 1 } }
        refine ⟨?_, ?_, ?_, ?_⟩
        · rw [h1]; simp [leafBlobs, hf]
        · rw [h2]; simp [fileSysNode.isSymlink, hf, hs]; ring
        · rw [h3]
        · rw [h4]; simp [leafBlobs, hf]
      | none =>
        simp only []
        obtain ⟨h1, h2, h3, h4⟩ := ih dir blobs st
        refine ⟨?_, ?_, ?_, ?_⟩
        · rw [h1]; simp [leafBlobs, hf]
        · rw [h2]; simp [fileSysNode.isSymlink, hf, hs]
        · rw [h3]
        · rw [h4]; simp [leafBlobs, hf]

end Client

namespace Client

/-! ## Counting over a tree -/

theorem flatten_map_nodes {β : Type} (f : treeNode → List β) (cs : List (String × treeNode)) :
    (((cs.map (fun nc => nc.2.nodes)).flatten).map f).flatten =
      (cs.map (fun nc => (nc.2.nodes.map f).flatten)).flatten := by
  induction cs with
  | nil => simp
  | cons nc rest ih =>
    simp only [List.map_cons, List.flatten_cons, List.map_append, List.flatten_append, ih]

theorem treeNode.fileEntries_mk (leaves : List (String × fileSysNode))
    (children : List (String × treeNode)) :
    (treeNode.mk leaves children).fileEntries =
      (leafBlobs leaves).map Prod.snd ++ (children.map (fun nc => nc.2.fileEntries)).flatten := by
  simp only [treeNode.fileEntries, treeNode.nodes_mk, List.map_cons, List.flatten_cons,
    treeNode.leaves]
  rw [flatten_map_nodes]

theorem treeNode.symlinkCount_mk (leaves : List (String × fileSysNode))
    (children : List (String × treeNode)) :
    (treeNode.mk leaves children).symlinkCount =
      (leaves.filter (fun kv => kv.2.isSymlink)).length +
        (children.map (fun nc => nc.2.symlinkCount)).sum := by
  simp only [treeNode.symlinkCount, treeNode.nodes_mk, List.map_cons, List.sum_cons,
    treeNode.leaves]
  congr 1
  induction children with
  | nil => simp
  | cons nc rest ih =>
    simp only [List.map_cons, List.flatten_cons, List.map_append, List.sum_append,
      List.sum_cons, ih]

theorem treeNode.nodes_length_mk (leaves : List (String × fileSysNode))
    (children : List (String × treeNode)) :
    (treeNode.mk leaves children).nodes.length =
      1 + (children.map (fun nc => nc.2.nodes.length)).sum := by
  simp only [treeNode.nodes_mk, List.length_cons, List.length_flatten, List.map_map]
  rw [Nat.add_comm]
  rfl

theorem treeNode.dirDigests_mk (deps : Deps) (leaves : List (String × fileSysNode))
    (children : List (String × treeNode)) :
    (treeNode.mk leaves children).dirDigests deps =
      rootDigest deps (.mk leaves children) ::
        (children.map (fun nc => nc.2.dirDigests deps)).flatten := by
  simp only [treeNode.dirDigests, treeNode.nodes_mk, List.map_cons, List.map_flatten,
    List.map_map]
  rfl

theorem treeNode.totalBytes_mk (deps : Deps) (leaves : List (String × fileSysNode))
    (children : List (String × treeNode)) :
    (treeNode.mk leaves children).totalBytes deps =
      ((leafBlobs leaves).map (fun kv => kv.2.Digest.Size)).sum +
        (rootDigest deps (.mk leaves children)).Size +
        (children.map (fun nc => nc.2.totalBytes deps)).sum := by
  simp only [treeNode.totalBytes, treeNode.fileEntries_mk, treeNode.dirDigests_mk,
    List.map_append, List.sum_append, List.map_cons, List.sum_cons, List.map_map]
  have h : ∀ cs : List (String × treeNode),
      (List.map (fun e => e.Digest.Size)
          (List.map (fun nc => nc.2.fileEntries) cs).flatten).sum +
        (List.map (fun d => d.Size)
          (List.map (fun nc => treeNode.dirDigests deps nc.2) cs).flatten).sum =
      (List.map (fun nc => (List.map (fun e => e.Digest.Size) nc.2.fileEntries).sum +
          (List.map (fun d => d.Size) (treeNode.dirDigests deps nc.2)).sum) cs).sum := by
    intro cs
    induction cs with
    | nil => simp
    | cons nc rest ih =>
      simp only [List.map_cons, List.flatten_cons, List.map_append, List.sum_append,
        List.sum_cons]
      omega
  have := h children
  have e : (List.map ((fun e => e.Digest.Size) ∘ Prod.snd) (leafBlobs leaves)) =
      (List.map (fun kv => kv.2.Digest.Size) (leafBlobs leaves)) := rfl
  rw [e]
  omega

/-! ## The loop over the children and the whole function -/

theorem packageTreeChildren_ok (deps : Deps) (cs : List (String × treeNode))
    (hgood : ∀ nc ∈ cs, nc.2.Good deps)
    (hok : ∀ nc ∈ cs, (packageTreeRes deps nc.2).isOk = true)
    (pfx : String) (dir : Directory) (blobs : List (Digest × Entry)) (st : pkgState) :
    (packageTreeChildren deps pfx cs dir blobs st).1 =
      .ok ({ dir with Directories := dir.Directories ++ childEntries deps cs },
           cs.foldl (fun b nc => mapMerge b (blobsOf deps nc.2)) blobs) ∧
    TreeStats.advanced st.stats (packageTreeChildren deps pfx cs dir blobs st).2.stats
      ((cs.map (fun nc => nc.2.fileEntries.length)).sum)
      ((cs.map (fun nc => nc.2.symlinkCount)).sum)
      ((cs.map (fun nc => nc.2.nodes.length)).sum)
      ((cs.map (fun nc => nc.2.totalBytes deps)).sum) := by
  induction cs generalizing dir blobs st with
  | nil => simp [packageTreeChildren, childEntries, TreeStats.advanced]
  | cons nc rest ih =>
    obtain ⟨name, child⟩ := nc
    have hg := hgood (name, child) (List.mem_cons_self _ _)
    have hk := hok (name, child) (List.mem_cons_self _ _)
    have ih' := ih (fun nc h => hgood nc (List.mem_cons_of_mem _ h))
      (fun nc h => hok nc (List.mem_cons_of_mem _ h))
    rw [packageTreeChildren]
    obtain ⟨h1, h2⟩ := hg st (packageTreePath st.tree pfx name)
    have h2 := h2 hk
    rcases hres : packageTreeRes deps child with e | ⟨dg, cb⟩
    · rw [hres] at hk; simp [Except.isOk, Except.toBool] at hk
    · rcases hpt : packageTree deps child st (packageTreePath st.tree pfx name) with ⟨r, st1⟩
      rw [hpt] at h1 h2
      simp only at h1 h2
      rw [hres] at h1
      subst h1
      simp only
      obtain ⟨i1, i2⟩ := ih'
        { dir with Directories := dir.Directories ++ [{ Name := name, Digest := dg.ToProto }] }
        (mapMerge blobs cb)
        { stats := st1.stats, tree := Option.map (fun m => mapSet m
            (packageTreePath st.tree pfx name) dg) st1.tree }
      refine ⟨?_, ?_⟩
      · rw [i1]
        simp [childEntries, rootDigest, blobsOf, hres]
      · simp only [TreeStats.advanced] at i2 h2 ⊢
        simp only [List.map_cons, List.sum_cons]
        obtain ⟨a1, a2, a3, a4⟩ := i2
        obtain ⟨b1, b2, b3, b4⟩ := h2
        refine ⟨?_, ?_, ?_, ?_⟩
        · rw [a1, b1]; push_cast; ring
        · rw [a2, b2]; push_cast; ring
        · rw [a3, b3]; push_cast; ring
        · rw [a4]; omega

theorem packageTreeChildren_err (deps : Deps) (cs : List (String × treeNode))
    (hgood : ∀ nc ∈ cs, nc.2.Good deps)
    (hbad : ∃ nc ∈ cs, (packageTreeRes deps nc.2).isOk = false)
    (pfx : String) (dir : Directory) (blobs : List (Digest × Entry)) (st : pkgState) :
    ∃ e, (packageTreeChildren deps pfx cs dir blobs st).1 = .error e := by
  induction cs generalizing dir blobs st with
  | nil => obtain ⟨nc, h, _⟩ := hbad; cases h
  | cons nc rest ih =>
    obtain ⟨name, child⟩ := nc
    have hg := hgood (name, child) (List.mem_cons_self _ _)
    rw [packageTreeChildren]
    obtain ⟨h1, -⟩ := hg st (packageTreePath st.tree pfx name)
    rcases hpt : packageTree deps child st (packageTreePath st.tree pfx name) with ⟨r, st1⟩
    rw [hpt] at h1
    simp only at h1
    rcases r with e | ⟨dg, cb⟩
    · exact ⟨e, rfl⟩
    · simp only
      apply ih (fun nc h => hgood nc (List.mem_cons_of_mem _ h))
      obtain ⟨nc, hmem, hnc⟩ := hbad
      rcases List.mem_cons.1 hmem with h | h
      · subst h
        rw [← h1] at hnc
        simp [Except.isOk, Except.toBool] at hnc
      · exact ⟨nc, h, hnc⟩

end Client

namespace Client

theorem packageTreeChildren_indep (deps : Deps) (cs : List (String × treeNode))
    (hgood : ∀ nc ∈ cs, nc.2.Good deps)
    (pfx pfx2 : String) (dir : Directory) (blobs : List (Digest × Entry)) (st st2 : pkgState) :
    (packageTreeChildren deps pfx cs dir blobs st).1 =
      (packageTreeChildren deps pfx2 cs dir blobs st2).1 := by
  induction cs generalizing dir blobs st st2 with
  | nil => simp [packageTreeChildren]
  | cons nc rest ih =>
    obtain ⟨name, child⟩ := nc
    have hg := hgood (name, child) (List.mem_cons_self _ _)
    have ih' := ih (fun nc h => hgood nc (List.mem_cons_of_mem _ h))
    rw [packageTreeChildren, packageTreeChildren]
    obtain ⟨h1, -⟩ := hg st (packageTreePath st.tree pfx name)
    obtain ⟨h2, -⟩ := hg st2 (packageTreePath st2.tree pfx2 name)
    rcases hpt : packageTree deps child st (packageTreePath st.tree pfx name) with ⟨r, s1⟩
    rcases hpt2 : packageTree deps child st2 (packageTreePath st2.tree pfx2 name) with ⟨r2, s2⟩
    rw [hpt] at h1
    rw [hpt2] at h2
    simp only at h1 h2
    rw [← h2] at h1
    subst h1
    rcases r with e | ⟨dg, cb⟩
    · rfl
    · simp only
      exact ih' _ _ _ _

theorem packageTreeSorted_fst (deps : Deps) (pfx : String) (leaves : List (String × fileSysNode))
    (r : Except Err (Directory × List (Digest × Entry))) (st : pkgState) :
    (packageTreeSorted deps pfx leaves (r, st)).1 =
      match r with
      | .error e => .error e
      | .ok (dir, blobs) =>
        .ok ({ Files := sortSlice (fun a b => strLess a.Name b.Name)
                 (dir.Files ++ leafFiles deps leaves)
               Directories := sortSlice (fun a b => strLess a.Name b.Name) dir.Directories
               Symlinks := sortSlice (fun a b => strLess a.Name b.Name)
                 (dir.Symlinks ++ leafSymlinks deps leaves)
               NodeProperties := dir.NodeProperties },
             mapMerge blobs (leafBlobs leaves)) := by
  rcases r with e | ⟨dir, blobs⟩
  · rfl
  · simp only [packageTreeSorted]
    have h1 := packageTreeLeaves_dir deps pfx leaves
      { dir with Directories := sortSlice (fun a b => strLess a.Name b.Name) dir.Directories }
      blobs st
    have h2 := packageTreeLeaves_blobs deps pfx leaves
      { dir with Directories := sortSlice (fun a b => strLess a.Name b.Name) dir.Directories }
      blobs st
    rcases hl : packageTreeLeaves deps pfx leaves
      { dir with Directories := sortSlice (fun a b => strLess a.Name b.Name) dir.Directories }
      blobs st with ⟨d2, b2, s2⟩
    rw [hl] at h1 h2
    simp only at h1 h2
    subst h1 h2
    rfl

theorem packageTreeSorted_stats (deps : Deps) (pfx : String)
    (leaves : List (String × fileSysNode))
    (dir : Directory) (blobs : List (Digest × Entry)) (st : pkgState) :
    TreeStats.advanced st.stats (packageTreeSorted deps pfx leaves (.ok (dir, blobs), st)).2.stats
      (leafBlobs leaves).length (leaves.filter (fun kv => kv.2.isSymlink)).length 0
      (((leafBlobs leaves).map (fun kv => kv.2.Digest.Size)).sum) := by
  simp only [packageTreeSorted]
  have h := packageTreeLeaves_stats deps pfx leaves
      { dir with Directories := sortSlice (fun a b => strLess a.Name b.Name) dir.Directories }
      blobs st
  rcases hl : packageTreeLeaves deps pfx leaves
      { dir with Directories := sortSlice (fun a b => strLess a.Name b.Name) dir.Directories }
      blobs st with ⟨d2, b2, s2⟩
  rw [hl] at h
  simp only at h
  simpa [TreeStats.advanced] using h

theorem packageTreeFinish_fst (deps : Deps) (pfx : String)
    (r : Except Err (Directory × List (Digest × Entry))) (st : pkgState) :
    (packageTreeFinish deps pfx (r, st)).1 =
      match r with
      | .error e => .error e
      | .ok (dir, blobs) =>
        match EntryFromProto deps dir with
        | .error e => .error e
        | .ok ue => .ok (ue.Digest, mapSet blobs ue.Digest ue) := by
  rcases r with e | ⟨dir, blobs⟩
  · rfl
  · simp only [packageTreeFinish]
    cases EntryFromProto deps dir <;> rfl

theorem packageTreeFinish_stats (deps : Deps) (pfx : String)
    (dir : Directory) (blobs : List (Digest × Entry)) (st : pkgState) (ue : Entry)
    (h : EntryFromProto deps dir = .ok ue) :
    (packageTreeFinish deps pfx (.ok (dir, blobs), st)).2.stats =
      { st.stats with
        TotalInputBytes := wrap64 (st.stats.TotalInputBytes + ue.Digest.Size)
        InputDirectories := st.stats.InputDirectories + 1 } := by
  simp only [packageTreeFinish, h]

/-- The blobs that the loop over the children collects: those of every child in turn. -/
theorem childBlobs_keys (deps : Deps) (cs : List (String × treeNode))
    (blobs : List (Digest × Entry)) (d : Digest) :
    d ∈ mapKeys (cs.foldl (fun b nc => mapMerge b (blobsOf deps nc.2)) blobs) ↔
      d ∈ mapKeys blobs ∨ ∃ nc ∈ cs, d ∈ mapKeys (blobsOf deps nc.2) := by
  induction cs generalizing blobs with
  | nil => simp
  | cons nc rest ih =>
    simp only [List.foldl_cons, ih, mem_mapKeys_mapMerge, List.mem_cons, exists_eq_or_imp]
    tauto

theorem packageTreeRes_mk_ok (deps : Deps) (leaves : List (String × fileSysNode))
    (children : List (String × treeNode))
    (hgood : ∀ nc ∈ children, nc.2.Good deps)
    (hok : ∀ nc ∈ children, (packageTreeRes deps nc.2).isOk = true) :
    packageTreeRes deps (.mk leaves children) =
      match EntryFromProto deps (descriptorOf deps (.mk leaves children)) with
      | .error e => .error e
      | .ok ue =>
        .ok (ue.Digest,
          mapSet (mapMerge (children.foldl (fun b nc => mapMerge b (blobsOf deps nc.2)) [])
            (leafBlobs leaves)) ue.Digest ue) := by
  have h := (packageTreeChildren_ok deps children hgood hok "" Directory.empty []
    pkgState.zero).1
  rcases hc : packageTreeChildren deps "" children Directory.empty [] pkgState.zero with ⟨r, s⟩
  rw [hc] at h
  simp only at h
  subst h
  rw [packageTreeRes, packageTree, hc, packageTreeFinish_fst, packageTreeSorted_fst]
  simp only [descriptorOf, Directory.empty, List.nil_append, treeNode.leaves, treeNode.children]

theorem packageTreeRes_mk_err (deps : Deps) (leaves : List (String × fileSysNode))
    (children : List (String × treeNode))
    (hgood : ∀ nc ∈ children, nc.2.Good deps)
    (hbad : ∃ nc ∈ children, (packageTreeRes deps nc.2).isOk = false) :
    ∃ e, packageTreeRes deps (.mk leaves children) = .error e := by
  obtain ⟨e, he⟩ := packageTreeChildren_err deps children hgood hbad "" Directory.empty []
    pkgState.zero
  rcases hc : packageTreeChildren deps "" children Directory.empty [] pkgState.zero with ⟨r, s⟩
  rw [hc] at he
  simp only at he
  subst he
  refine ⟨e, ?_⟩
  rw [packageTreeRes, packageTree, hc, packageTreeFinish_fst, packageTreeSorted_fst]

theorem packageTree_stats_of_children (deps : Deps) (pfx : String)
    (leaves : List (String × fileSysNode)) (dir : Directory) (blobs : List (Digest × Entry))
    (s : pkgState) (ue : Entry)
    (hue : EntryFromProto deps
      { Files := sortSlice (fun a b => strLess a.Name b.Name) (dir.Files ++ leafFiles deps leaves)
        Directories := sortSlice (fun a b => strLess a.Name b.Name) dir.Directories
        Symlinks := sortSlice (fun a b => strLess a.Name b.Name)
          (dir.Symlinks ++ leafSymlinks deps leaves)
        NodeProperties := dir.NodeProperties } = .ok ue) :
    TreeStats.advanced s.stats
      (packageTreeFinish deps pfx (packageTreeSorted deps pfx leaves (.ok (dir, blobs), s))).2.stats
      (leafBlobs leaves).length (leaves.filter (fun kv => kv.2.isSymlink)).length 1
      (((leafBlobs leaves).map (fun kv => kv.2.Digest.Size)).sum + ue.Digest.Size) := by
  have h3 := packageTreeSorted_stats deps pfx leaves dir blobs s
  have h4 := packageTreeSorted_fst deps pfx leaves (.ok (dir, blobs)) s
  rcases hs : packageTreeSorted deps pfx leaves (.ok (dir, blobs), s) with ⟨r3, s3⟩
  rw [hs] at h3 h4
  simp only at h3 h4
  subst h4
  rw [packageTreeFinish_stats deps pfx _ _ s3 ue hue]
  simp only [TreeStats.advanced] at h3 ⊢
  obtain ⟨b1, b2, b3, b4⟩ := h3
  have hw := wrap64_emod (s3.stats.TotalInputBytes + ue.Digest.Size)
  refine ⟨b1, b2, ?_, ?_⟩
  · rw [b3]; push_cast; ring
  · omega

theorem treeNode.good (deps : Deps) : ∀ t : treeNode, t.Good deps := by
  apply treeNode.induct_aux
  intro leaves children hgood st pfx
  have hind := packageTreeChildren_indep deps children hgood pfx "" Directory.empty [] st
    pkgState.zero
  refine ⟨?_, ?_⟩
  · rw [packageTreeRes, packageTree, packageTree]
    rcases hc : packageTreeChildren deps pfx children Directory.empty [] st with ⟨r, s⟩
    rcases hc2 : packageTreeChildren deps "" children Directory.empty [] pkgState.zero
      with ⟨r2, s2⟩
    rw [hc, hc2] at hind
    simp only at hind
    subst hind
    rw [packageTreeFinish_fst, packageTreeSorted_fst, packageTreeFinish_fst,
      packageTreeSorted_fst]
  · intro hok
    by_cases hall : ∀ nc ∈ children, (packageTreeRes deps nc.2).isOk = true
    · have hres := packageTreeRes_mk_ok deps leaves children hgood hall
      obtain ⟨h1, h2⟩ := packageTreeChildren_ok deps children hgood hall pfx Directory.empty []
        st
      rcases hc : packageTreeChildren deps pfx children Directory.empty [] st with ⟨r, s⟩
      rw [hc] at h1 h2
      simp only at h1 h2
      subst h1
      rcases hue : EntryFromProto deps (descriptorOf deps (.mk leaves children)) with e | ue
      · rw [hres, hue] at hok
        simp [Except.isOk, Except.toBool] at hok
      · have hrd : rootDigest deps (.mk leaves children) = ue.Digest := by
          simp only [rootDigest, hres, hue]
        rw [packageTree, hc]
        have key := packageTree_stats_of_children deps pfx leaves
          ⟨Directory.empty.Files, Directory.empty.Directories ++ childEntries deps children,
            Directory.empty.Symlinks, Directory.empty.NodeProperties⟩
          (List.foldl (fun b nc => mapMerge b (blobsOf deps nc.2)) [] children) s ue hue
        simp only [TreeStats.advanced] at h2 key ⊢
        rw [treeNode.fileEntries_mk, treeNode.symlinkCount_mk, treeNode.nodes_length_mk,
          treeNode.totalBytes_mk, hrd]
        obtain ⟨a1, a2, a3, a4⟩ := h2
        obtain ⟨b1, b2, b3, b4⟩ := key
        simp only [List.length_append, List.length_map, List.length_flatten, List.map_map]
        refine ⟨?_, ?_, ?_, ?_⟩
        · rw [b1, a1]; push_cast; simp only [Function.comp_def]; ring
        · rw [b2, a2]; push_cast; ring
        · rw [b3, a3]; push_cast; ring
        · omega
    · exfalso
      have hbad : ∃ nc ∈ children, (packageTreeRes deps nc.2).isOk = false := by
        by_contra hcon
        apply hall
        intro nc hnc
        by_contra h
        exact hcon ⟨nc, hnc, by simpa using h⟩
      obtain ⟨e, he⟩ := packageTreeRes_mk_err deps leaves children hgood hbad
      rw [he] at hok
      simp [Except.isOk, Except.toBool] at hok

end Client

namespace Client

theorem packageTree_fst (deps : Deps) (t : treeNode) (st : pkgState) (pfx : String) :
    (packageTree deps t st pfx).1 = packageTreeRes deps t :=
  (treeNode.good deps t st pfx).1

theorem packageTreeRes_children_ok (deps : Deps) (leaves : List (String × fileSysNode))
    (children : List (String × treeNode))
    (hok : (packageTreeRes deps (.mk leaves children)).isOk = true) :
    ∀ nc ∈ children, (packageTreeRes deps nc.2).isOk = true := by
  by_contra hcon
  have hbad : ∃ nc ∈ children, (packageTreeRes deps nc.2).isOk = false := by
    by_contra hcon2
    apply hcon
    intro nc hnc
    by_contra h
    exact hcon2 ⟨nc, hnc, by simpa using h⟩
  obtain ⟨e, he⟩ := packageTreeRes_mk_err deps leaves children
    (fun nc _ => treeNode.good deps nc.2) hbad
  rw [he] at hok
  simp [Except.isOk, Except.toBool] at hok

theorem packageTreeRes_mk (deps : Deps) (leaves : List (String × fileSysNode))
    (children : List (String × treeNode))
    (hok : ∀ nc ∈ children, (packageTreeRes deps nc.2).isOk = true) :
    packageTreeRes deps (.mk leaves children) =
      match EntryFromProto deps (descriptorOf deps (.mk leaves children)) with
      | .error e => .error e
      | .ok ue =>
        .ok (ue.Digest,
          mapSet (mapMerge (children.foldl (fun b nc => mapMerge b (blobsOf deps nc.2)) [])
            (leafBlobs leaves)) ue.Digest ue) :=
  packageTreeRes_mk_ok deps leaves children (fun nc _ => treeNode.good deps nc.2) hok

theorem packageTreeRes_isOk_mk (deps : Deps) (leaves : List (String × fileSysNode))
    (children : List (String × treeNode)) :
    (packageTreeRes deps (.mk leaves children)).isOk = true ↔
      (∀ nc ∈ children, (packageTreeRes deps nc.2).isOk = true) ∧
      (EntryFromProto deps (descriptorOf deps (.mk leaves children))).isOk = true := by
  constructor
  · intro hok
    have hall := packageTreeRes_children_ok deps leaves children hok
    refine ⟨hall, ?_⟩
    rw [packageTreeRes_mk deps leaves children hall] at hok
    cases h : EntryFromProto deps (descriptorOf deps (.mk leaves children)) with
    | error e => rw [h] at hok; simp [Except.isOk, Except.toBool] at hok
    | ok ue => simp [Except.isOk, Except.toBool]
  · rintro ⟨hall, hue⟩
    rw [packageTreeRes_mk deps leaves children hall]
    cases h : EntryFromProto deps (descriptorOf deps (.mk leaves children)) with
    | error e => rw [h] at hue; simp [Except.isOk, Except.toBool] at hue
    | ok ue => simp [Except.isOk, Except.toBool]

theorem rootDigest_of_ok (deps : Deps) (t : treeNode) (dg : Digest)
    (blobs : List (Digest × Entry)) (h : packageTreeRes deps t = .ok (dg, blobs)) :
    rootDigest deps t = dg ∧ blobsOf deps t = blobs := by
  simp [rootDigest, blobsOf, h]

theorem packageTree_total (deps : Deps) (t : treeNode) (st : pkgState) (pfx : String)
    (hok : (packageTreeRes deps t).isOk = true) :
    (packageTree deps t st pfx).2.stats.TotalInputBytes =
      wrap64 (st.stats.TotalInputBytes + t.totalBytes deps) := by
  have hg := (treeNode.good deps t st pfx).2 hok
  have hfst := packageTree_fst deps t st pfx
  obtain ⟨leaves, children⟩ := t
  rw [packageTree] at hfst hg ⊢
  rcases hs : packageTreeSorted deps pfx leaves
    (packageTreeChildren deps pfx children Directory.empty [] st) with ⟨r, s3⟩
  rw [hs] at hfst hg
  rw [packageTreeFinish_fst] at hfst
  rcases r with e | ⟨dir, blobs⟩
  · simp only at hfst
    rw [← hfst] at hok
    simp [Except.isOk, Except.toBool] at hok
  · simp only at hfst
    cases hue : EntryFromProto deps dir with
    | error e =>
      rw [hue] at hfst
      simp only at hfst
      rw [← hfst] at hok
      simp [Except.isOk, Except.toBool] at hok
    | ok ue =>
      rw [packageTreeFinish_stats deps pfx dir blobs s3 ue hue] at hg ⊢
      simp only [TreeStats.advanced] at hg
      obtain ⟨-, -, -, h4⟩ := hg
      simp only
      have h5 := wrap64_emod (s3.stats.TotalInputBytes + ue.Digest.Size)
      apply wrap64_congr
      omega

/-! ## The blobs -/

theorem mem_childBlobs (deps : Deps) (cs : List (String × treeNode))
    (blobs : List (Digest × Entry)) (kv : Digest × Entry)
    (h : kv ∈ cs.foldl (fun b nc => mapMerge b (blobsOf deps nc.2)) blobs) :
    kv ∈ blobs ∨ ∃ nc ∈ cs, kv ∈ blobsOf deps nc.2 := by
  induction cs generalizing blobs with
  | nil => exact Or.inl (by simpa using h)
  | cons nc rest ih =>
    simp only [List.foldl_cons] at h
    rcases ih _ h with h1 | ⟨nc2, h2, h3⟩
    · rcases mem_mapMerge _ _ _ h1 with h4 | h4
      · exact Or.inl h4
      · exact Or.inr ⟨nc, List.mem_cons_self _ _, h4⟩
    · exact Or.inr ⟨nc2, List.mem_cons_of_mem _ h2, h3⟩

theorem childBlobs_nodup (deps : Deps) (cs : List (String × treeNode))
    (blobs : List (Digest × Entry)) (h : (mapKeys blobs).Nodup) :
    (mapKeys (cs.foldl (fun b nc => mapMerge b (blobsOf deps nc.2)) blobs)).Nodup := by
  induction cs generalizing blobs with
  | nil => simpa using h
  | cons nc rest ih =>
    simp only [List.foldl_cons]
    exact ih _ (mapKeys_mapMerge_nodup _ _ h)

theorem leafBlobs_digest (leaves : List (String × fileSysNode)) :
    ∀ kv ∈ leafBlobs leaves, kv.2.Digest = kv.1 := by
  intro kv h
  simp only [leafBlobs, List.mem_filterMap, Option.map_eq_some'] at h
  obtain ⟨a, -, f, -, rfl⟩ := h
  rfl

theorem leafBlobs_keys (leaves : List (String × fileSysNode)) :
    mapKeys (leafBlobs leaves) = ((leafBlobs leaves).map Prod.snd).map (fun e => e.Digest) := by
  simp only [mapKeys, List.map_map]
  apply List.map_congr_left
  intro kv h
  exact (leafBlobs_digest leaves kv h).symm

/-- The blob map of a node holds the digests of the file leaves and of the descriptors of the
tree, each entry under its own digest and each digest once. -/
theorem packageTreeRes_blobs (deps : Deps) : ∀ t : treeNode, ∀ dg blobs,
    packageTreeRes deps t = .ok (dg, blobs) →
      (∀ d, d ∈ mapKeys blobs ↔
        d ∈ t.fileEntries.map (fun e => e.Digest) ∨ d ∈ t.dirDigests deps) ∧
      (∀ kv ∈ blobs, kv.2.Digest = kv.1) ∧ (mapKeys blobs).Nodup := by
  apply treeNode.induct_aux
  intro leaves children ih dg blobs hres
  have hok : (packageTreeRes deps (.mk leaves children)).isOk = true := by
    rw [hres]; rfl
  have hall := packageTreeRes_children_ok deps leaves children hok
  have hrd := (rootDigest_of_ok deps _ dg blobs hres).1
  rw [packageTreeRes_mk deps leaves children hall] at hres
  cases hue : EntryFromProto deps (descriptorOf deps (.mk leaves children)) with
  | error e => rw [hue] at hres; cases hres
  | ok ue =>
    rw [hue] at hres
    simp only [Except.ok.injEq, Prod.mk.injEq] at hres
    obtain ⟨hdg, hb⟩ := hres
    subst hb
    have hueD : ue.Digest = ue.Digest := rfl
    have hchild : ∀ nc ∈ children, ∃ dg2, packageTreeRes deps nc.2 = .ok (dg2, blobsOf deps nc.2) := by
      intro nc hnc
      have := hall nc hnc
      cases h : packageTreeRes deps nc.2 with
      | error e => rw [h] at this; simp [Except.isOk, Except.toBool] at this
      | ok r =>
        obtain ⟨dg2, b2⟩ := r
        exact ⟨dg2, by rw [(rootDigest_of_ok deps _ dg2 b2 h).2]⟩
    refine ⟨?_, ?_, ?_⟩
    · intro d
      rw [mem_mapKeys_mapSet, mem_mapKeys_mapMerge, childBlobs_keys, treeNode.fileEntries_mk,
        treeNode.dirDigests_mk, hrd, ← hdg, leafBlobs_keys]
      simp only [mapKeys, List.map_nil, List.not_mem_nil, false_or, List.map_append,
        List.mem_append, List.mem_cons, List.map_flatten, List.mem_flatten, List.mem_map,
        List.map_map]
      constructor
      · rintro (h | ⟨nc, hnc, h⟩ | h)
        · exact Or.inr (Or.inl h)
        · obtain ⟨dg2, hr⟩ := hchild nc hnc
          have := ((ih nc hnc dg2 _ hr).1 d).1 (by simpa [mapKeys] using h)
          rcases this with h1 | h1
          · refine Or.inl (Or.inr ⟨_, ⟨nc, hnc, rfl⟩, ?_⟩)
            simpa using h1
          · exact Or.inr (Or.inr ⟨_, ⟨nc, hnc, rfl⟩, h1⟩)
        · exact Or.inl (Or.inl h)
      · rintro ((h | ⟨l, ⟨nc, hnc, rfl⟩, h⟩) | h | ⟨l, ⟨nc, hnc, rfl⟩, h⟩)
        · exact Or.inr (Or.inr h)
        · obtain ⟨dg2, hr⟩ := hchild nc hnc
          have := ((ih nc hnc dg2 _ hr).1 d).2 (Or.inl (by simpa using h))
          exact Or.inr (Or.inl ⟨nc, hnc, by simpa [mapKeys] using this⟩)
        · exact Or.inl h
        · obtain ⟨dg2, hr⟩ := hchild nc hnc
          have := ((ih nc hnc dg2 _ hr).1 d).2 (Or.inr h)
          exact Or.inr (Or.inl ⟨nc, hnc, by simpa [mapKeys] using this⟩)
    · intro kv hkv
      rcases mem_mapSet _ _ _ _ hkv with h | h
      · rw [h]
      · rcases mem_mapMerge _ _ _ h with h1 | h1
        · rcases mem_childBlobs deps children [] kv h1 with h2 | ⟨nc, hnc, h2⟩
          · cases h2
          · obtain ⟨dg2, hr⟩ := hchild nc hnc
            exact (ih nc hnc dg2 _ hr).2.1 kv h2
        · exact leafBlobs_digest leaves kv h1
    · apply mapKeys_mapSet_nodup
      apply mapKeys_mapMerge_nodup
      apply childBlobs_nodup
      simp [mapKeys]

end Client

namespace Client

/-! ## The descriptor of a node -/

theorem leafFiles_names_sublist (deps : Deps) (leaves : List (String × fileSysNode)) :
    ((leafFiles deps leaves).map (fun f => f.Name)).Sublist (mapKeys leaves) := by
  induction leaves with
  | nil => simp [leafFiles, mapKeys]
  | cons kv rest ih =>
    simp only [leafFiles, mapKeys, List.map_cons] at ih ⊢
    rw [List.filterMap_cons]
    cases hf : kv.2.file with
    | none => simpa [hf] using List.Sublist.cons _ ih
    | some f => simpa [hf] using List.Sublist.cons₂ kv.1 ih

theorem leafSymlinks_names_sublist (deps : Deps) (leaves : List (String × fileSysNode)) :
    ((leafSymlinks deps leaves).map (fun f => f.Name)).Sublist (mapKeys leaves) := by
  induction leaves with
  | nil => simp [leafSymlinks, mapKeys]
  | cons kv rest ih =>
    simp only [leafSymlinks, mapKeys, List.map_cons] at ih ⊢
    rw [List.filterMap_cons]
    cases hf : kv.2.file with
    | some f => simpa [hf] using List.Sublist.cons _ ih
    | none =>
      cases hs : kv.2.symlink with
      | none => simpa [hf, hs] using List.Sublist.cons _ ih
      | some s => simpa [hf, hs] using List.Sublist.cons₂ kv.1 ih

theorem childEntries_names (deps : Deps) (children : List (String × treeNode)) :
    (childEntries deps children).map (fun d => d.Name) = mapKeys children := by
  simp [childEntries, mapKeys]

theorem leaf_names_disjoint (deps : Deps) (leaves : List (String × fileSysNode))
    (hnd : (mapKeys leaves).Nodup) :
    ∀ f ∈ leafFiles deps leaves, ∀ s ∈ leafSymlinks deps leaves, f.Name ≠ s.Name := by
  intro f hf s hs heq
  simp only [leafFiles, List.mem_filterMap, Option.map_eq_some'] at hf
  simp only [leafSymlinks, List.mem_filterMap] at hs
  obtain ⟨kv1, hm1, f1, hf1, rfl⟩ := hf
  obtain ⟨kv2, hm2, h2⟩ := hs
  cases hfile : kv2.2.file with
  | some f2 => rw [hfile] at h2; cases h2
  | none =>
    rw [hfile] at h2
    simp only [Option.map_eq_some'] at h2
    obtain ⟨s2, hs2, rfl⟩ := h2
    simp only at heq
    have h1 := mapGet_eq_some_of_mem leaves kv1.1 kv1.2 hnd hm1
    have h3 := mapGet_eq_some_of_mem leaves kv2.1 kv2.2 hnd hm2
    rw [heq, h3] at h1
    have h4 : kv2.2 = kv1.2 := Option.some.inj h1
    rw [h4, hf1] at hfile
    cases hfile

/-- The three lists of the descriptor of a node of a tree of maps are strictly ascending by
name. -/
theorem descriptorOf_sorted (deps : Deps) (t : treeNode)
    (hl : (mapKeys t.leaves).Nodup) (hc : (mapKeys t.children).Nodup) :
    (descriptorOf deps t).Files.Pairwise (fun a b => a.Name < b.Name) ∧
    (descriptorOf deps t).Directories.Pairwise (fun a b => a.Name < b.Name) ∧
    (descriptorOf deps t).Symlinks.Pairwise (fun a b => a.Name < b.Name) := by
  refine ⟨?_, ?_, ?_⟩
  · exact sortSlice_pairwise (fun f : FileNode => f.Name) _
      ((leafFiles_names_sublist deps t.leaves).nodup hl)
  · exact sortSlice_pairwise (fun f : DirectoryNode => f.Name) _
      (by rw [childEntries_names]; exact hc)
  · exact sortSlice_pairwise (fun f : SymlinkNode => f.Name) _
      ((leafSymlinks_names_sublist deps t.leaves).nodup hl)

/-- The descriptor that `packageTree` has built for a node is the descriptor of the node, and
the blobs collected with it are those of the children and the leaves. -/
theorem packageTreeDir_ok (deps : Deps) (t : treeNode) (st : pkgState) (pfx : String)
    (dir : Directory) (blobs : List (Digest × Entry)) (st2 : pkgState)
    (h : packageTreeDir deps t st pfx = (.ok (dir, blobs), st2)) :
    dir = descriptorOf deps t ∧ ∀ nc ∈ t.children, (packageTreeRes deps nc.2).isOk = true := by
  obtain ⟨leaves, children⟩ := t
  simp only [packageTreeDir, treeNode.leaves, treeNode.children] at h ⊢
  by_cases hall : ∀ nc ∈ children, (packageTreeRes deps nc.2).isOk = true
  · refine ⟨?_, hall⟩
    have h1 := (packageTreeChildren_ok deps children (fun nc _ => treeNode.good deps nc.2) hall
      pfx Directory.empty [] st).1
    rcases hc : packageTreeChildren deps pfx children Directory.empty [] st with ⟨r, s⟩
    rw [hc] at h1 h
    simp only at h1
    subst h1
    have h2 := packageTreeSorted_fst deps pfx leaves
      (.ok ({ Directory.empty with
        Directories := Directory.empty.Directories ++ childEntries deps children },
        List.foldl (fun b nc => mapMerge b (blobsOf deps nc.2)) [] children)) s
    rw [h] at h2
    simp only [Except.ok.injEq, Prod.mk.injEq] at h2
    rw [h2.1]
    rfl
  · exfalso
    have hbad : ∃ nc ∈ children, (packageTreeRes deps nc.2).isOk = false := by
      by_contra hcon
      apply hall
      intro nc hnc
      by_contra h
      exact hcon ⟨nc, hnc, by simpa using h⟩
    obtain ⟨e, he⟩ := packageTreeChildren_err deps children
      (fun nc _ => treeNode.good deps nc.2) hbad pfx Directory.empty [] st
    rcases hc : packageTreeChildren deps pfx children Directory.empty [] st with ⟨r, s⟩
    rw [hc] at he h
    simp only at he
    subst he
    simp [packageTreeSorted] at h

/-- When `packageTree` succeeds on a node, its digest is the digest of the serialized
descriptor of the node. -/
theorem packageTreeRes_digest (deps : Deps) (t : treeNode) (dg : Digest)
    (blobs : List (Digest × Entry)) (h : packageTreeRes deps t = .ok (dg, blobs)) :
    ∃ ue, EntryFromProto deps (descriptorOf deps t) = .ok ue ∧ dg = ue.Digest ∧
      mapGet blobs dg = some ue := by
  obtain ⟨leaves, children⟩ := t
  have hok : (packageTreeRes deps (.mk leaves children)).isOk = true := by rw [h]; rfl
  have hall := packageTreeRes_children_ok deps leaves children hok
  rw [packageTreeRes_mk deps leaves children hall] at h
  cases hue : EntryFromProto deps (descriptorOf deps (.mk leaves children)) with
  | error e => rw [hue] at h; cases h
  | ok ue =>
    rw [hue] at h
    simp only [Except.ok.injEq, Prod.mk.injEq] at h
    refine ⟨ue, rfl, h.1.symm, ?_⟩
    rw [← h.2, ← h.1, mapGet_mapSet]
    simp

end Client

namespace Client

/-! ## Reordered trees -/

theorem childrenReordered_iff (c1 cs : List (String × treeNode)) :
    childrenReordered c1 cs ↔
      List.Forall₂ (fun a b => a.1 = b.1 ∧ a.2.Reordered b.2) c1 cs := by
  induction c1 generalizing cs with
  | nil =>
    cases cs <;> simp [childrenReordered]
  | cons nc rest ih =>
    obtain ⟨n, c⟩ := nc
    cases cs with
    | nil => simp [childrenReordered]
    | cons nc2 rest2 =>
      obtain ⟨n2, c2⟩ := nc2
      simp [childrenReordered, ih, and_assoc]

theorem rootDigest_eq (deps : Deps) (t : treeNode) :
    rootDigest deps t =
      if (packageTreeRes deps t).isOk = true then
        match EntryFromProto deps (descriptorOf deps t) with
        | .ok ue => ue.Digest
        | .error _ => Digest.Empty
      else Digest.Empty := by
  cases h : packageTreeRes deps t with
  | error e => simp [rootDigest, h, Except.isOk, Except.toBool]
  | ok r =>
    obtain ⟨dg, blobs⟩ := r
    obtain ⟨ue, h1, h2, -⟩ := packageTreeRes_digest deps t dg blobs h
    simp [rootDigest, h, Except.isOk, Except.toBool, h1, h2]

theorem same_lists (deps : Deps) (c1 cs : List (String × treeNode))
    (h : List.Forall₂ (fun a b => a.1 = b.1 ∧ a.2.Same deps b.2) c1 cs) :
    childEntries deps c1 = childEntries deps cs ∧
    ((∀ nc ∈ c1, (packageTreeRes deps nc.2).isOk = true) ↔
      (∀ nc ∈ cs, (packageTreeRes deps nc.2).isOk = true)) ∧
    ((c1.map (fun nc => nc.2.fileEntries)).flatten.Perm
      (cs.map (fun nc => nc.2.fileEntries)).flatten) ∧
    (c1.map (fun nc => nc.2.symlinkCount)).sum = (cs.map (fun nc => nc.2.symlinkCount)).sum ∧
    (c1.map (fun nc => nc.2.nodes.length)).sum = (cs.map (fun nc => nc.2.nodes.length)).sum ∧
    ((c1.map (fun nc => nc.2.dirDigests deps)).flatten.Perm
      (cs.map (fun nc => nc.2.dirDigests deps)).flatten) := by
  induction h with
  | nil => simp [childEntries]
  | @cons a b l1 l2 hab _ ih =>
    obtain ⟨hn, h1, h2, h3, h4, h5, h6⟩ := hab
    obtain ⟨i1, i2, i3, i4, i5, i6⟩ := ih
    refine ⟨?_, ?_, ?_, ?_, ?_, ?_⟩
    · simp only [childEntries, List.map_cons] at i1 ⊢
      rw [i1, hn, h2]
    · simp only [List.mem_cons, forall_eq_or_imp, h1, i2]
    · simp only [List.map_cons, List.flatten_cons]
      exact h3.append i3
    · simp only [List.map_cons, List.sum_cons, h4, i4]
    · simp only [List.map_cons, List.sum_cons, h5, i5]
    · simp only [List.map_cons, List.flatten_cons]
      exact h6.append i6

theorem perm_lists (deps : Deps) (cs c2 : List (String × treeNode)) (h : cs.Perm c2) :
    (childEntries deps cs).Perm (childEntries deps c2) ∧
    ((∀ nc ∈ cs, (packageTreeRes deps nc.2).isOk = true) ↔
      (∀ nc ∈ c2, (packageTreeRes deps nc.2).isOk = true)) ∧
    ((cs.map (fun nc => nc.2.fileEntries)).flatten.Perm
      (c2.map (fun nc => nc.2.fileEntries)).flatten) ∧
    (cs.map (fun nc => nc.2.symlinkCount)).sum = (c2.map (fun nc => nc.2.symlinkCount)).sum ∧
    (cs.map (fun nc => nc.2.nodes.length)).sum = (c2.map (fun nc => nc.2.nodes.length)).sum ∧
    ((cs.map (fun nc => nc.2.dirDigests deps)).flatten.Perm
      (c2.map (fun nc => nc.2.dirDigests deps)).flatten) := by
  refine ⟨h.map _, ?_, (h.map _).flatten, (h.map _).sum_eq, (h.map _).sum_eq, (h.map _).flatten⟩
  constructor
  · intro h1 nc hnc
    exact h1 nc (h.mem_iff.2 hnc)
  · intro h1 nc hnc
    exact h1 nc (h.mem_iff.1 hnc)

theorem descriptorOf_congr (deps : Deps) (l1 l2 : List (String × fileSysNode))
    (c1 c2 : List (String × treeNode)) (hl : l1.Perm l2)
    (hc : (childEntries deps c1).Perm (childEntries deps c2))
    (hnl : (mapKeys l1).Nodup) (hnc : (mapKeys c1).Nodup) :
    descriptorOf deps (.mk l1 c1) = descriptorOf deps (.mk l2 c2) := by
  simp only [descriptorOf, treeNode.leaves, treeNode.children]
  have h1 : sortSlice (fun a b : FileNode => strLess a.Name b.Name) (leafFiles deps l1) =
      sortSlice (fun a b : FileNode => strLess a.Name b.Name) (leafFiles deps l2) :=
    sortSlice_eq_of_perm (fun f : FileNode => f.Name) _ _
      (hl.filterMap _ : (leafFiles deps l1).Perm (leafFiles deps l2))
      ((leafFiles_names_sublist deps l1).nodup hnl)
  have h2 : sortSlice (fun a b : DirectoryNode => strLess a.Name b.Name) (childEntries deps c1) =
      sortSlice (fun a b : DirectoryNode => strLess a.Name b.Name) (childEntries deps c2) :=
    sortSlice_eq_of_perm (fun f : DirectoryNode => f.Name) _ _ hc
      (by rw [childEntries_names]; exact hnc)
  have h3 : sortSlice (fun a b : SymlinkNode => strLess a.Name b.Name) (leafSymlinks deps l1) =
      sortSlice (fun a b : SymlinkNode => strLess a.Name b.Name) (leafSymlinks deps l2) :=
    sortSlice_eq_of_perm (fun f : SymlinkNode => f.Name) _ _
      (hl.filterMap _ : (leafSymlinks deps l1).Perm (leafSymlinks deps l2))
      ((leafSymlinks_names_sublist deps l1).nodup hnl)
  rw [h1, h2, h3]

theorem reordered_same (deps : Deps) :
    ∀ t1 : treeNode, t1.WF → ∀ t2, t1.Reordered t2 → t1.Same deps t2 := by
  apply treeNode.induct_aux
  intro l1 c1 ih hwf t2 hre
  obtain ⟨l2, c2⟩ := t2
  rw [treeNode.WF_mk] at hwf
  obtain ⟨hnl, hnc, hwc⟩ := hwf
  rw [treeNode.Reordered] at hre
  simp only [treeNode.leaves, treeNode.children] at hre
  obtain ⟨hl, cs, hcs, hcr⟩ := hre
  rw [childrenReordered_iff] at hcr
  have hf : List.Forall₂ (fun a b => a.1 = b.1 ∧ a.2.Same deps b.2) c1 cs := by
    clear hcs hnc
    induction hcr with
    | nil => exact List.Forall₂.nil
    | @cons a b la lb hab _ ih2 =>
      refine List.Forall₂.cons ⟨hab.1, ?_⟩ ?_
      · exact ih a (List.mem_cons_self _ _) (hwc a (List.mem_cons_self _ _)) b.2 hab.2
      · exact ih2 (fun nc h => ih nc (List.mem_cons_of_mem _ h))
          (fun nc h => hwc nc (List.mem_cons_of_mem _ h))
  obtain ⟨s1, s2, s3, s4, s5, s6⟩ := same_lists deps c1 cs hf
  obtain ⟨p1, p2, p3, p4, p5, p6⟩ := perm_lists deps cs c2 hcs
  have hd : descriptorOf deps (.mk l1 c1) = descriptorOf deps (.mk l2 c2) :=
    descriptorOf_congr deps l1 l2 c1 c2 hl (s1 ▸ p1) hnl hnc
  have hok : (packageTreeRes deps (.mk l1 c1)).isOk = (packageTreeRes deps (.mk l2 c2)).isOk := by
    rw [Bool.eq_iff_iff, packageTreeRes_isOk_mk, packageTreeRes_isOk_mk, hd, s2, p2]
  have hrd : rootDigest deps (.mk l1 c1) = rootDigest deps (.mk l2 c2) := by
    rw [rootDigest_eq, rootDigest_eq, hd, hok]
  refine ⟨hok, hrd, ?_, ?_, ?_, ?_⟩
  · rw [treeNode.fileEntries_mk, treeNode.fileEntries_mk]
    exact ((hl.filterMap _).map _).append (s3.trans p3)
  · rw [treeNode.symlinkCount_mk, treeNode.symlinkCount_mk, s4, p4, (hl.filter _).length_eq]
  · rw [treeNode.nodes_length_mk, treeNode.nodes_length_mk, s5, p5]
  · rw [treeNode.dirDigests_mk, treeNode.dirDigests_mk, hrd]
    exact List.Perm.cons _ (s6.trans p6)

end Client

namespace Client

/-! ## The output packager -/

theorem packageDirectoriesChild_eq (deps : Deps) (name : String)
    (children : List (String × treeNode)) :
    packageDirectoriesChild deps name children =
      match mapGet children name with
      | some c => packageDirectories deps c
      | none => .error .nilNode := by
  induction children with
  | nil => simp [packageDirectoriesChild, mapGet]
  | cons nc rest ih =>
    obtain ⟨n, c⟩ := nc
    rw [packageDirectoriesChild]
    by_cases h : n = name
    · simp [h, mapGet]
    · simp [h, mapGet, ih]

theorem packageDirectoriesLeaves_eq (deps : Deps) (leaves : List (String × fileSysNode))
    (root : Directory) (files : List (Digest × Entry)) :
    packageDirectoriesLeaves deps leaves root files =
      ({ root with Files := root.Files ++ leafFiles deps leaves
                   Symlinks := root.Symlinks ++ leafSymlinks deps leaves },
       mapMerge files (leafBlobs leaves)) := by
  induction leaves generalizing root files with
  | nil => simp [packageDirectoriesLeaves, leafFiles, leafSymlinks, leafBlobs, mapMerge]
  | cons kv rest ih =>
    obtain ⟨name, n⟩ := kv
    simp only [packageDirectoriesLeaves]
    cases hf : n.file with
    | some f =>
      simp only [ih]
      simp [leafFiles, leafSymlinks, leafBlobs, mapMerge, hf]
    | none =>
      cases hs : n.symlink with
      | some s =>
        simp only [ih]
        simp [leafFiles, leafSymlinks, leafBlobs, mapMerge, hf, hs]
      | none =>
        simp only [ih]
        simp [leafFiles, leafSymlinks, leafBlobs, mapMerge, hf, hs]

theorem packageDirectories_fold_error (deps : Deps) (children : List (String × treeNode))
    (names : List String) (e : Err) :
    names.foldl (fun acc name =>
        packageDirectoriesStep deps name acc (packageDirectoriesChild deps name children))
      (.error e) = .error e := by
  induction names with
  | nil => rfl
  | cons n rest ih => simpa [List.foldl_cons, packageDirectoriesStep] using ih

theorem packageDirectoriesStep_good (deps : Deps) (children : List (String × treeNode))
    (name : String) (c : treeNode) (hget : mapGet children name = some c) (hg : pdGood deps c)
    (root : Directory) (files : List (Digest × Entry)) (treePb : Tree) :
    packageDirectoriesStep deps name (.ok (root, files, treePb))
        (packageDirectoriesChild deps name children) =
      .ok ({ root with Directories := root.Directories ++
              [{ Name := name, Digest := (pdDigest deps c).ToProto }] },
           mapMerge files (pdFiles deps c),
           { treePb with Children := (treePb.Children ++ [pdRoot deps c]) ++ pdChildren deps c }) := by
  rw [packageDirectoriesChild_eq, hget]
  obtain ⟨h1, h2⟩ := hg
  simp only [pdDigest, pdFiles, pdChildren]
  simp only [pdRoot] at h2 ⊢
  cases hpd : packageDirectories deps c with
  | error e => rw [hpd] at h1; simp [Except.isOk, Except.toBool] at h1
  | ok r =>
    obtain ⟨chRoot, childFiles, chTree⟩ := r
    rw [hpd] at h2
    simp only at h2 ⊢
    cases hue : EntryFromProto deps chRoot with
    | error e => rw [hue] at h2; simp [Except.isOk, Except.toBool] at h2
    | ok ue => simp [packageDirectoriesStep, hue]

theorem packageDirectoriesStep_bad (deps : Deps) (children : List (String × treeNode))
    (name : String) (c : treeNode) (hget : mapGet children name = some c) (hg : ¬ pdGood deps c)
    (acc : Except Err (Directory × List (Digest × Entry) × Tree)) :
    ∃ e, packageDirectoriesStep deps name acc
        (packageDirectoriesChild deps name children) = .error e := by
  rw [packageDirectoriesChild_eq, hget]
  simp only
  rcases acc with e | ⟨root, files, treePb⟩
  · exact ⟨e, rfl⟩
  · simp only [pdGood, pdRoot] at hg
    cases hpd : packageDirectories deps c with
    | error e => exact ⟨e, rfl⟩
    | ok r =>
      obtain ⟨chRoot, childFiles, chTree⟩ := r
      rw [hpd] at hg
      simp only at hg
      cases hue : EntryFromProto deps chRoot with
      | error e => exact ⟨e, by simp [packageDirectoriesStep, hue]⟩
      | ok ue =>
        rw [hue] at hg
        simp [Except.isOk, Except.toBool] at hg

theorem packageDirectories_fold_ok (deps : Deps) (children : List (String × treeNode))
    (names : List String)
    (hok : ∀ name ∈ names, ∃ c, mapGet children name = some c ∧ pdGood deps c)
    (root : Directory) (files : List (Digest × Entry)) (treePb : Tree) :
    names.foldl (fun acc name =>
        packageDirectoriesStep deps name acc (packageDirectoriesChild deps name children))
      (.ok (root, files, treePb)) =
    .ok ({ root with Directories := root.Directories ++ names.map (fun name =>
            { Name := name, Digest := (pdDigest deps (childAt children name)).ToProto }) },
         names.foldl (fun b name => mapMerge b (pdFiles deps (childAt children name))) files,
         { treePb with Children := treePb.Children ++ (names.map (fun name =>
            pdRoot deps (childAt children name) :: pdChildren deps (childAt children name))).flatten }) := by
  induction names generalizing root files treePb with
  | nil => simp
  | cons n rest ih =>
    obtain ⟨c, hget, hg⟩ := hok n (List.mem_cons_self _ _)
    rw [List.foldl_cons, packageDirectoriesStep_good deps children n c hget hg,
      ih (fun name h => hok name (List.mem_cons_of_mem _ h))]
    have hc : childAt children n = c := by simp [childAt, hget]
    simp [hc, List.append_assoc]

theorem packageDirectories_fold_bad (deps : Deps) (children : List (String × treeNode))
    (names : List String)
    (hin : ∀ name ∈ names, ∃ c, mapGet children name = some c)
    (hbad : ∃ name ∈ names, ¬ pdGood deps (childAt children name))
    (acc : Except Err (Directory × List (Digest × Entry) × Tree)) :
    ∃ e, names.foldl (fun acc name =>
        packageDirectoriesStep deps name acc (packageDirectoriesChild deps name children))
      acc = .error e := by
  induction names generalizing acc with
  | nil => obtain ⟨n, h, _⟩ := hbad; cases h
  | cons n rest ih =>
    rw [List.foldl_cons]
    obtain ⟨c, hget⟩ := hin n (List.mem_cons_self _ _)
    have hc : childAt children n = c := by simp [childAt, hget]
    by_cases hg : pdGood deps c
    · apply ih (fun name h => hin name (List.mem_cons_of_mem _ h))
      obtain ⟨m, hm, hmb⟩ := hbad
      rcases List.mem_cons.1 hm with h | h
      · subst h; rw [hc] at hmb; exact absurd hg hmb
      · exact ⟨m, h, hmb⟩
    · obtain ⟨e, he⟩ := packageDirectoriesStep_bad deps children n c hget hg acc
      rw [he, packageDirectories_fold_error]
      exact ⟨e, rfl⟩

end Client

namespace Client

theorem map_childAt (children : List (String × treeNode)) (hnd : (mapKeys children).Nodup) :
    (mapKeys children).map (fun name => (name, childAt children name)) = children := by
  simp only [mapKeys, List.map_map]
  conv_rhs => rw [← List.map_id children]
  apply List.map_congr_left
  intro nc hnc
  simp only [Function.comp, childAt, id]
  rw [mapGet_eq_some_of_mem children nc.1 nc.2 hnd hnc]
  rfl

theorem childAt_mem (children : List (String × treeNode)) (name : String)
    (h : name ∈ mapKeys children) :
    ∃ c, mapGet children name = some c ∧ (name, c) ∈ children := by
  cases hg : mapGet children name with
  | none => exact absurd h ((mapGet_eq_none_iff children name).1 hg)
  | some c => exact ⟨c, rfl, mem_of_mapGet_eq_some children name c hg⟩

theorem treeNode.nodes_tail_mk (leaves : List (String × fileSysNode))
    (children : List (String × treeNode)) :
    (treeNode.mk leaves children).nodes.tail = (children.map (fun nc => nc.2.nodes)).flatten := by
  rw [treeNode.nodes_mk]
  rfl

theorem treeNode.nodes_eq_cons (t : treeNode) : t.nodes = t :: t.nodes.tail := by
  obtain ⟨l, c⟩ := t
  rw [treeNode.nodes_mk]
  rfl

theorem packageDirectoriesSorted_ok (deps : Deps) (leaves : List (String × fileSysNode))
    (root : Directory) (files : List (Digest × Entry)) (treePb : Tree) :
    packageDirectoriesSorted deps leaves (.ok (root, files, treePb)) =
      .ok ({ Files := sortSlice (fun a b => strLess a.Name b.Name)
               (root.Files ++ leafFiles deps leaves)
             Directories := sortSlice (fun a b => strLess a.Name b.Name) root.Directories
             Symlinks := sortSlice (fun a b => strLess a.Name b.Name)
               (root.Symlinks ++ leafSymlinks deps leaves)
             NodeProperties := root.NodeProperties },
           mapMerge files (leafBlobs leaves), treePb) := by
  simp only [packageDirectoriesSorted, packageDirectoriesLeaves_eq]

theorem packageTreeRes_isOk (deps : Deps) (t : treeNode) :
    (packageTreeRes deps t).isOk = true ↔
      (∀ nc ∈ t.children, (packageTreeRes deps nc.2).isOk = true) ∧
      (EntryFromProto deps (descriptorOf deps t)).isOk = true := by
  obtain ⟨l, c⟩ := t
  exact packageTreeRes_isOk_mk deps l c

theorem rootDigest_of_isOk (deps : Deps) (t : treeNode)
    (hok : (packageTreeRes deps t).isOk = true) :
    ∃ ue, EntryFromProto deps (descriptorOf deps t) = .ok ue ∧ rootDigest deps t = ue.Digest := by
  have h := rootDigest_eq deps t
  rw [if_pos hok] at h
  have h2 := ((packageTreeRes_isOk deps t).1 hok).2
  cases hue : EntryFromProto deps (descriptorOf deps t) with
  | error e => rw [hue] at h2; simp [Except.isOk, Except.toBool] at h2
  | ok ue => rw [hue] at h; exact ⟨ue, rfl, h⟩

theorem pd_of_eq (deps : Deps) (t : treeNode) (root : Directory)
    (files : List (Digest × Entry)) (treePb : Tree)
    (h : packageDirectories deps t = .ok (root, files, treePb)) :
    pdRoot deps t = root ∧ pdFiles deps t = files ∧ pdChildren deps t = treePb.Children := by
  simp [pdRoot, pdFiles, pdChildren, h]

theorem packageDirectories_spec (deps : Deps) : ∀ t : treeNode, t.WF → pdSpec deps t := by
  apply treeNode.induct_aux
  intro leaves children ih hwf
  rw [treeNode.WF_mk] at hwf
  obtain ⟨hnl, hnc, hwc⟩ := hwf
  have hperm : (sortStrings (mapKeys children)).Perm (mapKeys children) := sortSlice_perm _ _
  -- a child passes its round exactly when `packageTree` succeeds on it
  have hchild : ∀ nc ∈ children, (packageTreeRes deps nc.2).isOk = true →
      pdGood deps nc.2 ∧ pdRoot deps nc.2 = descriptorOf deps nc.2 ∧
      pdDigest deps nc.2 = rootDigest deps nc.2 ∧
      (pdChildren deps nc.2).Perm (nc.2.nodes.tail.map (descriptorOf deps)) := by
    intro nc hnc hok
    have h1 := (packageTreeRes_isOk deps nc.2).1 hok
    obtain ⟨files, ch, hpd, hch⟩ := (ih nc hnc (hwc nc hnc)).1 h1.1
    obtain ⟨e1, e2, e3⟩ := pd_of_eq deps nc.2 _ _ _ hpd
    obtain ⟨ue, hue, hrd⟩ := rootDigest_of_isOk deps nc.2 hok
    refine ⟨⟨by rw [hpd]; rfl, by rw [e1]; exact h1.2⟩, e1, ?_, by rw [e3]; exact hch⟩
    rw [pdDigest, e1, hue, hrd]
  have hchild_bad : ∀ nc ∈ children, ¬ (packageTreeRes deps nc.2).isOk = true →
      ¬ pdGood deps nc.2 := by
    intro nc hnc hbad hg
    apply hbad
    rw [packageTreeRes_isOk]
    by_cases hall : ∀ nc2 ∈ nc.2.children, (packageTreeRes deps nc2.2).isOk = true
    · obtain ⟨files, ch, hpd, hch⟩ := (ih nc hnc (hwc nc hnc)).1 hall
      obtain ⟨e1, e2, e3⟩ := pd_of_eq deps nc.2 _ _ _ hpd
      refine ⟨hall, ?_⟩
      rw [← e1]
      exact hg.2
    · have := (ih nc hnc (hwc nc hnc)).2 hall
      rw [hg.1] at this
      cases this
  have hin : ∀ name ∈ sortStrings (mapKeys children), ∃ c, mapGet children name = some c := by
    intro name hname
    obtain ⟨c, hc, -⟩ := childAt_mem children name (hperm.mem_iff.1 hname)
    exact ⟨c, hc⟩
  constructor
  · intro hall
    simp only [treeNode.children] at hall
    have hok : ∀ name ∈ sortStrings (mapKeys children),
        ∃ c, mapGet children name = some c ∧ pdGood deps c := by
      intro name hname
      obtain ⟨c, hc, hmem⟩ := childAt_mem children name (hperm.mem_iff.1 hname)
      exact ⟨c, hc, (hchild _ hmem (hall _ hmem)).1⟩
    rw [packageDirectories, packageDirectories_fold_ok deps children _ hok,
      packageDirectoriesSorted_ok]
    have hpair : ((sortStrings (mapKeys children)).map
        (fun name => (name, childAt children name))).Perm children := by
      have := hperm.map (fun name => (name, childAt children name))
      rwa [map_childAt children hnc] at this
    have hentries : ((sortStrings (mapKeys children)).map (fun name =>
        ({ Name := name, Digest := (pdDigest deps (childAt children name)).ToProto } :
          DirectoryNode))).Perm (childEntries deps children) := by
      have h1 := hpair.map (fun nc : String × treeNode =>
        ({ Name := nc.1, Digest := (pdDigest deps nc.2).ToProto } : DirectoryNode))
      rw [List.map_map] at h1
      refine h1.trans (List.Perm.of_eq ?_)
      simp only [childEntries]
      apply List.map_congr_left
      intro nc hmem
      rw [(hchild nc hmem (hall nc hmem)).2.2.1]
    have hdirs : sortSlice (fun a b : DirectoryNode => strLess a.Name b.Name)
        ((sortStrings (mapKeys children)).map (fun name =>
          ({ Name := name, Digest := (pdDigest deps (childAt children name)).ToProto } :
            DirectoryNode))) =
        sortSlice (fun a b : DirectoryNode => strLess a.Name b.Name)
          (childEntries deps children) := by
      apply sortSlice_eq_of_perm (fun f : DirectoryNode => f.Name) _ _ hentries
      rw [List.map_map]
      have hid : ((fun f : DirectoryNode => f.Name) ∘ fun name =>
          ({ Name := name, Digest := (pdDigest deps (childAt children name)).ToProto } :
            DirectoryNode)) = id := rfl
      rw [hid, List.map_id]
      exact (hperm.nodup_iff).2 hnc
    refine ⟨mapMerge
        (List.foldl (fun b name => mapMerge b (pdFiles deps (childAt children name))) []
          (sortStrings (mapKeys children))) (leafBlobs leaves),
      (List.map (fun name => pdRoot deps (childAt children name) ::
        pdChildren deps (childAt children name)) (sortStrings (mapKeys children))).flatten,
      ?_, ?_⟩
    · simp only [descriptorOf, Directory.empty, List.nil_append, treeNode.leaves,
        treeNode.children, hdirs]
    · rw [treeNode.nodes_tail_mk, List.map_flatten, List.map_map]
      have h1 := (hpair.map (fun nc : String × treeNode =>
        pdRoot deps nc.2 :: pdChildren deps nc.2)).flatten
      rw [List.map_map] at h1
      refine h1.trans ?_
      rw [← List.flatMap_def, ← List.flatMap_def]
      apply List.Perm.flatMap_left
      intro nc hmem
      obtain ⟨-, e1, -, e3⟩ := hchild nc hmem (hall nc hmem)
      simp only [Function.comp]
      rw [treeNode.nodes_eq_cons nc.2, List.map_cons, e1]
      exact List.Perm.cons _ e3
  · intro hall
    simp only [treeNode.children] at hall
    have hbad : ∃ name ∈ sortStrings (mapKeys children),
        ¬ pdGood deps (childAt children name) := by
      by_contra hcon
      apply hall
      intro nc hmem
      by_contra hb
      apply hcon
      refine ⟨nc.1, hperm.mem_iff.2 (List.mem_map.2 ⟨nc, hmem, rfl⟩), ?_⟩
      have : childAt children nc.1 = nc.2 := by
        simp [childAt, mapGet_eq_some_of_mem children nc.1 nc.2 hnc hmem]
      rw [this]
      exact hchild_bad nc hmem hb
    obtain ⟨e, he⟩ := packageDirectories_fold_bad deps children _ hin hbad
      (.ok (Directory.empty, [], { Root := none, Children := [] }))
    rw [packageDirectories, he]
    rfl

end Client

namespace Client

/-! ## The claims on the packagers -/

/-- C1. For every tree node of a tree of Go maps, the directory descriptor that `packageTree`
builds for it, the descriptor behind the root digest that `packageTree` returns, and the
descriptor that `packageDirectories` returns each have their files list, their directories list
and their symlinks list strictly ascending by name. -/
theorem packageTree_descriptor_sorted (deps : Deps) (t : treeNode) (hwf : t.WF) :
    (∀ st pfx dir blobs st2, packageTreeDir deps t st pfx = (.ok (dir, blobs), st2) →
      dir.Sorted) ∧
    (∀ st pfx dg blobs st2, packageTree deps t st pfx = (.ok (dg, blobs), st2) →
      ∃ dir ue, dir.Sorted ∧ EntryFromProto deps dir = .ok ue ∧ dg = ue.Digest ∧
        mapGet blobs dg = some ue) ∧
    (∀ root files treePb, packageDirectories deps t = .ok (root, files, treePb) →
      root.Sorted) := by
  have hroot := hwf t (by rw [treeNode.nodes_eq_cons]; exact List.mem_cons_self _ _)
  have hs : (descriptorOf deps t).Sorted := descriptorOf_sorted deps t hroot.1 hroot.2
  refine ⟨?_, ?_, ?_⟩
  · intro st pfx dir blobs st2 h
    rw [(packageTreeDir_ok deps t st pfx dir blobs st2 h).1]
    exact hs
  · intro st pfx dg blobs st2 h
    have h1 := packageTree_fst deps t st pfx
    rw [h] at h1
    obtain ⟨ue, h2, h3, h4⟩ := packageTreeRes_digest deps t dg blobs h1.symm
    exact ⟨descriptorOf deps t, ue, hs, h2, h3, h4⟩
  · intro root files treePb h
    have hspec := packageDirectories_spec deps t hwf
    by_cases hall : ∀ nc ∈ t.children, (packageTreeRes deps nc.2).isOk = true
    · obtain ⟨f, ch, h1, -⟩ := hspec.1 hall
      rw [h1] at h
      simp only [Except.ok.injEq, Prod.mk.injEq] at h
      rw [← h.1]
      exact hs
    · have := hspec.2 hall
      rw [h] at this
      cases this

/-- The claim C1 holds of the example tree, whose root descriptor lists the files `a` and `b`
and the directories `e` and `sub`. -/
theorem packageTree_descriptor_sorted_witness :
    exampleTree.WF ∧
    (packageTreeDir exampleDeps exampleTree pkgState.zero "").1.isOk = true ∧
    (packageDirectories exampleDeps exampleTree).isOk = true ∧
    ((∀ st pfx dir blobs st2,
        packageTreeDir exampleDeps exampleTree st pfx = (.ok (dir, blobs), st2) → dir.Sorted) ∧
      (∀ st pfx dg blobs st2,
        packageTree exampleDeps exampleTree st pfx = (.ok (dg, blobs), st2) →
        ∃ dir ue, dir.Sorted ∧ EntryFromProto exampleDeps dir = .ok ue ∧ dg = ue.Digest ∧
          mapGet blobs dg = some ue) ∧
      (∀ root files treePb,
        packageDirectories exampleDeps exampleTree = .ok (root, files, treePb) → root.Sorted)) :=
  ⟨by decide, by decide, by decide,
    packageTree_descriptor_sorted exampleDeps exampleTree (by decide)⟩

/-- C2. For every tree node of a tree of Go maps and every reordering of the maps at every level
of the tree, `packageTree` fails on both trees or succeeds on both, and then returns the same
root digest, blob maps with the same set of digests, and the same statistics. -/
theorem packageTree_order_independent (deps : Deps) (t1 t2 : treeNode) (hwf : t1.WF)
    (hre : t1.Reordered t2) (st : pkgState) (pfx : String) :
    (packageTree deps t1 st pfx).1.isOk = (packageTree deps t2 st pfx).1.isOk ∧
    ∀ dg blobs1 st1, packageTree deps t1 st pfx = (.ok (dg, blobs1), st1) →
      ∃ blobs2 st2, packageTree deps t2 st pfx = (.ok (dg, blobs2), st2) ∧
        (∀ d, d ∈ mapKeys blobs1 ↔ d ∈ mapKeys blobs2) ∧ st2.stats = st1.stats := by
  obtain ⟨s1, s2, s3, s4, s5, s6⟩ := reordered_same deps t1 hwf t2 hre
  refine ⟨by rw [packageTree_fst, packageTree_fst, s1], ?_⟩
  intro dg blobs1 st1 h
  have h1 := packageTree_fst deps t1 st pfx
  rw [h] at h1
  simp only at h1
  have hok1 : (packageTreeRes deps t1).isOk = true := by rw [← h1]; rfl
  have hok2 : (packageTreeRes deps t2).isOk = true := by rw [← s1]; exact hok1
  have hrd1 := (rootDigest_of_ok deps t1 dg blobs1 h1.symm).1
  rcases h2 : packageTree deps t2 st pfx with ⟨r2, st2⟩
  have h3 := packageTree_fst deps t2 st pfx
  rw [h2] at h3
  simp only at h3
  cases hr : packageTreeRes deps t2 with
  | error e => rw [hr] at hok2; simp [Except.isOk, Except.toBool] at hok2
  | ok r =>
    obtain ⟨dg2, blobs2⟩ := r
    have hrd2 := (rootDigest_of_ok deps t2 dg2 blobs2 hr).1
    have hdg : dg2 = dg := by rw [← hrd2, ← s2, hrd1]
    subst hdg
    rw [hr] at h3
    subst h3
    refine ⟨blobs2, st2, rfl, ?_, ?_⟩
    · intro d
      rw [(packageTreeRes_blobs deps t1 dg2 blobs1 h1.symm).1 d,
        (packageTreeRes_blobs deps t2 dg2 blobs2 hr).1 d,
        (s3.map (fun e => e.Digest)).mem_iff, s6.mem_iff]
    · have a1 := (treeNode.good deps t1 st pfx).2 hok1
      have a2 := (treeNode.good deps t2 st pfx).2 hok2
      have b1 := packageTree_total deps t1 st pfx hok1
      have b2 := packageTree_total deps t2 st pfx hok2
      rw [h] at a1 b1
      rw [h2] at a2 b2
      simp only [TreeStats.advanced] at a1 a2 b1 b2
      have hbytes : t1.totalBytes deps = t2.totalBytes deps := by
        simp only [treeNode.totalBytes]
        rw [(s3.map (fun e => e.Digest.Size)).sum_eq, (s6.map (fun d => d.Size)).sum_eq]
      obtain ⟨x1, x2, x3, -⟩ := a1
      obtain ⟨y1, y2, y3, -⟩ := a2
      cases hst1 : st1.stats
      cases hst2 : st2.stats
      rw [hst1] at x1 x2 x3 b1
      rw [hst2] at y1 y2 y3 b2
      simp only at x1 x2 x3 b1 y1 y2 y3 b2
      rw [TreeStats.mk.injEq, x1, x2, x3, b1, y1, y2, y3, b2, s3.length_eq, s4, s5, hbytes]
      exact ⟨rfl, rfl, rfl, rfl⟩

theorem exampleTree_reordered : exampleTree.Reordered exampleTreeReordered := by
  rw [exampleTree, exampleTreeReordered, treeNode.Reordered]
  refine ⟨List.Perm.swap _ _ _,
    [("sub", .mk [("c", exampleFile "A")] []), ("e", .mk [] [])], List.Perm.swap _ _ _, ?_⟩
  simp [childrenReordered, treeNode.Reordered, treeNode.leaves, treeNode.children]

/-- The claim C2 holds of the example tree and its reordering. -/
theorem packageTree_order_independent_witness :
    exampleTree.WF ∧ exampleTree.Reordered exampleTreeReordered ∧
    packageTree exampleDeps exampleTree pkgState.zero "" =
      (.ok (exampleRootDigest, exampleBlobs), { stats := exampleStats, tree := none }) ∧
    ((packageTree exampleDeps exampleTree pkgState.zero "").1.isOk =
        (packageTree exampleDeps exampleTreeReordered pkgState.zero "").1.isOk ∧
      ∀ dg blobs1 st1,
        packageTree exampleDeps exampleTree pkgState.zero "" = (.ok (dg, blobs1), st1) →
        ∃ blobs2 st2,
          packageTree exampleDeps exampleTreeReordered pkgState.zero "" =
            (.ok (dg, blobs2), st2) ∧
          (∀ d, d ∈ mapKeys blobs1 ↔ d ∈ mapKeys blobs2) ∧ st2.stats = st1.stats) :=
  ⟨by decide, exampleTree_reordered, by decide,
    packageTree_order_independent exampleDeps exampleTree exampleTreeReordered (by decide)
      exampleTree_reordered pkgState.zero ""⟩

/-- C3. When `packageTree` succeeds on a tree node, the root digest it returns is the digest of
a serialized descriptor whose directories list holds exactly one entry for every child of the
node, with the name of the child and the digest that `packageTree` returns for that child, whose
files list holds exactly one entry for every file leaf of the node, with its name, digest,
executable bit and node properties, and whose symlinks list holds exactly one entry for every
symlink leaf, with its name, target and node properties; no other leaf has an entry. -/
theorem packageTree_root_descriptor (deps : Deps) (t : treeNode) (st : pkgState) (pfx : String)
    (dg : Digest) (blobs : List (Digest × Entry)) (st2 : pkgState)
    (h : packageTree deps t st pfx = (.ok (dg, blobs), st2)) :
    ∃ dir ue, EntryFromProto deps dir = .ok ue ∧ dg = ue.Digest ∧
      dir.Directories.Perm (t.children.map (fun nc =>
        { Name := nc.1, Digest := (rootDigest deps nc.2).ToProto })) ∧
      (∀ nc ∈ t.children, ∀ stc pfxc, ∃ bc sc,
        packageTree deps nc.2 stc pfxc = (.ok (rootDigest deps nc.2, bc), sc)) ∧
      dir.Files.Perm (leafFiles deps t.leaves) ∧
      dir.Symlinks.Perm (leafSymlinks deps t.leaves) := by
  have h1 := packageTree_fst deps t st pfx
  rw [h] at h1
  obtain ⟨ue, h2, h3, -⟩ := packageTreeRes_digest deps t dg blobs h1.symm
  have hok : (packageTreeRes deps t).isOk = true := by rw [← h1]; rfl
  refine ⟨descriptorOf deps t, ue, h2, h3, sortSlice_perm _ _, ?_, sortSlice_perm _ _,
    sortSlice_perm _ _⟩
  intro nc hnc stc pfxc
  have hc := ((packageTreeRes_isOk deps t).1 hok).1 nc hnc
  have h4 := packageTree_fst deps nc.2 stc pfxc
  rcases h5 : packageTree deps nc.2 stc pfxc with ⟨r, sc⟩
  rw [h5] at h4
  simp only at h4
  cases hr : packageTreeRes deps nc.2 with
  | error e => rw [hr] at hc; simp [Except.isOk, Except.toBool] at hc
  | ok r2 =>
    obtain ⟨dg2, b2⟩ := r2
    rw [hr] at h4
    rw [h4, (rootDigest_of_ok deps nc.2 dg2 b2 hr).1]
    exact ⟨b2, sc, rfl⟩

/-- The claim C3 holds of the example tree. -/
theorem packageTree_root_descriptor_witness :
    packageTree exampleDeps exampleTree pkgState.zero "" =
      (.ok (exampleRootDigest, exampleBlobs), { stats := exampleStats, tree := none }) ∧
    ∃ dir ue, EntryFromProto exampleDeps dir = .ok ue ∧ exampleRootDigest = ue.Digest ∧
      dir.Directories.Perm (exampleTree.children.map (fun nc =>
        { Name := nc.1, Digest := (rootDigest exampleDeps nc.2).ToProto })) ∧
      (∀ nc ∈ exampleTree.children, ∀ stc pfxc, ∃ bc sc,
        packageTree exampleDeps nc.2 stc pfxc = (.ok (rootDigest exampleDeps nc.2, bc), sc)) ∧
      dir.Files.Perm (leafFiles exampleDeps exampleTree.leaves) ∧
      dir.Symlinks.Perm (leafSymlinks exampleDeps exampleTree.leaves) :=
  ⟨by decide,
    packageTree_root_descriptor exampleDeps exampleTree pkgState.zero "" exampleRootDigest
      exampleBlobs { stats := exampleStats, tree := none } (by decide)⟩

/-- C4 fails as stated: the counter of bytes is an `int64`, and the additions to it wrap.  On
the tree with two files of 2^62 bytes each, whose descriptor has ten bytes, `packageTree`
succeeds from zeroed statistics and leaves the counter at -9223372036854775798, while the sum
of the sizes is 9223372036854775818. -/
theorem packageTree_stats_overflow :
    ∃ dg blobs st2,
      packageTree exampleDeps exampleHugeTree { stats := TreeStats.zero, tree := none } "" =
        (.ok (dg, blobs), st2) ∧
      st2.stats.TotalInputBytes = -9223372036854775798 ∧
      (exampleHugeTree.fileEntries.map (fun e => e.Digest.Size)).sum +
        ((exampleHugeTree.dirDigests exampleDeps).map (fun d => d.Size)).sum =
          9223372036854775818 :=
  ⟨_, _, _, rfl, by decide, by decide⟩

/-- C4, amended: starting from zeroed statistics, after `packageTree` succeeds on a tree node
the statistics hold the number of file leaves of the whole tree, the number of its symlink
leaves and the number of its directory nodes with the root; the counter of bytes holds the sum
of the digest sizes of all file leaves, a leaf counted as often as it occurs, plus the sum of
the descriptor digest sizes of all directory nodes, wrapped to `int64`, which is that sum
itself when the sum is in the range of `int64`. -/
theorem packageTree_stats (deps : Deps) (t : treeNode) (tree : Option (List (String × Digest)))
    (pfx : String) (dg : Digest) (blobs : List (Digest × Entry)) (st2 : pkgState)
    (h : packageTree deps t { stats := TreeStats.zero, tree := tree } pfx =
      (.ok (dg, blobs), st2)) :
    st2.stats.InputFiles = t.fileEntries.length ∧
    st2.stats.InputSymlinks = t.symlinkCount ∧
    st2.stats.InputDirectories = t.nodes.length ∧
    st2.stats.TotalInputBytes =
      wrap64 ((t.fileEntries.map (fun e => e.Digest.Size)).sum +
        ((t.dirDigests deps).map (fun d => d.Size)).sum) ∧
    (-9223372036854775808 ≤
        (t.fileEntries.map (fun e => e.Digest.Size)).sum +
          ((t.dirDigests deps).map (fun d => d.Size)).sum ∧
      (t.fileEntries.map (fun e => e.Digest.Size)).sum +
          ((t.dirDigests deps).map (fun d => d.Size)).sum < 9223372036854775808 →
      st2.stats.TotalInputBytes =
        (t.fileEntries.map (fun e => e.Digest.Size)).sum +
          ((t.dirDigests deps).map (fun d => d.Size)).sum) := by
  have h1 := packageTree_fst deps t { stats := TreeStats.zero, tree := tree } pfx
  rw [h] at h1
  have hok : (packageTreeRes deps t).isOk = true := by rw [← h1]; rfl
  have a1 := (treeNode.good deps t { stats := TreeStats.zero, tree := tree } pfx).2 hok
  have b1 := packageTree_total deps t { stats := TreeStats.zero, tree := tree } pfx hok
  rw [h] at a1 b1
  simp only [TreeStats.advanced, TreeStats.zero, zero_add] at a1 b1
  obtain ⟨x1, x2, x3, -⟩ := a1
  refine ⟨x1, x2, x3, b1, fun hfit => ?_⟩
  rw [b1]
  exact wrap64_of_range _ hfit.1 hfit.2

/-- C4, amended, at the example tree: three files, one symlink, three directories and
forty-four bytes, a sum in the range of `int64`. -/
theorem packageTree_stats_witness :
    packageTree exampleDeps exampleTree { stats := TreeStats.zero, tree := none } "" =
      (.ok (exampleRootDigest, exampleBlobs), { stats := exampleStats, tree := none }) ∧
    exampleTree.fileEntries.length = 3 ∧ exampleTree.symlinkCount = 1 ∧
    exampleTree.nodes.length = 3 ∧
    (exampleTree.fileEntries.map (fun e => e.Digest.Size)).sum +
        ((exampleTree.dirDigests exampleDeps).map (fun d => d.Size)).sum = 44 ∧
    exampleStats.InputFiles = exampleTree.fileEntries.length ∧
    exampleStats.InputSymlinks = exampleTree.symlinkCount ∧
    exampleStats.InputDirectories = exampleTree.nodes.length ∧
    exampleStats.TotalInputBytes =
      (exampleTree.fileEntries.map (fun e => e.Digest.Size)).sum +
        ((exampleTree.dirDigests exampleDeps).map (fun d => d.Size)).sum :=
  have h := packageTree_stats exampleDeps exampleTree none "" exampleRootDigest exampleBlobs
    { stats := exampleStats, tree := none } (by decide)
  ⟨by decide, by decide, by decide, by decide, by decide, h.1, h.2.1, h.2.2.1,
    h.2.2.2.2 (by decide)⟩

/-- C5. When `packageTree` succeeds on a tree node, the keys of the blob map it returns are
exactly the digests of the file leaves of the whole tree and the descriptor digests of all its
directory nodes; every entry is stored under its own digest, and no digest is stored twice. -/
theorem packageTree_blob_keys (deps : Deps) (t : treeNode) (st : pkgState) (pfx : String)
    (dg : Digest) (blobs : List (Digest × Entry)) (st2 : pkgState)
    (h : packageTree deps t st pfx = (.ok (dg, blobs), st2)) :
    (∀ d, d ∈ mapKeys blobs ↔
      d ∈ t.fileEntries.map (fun e => e.Digest) ∨ d ∈ t.dirDigests deps) ∧
    (∀ kv ∈ blobs, kv.2.Digest = kv.1) ∧ (mapKeys blobs).Nodup := by
  have h1 := packageTree_fst deps t st pfx
  rw [h] at h1
  exact packageTreeRes_blobs deps t dg blobs h1.symm

/-- The claim C5 holds of the example tree, in which the content `A` occurs twice and is stored
once. -/
theorem packageTree_blob_keys_witness :
    packageTree exampleDeps exampleTree pkgState.zero "" =
      (.ok (exampleRootDigest, exampleBlobs), { stats := exampleStats, tree := none }) ∧
    exampleTree.fileEntries.length = 3 ∧ exampleBlobs.length = 5 ∧
    ((∀ d, d ∈ mapKeys exampleBlobs ↔
        d ∈ exampleTree.fileEntries.map (fun e => e.Digest) ∨
          d ∈ exampleTree.dirDigests exampleDeps) ∧
      (∀ kv ∈ exampleBlobs, kv.2.Digest = kv.1) ∧ (mapKeys exampleBlobs).Nodup) :=
  ⟨by decide, by decide, by decide,
    packageTree_blob_keys exampleDeps exampleTree pkgState.zero "" exampleRootDigest
      exampleBlobs { stats := exampleStats, tree := none } (by decide)⟩

end Client

namespace Client

/-! ## Splitting and joining paths -/

theorem splitChars_ne_nil (cs : List Char) : splitChars cs ≠ [] := by
  induction cs with
  | nil => simp [splitChars]
  | cons c cs ih =>
    simp only [splitChars]
    split
    · simp
    · split
      · simp
      · simp

theorem splitChars_noSep (cs : List Char) (h : '/' ∉ cs) : splitChars cs = [cs] := by
  induction cs with
  | nil => simp [splitChars]
  | cons c cs ih =>
    simp only [List.mem_cons, not_or] at h
    have hc : ¬ c = '/' := fun h' => h.1 h'.symm
    simp [splitChars, hc, ih h.2]

theorem splitChars_cons_of_ne (c : Char) (cs seg : List Char) (rest : List (List Char))
    (hc : ¬ c = '/') (h : splitChars cs = seg :: rest) :
    splitChars (c :: cs) = (c :: seg) :: rest := by
  simp [splitChars, hc, h]

theorem splitChars_cons_sep (cs : List Char) : splitChars ('/' :: cs) = [] :: splitChars cs := by
  simp [splitChars]

theorem splitChars_append (a b : List Char) :
    splitChars (a ++ '/' :: b) = splitChars a ++ splitChars b := by
  induction a with
  | nil => simp [splitChars]
  | cons c cs ih =>
    rw [List.cons_append]
    by_cases hc : c = '/'
    · subst hc
      rw [splitChars_cons_sep, splitChars_cons_sep, ih, List.cons_append]
    · cases h : splitChars cs with
      | nil => exact absurd h (splitChars_ne_nil cs)
      | cons seg rest =>
        rw [splitChars_cons_of_ne c cs seg rest hc h,
          splitChars_cons_of_ne c (cs ++ '/' :: b) seg (rest ++ splitChars b) hc
            (by rw [ih, h, List.cons_append]),
          List.cons_append]

theorem splitChars_mem_noSep (cs : List Char) : ∀ seg ∈ splitChars cs, '/' ∉ seg := by
  induction cs with
  | nil => simp [splitChars]
  | cons c cs ih =>
    simp only [splitChars]
    by_cases hc : c = '/'
    · simp only [hc, if_true, List.mem_cons]
      rintro seg (rfl | h)
      · simp
      · exact ih seg h
    · simp only [hc, if_false]
      cases h : splitChars cs with
      | nil => exact absurd h (splitChars_ne_nil cs)
      | cons s rest =>
        rw [h] at ih
        simp only [List.mem_cons]
        rintro seg (rfl | h2)
        · simp only [List.mem_cons, not_or]
          exact ⟨fun h' => hc h'.symm, ih s (List.mem_cons_self _ _)⟩
        · exact ih seg (List.mem_cons_of_mem _ h2)

theorem intercalate_cons_cons (x y : List Char) (rest : List (List Char)) :
    List.intercalate ['/'] (x :: y :: rest) = x ++ '/' :: List.intercalate ['/'] (y :: rest) := by
  simp [List.intercalate, List.intersperse]

theorem splitChars_intercalate (xs : List (List Char)) (hne : xs ≠ [])
    (h : ∀ x ∈ xs, '/' ∉ x) : splitChars (List.intercalate ['/'] xs) = xs := by
  induction xs with
  | nil => exact absurd rfl hne
  | cons x rest ih =>
    cases rest with
    | nil =>
      simp only [List.intercalate, List.intersperse, List.flatten_cons, List.flatten_nil,
        List.append_nil]
      exact splitChars_noSep x (h x (List.mem_cons_self _ _))
    | cons y rest2 =>
      rw [intercalate_cons_cons, splitChars_append,
        ih (by simp) (fun z hz => h z (List.mem_cons_of_mem _ hz)),
        splitChars_noSep x (h x (List.mem_cons_self _ _))]
      rfl

theorem intercalate_splitChars (cs : List Char) :
    List.intercalate ['/'] (splitChars cs) = cs := by
  induction cs with
  | nil => simp [splitChars, List.intercalate, List.intersperse]
  | cons c cs ih =>
    simp only [splitChars]
    by_cases hc : c = '/'
    · simp only [hc, if_true]
      cases h : splitChars cs with
      | nil => exact absurd h (splitChars_ne_nil cs)
      | cons s rest =>
        rw [intercalate_cons_cons, ← h, ih]
        rfl
    · simp only [hc, if_false]
      cases h : splitChars cs with
      | nil => exact absurd h (splitChars_ne_nil cs)
      | cons s rest =>
        rw [h] at ih
        cases rest with
        | nil =>
          simp only [List.intercalate, List.intersperse, List.flatten_cons, List.flatten_nil,
            List.append_nil] at ih ⊢
          rw [ih]
        | cons y rest2 =>
          rw [intercalate_cons_cons] at ih ⊢
          rw [← ih]
          rfl

theorem String.mk_data_id (l : List String) : (l.map String.data).map String.mk = l := by
  induction l with
  | nil => rfl
  | cons x xs ih => simp [ih]

theorem splitSep_ne_nil (s : String) : splitSep s ≠ [] := by
  simp [splitSep, splitChars_ne_nil]

theorem splitSep_joinSep (xs : List String) (hne : xs ≠ []) (h : ∀ x ∈ xs, NoSep x) :
    splitSep (joinSep xs) = xs := by
  simp only [splitSep, joinSep]
  rw [splitChars_intercalate]
  · exact String.mk_data_id xs
  · simpa using hne
  · intro x hx
    obtain ⟨y, hy, rfl⟩ := List.mem_map.1 hx
    exact h y hy

theorem joinSep_splitSep (s : String) : joinSep (splitSep s) = s := by
  simp only [splitSep, joinSep, List.map_map]
  have : (String.data ∘ String.mk) = id := rfl
  rw [this, List.map_id, intercalate_splitChars]

theorem splitSep_mem_noSep (s : String) : ∀ e ∈ splitSep s, NoSep e := by
  intro e he
  simp only [splitSep, List.mem_map] at he
  obtain ⟨seg, hseg, rfl⟩ := he
  exact splitChars_mem_noSep s.data seg hseg

theorem splitSep_append (a b : String) :
    splitSep (a ++ "/" ++ b) = splitSep a ++ splitSep b := by
  simp only [splitSep]
  have : (a ++ "/" ++ b).data = a.data ++ '/' :: b.data := by
    simp [String.data_append]
  rw [this, splitChars_append, List.map_append]

theorem joinSep_nil : joinSep [] = "" := rfl

theorem joinSep_singleton (x : String) : joinSep [x] = x := by
  simp [joinSep, List.intercalate, List.intersperse]

theorem joinSep_cons_cons (x y : String) (rest : List String) :
    joinSep (x :: y :: rest) = x ++ "/" ++ joinSep (y :: rest) := by
  simp only [joinSep, List.map_cons]
  rw [intercalate_cons_cons]
  apply String.ext
  simp [String.data_append]

theorem joinSep_append (xs ys : List String) (hx : xs ≠ []) (hy : ys ≠ []) :
    joinSep (xs ++ ys) = joinSep xs ++ "/" ++ joinSep ys := by
  induction xs with
  | nil => exact absurd rfl hx
  | cons x rest ih =>
    cases rest with
    | nil =>
      cases ys with
      | nil => exact absurd rfl hy
      | cons y ys2 => rw [List.singleton_append, joinSep_cons_cons, joinSep_singleton]
    | cons z rest2 =>
      have := ih (by simp)
      rw [List.cons_append, List.cons_append, joinSep_cons_cons, ← List.cons_append, this,
        joinSep_cons_cons]
      simp [String.append_assoc]

end Client

namespace Client

/-! ## Cleaning paths -/

theorem cleanElems_eq_foldl (rooted : Bool) (es out : List String) :
    cleanElems rooted es out = es.foldl (cleanStep rooted) out.reverse := by
  induction es generalizing out with
  | nil => simp [cleanElems]
  | cons e es ih =>
    simp only [cleanElems, List.foldl_cons]
    by_cases h1 : e = "" ∨ e = "."
    · simp only [h1, if_true, cleanStep, ih]
    · simp only [h1, if_false, cleanStep]
      by_cases h2 : e = ".."
      · simp only [h2, if_true, List.reverse_reverse]
        cases out with
        | nil =>
          cases rooted <;> simp [ih]
        | cons o os =>
          simp only
          by_cases h3 : o = ".."
          · simp [h3, ih]
          · simp [h3, ih]
      · simp [h2, ih]

theorem cons_replicate_append (a : String) (n : Nat) :
    a :: (List.replicate n a ++ [a]) = List.replicate n a ++ [a, a] := by
  have h : a :: List.replicate n a = List.replicate n a ++ [a] := by
    rw [← List.replicate_succ, List.replicate_succ']
  rw [← List.cons_append, h, List.append_assoc]
  rfl

theorem cleanStep_plain (rooted : Bool) (stack : List String) (e : String) (he : Plain e) :
    cleanStep rooted stack e = stack ++ [e] := by
  obtain ⟨h1, h2, h3, -⟩ := he
  simp [cleanStep, h1, h2, h3]

theorem foldl_cleanStep_plain (rooted : Bool) (stack es : List String)
    (h : ∀ e ∈ es, Plain e) : es.foldl (cleanStep rooted) stack = stack ++ es := by
  induction es generalizing stack with
  | nil => simp
  | cons e es ih =>
    rw [List.foldl_cons, cleanStep_plain rooted stack e (h e (List.mem_cons_self _ _)),
      ih _ (fun x hx => h x (List.mem_cons_of_mem _ hx))]
    simp

theorem foldl_cleanStep_dotdot (j k : Nat) :
    (List.replicate k "..").foldl (cleanStep false) (List.replicate j "..") =
      List.replicate (j + k) ".." := by
  induction k generalizing j with
  | zero => simp
  | succ k ih =>
    rw [List.replicate_succ, List.foldl_cons]
    have : cleanStep false (List.replicate j "..") ".." = List.replicate (j + 1) ".." := by
      cases j with
      | zero => simp [cleanStep]
      | succ j =>
        simp only [cleanStep]
        rw [List.reverse_replicate, List.replicate_succ]
        simp [List.replicate_succ', cons_replicate_append]
    rw [this, ih]
    congr 1
    omega

theorem foldl_cleanStep_pop (rooted : Bool) (pre plain : List String)
    (h : ∀ e ∈ plain, Plain e) :
    (List.replicate plain.length "..").foldl (cleanStep rooted) (pre ++ plain) = pre := by
  induction plain using List.reverseRecOn with
  | nil => simp
  | append_singleton xs x ih =>
    rw [List.length_append, List.length_singleton, List.replicate_succ, List.foldl_cons]
    have hx : Plain x := h x (by simp)
    have : cleanStep rooted (pre ++ (xs ++ [x])) ".." = pre ++ xs := by
      simp only [cleanStep]
      rw [← List.append_assoc, List.reverse_append]
      simp [hx.2.2.1]
    rw [this]
    exact ih (fun e he => h e (by simp [he]))

theorem cleanForm_nil (rooted : Bool) : CleanForm rooted [] :=
  ⟨0, [], by simp, by simp, fun _ => rfl⟩

theorem foldl_cleanStep_cleanForm (rooted : Bool) (N : List String) (h : CleanForm rooted N) :
    N.foldl (cleanStep rooted) [] = N := by
  obtain ⟨k, plain, rfl, hp, hk⟩ := h
  rw [List.foldl_append]
  cases rooted with
  | true =>
    rw [hk rfl]
    simp [foldl_cleanStep_plain true [] plain hp]
  | false =>
    have := foldl_cleanStep_dotdot 0 k
    simp only [List.replicate_zero, Nat.zero_add] at this
    rw [this, foldl_cleanStep_plain false _ plain hp]

theorem cleanStep_cleanForm (rooted : Bool) (stack : List String) (e : String)
    (hs : CleanForm rooted stack) (he : NoSep e) : CleanForm rooted (cleanStep rooted stack e) := by
  obtain ⟨k, plain, rfl, hp, hk⟩ := hs
  simp only [cleanStep]
  by_cases h1 : e = "" ∨ e = "."
  · simp only [h1, if_true]
    exact ⟨k, plain, rfl, hp, hk⟩
  · simp only [h1, if_false]
    by_cases h2 : e = ".."
    · simp only [h2, if_true]
      induction plain using List.reverseRecOn with
      | nil =>
        simp only [List.append_nil, List.reverse_replicate]
        cases k with
        | zero =>
          simp only [List.replicate_zero]
          cases rooted with
          | true => exact cleanForm_nil true
          | false => exact ⟨1, [], by simp, by simp, by simp⟩
        | succ k =>
          simp only [List.replicate_succ, if_true]
          refine ⟨k + 2, [], ?_, by simp, ?_⟩
          · simp [List.replicate_succ', cons_replicate_append]
          · intro hr
            have := hk hr
            omega
      | append_singleton xs x _ =>
        have hx : Plain x := hp x (by simp)
        rw [← List.append_assoc, List.reverse_append]
        simp only [List.reverse_singleton, List.singleton_append, hx.2.2.1, if_false,
          List.reverse_reverse]
        exact ⟨k, xs, rfl, fun e' he' => hp e' (by simp [he']), hk⟩
    · simp only [h2, if_false]
      refine ⟨k, plain ++ [e], by simp, ?_, hk⟩
      intro x hx
      rcases List.mem_append.1 hx with h | h
      · exact hp x h
      · simp only [List.mem_singleton] at h
        subst h
        simp only [not_or] at h1
        exact ⟨h1.1, h1.2, h2, he⟩

theorem foldl_cleanStep_form (rooted : Bool) (es stack : List String)
    (hs : CleanForm rooted stack) (he : ∀ e ∈ es, NoSep e) :
    CleanForm rooted (es.foldl (cleanStep rooted) stack) := by
  induction es generalizing stack with
  | nil => simpa using hs
  | cons e es ih =>
    rw [List.foldl_cons]
    exact ih _ (cleanStep_cleanForm rooted stack e hs (he e (List.mem_cons_self _ _)))
      (fun x hx => he x (List.mem_cons_of_mem _ hx))

end Client

namespace Client

/-! ## The text of cleaned paths -/

theorem IsAbs_iff (s : String) : IsAbs s = true ↔ ∃ t, s.data = '/' :: t := by
  simp only [IsAbs, HasPrefix]
  cases h : s.data with
  | nil => simp [List.isPrefixOf]
  | cons c cs =>
    simp [List.isPrefixOf]
    constructor
    · intro h'; exact h'.symm
    · intro h'; exact h'.symm

theorem plain_noSep {e : String} (h : Plain e) : NoSep e := h.2.2.2

theorem dotdot_noSep : NoSep ".." := by simp [NoSep]

theorem cleanForm_noSep {rooted : Bool} {N : List String} (h : CleanForm rooted N) :
    ∀ e ∈ N, NoSep e := by
  obtain ⟨k, plain, rfl, hp, -⟩ := h
  intro e he
  rcases List.mem_append.1 he with h1 | h1
  · rw [List.eq_of_mem_replicate h1]
    exact dotdot_noSep
  · exact plain_noSep (hp e h1)

theorem cleanForm_ne_empty {rooted : Bool} {N : List String} (h : CleanForm rooted N) :
    ∀ e ∈ N, e ≠ "" ∧ e ≠ "." := by
  obtain ⟨k, plain, rfl, hp, -⟩ := h
  intro e he
  rcases List.mem_append.1 he with h1 | h1
  · rw [List.eq_of_mem_replicate h1]
    exact ⟨by decide, by decide⟩
  · exact ⟨(hp e h1).1, (hp e h1).2.1⟩

theorem joinSep_data_cons (e : String) (rest : List String) :
    ∃ t, (joinSep (e :: rest)).data = e.data ++ t := by
  cases rest with
  | nil => exact ⟨[], by rw [joinSep_singleton]; simp⟩
  | cons y ys =>
    refine ⟨'/' :: (joinSep (y :: ys)).data, ?_⟩
    rw [joinSep_cons_cons]
    simp only [String.data_append, List.append_assoc]
    rfl

theorem string_data_ne_nil {e : String} (h : e ≠ "") : e.data ≠ [] := by
  intro h'
  apply h
  apply String.ext
  rw [h']

theorem joinSep_ne_empty {N : List String} (hne : N ≠ []) (h : ∀ e ∈ N, e ≠ "") :
    joinSep N ≠ "" := by
  cases N with
  | nil => exact absurd rfl hne
  | cons e rest =>
    obtain ⟨t, ht⟩ := joinSep_data_cons e rest
    intro h'
    rw [h'] at ht
    have := string_data_ne_nil (h e (List.mem_cons_self _ _))
    cases hd : e.data with
    | nil => exact this hd
    | cons c cs => rw [hd] at ht; cases ht

theorem IsAbs_joinSep {N : List String} (h : ∀ e ∈ N, NoSep e) (h2 : ∀ e ∈ N, e ≠ "") :
    IsAbs (joinSep N) = false := by
  cases N with
  | nil => rfl
  | cons e rest =>
    obtain ⟨t, ht⟩ := joinSep_data_cons e rest
    cases hab : IsAbs (joinSep (e :: rest)) with
    | false => rfl
    | true =>
      obtain ⟨u, hu⟩ := (IsAbs_iff _).1 hab
      rw [ht] at hu
      have hne := string_data_ne_nil (h2 e (List.mem_cons_self _ _))
      have hns := h e (List.mem_cons_self _ _)
      cases hd : e.data with
      | nil => exact absurd hd hne
      | cons c cs =>
        rw [hd] at hu
        simp only [List.cons_append, List.cons.injEq] at hu
        simp only [NoSep, hd, List.mem_cons, not_or] at hns
        exact absurd hu.1.symm hns.1

theorem IsAbs_slash_append (s : String) : IsAbs ("/" ++ s) = true := by
  rw [IsAbs_iff]
  exact ⟨s.data, by simp [String.data_append]⟩

theorem IsAbs_render {rooted : Bool} {N : List String} (h : CleanForm rooted N) :
    IsAbs (render rooted N) = rooted := by
  cases rooted with
  | true => simp only [render, if_true]; exact IsAbs_slash_append _
  | false =>
    simp only [render, Bool.false_eq_true, if_false]
    by_cases hN : N = []
    · simp only [hN, if_true]; rfl
    · simp only [hN, if_false]
      exact IsAbs_joinSep (cleanForm_noSep h) (fun e he => (cleanForm_ne_empty h e he).1)

theorem render_ne_empty {rooted : Bool} {N : List String} (h : CleanForm rooted N) :
    render rooted N ≠ "" := by
  cases rooted with
  | true =>
    simp only [render, if_true]
    intro h'
    have := congrArg String.data h'
    simp [String.data_append] at this
  | false =>
    simp only [render, Bool.false_eq_true, if_false]
    by_cases hN : N = []
    · simp only [hN, if_true]; decide
    · simp only [hN, if_false]
      exact joinSep_ne_empty hN (fun e he => (cleanForm_ne_empty h e he).1)

theorem Clean_eq (path : String) (h : path ≠ "") :
    Clean path =
      render (IsAbs path) ((splitSep path).foldl (cleanStep (IsAbs path)) []) := by
  simp only [Clean, h, if_false, cleanElems_eq_foldl, List.reverse_nil, render]

theorem Clean_form (path : String) :
    CleanForm (IsAbs path) ((splitSep path).foldl (cleanStep (IsAbs path)) []) :=
  foldl_cleanStep_form _ _ _ (cleanForm_nil _) (splitSep_mem_noSep path)

theorem splitSep_empty : splitSep "" = [""] := rfl

theorem splitSep_slash_append (s : String) : splitSep ("/" ++ s) = "" :: splitSep s := by
  have : "/" ++ s = "" ++ "/" ++ s := by simp
  rw [this, splitSep_append, splitSep_empty]
  rfl

theorem cleanStep_empty (rooted : Bool) (stack : List String) :
    cleanStep rooted stack "" = stack := by
  simp [cleanStep]

theorem cleanStep_dot (rooted : Bool) (stack : List String) :
    cleanStep rooted stack "." = stack := by
  simp [cleanStep]

/-- The elements of the text of a cleaned path clean to the elements of the path. -/
theorem foldl_splitSep_render {rooted : Bool} {N : List String} (h : CleanForm rooted N) :
    (splitSep (render rooted N)).foldl (cleanStep rooted) [] = N := by
  cases rooted with
  | true =>
    simp only [render, if_true]
    rw [splitSep_slash_append, List.foldl_cons, cleanStep_empty]
    by_cases hN : N = []
    · subst hN
      rw [joinSep_nil, splitSep_empty, List.foldl_cons, cleanStep_empty]
      rfl
    · rw [splitSep_joinSep N hN (cleanForm_noSep h)]
      exact foldl_cleanStep_cleanForm true N h
  | false =>
    simp only [render, Bool.false_eq_true, if_false]
    by_cases hN : N = []
    · subst hN
      simp only [if_true]
      rfl
    · simp only [hN, if_false]
      rw [splitSep_joinSep N hN (cleanForm_noSep h)]
      exact foldl_cleanStep_cleanForm false N h

theorem Clean_render {rooted : Bool} {N : List String} (h : CleanForm rooted N) :
    Clean (render rooted N) = render rooted N := by
  rw [Clean_eq _ (render_ne_empty h), IsAbs_render h, foldl_splitSep_render h]

/-- Every cleaned path is the text of a list of elements in clean form. -/
theorem Clean_spec (path : String) :
    ∃ rooted N, CleanForm rooted N ∧ Clean path = render rooted N ∧
      (path ≠ "" → rooted = IsAbs path ∧
        N = (splitSep path).foldl (cleanStep (IsAbs path)) []) := by
  by_cases h : path = ""
  · subst h
    exact ⟨false, [], cleanForm_nil false, rfl, fun h => absurd rfl h⟩
  · exact ⟨IsAbs path, _, Clean_form path, Clean_eq path h, fun _ => ⟨rfl, rfl⟩⟩

theorem Clean_idem (path : String) : Clean (Clean path) = Clean path := by
  obtain ⟨rooted, N, hN, hc, -⟩ := Clean_spec path
  rw [hc, Clean_render hN]

theorem IsAbs_Clean (path : String) : IsAbs (Clean path) = IsAbs path := by
  by_cases h : path = ""
  · subst h; rfl
  · rw [Clean_eq path h, IsAbs_render (Clean_form path)]

theorem Clean_ne_empty (path : String) : Clean path ≠ "" := by
  obtain ⟨rooted, N, hN, hc, -⟩ := Clean_spec path
  rw [hc]
  exact render_ne_empty hN

end Client

namespace Client

/-! ## Relative paths -/

theorem relElems_render_true {N : List String} (h : CleanForm true N) :
    relElems (render true N) = "" :: N := by
  have hne := render_ne_empty h
  simp only [relElems, hne, if_false]
  by_cases hN : N = []
  · subst hN
    rfl
  · have hj := joinSep_ne_empty hN (fun e he => (cleanForm_ne_empty h e he).1)
    have hns : render true N ≠ "/" := by
      simp only [render, if_true]
      intro h'
      have := congrArg String.data h'
      simp only [String.data_append] at this
      have h2 : (joinSep N).data = [] := by simpa using this
      apply hj
      apply String.ext
      rw [h2]
    simp only [hns, if_false]
    simp only [render, if_true]
    rw [splitSep_slash_append, splitSep_joinSep N hN (cleanForm_noSep h)]

theorem joinSep_ne_slash {N : List String} (h : ∀ e ∈ N, NoSep e) (h2 : ∀ e ∈ N, e ≠ "") :
    joinSep N ≠ "/" := by
  intro h'
  have := IsAbs_joinSep h h2
  rw [h'] at this
  exact absurd this (by decide)

theorem relElems_render_false {N : List String} (h : CleanForm false N) (hN : N ≠ []) :
    relElems (render false N) = N := by
  have hne := render_ne_empty h
  simp only [relElems, hne, if_false]
  simp only [render, Bool.false_eq_true, if_false, hN]
  have := joinSep_ne_slash (cleanForm_noSep h) (fun e he => (cleanForm_ne_empty h e he).1)
  simp only [this, if_false]
  exact splitSep_joinSep N hN (cleanForm_noSep h)

theorem render_false_ne_dot {N : List String} (h : CleanForm false N) (hN : N ≠ []) :
    render false N ≠ "." := by
  intro h'
  have h1 := relElems_render_false h hN
  rw [h'] at h1
  have h2 : relElems "." = ["."] := rfl
  rw [h2] at h1
  have := (cleanForm_ne_empty h "." (by rw [← h1]; simp)).2
  exact this rfl

theorem render_true_ne_dot (N : List String) : render true N ≠ "." := by
  intro h'
  have := IsAbs_slash_append (joinSep N)
  simp only [render, if_true] at h'
  rw [h'] at this
  exact absurd this (by decide)

theorem base_elems {rooted : Bool} {N : List String} (h : CleanForm rooted N) :
    relElems (if render rooted N = "." then "" else render rooted N) = baseElems rooted N ∧
    IsAbs (if render rooted N = "." then "" else render rooted N) = rooted := by
  cases rooted with
  | true =>
    simp only [render_true_ne_dot, if_false, baseElems, if_true]
    exact ⟨relElems_render_true h, IsAbs_render h⟩
  | false =>
    by_cases hN : N = []
    · subst hN
      simp [render, baseElems, relElems, IsAbs, HasPrefix]
    · simp only [render_false_ne_dot h hN, if_false, baseElems, Bool.false_eq_true]
      exact ⟨relElems_render_false h hN, IsAbs_render h⟩

theorem targ_elems {rooted : Bool} {N : List String} (h : CleanForm rooted N) :
    relElems (render rooted N) = targElems rooted N := by
  cases rooted with
  | true => simp only [targElems, if_true]; exact relElems_render_true h
  | false =>
    by_cases hN : N = []
    · subst hN
      rfl
    · simp only [targElems, Bool.false_eq_true, if_false, hN]
      exact relElems_render_false h hN

/-- The call `filepath.Rel` on two paths, in terms of the elements of the cleaned paths. -/
theorem Rel_eq (basepath targpath : String) (rb rt : Bool) (Nb Nt : List String)
    (hb : CleanForm rb Nb) (ht : CleanForm rt Nt)
    (hcb : Clean basepath = render rb Nb) (hct : Clean targpath = render rt Nt) :
    Rel basepath targpath =
      if render rt Nt = render rb Nb then .ok "."
      else if rb ≠ rt then .error (.relFailed basepath targpath)
      else
        match relLoop (baseElems rb Nb) (targElems rt Nt) with
        | none => .error (.relFailed basepath targpath)
        | some rel => .ok rel := by
  simp only [Rel, hcb, hct]
  by_cases heq : render rt Nt = render rb Nb
  · simp only [heq, if_true]
  · simp only [heq, if_false]
    rewrite [(base_elems hb).1, (base_elems hb).2, targ_elems ht, IsAbs_render ht]
    rfl

theorem HasPrefix_joinSep_dotdot (xs : List String) :
    HasPrefix (joinSep (".." :: xs)) ".." = true := by
  obtain ⟨t, ht⟩ := joinSep_data_cons ".." xs
  simp only [HasPrefix, ht]
  simp [List.isPrefixOf]

theorem relLoop_under (B T : List String) (r : String) (h : relLoop B T = some r)
    (hp : HasPrefix r ".." = false) : ∃ ts, T = B ++ ts ∧ r = joinSep ts := by
  induction B generalizing T with
  | nil =>
    simp only [relLoop, Option.some.injEq] at h
    exact ⟨T, rfl, h.symm⟩
  | cons b bs ih =>
    cases T with
    | nil =>
      simp only [relLoop, Option.some.injEq] at h
      rw [← h, List.replicate_succ, HasPrefix_joinSep_dotdot] at hp
      cases hp
    | cons t ts =>
      simp only [relLoop] at h
      by_cases hbt : b = t
      · simp only [hbt, if_true] at h
        obtain ⟨ts2, h1, h2⟩ := ih ts h
        exact ⟨ts2, by rw [hbt, h1]; rfl, h2⟩
      · simp only [hbt, if_false] at h
        by_cases hdd : b = ".."
        · simp [hdd] at h
        · simp only [hdd, if_false, Option.some.injEq] at h
          rw [← h, List.replicate_succ, List.cons_append, HasPrefix_joinSep_dotdot] at hp
          cases hp

/-- A suffix of a list in clean form whose first element is not `..` holds plain elements. -/
theorem cleanForm_suffix_plain {rooted : Bool} {N Nb ts : List String}
    (h : CleanForm rooted N) (hN : N = Nb ++ ts) (hhead : ts.head? ≠ some "..") :
    ∀ e ∈ ts, Plain e := by
  obtain ⟨k, plain, rfl, hp, -⟩ := h
  by_cases hlen : Nb.length < k
  · exfalso
    apply hhead
    have h1 : (List.replicate k ".." ++ plain)[Nb.length]? = some ".." := by
      rw [List.getElem?_append_left (by simpa using hlen)]
      simp [hlen]
    rw [hN] at h1
    rw [List.getElem?_append_right (le_refl _)] at h1
    simpa [List.head?_eq_getElem?] using h1
  · have hk : k ≤ Nb.length := Nat.le_of_not_lt hlen
    have h1 := congrArg (List.drop Nb.length) hN
    rw [List.drop_append_eq_append_drop, List.drop_left] at h1
    have h2 : List.drop (Nb.length) (List.replicate k "..") = [] := by
      simp [hk]
    rw [h2, List.nil_append] at h1
    intro e he
    rw [← h1] at he
    exact hp e (List.mem_of_mem_drop he)

theorem joinSep_head_prefix (e : String) (rest : List String) (p : String)
    (h : HasPrefix e p = true) : HasPrefix (joinSep (e :: rest)) p = true := by
  obtain ⟨t, ht⟩ := joinSep_data_cons e rest
  simp only [HasPrefix, ht] at h ⊢
  rw [List.isPrefixOf_iff_prefix] at h ⊢
  exact h.trans (List.prefix_append _ _)

/-- What a successful call of `getRelPath` returns, in terms of the elements of the cleaned
paths: `.` when the paths are the same, and otherwise the elements of the target that follow
those of the base, which are plain. -/
theorem getRelPath_spec (base path : String) (rb rt : Bool) (Nb Nt : List String)
    (hb : CleanForm rb Nb) (ht : CleanForm rt Nt)
    (hcb : Clean base = render rb Nb) (hct : Clean path = render rt Nt) (r : String)
    (h : getRelPath base path = .ok r) :
    (r = "." ∧ Clean path = Clean base) ∨
    (rb = rt ∧ ∃ ts, Nt = Nb ++ ts ∧ ts ≠ [] ∧ (∀ e ∈ ts, Plain e) ∧ r = joinSep ts) := by
  simp only [getRelPath] at h
  rw [Rel_eq base path rb rt Nb Nt hb ht hcb hct] at h
  by_cases heq : render rt Nt = render rb Nb
  · simp only [heq, if_true] at h
    left
    have : HasPrefix "." ".." = false := by decide
    simp only [this] at h
    simp only [Bool.false_eq_true, if_false, Except.ok.injEq] at h
    exact ⟨h.symm, by rw [hcb, hct, heq]⟩
  · simp only [heq, if_false] at h
    right
    by_cases hr : rb = rt
    · subst hr
      simp only [ne_eq, not_true_eq_false, if_false] at h
      cases hl : relLoop (baseElems rb Nb) (targElems rb Nt) with
      | none => rw [hl] at h; cases h
      | some rel =>
        rw [hl] at h
        simp only at h
        by_cases hp : HasPrefix rel ".." = true
        · simp [hp] at h
        · have hp' : HasPrefix rel ".." = false := by simpa using hp
          rw [hp'] at h
          simp only [Bool.false_eq_true, if_false, Except.ok.injEq] at h
          subst h
          obtain ⟨ts, h1, h2⟩ := relLoop_under _ _ rel hl hp'
          have hNt : Nt = Nb ++ ts := by
            cases rb with
            | true => simpa [baseElems, targElems] using h1
            | false =>
              simp only [baseElems, targElems, Bool.false_eq_true, if_false] at h1
              by_cases hN : Nt = []
              · exfalso
                simp only [hN, if_true] at h1
                have hNb : Nb = [] := by
                  cases Nb with
                  | nil => rfl
                  | cons x xs =>
                    exfalso
                    simp only [List.cons_append, List.cons.injEq] at h1
                    exact (cleanForm_ne_empty hb x (List.mem_cons_self _ _)).2 h1.1.symm
                apply heq
                rw [hN, hNb]
              · simpa [hN] using h1
          have hts : ts ≠ [] := by
            intro h3
            apply heq
            rw [hNt, h3, List.append_nil]
          refine ⟨rfl, ts, hNt, hts, ?_, h2⟩
          apply cleanForm_suffix_plain ht hNt
          intro hh
          cases ts with
          | nil => exact hts rfl
          | cons e rest =>
            simp only [List.head?_cons, Option.some.injEq] at hh
            rw [h2, hh, HasPrefix_joinSep_dotdot] at hp'
            cases hp'
    · simp [hr] at h

end Client

namespace Client

theorem render_inj {rooted : Bool} {N M : List String} (hN : CleanForm rooted N)
    (hM : CleanForm rooted M) (h : render rooted N = render rooted M) : N = M := by
  rw [← foldl_splitSep_render hN, ← foldl_splitSep_render hM, h]

theorem IsAbs_append (a b : String) (h : a ≠ "") : IsAbs (a ++ b) = IsAbs a := by
  have hne := string_data_ne_nil h
  cases hd : a.data with
  | nil => exact absurd hd hne
  | cons c cs =>
    simp only [IsAbs, HasPrefix, String.data_append, hd]
    simp [List.isPrefixOf]

theorem plain_cleanForm {rooted : Bool} {ts : List String} (h : ∀ e ∈ ts, Plain e) :
    CleanForm rooted ts :=
  ⟨0, ts, by simp, h, fun _ => rfl⟩

theorem getRelPath_no_dotdot (base path r : String) (h : getRelPath base path = .ok r) :
    HasPrefix r ".." = false := by
  simp only [getRelPath] at h
  cases hr : Rel base path with
  | error e => rw [hr] at h; cases h
  | ok rel =>
    rw [hr] at h
    simp only at h
    by_cases hp : HasPrefix rel ".." = true
    · simp [hp] at h
    · have hp' : HasPrefix rel ".." = false := by simpa using hp
      rw [hp'] at h
      simp only [Bool.false_eq_true, if_false, Except.ok.injEq] at h
      rw [← h]
      exact hp'

/-- The result of `getRelPath` is a cleaned relative path that does not begin with `..`. -/
theorem getRelPath_clean (base path r : String) (h : getRelPath base path = .ok r) :
    Clean r = r ∧ IsAbs r = false ∧ HasPrefix r ".." = false := by
  obtain ⟨rb, Nb, hb, hcb, -⟩ := Clean_spec base
  obtain ⟨rt, Nt, ht, hct, -⟩ := Clean_spec path
  refine ⟨?_, ?_, getRelPath_no_dotdot base path r h⟩
  · rcases getRelPath_spec base path rb rt Nb Nt hb ht hcb hct r h with ⟨h1, -⟩ | ⟨-, ts, -, h2, h3, h4⟩
    · subst h1; rfl
    · have : r = render false ts := by simp [render, h2, h4]
      rw [this]
      exact Clean_render (plain_cleanForm h3)
  · rcases getRelPath_spec base path rb rt Nb Nt hb ht hcb hct r h with ⟨h1, -⟩ | ⟨-, ts, -, h2, h3, h4⟩
    · subst h1; rfl
    · have : r = render false ts := by simp [render, h2, h4]
      rw [this]
      exact IsAbs_render (plain_cleanForm h3)

theorem Join_pair (a b : String) (h : a ≠ "") : Join [a, b] = Clean (a ++ "/" ++ b) := by
  simp only [Join, List.dropWhile, h, decide_False]
  rw [joinSep_cons_cons, joinSep_singleton]

theorem Join_empty_left (b : String) (h : b ≠ "") : Join ["", b] = Clean b := by
  simp only [Join, List.dropWhile, decide_True, h, decide_False]
  rw [joinSep_singleton]

theorem Clean_append (a b : String) (ha : a ≠ "") :
    Clean (a ++ "/" ++ b) =
      render (IsAbs a) ((splitSep b).foldl (cleanStep (IsAbs a))
        ((splitSep a).foldl (cleanStep (IsAbs a)) [])) := by
  have hne : a ++ "/" ++ b ≠ "" := by
    intro h'
    have := congrArg String.data h'
    simp [String.data_append] at this
  rw [Clean_eq _ hne, String.append_assoc, IsAbs_append a _ ha, ← String.append_assoc,
    splitSep_append, List.foldl_append]

/-- Joining the result of `getRelPath` to the base gives the cleaned path. -/
theorem getRelPath_join (base path r : String) (h : getRelPath base path = .ok r) :
    Join [base, r] = Clean path := by
  obtain ⟨rb, Nb, hb, hcb, hb2⟩ := Clean_spec base
  obtain ⟨rt, Nt, ht, hct, -⟩ := Clean_spec path
  have hclean := getRelPath_clean base path r h
  have hrne : r ≠ "" := by
    intro h'
    have := Clean_ne_empty r
    rw [hclean.1] at this
    exact this h'
  by_cases hbase : base = ""
  · subst hbase
    rw [Join_empty_left r hrne, hclean.1]
    have hcb' : render rb Nb = "." := hcb.symm
    have hrb : rb = false := by
      cases rb with
      | false => rfl
      | true => exact absurd hcb' (render_true_ne_dot Nb)
    subst hrb
    have hNb : Nb = [] := by
      by_contra hN
      exact render_false_ne_dot hb hN hcb'
    subst hNb
    rcases getRelPath_spec "" path false rt [] Nt hb ht hcb hct r h with
      ⟨h1, h2⟩ | ⟨h1, ts, h2, h3, h4, h5⟩
    · rw [h1, h2]; rfl
    · subst h1
      rw [hct, h5]
      simp only [List.nil_append] at h2
      subst h2
      simp [render, h3]
  · obtain ⟨hrb, hNb⟩ := hb2 hbase
    subst hrb
    rw [Join_pair base r hbase, Clean_append base r hbase, ← hNb]
    rcases getRelPath_spec base path (IsAbs base) rt Nb Nt hb ht hcb hct r h with
      ⟨h1, h2⟩ | ⟨h1, ts, h2, h3, h4, h5⟩
    · subst h1
      have : splitSep "." = ["."] := rfl
      rw [this, List.foldl_cons, cleanStep_dot, List.foldl_nil, h2, hcb]
    · rw [h5, splitSep_joinSep ts h3 (fun e he => plain_noSep (h4 e he)),
        foldl_cleanStep_plain (IsAbs base) Nb ts h4, ← h2, hct, h1]

theorem getRelPath_Clean (base path r : String) (h : getRelPath base path = .ok r) :
    getRelPath base (Clean path) = .ok r := by
  simp only [getRelPath, Rel, Clean_idem] at h ⊢
  by_cases h1 : Clean path = Clean base
  · simpa [h1] using h
  · simp only [h1, if_false] at h ⊢
    by_cases h2 : IsAbs (if Clean base = "." then "" else Clean base) ≠ IsAbs (Clean path)
    · simp [h2] at h
    · simp only [h2, if_false] at h ⊢
      cases hl : relLoop (relElems (if Clean base = "." then "" else Clean base))
          (relElems (Clean path)) with
      | none => rw [hl] at h; simp at h
      | some rel =>
        rw [hl] at h
        simp only at h ⊢
        by_cases hp : HasPrefix rel ".." = true
        · simp [hp] at h
        · have hp' : HasPrefix rel ".." = false := by simpa using hp
          rw [hp'] at h ⊢
          simpa using h

end Client

namespace Client

/-! ## One round of the loader -/

theorem loadFilesAncestors_fs (ps : List String) (s : loadState) :
    (loadFilesAncestors ps s).fs = s.fs := by
  induction ps generalizing s with
  | nil => rfl
  | cons p ps ih =>
    simp only [loadFilesAncestors]
    split
    · exact ih s
    · rw [ih]

theorem loadFilesNonSymlink_fs (host : Host) (excl : List InputExclusion)
    (absPath normPath k : String) (np : Option NodeProperties) (md : Metadata)
    (s s2 : loadState)
    (h : loadFilesNonSymlink host excl absPath normPath k np md s = .ok s2) :
    s2.fs = s.fs ∨ ∃ node, s2.fs = mapSet s.fs k node ∧ node.symlink = none := by
  simp only [loadFilesNonSymlink] at h
  split at h
  · split at h
    · cases h; exact Or.inl rfl
    · split at h
      · cases h
      · split at h
        · cases h
        · split at h
          · split at h
            · cases h; exact Or.inr ⟨_, rfl, rfl⟩
            · cases h; exact Or.inl rfl
          · cases h; exact Or.inl rfl
  · split at h
    · cases h; exact Or.inl rfl
    · split at h
      · cases h
      · cases h; exact Or.inr ⟨_, rfl, rfl⟩

/-- What a round of the loader does to the flat map: nothing, or one write under the remote
form of the path of an entry under the exec root; a symlink node is written only when symlinks
are preserved and carries the target that `getTargetRelPath` gives for the local path. -/
theorem loadFilesStep_fs (host : Host) (execRoot lwd rwd : String)
    (excl : List InputExclusion) (opts : TreeSymlinkOpts)
    (np : List (String × NodeProperties)) (path : String) (s s2 : loadState)
    (h : loadFilesStep host execRoot lwd rwd excl opts np path s = .ok s2) :
    s2.fs = s.fs ∨ ∃ absPath normPath k node,
      getExecRootRelPaths absPath execRoot lwd rwd = .ok (normPath, k) ∧
      s2.fs = mapSet s.fs k node ∧
      (∀ sl, node.symlink = some sl → opts.Preserved = true ∧
        ∃ tgt r1, getTargetRelPath execRoot normPath tgt = .ok (r1, sl.target)) := by
  simp only [loadFilesStep] at h
  split at h
  · cases h
  · split at h
    · cases h
    · rename_i absPath s1 hres
      have hs1 : s1.fs = s.fs := by
        split at hres
        · split at hres
          · cases hres
          · cases hres
            exact loadFilesAncestors_fs _ _
        · cases hres
          rfl
      split at h
      · cases h
      · rename_i normPath k hrel
        split at h
        · rcases loadFilesNonSymlink_fs _ _ _ _ _ _ _ _ _ h with h1 | ⟨node, h1, h2⟩
          · exact Or.inl (h1.trans hs1)
          · exact Or.inr ⟨absPath, normPath, k, node, hrel, by rw [h1, hs1],
              fun sl hsl => by rw [h2] at hsl; cases hsl⟩
        · rename_i sl hsym
          split at h
          · cases h; exact Or.inl hs1
          · split at h
            · rename_i hpres
              split at h
              · cases h; exact Or.inl hs1
              · split at h
                · split at h
                  · cases h
                  · split at h
                    · cases h
                    · rcases loadFilesNonSymlink_fs _ _ _ _ _ _ _ _ _ h with h1 | ⟨node, h1, h2⟩
                      · exact Or.inl (h1.trans hs1)
                      · exact Or.inr ⟨absPath, normPath, k, node, hrel, by rw [h1, hs1],
                          fun sl hsl => by rw [h2] at hsl; cases hsl⟩
                · rename_i r1 r2 htgt
                  refine Or.inr ⟨absPath, normPath, k,
                    { file := none, emptyDirectoryMarker := false,
                      symlink := some { target := r2 }, nodeProperties := mapGet np k },
                    hrel, ?_, ?_⟩
                  · rw [← hs1]
                    split at h <;> split at h <;> cases h <;> rfl
                  · intro sl2 hsl
                    cases hsl
                    exact ⟨hpres, sl.Target, r1, htgt⟩
            · rcases loadFilesNonSymlink_fs _ _ _ _ _ _ _ _ _ h with h1 | ⟨node, h1, h2⟩
              · exact Or.inl (h1.trans hs1)
              · exact Or.inr ⟨absPath, normPath, k, node, hrel, by rw [h1, hs1],
                  fun sl hsl => by rw [h2] at hsl; cases hsl⟩

theorem getExecRootRelPaths_spec (absPath execRoot lwd rwd normPath k : String)
    (h : getExecRootRelPaths absPath execRoot lwd rwd = .ok (normPath, k)) :
    getRelPath execRoot absPath = .ok normPath ∧
    (((rwd = "" ∨ rwd = lwd) ∧ k = normPath) ∨
      (¬ (rwd = "" ∨ rwd = lwd) ∧ getRemotePath normPath lwd rwd = .ok k)) := by
  simp only [getExecRootRelPaths] at h
  cases hr : getRelPath execRoot absPath with
  | error e => rw [hr] at h; cases h
  | ok rel =>
    rw [hr] at h
    simp only at h
    by_cases hw : rwd = "" ∨ rwd = lwd
    · simp only [hw, if_true, Except.ok.injEq, Prod.mk.injEq] at h
      obtain ⟨h1, h2⟩ := h
      subst h1
      exact ⟨rfl, Or.inl ⟨hw, h2.symm⟩⟩
    · simp only [hw, if_false] at h
      cases hp : getRemotePath rel lwd rwd with
      | error e => rw [hp] at h; cases h
      | ok rem =>
        rw [hp] at h
        simp only [Except.ok.injEq, Prod.mk.injEq] at h
        obtain ⟨h1, h2⟩ := h
        subst h1 h2
        exact ⟨rfl, Or.inr ⟨hw, hp⟩⟩

theorem getRemotePath_clean (path lwd rwd k : String) (hw : rwd ≠ "")
    (h : getRemotePath path lwd rwd = .ok k) : Clean k = k := by
  simp only [getRemotePath] at h
  cases hr : Rel lwd path with
  | error e => rw [hr] at h; cases h
  | ok rel =>
    rw [hr] at h
    simp only [Except.ok.injEq] at h
    rw [← h, Join_pair rwd rel hw, Clean_idem]

/-- An invariant of the flat map that every round of the loader keeps holds of the result of
`loadFiles` when it holds of the map that `loadFiles` is given. -/
theorem loadFilesLoop_inv (host : Host) (execRoot lwd rwd : String)
    (excl : List InputExclusion) (opts : TreeSymlinkOpts)
    (np : List (String × NodeProperties)) (P : List (String × fileSysNode) → Prop)
    (hstep : ∀ path s s2, loadFilesStep host execRoot lwd rwd excl opts np path s = .ok s2 →
      P s.fs → P s2.fs) :
    ∀ fuel s fs, loadFilesLoop host execRoot lwd rwd excl opts np fuel s = some (.ok fs) →
      P s.fs → P fs := by
  intro fuel
  induction fuel with
  | zero =>
    intro s fs h hP
    rw [loadFilesLoop] at h
    split at h
    · cases h; exact hP
    · cases h
  | succ n ih =>
    intro s fs h hP
    rw [loadFilesLoop] at h
    split at h
    · cases h; exact hP
    · rename_i path rest hq
      simp only at h
      split at h
      · cases h
      · rename_i s2 hs
        exact ih s2 fs h (hstep path _ s2 hs hP)

end Client

namespace Client

/-! ## The result of the loop of `filepath.Rel` -/

theorem relLoop_plain (B T : List String) (r : String) (hB : ∀ b ∈ B, b ≠ "..")
    (h : relLoop B T = some r) :
    ∃ c b2 t2, B = c ++ b2 ∧ T = c ++ t2 ∧
      r = joinSep (List.replicate b2.length ".." ++ t2) := by
  induction B generalizing T with
  | nil =>
    simp only [relLoop, Option.some.injEq] at h
    exact ⟨[], [], T, rfl, rfl, by simpa using h.symm⟩
  | cons b bs ih =>
    cases T with
    | nil =>
      simp only [relLoop, Option.some.injEq] at h
      exact ⟨[], b :: bs, [], rfl, rfl, by simpa using h.symm⟩
    | cons t ts =>
      simp only [relLoop] at h
      by_cases hbt : b = t
      · simp only [hbt, if_true] at h
        obtain ⟨c, b2, t2, h1, h2, h3⟩ :=
          ih ts (fun x hx => hB x (List.mem_cons_of_mem _ hx)) h
        exact ⟨t :: c, b2, t2, by rw [hbt, h1]; rfl, by rw [h2]; rfl, h3⟩
      · have hdd : b ≠ ".." := hB b (List.mem_cons_self _ _)
        simp only [hbt, if_false, hdd, Option.some.injEq] at h
        exact ⟨[], b :: bs, t :: ts, rfl, rfl, by simpa using h.symm⟩

end Client

namespace Client

/-! ## The round trip of `filepath.Rel` and `filepath.Join` below a common ancestor -/

theorem relLoop_common (E d ts : List String) : relLoop (E ++ d) (E ++ ts) = relLoop d ts := by
  induction E with
  | nil => rfl
  | cons e es ih =>
    simp only [List.cons_append, relLoop, if_true]
    exact ih

/-- Walking the result of the loop of `filepath.Rel` from a base of plain elements ends at the
target. -/
theorem relLoop_join (rooted : Bool) (E d ts : List String) (rel : String)
    (hd : ∀ e ∈ d, Plain e) (hts : ∀ e ∈ ts, Plain e) (hne : d ≠ ts)
    (h : relLoop d ts = some rel) :
    (splitSep rel).foldl (cleanStep rooted) (E ++ d) = E ++ ts := by
  obtain ⟨c, b2, t2, h1, h2, h3⟩ := relLoop_plain d ts rel (fun b hbm => (hd b hbm).2.2.1) h
  have hnil : List.replicate b2.length ".." ++ t2 ≠ [] := by
    intro h0
    obtain ⟨h4, h5⟩ := List.append_eq_nil.1 h0
    have hb2 : b2 = [] := by
      cases b2 with
      | nil => rfl
      | cons x xs => simp [List.replicate_succ] at h4
    subst hb2 h5
    apply hne
    rw [h1, h2]
  have hns : ∀ x ∈ List.replicate b2.length ".." ++ t2, NoSep x := by
    intro x hx
    rcases List.mem_append.1 hx with hx | hx
    · rw [(List.mem_replicate.1 hx).2]; exact dotdot_noSep
    · exact plain_noSep (hts x (by rw [h2]; exact List.mem_append_right _ hx))
  rw [h3, splitSep_joinSep _ hnil hns, List.foldl_append, h1, ← List.append_assoc,
    foldl_cleanStep_pop rooted (E ++ c) b2
      (fun e he => hd e (by rw [h1]; exact List.mem_append_right _ he)),
    foldl_cleanStep_plain rooted (E ++ c) t2
      (fun e he => hts e (by rw [h2]; exact List.mem_append_right _ he)),
    h2, List.append_assoc]

/-- When the base and the target lie below a common ancestor, the base by plain elements,
joining the result of `filepath.Rel` to the base gives the cleaned target. -/
theorem Rel_join_common (base targ r : String) (rb : Bool) (E d ts : List String)
    (hb : CleanForm rb (E ++ d)) (ht : CleanForm rb (E ++ ts))
    (hd : ∀ e ∈ d, Plain e) (hts : ∀ e ∈ ts, Plain e)
    (hcb : Clean base = render rb (E ++ d)) (hct : Clean targ = render rb (E ++ ts))
    (hne : base ≠ "") (h : Rel base targ = .ok r) : Join [base, r] = Clean targ := by
  have hab : IsAbs base = rb := by rw [← IsAbs_Clean, hcb, IsAbs_render hb]
  have hN : (splitSep base).foldl (cleanStep rb) [] = E ++ d := by
    have h1 := Clean_eq base hne
    have h2 := Clean_form base
    rw [hab] at h1 h2
    rw [hcb] at h1
    exact (render_inj hb h2 h1).symm
  rw [Join_pair base r hne, Clean_append base r hne, hab, hN]
  rw [Rel_eq base targ rb rb _ _ hb ht hcb hct] at h
  by_cases heq : render rb (E ++ ts) = render rb (E ++ d)
  · simp only [heq, if_true, Except.ok.injEq] at h
    subst h
    have : splitSep "." = ["."] := rfl
    rw [this, List.foldl_cons, cleanStep_dot, List.foldl_nil, hct, heq]
  · simp only [heq, if_false, ne_eq, not_true_eq_false] at h
    have hdts : d ≠ ts := fun h0 => heq (by rw [h0])
    by_cases hE : rb = false ∧ E ++ ts = []
    · obtain ⟨hr, hnil⟩ := hE
      obtain ⟨hE0, hts0⟩ := List.append_eq_nil.1 hnil
      subst hr hE0 hts0
      cases d with
      | nil => exact absurd rfl hdts
      | cons b bs =>
        have hbp := hd b (List.mem_cons_self _ _)
        have hl : relLoop (baseElems false ([] ++ b :: bs)) (targElems false ([] ++ [])) =
            some (joinSep (List.replicate (bs.length + 1) ".." ++ ["."])) := by
          simp [baseElems, targElems, relLoop, hbp.2.1, hbp.2.2.1]
        rw [hl] at h
        simp only [Except.ok.injEq] at h
        subst h
        have hns : ∀ x ∈ List.replicate (bs.length + 1) ".." ++ ["."], NoSep x := by
          intro x hx
          rcases List.mem_append.1 hx with hx | hx
          · rw [(List.mem_replicate.1 hx).2]; exact dotdot_noSep
          · rw [List.mem_singleton.1 hx]; simp [NoSep]
        rw [splitSep_joinSep _ (by simp) hns, List.foldl_append]
        have hpop := foldl_cleanStep_pop false [] (b :: bs) hd
        simp only [List.length_cons, List.nil_append] at hpop ⊢
        rw [hpop, List.foldl_cons, cleanStep_dot, List.foldl_nil, hct]
        rfl
    · have hl : relLoop (baseElems rb (E ++ d)) (targElems rb (E ++ ts)) = relLoop d ts := by
        cases rb with
        | true =>
          simp only [baseElems, targElems, if_true, relLoop]
          exact relLoop_common E d ts
        | false =>
          have hnn : E ++ ts ≠ [] := fun h0 => hE ⟨rfl, h0⟩
          simp only [baseElems, targElems, Bool.false_eq_true, if_false, hnn]
          exact relLoop_common E d ts
      rw [hl] at h
      cases hl2 : relLoop d ts with
      | none => rw [hl2] at h; cases h
      | some rel =>
        rw [hl2] at h
        simp only [Except.ok.injEq] at h
        subst h
        rw [relLoop_join rb E d ts rel hd hts hdts hl2, hct]

/-! ## The directory of a path under the exec root -/

theorem dirChars_noSep (l : List Char) (h : '/' ∉ l) :
    (l.reverse.dropWhile (fun c => c ≠ '/')).reverse = [] := by
  rw [List.reverse_eq_nil_iff, List.dropWhile_eq_nil_iff]
  intro x hx
  have : x ≠ '/' := fun h0 => h (h0 ▸ List.mem_reverse.1 hx)
  simpa using this

theorem dirChars_append (a b : List Char) (h : '/' ∉ b) :
    ((a ++ '/' :: b).reverse.dropWhile (fun c => c ≠ '/')).reverse = a ++ ['/'] := by
  rw [List.reverse_append, List.reverse_cons, List.append_assoc,
    List.dropWhile_append_of_pos]
  · simp [List.dropWhile]
  · intro x hx
    have : x ≠ '/' := fun h0 => h (h0 ▸ List.mem_reverse.1 hx)
    simpa using this

/-- The directory of a path of plain elements is the path of all its elements but the last. -/
theorem Dir_joinSep (ts : List String) (hne : ts ≠ []) (hp : ∀ e ∈ ts, Plain e) :
    Dir (joinSep ts) = render false ts.dropLast := by
  rcases List.eq_nil_or_concat ts with h | ⟨init, last, h⟩
  · exact absurd h hne
  · subst h
    have hlast : Plain last := hp last (by simp)
    have hinit : ∀ e ∈ init, Plain e := fun e he => hp e (by simp [he])
    rw [List.concat_eq_append, List.dropLast_concat]
    by_cases hi : init = []
    · subst hi
      simp only [List.nil_append, joinSep_singleton, Dir]
      rw [dirChars_noSep _ hlast.2.2.2]
      rfl
    · have hdata : (joinSep (init ++ [last])).data = (joinSep init).data ++ '/' :: last.data := by
        rw [joinSep_append _ _ hi (by simp), joinSep_singleton]
        simp [String.data_append]
      have hmk : String.mk ((joinSep init).data ++ ['/']) = joinSep init ++ "/" ++ "" := by
        apply String.ext
        simp [String.data_append]
      simp only [Dir]
      rw [hdata, dirChars_append _ _ hlast.2.2.2, hmk,
        Clean_append _ _ (joinSep_ne_empty hi (fun e he => (hinit e he).1)),
        IsAbs_joinSep (fun e he => (hinit e he).2.2.2) (fun e he => (hinit e he).1),
        splitSep_empty, splitSep_joinSep init hi (fun e he => (hinit e he).2.2.2),
        foldl_cleanStep_plain false [] init hinit, List.foldl_cons, cleanStep_empty,
        List.foldl_nil, List.nil_append]

/-- The directory of a path that `getRelPath` returns is a path of plain elements. -/
theorem Dir_of_getRelPath (base path r : String) (h : getRelPath base path = .ok r) :
    ∃ d, (∀ e ∈ d, Plain e) ∧ Dir r = render false d := by
  obtain ⟨rb, Nb, hb, hcb, -⟩ := Clean_spec base
  obtain ⟨rt, Nt, ht, hct, -⟩ := Clean_spec path
  rcases getRelPath_spec base path rb rt Nb Nt hb ht hcb hct r h with
    ⟨h1, -⟩ | ⟨-, ts, -, h2, h3, h4⟩
  · subst h1
    exact ⟨[], by simp, rfl⟩
  · subst h4
    exact ⟨ts.dropLast, fun e he => h3 e (List.mem_of_mem_dropLast he), Dir_joinSep ts h2 h3⟩

/-- The join of a directory with a path of plain elements has the elements of both. -/
theorem Join_plain (a : String) (d : List String) (hd : ∀ e ∈ d, Plain e) :
    ∃ rb E, CleanForm rb E ∧ Clean a = render rb E ∧ CleanForm rb (E ++ d) ∧
      Join [a, render false d] = render rb (E ++ d) := by
  have hdf : CleanForm false d := plain_cleanForm hd
  have happ : ∀ rb E, CleanForm rb E → CleanForm rb (E ++ d) := by
    intro rb E hE
    obtain ⟨k, plain, h1, h2, h3⟩ := hE
    refine ⟨k, plain ++ d, by rw [h1, List.append_assoc], ?_, h3⟩
    intro e he
    rcases List.mem_append.1 he with he | he
    · exact h2 e he
    · exact hd e he
  by_cases ha : a = ""
  · subst ha
    refine ⟨false, [], cleanForm_nil false, rfl, by simpa using hdf, ?_⟩
    rw [Join_empty_left _ (render_ne_empty hdf), Clean_render hdf, List.nil_append]
  · refine ⟨IsAbs a, _, Clean_form a, Clean_eq a ha, happ _ _ (Clean_form a), ?_⟩
    rw [Join_pair a _ ha, Clean_append a _ ha]
    congr 1
    by_cases hdn : d = []
    · subst hdn
      have : splitSep (render false []) = ["."] := rfl
      rw [this, List.foldl_cons, cleanStep_dot, List.foldl_nil, List.append_nil]
    · have : render false d = joinSep d := by simp [render, hdn]
      rw [this, splitSep_joinSep d hdn (fun e he => (hd e he).2.2.2),
        foldl_cleanStep_plain _ _ d hd]

/-- The second result of `getTargetRelPath`, resolved from the directory of the link, is the
path under the exec root that its first result names. -/
theorem getTargetRelPath_resolve (execRoot absPath normPath tgt r1 r2 : String)
    (hn : getRelPath execRoot absPath = .ok normPath)
    (h : getTargetRelPath execRoot normPath tgt = .ok (r1, r2)) :
    getRelPath execRoot (Join [Join [execRoot, Dir normPath], r2]) = .ok r1 := by
  obtain ⟨d, hd, hdir⟩ := Dir_of_getRelPath execRoot absPath normPath hn
  obtain ⟨rb, E, hE, hcE, hEd, hjoin⟩ := Join_plain execRoot d hd
  simp only [getTargetRelPath] at h
  split at h
  · cases h
  · rename_i rel hrel
    split at h
    · cases h
    · rename_i rs hrs
      simp only [Except.ok.injEq, Prod.mk.injEq] at h
      obtain ⟨h1, h2⟩ := h
      subst h1 h2
      rw [hdir, hjoin] at hrel hrs ⊢
      generalize (if ¬ IsAbs tgt = true then Join [render rb (E ++ d), tgt] else tgt) = T
        at hrel hrs
      obtain ⟨rt, Nt, ht, hct, -⟩ := Clean_spec T
      have hT : ∃ ts, (∀ e ∈ ts, Plain e) ∧ CleanForm rb (E ++ ts) ∧
          Clean T = render rb (E ++ ts) := by
        rcases getRelPath_spec execRoot T rb rt E Nt hE ht hcE hct rel hrel with
          ⟨-, h3⟩ | ⟨h3, ts, h4, -, h5, -⟩
        · exact ⟨[], by simp, by simpa using hE, by rw [h3, hcE, List.append_nil]⟩
        · subst h3 h4
          exact ⟨ts, h5, ht, hct⟩
      obtain ⟨ts, hts, htf, hcT⟩ := hT
      rw [Rel_join_common _ T rs rb E d ts hEd htf hd hts (Clean_render hEd) hcT
        (render_ne_empty hEd) hrs]
      exact getRelPath_Clean _ _ _ hrel

end Client

namespace Client

/-! ## The tree builder: the maps of the tree -/

theorem buildTree_eq_foldl (files : List (String × fileSysNode)) :
    buildTree files = files.foldl buildTreeStep (.mk [] []) := rfl

theorem treeNode.WF_empty : (treeNode.mk [] []).WF := by
  rw [treeNode.WF_mk]
  simp [mapKeys]

theorem buildTreeInsert_WF (segs : List String) (base : String) (fn : fileSysNode) :
    ∀ t : treeNode, t.WF → (buildTreeInsert segs base fn t).WF := by
  induction segs with
  | nil =>
    intro t hwf
    obtain ⟨leaves, children⟩ := t
    rw [treeNode.WF_mk] at hwf
    obtain ⟨h1, h2, h3⟩ := hwf
    simp only [buildTreeInsert]
    split
    · split
      · rw [treeNode.WF_mk]
        refine ⟨h1, mapKeys_mapSet_nodup _ _ _ h2, ?_⟩
        intro nc hnc
        rcases mem_mapSet _ _ _ _ hnc with h | h
        · rw [h]; exact treeNode.WF_empty
        · exact h3 nc h
      · rw [treeNode.WF_mk]; exact ⟨h1, h2, h3⟩
    · rw [treeNode.WF_mk]
      exact ⟨mapKeys_mapSet_nodup _ _ _ h1, h2, h3⟩
  | cons s segs ih =>
    intro t hwf
    obtain ⟨leaves, children⟩ := t
    rw [treeNode.WF_mk] at hwf
    obtain ⟨h1, h2, h3⟩ := hwf
    simp only [buildTreeInsert]
    rw [treeNode.WF_mk]
    refine ⟨h1, mapKeys_mapSet_nodup _ _ _ h2, ?_⟩
    intro nc hnc
    rcases mem_mapSet _ _ _ _ hnc with h | h
    · rw [h]
      apply ih
      cases hg : mapGet children s with
      | none => exact treeNode.WF_empty
      | some c => exact h3 (s, c) (mem_of_mapGet_eq_some _ _ _ hg)
    · exact h3 nc h

theorem foldl_buildTreeStep_WF (files : List (String × fileSysNode)) :
    ∀ t : treeNode, t.WF → (files.foldl buildTreeStep t).WF := by
  induction files with
  | nil => intro t h; exact h
  | cons kv rest ih =>
    intro t h
    rw [List.foldl_cons]
    exact ih _ (buildTreeInsert_WF _ _ _ t h)

/-- The tree that `buildTree` returns is a tree of maps: the names of the leaves of a node are
pairwise distinct, and so are the names of its children. -/
theorem buildTree_WF (files : List (String × fileSysNode)) : (buildTree files).WF :=
  foldl_buildTreeStep_WF files _ treeNode.WF_empty

end Client

namespace Client

/-! ## The tree builder: what an insertion does to the paths of the tree -/

theorem treeNode.sub_nil (t : treeNode) : t.sub [] = some t := by
  cases t; rfl

theorem treeNode.sub_cons (l : List (String × fileSysNode)) (c : List (String × treeNode))
    (s : String) (q : List String) :
    (treeNode.mk l c).sub (s :: q) =
      match mapGet c s with
      | none => none
      | some x => x.sub q := rfl

theorem treeNode.sub_empty_cons (s : String) (q : List String) :
    (treeNode.mk [] []).sub (s :: q) = none := rfl

theorem treeNode.leafAt_nil (l : List (String × fileSysNode)) (c : List (String × treeNode))
    (b : String) : (treeNode.mk l c).leafAt [] b = mapGet l b := rfl

theorem treeNode.leafAt_cons (l : List (String × fileSysNode)) (c : List (String × treeNode))
    (s : String) (q : List String) (b : String) :
    (treeNode.mk l c).leafAt (s :: q) b =
      match mapGet c s with
      | none => none
      | some x => x.leafAt q b := by
  simp only [treeNode.leafAt, treeNode.sub_cons]
  cases mapGet c s <;> rfl

theorem treeNode.leafAt_empty (q : List String) (b : String) :
    (treeNode.mk [] []).leafAt q b = none := by
  cases q <;> rfl

theorem leafAt_insert (segs : List String) (base : String) (fn : fileSysNode) :
    ∀ (t : treeNode) (q : List String) (b : String),
      (buildTreeInsert segs base fn t).leafAt q b =
        if fn.emptyDirectoryMarker = false ∧ q = segs ∧ b = base then some fn
        else t.leafAt q b := by
  induction segs with
  | nil =>
    intro t q b
    obtain ⟨l, c⟩ := t
    simp only [buildTreeInsert]
    cases hm : fn.emptyDirectoryMarker with
    | true =>
      simp only [if_true, Bool.true_eq_false, false_and, if_false]
      cases hg : mapGet c base with
      | some x => rfl
      | none =>
        simp only
        cases q with
        | nil => rfl
        | cons s q =>
          rw [treeNode.leafAt_cons, treeNode.leafAt_cons, mapGet_mapSet]
          by_cases hs : s = base
          · subst hs
            simp only [if_true, hg]
            exact treeNode.leafAt_empty q b
          · simp only [hs, if_false]
    | false =>
      simp only [Bool.false_eq_true, if_false, true_and]
      cases q with
      | nil =>
        rw [treeNode.leafAt_nil, treeNode.leafAt_nil, mapGet_mapSet]
        simp
      | cons s q =>
        rw [treeNode.leafAt_cons, treeNode.leafAt_cons]
        simp
  | cons s0 segs ih =>
    intro t q b
    obtain ⟨l, c⟩ := t
    simp only [buildTreeInsert]
    cases q with
    | nil =>
      rw [treeNode.leafAt_nil, treeNode.leafAt_nil]
      simp
    | cons s q =>
      rw [treeNode.leafAt_cons, treeNode.leafAt_cons, mapGet_mapSet]
      by_cases hs : s = s0
      · subst hs
        simp only [if_true, ih, List.cons.injEq, true_and]
        cases hg : mapGet c s with
        | none => simp [treeNode.leafAt_empty]
        | some x => simp
      · simp only [hs, if_false, List.cons.injEq, false_and, and_false]

theorem sub_insert_isSome (segs : List String) (base : String) (fn : fileSysNode) :
    ∀ (t : treeNode) (q : List String),
      ((buildTreeInsert segs base fn t).sub q).isSome = true ↔
        ((t.sub q).isSome = true ∨ q <+: segs ∨
          (fn.emptyDirectoryMarker = true ∧ q = segs ++ [base])) := by
  induction segs with
  | nil =>
    intro t q
    obtain ⟨l, c⟩ := t
    cases q with
    | nil => simp [treeNode.sub_nil]
    | cons s q =>
      simp only [buildTreeInsert]
      cases hm : fn.emptyDirectoryMarker with
      | true =>
        simp only [if_true, List.nil_append, List.cons.injEq, true_and]
        cases hg : mapGet c base with
        | some x =>
          simp only
          constructor
          · intro h; exact Or.inl h
          · rintro (h | h | ⟨h1, h2⟩)
            · exact h
            · simp at h
            · subst h1 h2
              rw [treeNode.sub_cons, hg]
              simp [treeNode.sub_nil]
        | none =>
          simp only
          rw [treeNode.sub_cons, treeNode.sub_cons, mapGet_mapSet]
          by_cases hs : s = base
          · subst hs
            simp only [if_true, hg]
            cases q with
            | nil => simp [treeNode.sub_nil]
            | cons s2 q => simp [treeNode.sub_empty_cons]
          · simp [hs]
      | false =>
        simp only [Bool.false_eq_true, if_false, false_and, or_false]
        rw [treeNode.sub_cons, treeNode.sub_cons]
        simp
  | cons s0 segs ih =>
    intro t q
    obtain ⟨l, c⟩ := t
    simp only [buildTreeInsert]
    cases q with
    | nil => simp [treeNode.sub_nil]
    | cons s q =>
      rw [treeNode.sub_cons, treeNode.sub_cons, mapGet_mapSet]
      by_cases hs : s = s0
      · subst hs
        simp only [if_true, ih, List.cons_append, List.cons.injEq, true_and,
          List.cons_prefix_cons]
        cases hg : mapGet c s with
        | some x => simp
        | none =>
          simp only [Option.getD_none, Option.isSome_none, Bool.false_eq_true, false_or]
          cases q with
          | nil => simp [treeNode.sub_nil]
          | cons s2 q => simp [treeNode.sub_empty_cons]
      · simp [hs]

end Client

namespace Client

/-! ## The tree builder: the paths of the tree that it returns -/

theorem dropLast_append_getLastD (l : List String) (h : l ≠ []) :
    l.dropLast ++ [l.getLastD ""] = l := by
  induction l with
  | nil => exact absurd rfl h
  | cons x xs ih =>
    cases xs with
    | nil => rfl
    | cons y ys =>
      have := ih (by simp)
      simp only [List.dropLast_cons₂, List.cons_append, List.getLastD_cons] at this ⊢
      rw [this]

theorem splitSep_dropLast (k : String) :
    (splitSep k).dropLast ++ [(splitSep k).getLastD ""] = splitSep k :=
  dropLast_append_getLastD _ (splitSep_ne_nil k)

theorem splitSep_inj (a b : String) (h : splitSep a = splitSep b) : a = b := by
  rw [← joinSep_splitSep a, ← joinSep_splitSep b, h]

/-- The body of the loop of `buildTree` places a leaf that is not an empty-directory marker at
the path that its key spells, and leaves the other leaves alone. -/
theorem leafAt_step (t : treeNode) (kv : String × fileSysNode) (q : List String) (b : String) :
    (buildTreeStep t kv).leafAt q b =
      if kv.2.emptyDirectoryMarker = false ∧ splitSep kv.1 = q ++ [b] then some kv.2
      else t.leafAt q b := by
  rw [buildTreeStep, leafAt_insert]
  have h : (q = (splitSep kv.1).dropLast ∧ b = (splitSep kv.1).getLastD "") ↔
      splitSep kv.1 = q ++ [b] := by
    constructor
    · rintro ⟨h1, h2⟩
      rw [h1, h2, splitSep_dropLast]
    · intro h
      have h2 := splitSep_dropLast kv.1
      rw [h] at h2 ⊢
      simp only [List.dropLast_concat] at h2 ⊢
      have := List.append_cancel_left h2
      simp only [List.cons.injEq, and_true] at this
      exact ⟨trivial, this.symm⟩
  simp only [h]

theorem sub_step_isSome (t : treeNode) (kv : String × fileSysNode) (q : List String) :
    ((buildTreeStep t kv).sub q).isSome = true ↔
      ((t.sub q).isSome = true ∨ q <+: (splitSep kv.1).dropLast ∨
        (kv.2.emptyDirectoryMarker = true ∧ q = splitSep kv.1)) := by
  rw [buildTreeStep, sub_insert_isSome, splitSep_dropLast]

theorem sub_foldl_isSome (fs : List (String × fileSysNode)) :
    ∀ (t : treeNode) (q : List String),
      ((fs.foldl buildTreeStep t).sub q).isSome = true ↔
        ((t.sub q).isSome = true ∨ ∃ kv ∈ fs, q <+: (splitSep kv.1).dropLast ∨
          (kv.2.emptyDirectoryMarker = true ∧ q = splitSep kv.1)) := by
  induction fs with
  | nil => intro t q; simp
  | cons kv rest ih =>
    intro t q
    rw [List.foldl_cons, ih, sub_step_isSome]
    simp only [List.mem_cons, exists_eq_or_imp]
    constructor
    · rintro ((h | h) | h)
      · exact Or.inl h
      · exact Or.inr (Or.inl h)
      · exact Or.inr (Or.inr h)
    · rintro (h | h | h)
      · exact Or.inl (Or.inl h)
      · exact Or.inl (Or.inr h)
      · exact Or.inr h

theorem leafAt_foldl (fs : List (String × fileSysNode)) (q : List String) (b : String)
    (fn : fileSysNode) :
    ∀ (t : treeNode), (mapKeys fs).Nodup →
      ((fs.foldl buildTreeStep t).leafAt q b = some fn ↔
        ((∃ k, (k, fn) ∈ fs ∧ fn.emptyDirectoryMarker = false ∧ splitSep k = q ++ [b]) ∨
          ((∀ kv ∈ fs, ¬ (kv.2.emptyDirectoryMarker = false ∧ splitSep kv.1 = q ++ [b])) ∧
            t.leafAt q b = some fn))) := by
  induction fs with
  | nil => intro t _; simp
  | cons kv rest ih =>
    intro t hnd
    have hnd2 : (mapKeys rest).Nodup := by
      simp only [mapKeys, List.map_cons, List.nodup_cons] at hnd ⊢
      exact hnd.2
    have hnot : kv.1 ∉ mapKeys rest := by
      simp only [mapKeys, List.map_cons, List.nodup_cons] at hnd ⊢
      exact hnd.1
    rw [List.foldl_cons, ih _ hnd2, leafAt_step]
    by_cases hc : kv.2.emptyDirectoryMarker = false ∧ splitSep kv.1 = q ++ [b]
    · have hrest : ∀ kv2 ∈ rest,
          ¬ (kv2.2.emptyDirectoryMarker = false ∧ splitSep kv2.1 = q ++ [b]) := by
        intro kv2 hm ⟨_, h2⟩
        apply hnot
        have : kv2.1 = kv.1 := splitSep_inj _ _ (by rw [h2, hc.2])
        rw [← this]
        exact List.mem_map_of_mem _ hm
      simp only [hc, and_self, if_true, Option.some.injEq, List.mem_cons, forall_eq_or_imp,
        not_true_eq_false, false_and, or_false]
      constructor
      · rintro (⟨k, hm, h1, h2⟩ | ⟨_, h⟩)
        · exact absurd ⟨h1, h2⟩ (hrest (k, fn) hm)
        · refine ⟨kv.1, Or.inl ?_, ?_⟩
          · rw [← h]
          · rw [← h]; exact hc
      · rintro ⟨k, hm | hm, h1, h2⟩
        · right
          refine ⟨hrest, ?_⟩
          rw [← hm]
        · exact absurd ⟨h1, h2⟩ (hrest (k, fn) hm)
    · simp only [hc, if_false, List.mem_cons, forall_eq_or_imp, not_false_eq_true, true_and]
      constructor
      · rintro (⟨k, hm, h1, h2⟩ | h)
        · exact Or.inl ⟨k, Or.inr hm, h1, h2⟩
        · exact Or.inr h
      · rintro (⟨k, hm | hm, h1, h2⟩ | h)
        · exfalso
          apply hc
          rw [← hm]
          exact ⟨h1, h2⟩
        · exact Or.inl ⟨k, hm, h1, h2⟩
        · exact Or.inr h

/-- The directory nodes of the tree that `buildTree` returns: the root, the directories on the
way to every key, and the keys of the empty-directory markers. -/
theorem buildTree_sub_isSome (fs : List (String × fileSysNode)) (q : List String) :
    ((buildTree fs).sub q).isSome = true ↔
      (q = [] ∨ ∃ kv ∈ fs, q <+: (splitSep kv.1).dropLast ∨
        (kv.2.emptyDirectoryMarker = true ∧ q = splitSep kv.1)) := by
  rw [buildTree_eq_foldl, sub_foldl_isSome]
  cases q with
  | nil =>
    simp [treeNode.sub_nil]
  | cons s q =>
    simp [treeNode.sub_empty_cons]

/-- The leaves of the tree that `buildTree` returns: the entries of the flat map that are not
empty-directory markers, each at the path that its key spells. -/
theorem buildTree_leafAt (fs : List (String × fileSysNode)) (hnd : (mapKeys fs).Nodup)
    (q : List String) (b : String) (fn : fileSysNode) :
    (buildTree fs).leafAt q b = some fn ↔
      ∃ k, (k, fn) ∈ fs ∧ fn.emptyDirectoryMarker = false ∧ splitSep k = q ++ [b] := by
  rw [buildTree_eq_foldl, leafAt_foldl fs q b fn _ hnd, treeNode.leafAt_empty]
  simp

end Client

namespace Client

/-! ## The nodes of a tree and the paths that reach them -/

theorem treeNode.sub_of_mem_nodes :
    ∀ t : treeNode, t.WF → ∀ n ∈ t.nodes, ∃ q, t.sub q = some n := by
  apply treeNode.induct_aux
  intro l c ih hwf n hn
  rw [treeNode.WF_mk] at hwf
  obtain ⟨-, hnc, hwc⟩ := hwf
  rw [treeNode.nodes_mk, List.mem_cons] at hn
  rcases hn with hn | hn
  · exact ⟨[], by rw [hn, treeNode.sub_nil]⟩
  · simp only [List.mem_flatten, List.mem_map] at hn
    obtain ⟨ns, ⟨nc, hm, rfl⟩, hn⟩ := hn
    obtain ⟨q, hq⟩ := ih nc hm (hwc nc hm) n hn
    refine ⟨nc.1 :: q, ?_⟩
    rw [treeNode.sub_cons, mapGet_eq_some_of_mem c nc.1 nc.2 hnc hm]
    exact hq

theorem treeNode.sub_append (q : List String) :
    ∀ (t : treeNode) (r : List String),
      t.sub (q ++ r) = match t.sub q with
        | none => none
        | some n => n.sub r := by
  induction q with
  | nil => intro t r; simp [treeNode.sub_nil]
  | cons s q ih =>
    intro t r
    obtain ⟨l, c⟩ := t
    rw [List.cons_append, treeNode.sub_cons, treeNode.sub_cons]
    cases mapGet c s with
    | none => rfl
    | some x => exact ih x r

theorem treeNode.mem_nodes_of_sub (q : List String) :
    ∀ (t n : treeNode), t.sub q = some n → n ∈ t.nodes := by
  induction q with
  | nil =>
    intro t n h
    rw [treeNode.sub_nil] at h
    cases h
    rw [treeNode.nodes_eq_cons]
    exact List.mem_cons_self _ _
  | cons s q ih =>
    intro t n h
    obtain ⟨l, c⟩ := t
    rw [treeNode.sub_cons] at h
    cases hg : mapGet c s with
    | none => rw [hg] at h; cases h
    | some x =>
      rw [hg] at h
      rw [treeNode.nodes_mk]
      apply List.mem_cons_of_mem
      simp only [List.mem_flatten, List.mem_map]
      exact ⟨x.nodes, ⟨(s, x), mem_of_mapGet_eq_some c s x hg, rfl⟩, ih x n h⟩

/-- The names of the files of the descriptor of a node are names of leaves of the node. -/
theorem descriptorOf_file_names (deps : Deps) (t : treeNode) :
    ((descriptorOf deps t).Files.map (fun f => f.Name)).Perm
      ((leafFiles deps t.leaves).map (fun f => f.Name)) :=
  (sortSlice_perm _ _).map _

theorem descriptorOf_symlink_names (deps : Deps) (t : treeNode) :
    ((descriptorOf deps t).Symlinks.map (fun f => f.Name)).Perm
      ((leafSymlinks deps t.leaves).map (fun f => f.Name)) :=
  (sortSlice_perm _ _).map _

theorem descriptorOf_directory_names (deps : Deps) (t : treeNode) :
    ((descriptorOf deps t).Directories.map (fun f => f.Name)).Perm (mapKeys t.children) := by
  rw [← childEntries_names deps t.children]
  exact (sortSlice_perm _ _).map _

/-- In the descriptor of a node of a tree of maps no name occurs twice among the files and the
symlinks, and none occurs twice among the directories. -/
theorem descriptorOf_names_nodup (deps : Deps) (t : treeNode)
    (hl : (mapKeys t.leaves).Nodup) (hc : (mapKeys t.children).Nodup) :
    ((descriptorOf deps t).Files.map (fun f => f.Name) ++
      (descriptorOf deps t).Symlinks.map (fun s => s.Name)).Nodup ∧
    ((descriptorOf deps t).Directories.map (fun d => d.Name)).Nodup := by
  refine ⟨?_, ?_⟩
  · rw [List.nodup_append]
    refine ⟨?_, ?_, ?_⟩
    · exact (descriptorOf_file_names deps t).nodup_iff.2
        ((leafFiles_names_sublist deps t.leaves).nodup hl)
    · exact (descriptorOf_symlink_names deps t).nodup_iff.2
        ((leafSymlinks_names_sublist deps t.leaves).nodup hl)
    · intro x hx hy
      have hx2 := (descriptorOf_file_names deps t).subset hx
      have hy2 := (descriptorOf_symlink_names deps t).subset hy
      simp only [List.mem_map] at hx2 hy2
      obtain ⟨f, hf, rfl⟩ := hx2
      obtain ⟨s, hs, hfs⟩ := hy2
      exact leaf_names_disjoint deps t.leaves hl f hf s hs hfs.symm
  · exact (descriptorOf_directory_names deps t).nodup_iff.2 hc

end Client

namespace Client

/-! ## Writes to a map whose entries are determined by their keys -/

section MapWrites
variable {κ α : Type} [DecidableEq κ]

theorem mem_mapSet_self (m : List (κ × α)) (k : κ) (v : α) : (k, v) ∈ mapSet m k v := by
  induction m with
  | nil => simp [mapSet]
  | cons x rest ih =>
    obtain ⟨a, b⟩ := x
    simp only [mapSet]
    split
    · exact List.mem_cons_self _ _
    · exact List.mem_cons_of_mem _ ih

theorem mem_mapSet_of_ne (m : List (κ × α)) (k : κ) (v : α) (x : κ × α) (h : x ∈ m)
    (hne : x.1 ≠ k) : x ∈ mapSet m k v := by
  induction m with
  | nil => cases h
  | cons y rest ih =>
    obtain ⟨a, b⟩ := y
    simp only [mapSet]
    rcases List.mem_cons.1 h with h1 | h1
    · subst h1
      simp only at hne
      simp only [hne, if_false]
      exact List.mem_cons_self _ _
    · split
      · exact List.mem_cons_of_mem _ h1
      · exact List.mem_cons_of_mem _ (ih h1)

/-- A write of an entry of a functional set to a map that holds entries of that set adds the
entry and keeps the others. -/
theorem mem_mapSet_iff (W : κ × α → Prop) (hW : Functional W) (m : List (κ × α)) (k : κ)
    (v : α) (hm : ∀ x ∈ m, W x) (hkv : W (k, v)) (x : κ × α) :
    x ∈ mapSet m k v ↔ x = (k, v) ∨ x ∈ m := by
  constructor
  · exact mem_mapSet m k v x
  · rintro (h | h)
    · rw [h]; exact mem_mapSet_self m k v
    · by_cases hk : x.1 = k
      · have := hW x (k, v) (hm x h) hkv hk
        rw [this]
        exact mem_mapSet_self m k v
      · exact mem_mapSet_of_ne m k v x h hk

end MapWrites

/-! ## Sorting and mapping -/

theorem insertSorted_map {α β : Type} (f : α → β) (less : β → β → Bool) (x : α)
    (l : List α) :
    insertSorted less (f x) (l.map f) =
      (insertSorted (fun a b => less (f a) (f b)) x l).map f := by
  induction l with
  | nil => rfl
  | cons y ys ih =>
    simp only [List.map_cons, insertSorted]
    split
    · rfl
    · rw [ih]; rfl

theorem sortSlice_cons {α : Type} (less : α → α → Bool) (x : α) (xs : List α) :
    sortSlice less (x :: xs) = insertSorted less x (sortSlice less xs) := rfl

theorem sortSlice_map {α β : Type} (f : α → β) (less : β → β → Bool) (l : List α) :
    sortSlice less (l.map f) = (sortSlice (fun a b => less (f a) (f b)) l).map f := by
  induction l with
  | nil => rfl
  | cons x xs ih =>
    rw [List.map_cons, sortSlice_cons, ih, insertSorted_map, sortSlice_cons]

/-! ## The loops of the flattener over the files and symlinks of a directory -/

theorem flattenTreeFiles_mem (W : String × TreeOutput → Prop) (hW : Functional W)
    (p : String) (files : List FileNode) :
    ∀ flat : List (String × TreeOutput), (∀ x ∈ flat, W x) →
      (∀ f ∈ files, W (fileOut p f)) →
      ∀ x, x ∈ flattenTreeFiles p files flat ↔ x ∈ flat ∨ x ∈ files.map (fileOut p) := by
  induction files with
  | nil => intro flat _ _ x; simp [flattenTreeFiles]
  | cons f rest ih =>
    intro flat hflat hfiles x
    simp only [flattenTreeFiles]
    have hWf : W (fileOut p f) := hfiles f (List.mem_cons_self _ _)
    have hstep : ∀ y, y ∈ mapSet flat (fileOut p f).1 (fileOut p f).2 ↔
        y = fileOut p f ∨ y ∈ flat :=
      mem_mapSet_iff W hW flat _ _ hflat hWf
    have hflat2 : ∀ y ∈ mapSet flat (fileOut p f).1 (fileOut p f).2, W y := by
      intro y hy
      rcases (hstep y).1 hy with h | h
      · rw [h]; exact hWf
      · exact hflat y h
    have := ih (mapSet flat (fileOut p f).1 (fileOut p f).2) hflat2
      (fun g hg => hfiles g (List.mem_cons_of_mem _ hg)) x
    simp only [fileOut] at this hstep ⊢
    rw [this, hstep, List.map_cons, List.mem_cons]
    constructor
    · rintro ((h | h) | h)
      · exact Or.inr (Or.inl h)
      · exact Or.inl h
      · exact Or.inr (Or.inr h)
    · rintro (h | h | h)
      · exact Or.inl (Or.inr h)
      · exact Or.inl (Or.inl h)
      · exact Or.inr h

theorem flattenTreeSymlinks_mem (W : String × TreeOutput → Prop) (hW : Functional W)
    (p : String) (sms : List SymlinkNode) :
    ∀ flat : List (String × TreeOutput), (∀ x ∈ flat, W x) →
      (∀ f ∈ sms, W (symlinkOut p f)) →
      ∀ x, x ∈ flattenTreeSymlinks p sms flat ↔ x ∈ flat ∨ x ∈ sms.map (symlinkOut p) := by
  induction sms with
  | nil => intro flat _ _ x; simp [flattenTreeSymlinks]
  | cons f rest ih =>
    intro flat hflat hfiles x
    simp only [flattenTreeSymlinks]
    have hWf : W (symlinkOut p f) := hfiles f (List.mem_cons_self _ _)
    have hstep : ∀ y, y ∈ mapSet flat (symlinkOut p f).1 (symlinkOut p f).2 ↔
        y = symlinkOut p f ∨ y ∈ flat :=
      mem_mapSet_iff W hW flat _ _ hflat hWf
    have hflat2 : ∀ y ∈ mapSet flat (symlinkOut p f).1 (symlinkOut p f).2, W y := by
      intro y hy
      rcases (hstep y).1 hy with h | h
      · rw [h]; exact hWf
      · exact hflat y h
    have := ih (mapSet flat (symlinkOut p f).1 (symlinkOut p f).2) hflat2
      (fun g hg => hfiles g (List.mem_cons_of_mem _ hg)) x
    simp only [symlinkOut] at this hstep ⊢
    rw [this, hstep, List.map_cons, List.mem_cons]
    constructor
    · rintro ((h | h) | h)
      · exact Or.inr (Or.inl h)
      · exact Or.inl h
      · exact Or.inr (Or.inr h)
    · rintro (h | h | h)
      · exact Or.inl (Or.inr h)
      · exact Or.inl (Or.inl h)
      · exact Or.inr h

end Client

namespace Client

/-! ## The loop of the flattener, node by node -/

theorem treeNode.outputs_mk (deps : Deps) (l : List (String × fileSysNode))
    (c : List (String × treeNode)) (p : String) :
    (treeNode.mk l c).outputs deps p =
      dirOutputs p (descriptorOf deps (.mk l c)) ++ childrenOutputs deps c p := by
  rw [treeNode.outputs]

theorem mem_childrenOutputs (deps : Deps) (c : List (String × treeNode)) (p : String)
    (x : String × TreeOutput) :
    x ∈ childrenOutputs deps c p ↔ ∃ nc ∈ c, x ∈ nc.2.outputs deps (Join [p, nc.1]) := by
  induction c with
  | nil => simp [childrenOutputs]
  | cons nc rest ih =>
    obtain ⟨name, child⟩ := nc
    rw [childrenOutputs, List.mem_append, ih]
    simp only [List.mem_cons, exists_eq_or_imp]

theorem descriptorOf_directories (deps : Deps) (l : List (String × fileSysNode))
    (c : List (String × treeNode)) :
    (descriptorOf deps (.mk l c)).Directories =
      childEntries deps (sortSlice (fun a b => strLess a.1 b.1) c) := by
  simp only [descriptorOf, treeNode.children, childEntries]
  rw [sortSlice_map]

theorem NewFromProtoUnvalidated_ToProto (d : Digest) :
    NewFromProtoUnvalidated d.ToProto = d := by
  cases d; rfl

theorem nodeQueue_append (deps : Deps) (a b : List (treeNode × String)) :
    nodeQueue deps (a ++ b) = nodeQueue deps a ++ nodeQueue deps b := by
  simp [nodeQueue]

theorem treeNode.nodes_length_pos (t : treeNode) : 0 < t.nodes.length := by
  rw [treeNode.nodes_eq_cons]
  simp

theorem treeNode.child_nodes_subset (l : List (String × fileSysNode))
    (c : List (String × treeNode)) (nc : String × treeNode) (hnc : nc ∈ c) :
    ∀ m ∈ nc.2.nodes, m ∈ (treeNode.mk l c).nodes := by
  intro m hm
  rw [treeNode.nodes_mk]
  apply List.mem_cons_of_mem
  simp only [List.mem_flatten, List.mem_map]
  exact ⟨nc.2.nodes, ⟨nc, hnc, rfl⟩, hm⟩

/-- The loop of `flattenTree` on a queue that holds nodes of a tree by their digests, with a
map `dirs` that resolves the digest of every node below them to its descriptor: with a round
for every node it ends, and the flat map then holds what it held and the outputs of the
nodes. -/
theorem flattenTreeLoop_nodes (deps : Deps) (dirs : List (Digest × Directory))
    (W : String × TreeOutput → Prop) (hW : Functional W) :
    ∀ (fuel : Nat) (nq : List (treeNode × String)) (flat : List (String × TreeOutput)),
      (∀ np ∈ nq, ∀ m ∈ np.1.nodes,
        mapGet dirs (rootDigest deps m) = some (descriptorOf deps m)) →
      (∀ x ∈ flat, W x) → (∀ np ∈ nq, ∀ x ∈ np.1.outputs deps np.2, W x) →
      (nq.map (fun np => np.1.nodes.length)).sum ≤ fuel →
      ∃ out, flattenTreeLoop dirs fuel (nodeQueue deps nq) flat = some (.ok out) ∧
        ∀ x, x ∈ out ↔ x ∈ flat ∨ ∃ np ∈ nq, x ∈ np.1.outputs deps np.2 := by
  intro fuel
  induction fuel with
  | zero =>
    intro nq flat _ _ _ hsum
    cases nq with
    | nil => exact ⟨flat, rfl, by simp⟩
    | cons np rest =>
      have := treeNode.nodes_length_pos np.1
      simp only [List.map_cons, List.sum_cons] at hsum
      omega
  | succ f ih =>
    intro nq flat hres hflat hout hsum
    cases nq with
    | nil => exact ⟨flat, rfl, by simp⟩
    | cons np rest =>
      obtain ⟨n, p⟩ := np
      obtain ⟨l, c⟩ := n
      have hget := hres (.mk l c, p) (List.mem_cons_self _ _) (.mk l c)
        (by rw [treeNode.nodes_eq_cons]; exact List.mem_cons_self _ _)
      have hlen := treeNode.nodes_length_mk l c
      simp only [List.map_cons, List.sum_cons] at hsum
      have hrest_res : ∀ np ∈ rest, ∀ m ∈ np.1.nodes,
          mapGet dirs (rootDigest deps m) = some (descriptorOf deps m) :=
        fun np hnp => hres np (List.mem_cons_of_mem _ hnp)
      have hrest_out : ∀ np ∈ rest, ∀ x ∈ np.1.outputs deps np.2, W x :=
        fun np hnp => hout np (List.mem_cons_of_mem _ hnp)
      have hown : ∀ x ∈ (treeNode.mk l c).outputs deps p, W x :=
        hout (.mk l c, p) (List.mem_cons_self _ _)
      rw [treeNode.outputs_mk] at hown
      simp only [nodeQueue, List.map_cons, flattenTreeLoop, hget]
      by_cases hemp : (descriptorOf deps (.mk l c)).Files.length +
          (descriptorOf deps (.mk l c)).Directories.length +
          (descriptorOf deps (.mk l c)).Symlinks.length = 0
      · simp only [hemp, if_true]
        have hc : c = [] := by
          have h1 : (descriptorOf deps (.mk l c)).Directories.length = 0 := by omega
          rw [descriptorOf_directories] at h1
          simp only [childEntries, List.length_map] at h1
          have h2 := (sortSlice_perm (fun a b : String × treeNode => strLess a.1 b.1) c).length_eq
          rw [h1] at h2
          exact List.length_eq_zero.1 h2.symm
        have hco : childrenOutputs deps c p = [] := by rw [hc]; rfl
        have hdo : dirOutputs p (descriptorOf deps (.mk l c)) =
            [emptyDirOut p (descriptorOf deps (.mk l c))] := by
          simp only [dirOutputs, hemp, if_true]
        have hWe : W (emptyDirOut p (descriptorOf deps (.mk l c))) :=
          hown _ (by rw [hdo]; simp)
        have hstep : ∀ y, y ∈ mapSet flat (emptyDirOut p (descriptorOf deps (.mk l c))).1
            (emptyDirOut p (descriptorOf deps (.mk l c))).2 ↔
            y = emptyDirOut p (descriptorOf deps (.mk l c)) ∨ y ∈ flat :=
          mem_mapSet_iff W hW flat _ _ hflat hWe
        obtain ⟨out, ho1, ho2⟩ := ih rest
          (mapSet flat (emptyDirOut p (descriptorOf deps (.mk l c))).1
            (emptyDirOut p (descriptorOf deps (.mk l c))).2)
          hrest_res
          (by
            intro y hy
            rcases (hstep y).1 hy with h | h
            · rw [h]; exact hWe
            · exact hflat y h)
          hrest_out (by omega)
        refine ⟨out, ho1, ?_⟩
        intro x
        rw [ho2, hstep]
        simp only [List.mem_cons, exists_eq_or_imp, treeNode.outputs_mk, hdo, hco,
          List.append_nil, List.mem_singleton, List.not_mem_nil, or_false]
        constructor
        · rintro ((h | h) | h)
          · exact Or.inr (Or.inl h)
          · exact Or.inl h
          · exact Or.inr (Or.inr h)
        · rintro (h | h | h)
          · exact Or.inl (Or.inr h)
          · exact Or.inl (Or.inl h)
          · exact Or.inr h
      · simp only [hemp, if_false]
        have hdo : dirOutputs p (descriptorOf deps (.mk l c)) =
            (descriptorOf deps (.mk l c)).Files.map (fileOut p) ++
              (descriptorOf deps (.mk l c)).Symlinks.map (symlinkOut p) := by
          simp only [dirOutputs, hemp, if_false]
        have hperm := sortSlice_perm (fun a b : String × treeNode => strLess a.1 b.1) c
        have hWfiles : ∀ g ∈ (descriptorOf deps (.mk l c)).Files, W (fileOut p g) := by
          intro g hg
          apply hown
          rw [hdo]
          exact List.mem_append_left _ (List.mem_append_left _ (List.mem_map_of_mem _ hg))
        have hWsyms : ∀ g ∈ (descriptorOf deps (.mk l c)).Symlinks, W (symlinkOut p g) := by
          intro g hg
          apply hown
          rw [hdo]
          exact List.mem_append_left _ (List.mem_append_right _ (List.mem_map_of_mem _ hg))
        have hf := flattenTreeFiles_mem W hW p (descriptorOf deps (.mk l c)).Files flat hflat
          hWfiles
        have hflat2 : ∀ y ∈ flattenTreeFiles p (descriptorOf deps (.mk l c)).Files flat,
            W y := by
          intro y hy
          rcases (hf y).1 hy with h | h
          · exact hflat y h
          · obtain ⟨g, hg, rfl⟩ := List.mem_map.1 h
            exact hWfiles g hg
        have hs := flattenTreeSymlinks_mem W hW p (descriptorOf deps (.mk l c)).Symlinks _
          hflat2 hWsyms
        have hflat3 : ∀ y ∈ flattenTreeSymlinks p (descriptorOf deps (.mk l c)).Symlinks
            (flattenTreeFiles p (descriptorOf deps (.mk l c)).Files flat), W y := by
          intro y hy
          rcases (hs y).1 hy with h | h
          · exact hflat2 y h
          · obtain ⟨g, hg, rfl⟩ := List.mem_map.1 h
            exact hWsyms g hg
        have hq : List.map (fun np => (rootDigest deps np.1, np.2)) rest ++
            (descriptorOf deps (.mk l c)).Directories.map
              (fun subdir => (NewFromProtoUnvalidated subdir.Digest, Join [p, subdir.Name])) =
            nodeQueue deps (rest ++ (sortSlice (fun a b => strLess a.1 b.1) c).map
              (fun nc => (nc.2, Join [p, nc.1]))) := by
          rw [nodeQueue_append, descriptorOf_directories]
          simp only [nodeQueue, childEntries, List.map_map]
          rfl
        rw [hq]
        obtain ⟨out, ho1, ho2⟩ := ih
          (rest ++ (sortSlice (fun a b => strLess a.1 b.1) c).map
            (fun nc => (nc.2, Join [p, nc.1])))
          (flattenTreeSymlinks p (descriptorOf deps (.mk l c)).Symlinks
            (flattenTreeFiles p (descriptorOf deps (.mk l c)).Files flat))
          (by
            intro np hnp m hm
            rcases List.mem_append.1 hnp with h | h
            · exact hrest_res np h m hm
            · obtain ⟨nc, hnc, rfl⟩ := List.mem_map.1 h
              exact hres (.mk l c, p) (List.mem_cons_self _ _) m
                (treeNode.child_nodes_subset l c nc (hperm.subset hnc) m hm))
          hflat3
          (by
            intro np hnp x hx
            rcases List.mem_append.1 hnp with h | h
            · exact hrest_out np h x hx
            · obtain ⟨nc, hnc, rfl⟩ := List.mem_map.1 h
              apply hown
              apply List.mem_append_right
              exact (mem_childrenOutputs deps c p x).2 ⟨nc, hperm.subset hnc, hx⟩)
          (by
            rw [List.map_append, List.sum_append, List.map_map]
            have h1 : (List.map ((fun np : treeNode × String => np.1.nodes.length) ∘
                fun nc : String × treeNode => (nc.2, Join [p, nc.1]))
                (sortSlice (fun a b => strLess a.1 b.1) c)).sum =
                (c.map (fun nc => nc.2.nodes.length)).sum :=
              (hperm.map _).sum_eq
            rw [h1]
            omega)
        refine ⟨out, ho1, ?_⟩
        intro x
        rw [ho2, hs, hf]
        simp only [List.mem_cons, exists_eq_or_imp, treeNode.outputs_mk, hdo, List.mem_append,
          mem_childrenOutputs, List.mem_map]
        constructor
        · rintro (((h | h) | h) | ⟨np, h1 | ⟨nc, hnc, rfl⟩, h2⟩)
          · exact Or.inl h
          · exact Or.inr (Or.inl (Or.inl (Or.inl h)))
          · exact Or.inr (Or.inl (Or.inl (Or.inr h)))
          · exact Or.inr (Or.inr ⟨np, h1, h2⟩)
          · exact Or.inr (Or.inl (Or.inr ⟨nc, hperm.subset hnc, h2⟩))
        · rintro (h | ((h | h) | ⟨nc, hnc, h2⟩) | ⟨np, h1, h2⟩)
          · exact Or.inl (Or.inl (Or.inl h))
          · exact Or.inl (Or.inl (Or.inr h))
          · exact Or.inl (Or.inr h)
          · exact Or.inr ⟨(nc.2, Join [p, nc.1]),
              Or.inr ⟨nc, hperm.symm.subset hnc, rfl⟩, h2⟩
          · exact Or.inr ⟨np, Or.inl h1, h2⟩

end Client

namespace Client

/-! ## The map of descriptors that the flattener reads -/

theorem NewFromMessage_of_entry (deps : Deps) (d : Directory) (ue : Entry)
    (h : EntryFromProto deps d = .ok ue) : NewFromMessage deps d = .ok ue.Digest := by
  simp only [EntryFromProto, NewFromMessage] at h ⊢
  cases hm : deps.marshal d with
  | error e => rw [hm] at h; cases h
  | ok blob =>
    rw [hm] at h
    simp only [Except.ok.injEq] at h
    rw [← h]
    rfl

theorem EntryFromProto_isOk_of_message (deps : Deps) (d : Directory)
    (h : (NewFromMessage deps d).isOk = true) : (EntryFromProto deps d).isOk = true := by
  simp only [EntryFromProto, NewFromMessage] at h ⊢
  cases hm : deps.marshal d with
  | error e => rw [hm] at h; exact h
  | ok blob => rfl

theorem packageTreeRes_nodes_ok (deps : Deps) :
    ∀ t : treeNode, (packageTreeRes deps t).isOk = true →
      ∀ m ∈ t.nodes, (packageTreeRes deps m).isOk = true := by
  apply treeNode.induct_aux
  intro l c ih hok m hm
  rw [treeNode.nodes_mk, List.mem_cons] at hm
  rcases hm with hm | hm
  · rw [hm]; exact hok
  · simp only [List.mem_flatten, List.mem_map] at hm
    obtain ⟨ns, ⟨nc, hnc, rfl⟩, hm⟩ := hm
    exact ih nc hnc (packageTreeRes_children_ok deps l c hok nc hnc) m hm

/-- The digest under which the flattener files the descriptor of a node that `packageTree`
succeeds on is the digest that `packageTree` returns for the node. -/
theorem NewFromMessage_descriptorOf (deps : Deps) (t : treeNode)
    (hok : (packageTreeRes deps t).isOk = true) :
    NewFromMessage deps (descriptorOf deps t) = .ok (rootDigest deps t) := by
  obtain ⟨ue, h1, h2⟩ := rootDigest_of_isOk deps t hok
  rw [h2]
  exact NewFromMessage_of_entry deps _ ue h1

theorem FlattenTreeChildren_ok (deps : Deps) (ch : List Directory) :
    ∀ dirs0 : List (Digest × Directory),
      (∀ d ∈ ch, (NewFromMessage deps d).isOk = true) →
      ∃ dirs, FlattenTreeChildren deps ch dirs0 = .ok dirs ∧
        (∀ kv ∈ dirs, kv ∈ dirs0 ∨ ∃ d ∈ ch, NewFromMessage deps d = .ok kv.1 ∧ kv.2 = d) ∧
        (∀ k, (k ∈ mapKeys dirs0 ∨ ∃ d ∈ ch, NewFromMessage deps d = .ok k) →
          k ∈ mapKeys dirs) := by
  induction ch with
  | nil =>
    intro dirs0 _
    refine ⟨dirs0, rfl, fun kv h => Or.inl h, ?_⟩
    rintro k (h | ⟨d, hd, _⟩)
    · exact h
    · cases hd
  | cons d rest ih =>
    intro dirs0 hok
    have hd := hok d (List.mem_cons_self _ _)
    cases hdg : NewFromMessage deps d with
    | error e => rw [hdg] at hd; cases hd
    | ok dg =>
      obtain ⟨dirs, h1, h2, h3⟩ := ih (mapSet dirs0 dg d)
        (fun x hx => hok x (List.mem_cons_of_mem _ hx))
      refine ⟨dirs, ?_, ?_, ?_⟩
      · simp only [FlattenTreeChildren, hdg]
        exact h1
      · intro kv hkv
        rcases h2 kv hkv with h | ⟨x, hx, hx2⟩
        · rcases mem_mapSet _ _ _ _ h with h | h
          · right
            refine ⟨d, List.mem_cons_self _ _, ?_, ?_⟩
            · rw [h]; exact hdg
            · rw [h]
          · exact Or.inl h
        · exact Or.inr ⟨x, List.mem_cons_of_mem _ hx, hx2⟩
      · rintro k (h | ⟨x, hx, hx2⟩)
        · exact h3 k (Or.inl ((mem_mapKeys_mapSet _ _ _ _).2 (Or.inr h)))
        · rcases List.mem_cons.1 hx with hx | hx
          · subst hx
            rw [hdg] at hx2
            simp only [Except.ok.injEq] at hx2
            subst hx2
            exact h3 dg (Or.inl ((mem_mapKeys_mapSet _ _ _ _).2 (Or.inl rfl)))
          · exact h3 k (Or.inr ⟨x, hx, hx2⟩)

theorem flattenTreeLoop_fuel (dirs : List (Digest × Directory)) :
    ∀ (fuel : Nat) (queue : List (Digest × String)) (flat : List (String × TreeOutput))
      (r : Except Err (List (String × TreeOutput))),
      flattenTreeLoop dirs fuel queue flat = some r →
      ∀ k, flattenTreeLoop dirs (fuel + k) queue flat = some r := by
  intro fuel
  induction fuel with
  | zero =>
    intro queue flat r h k
    cases queue with
    | nil =>
      cases k <;> simpa [flattenTreeLoop] using h
    | cons x rest => simp [flattenTreeLoop] at h
  | succ f ih =>
    intro queue flat r h k
    cases queue with
    | nil => simpa [flattenTreeLoop] using h
    | cons x rest =>
      obtain ⟨d, p⟩ := x
      have hk : f + 1 + k = (f + k) + 1 := by omega
      rw [hk]
      simp only [flattenTreeLoop] at h ⊢
      cases hg : mapGet dirs d with
      | none => rw [hg] at h; simpa using h
      | some dir =>
        rw [hg] at h
        simp only at h ⊢
        split
        · rename_i hemp
          rw [if_pos hemp] at h
          exact ih _ _ r h k
        · rename_i hemp
          rw [if_neg hemp] at h
          exact ih _ _ r h k

end Client

namespace Client

/-! ## The flattener on the packaged tree -/

/-- Flattening the tree message of `packageDirectories` for a tree of maps, with the root
descriptor set: when the digests of the descriptors do not collide and the outputs of the
nodes are determined by their paths, a round of the loop for every node is enough, and the
result holds exactly the outputs of the nodes of the tree. -/
theorem FlattenTree_outputs (deps : Deps) (T : treeNode) (hwf : T.WF)
    (hpd : (packageDirectories deps T).isOk = true)
    (hroot : (NewFromMessage deps (pdRoot deps T)).isOk = true)
    (hcoll : ∀ d1 ∈ pdRoot deps T :: pdChildren deps T,
      ∀ d2 ∈ pdRoot deps T :: pdChildren deps T,
        NewFromMessage deps d1 = NewFromMessage deps d2 → d1 = d2)
    (hfun : Functional (fun x => x ∈ T.outputs deps "")) :
    ∃ out, (∀ fuel, T.nodes.length ≤ fuel →
        FlattenTree deps fuel { Root := some (pdRoot deps T), Children := pdChildren deps T }
          "" = some (.ok out)) ∧
      ∀ x, x ∈ out ↔ x ∈ T.outputs deps "" := by
  have hspec := packageDirectories_spec deps T hwf
  by_cases hall : ∀ nc ∈ T.children, (packageTreeRes deps nc.2).isOk = true
  swap
  · have := hspec.2 hall
    rw [hpd] at this
    cases this
  obtain ⟨files, ch, h1, h2⟩ := hspec.1 hall
  have hr : pdRoot deps T = descriptorOf deps T := by simp only [pdRoot, h1]
  have hc : pdChildren deps T = ch := by simp only [pdChildren, h1]
  rw [hr, hc] at hcoll ⊢
  rw [hr] at hroot
  have hokT : (packageTreeRes deps T).isOk = true :=
    (packageTreeRes_isOk deps T).2 ⟨hall, EntryFromProto_isOk_of_message deps _ hroot⟩
  have hnodes := packageTreeRes_nodes_ok deps T hokT
  have hdg : ∀ m ∈ T.nodes, NewFromMessage deps (descriptorOf deps m) =
      .ok (rootDigest deps m) :=
    fun m hm => NewFromMessage_descriptorOf deps m (hnodes m hm)
  have hTmem : T ∈ T.nodes := by rw [treeNode.nodes_eq_cons]; exact List.mem_cons_self _ _
  have htail : ∀ m ∈ T.nodes.tail, m ∈ T.nodes := by
    intro m hm
    rw [treeNode.nodes_eq_cons]
    exact List.mem_cons_of_mem _ hm
  have hch : ∀ d ∈ ch, ∃ m ∈ T.nodes.tail, d = descriptorOf deps m := by
    intro d hd
    obtain ⟨m, hm, rfl⟩ := List.mem_map.1 (h2.subset hd)
    exact ⟨m, hm, rfl⟩
  have hchok : ∀ d ∈ ch, (NewFromMessage deps d).isOk = true := by
    intro d hd
    obtain ⟨m, hm, rfl⟩ := hch d hd
    rw [hdg m (htail m hm)]
    rfl
  obtain ⟨dirs, hd1, hd2, hd3⟩ := FlattenTreeChildren_ok deps ch
    [(rootDigest deps T, descriptorOf deps T)] hchok
  have hmemL : ∀ m ∈ T.nodes, descriptorOf deps m ∈ descriptorOf deps T :: ch := by
    intro m hm
    rw [treeNode.nodes_eq_cons] at hm
    rcases List.mem_cons.1 hm with h | h
    · rw [h]; exact List.mem_cons_self _ _
    · exact List.mem_cons_of_mem _ (h2.symm.subset (List.mem_map_of_mem _ h))
  have hres : ∀ m ∈ T.nodes, mapGet dirs (rootDigest deps m) =
      some (descriptorOf deps m) := by
    intro m hm
    have hkey : rootDigest deps m ∈ mapKeys dirs := by
      apply hd3
      rcases List.mem_cons.1 (hmemL m hm) with h | h
      · left
        have e1 := hdg m hm
        rw [h, hdg T hTmem] at e1
        simp only [Except.ok.injEq] at e1
        simp [mapKeys, e1]
      · exact Or.inr ⟨_, h, hdg m hm⟩
    cases hg : mapGet dirs (rootDigest deps m) with
    | none => exact absurd hkey ((mapGet_eq_none_iff _ _).1 hg)
    | some d2 =>
      have hmem := mem_of_mapGet_eq_some _ _ _ hg
      rcases hd2 _ hmem with h | ⟨d, hd, e1, e2⟩
      · simp only [List.mem_singleton, Prod.mk.injEq] at h
        obtain ⟨e1, e2⟩ := h
        rw [e2]
        congr 1
        apply hcoll _ (List.mem_cons_self _ _) _ (hmemL m hm)
        rw [hdg T hTmem, hdg m hm, e1]
      · simp only at e1 e2
        rw [e2]
        congr 1
        apply hcoll _ (List.mem_cons_of_mem _ hd) _ (hmemL m hm)
        rw [e1, hdg m hm]
  obtain ⟨out, ho1, ho2⟩ := flattenTreeLoop_nodes deps dirs (fun x => x ∈ T.outputs deps "")
    hfun T.nodes.length [(T, "")] []
    (by
      intro np hnp m hm
      simp only [List.mem_singleton] at hnp
      subst hnp
      exact hres m hm)
    (by intro x hx; cases hx)
    (by
      intro np hnp x hx
      simp only [List.mem_singleton] at hnp
      subst hnp
      exact hx)
    (by simp)
  refine ⟨out, ?_, ?_⟩
  · intro fuel hfuel
    obtain ⟨k, rfl⟩ := Nat.exists_eq_add_of_le hfuel
    simp only [FlattenTree, hdg T hTmem, hd1, flattenTree]
    exact flattenTreeLoop_fuel dirs _ _ _ _ ho1 k
  · intro x
    rw [ho2]
    simp

end Client

namespace Client

/-! ## The outputs of a tree, by the paths of its nodes -/

theorem pathFrom_cons (p s : String) (q : List String) :
    pathFrom p (s :: q) = pathFrom (Join [p, s]) q := rfl

theorem pathFrom_append (p : String) (q r : List String) :
    pathFrom p (q ++ r) = pathFrom (pathFrom p q) r := by
  simp [pathFrom, List.foldl_append]

/-- The outputs of a tree of maps are the outputs of the descriptors of the nodes that its
paths reach, each at the path that the flattener computes for it. -/
theorem mem_outputs_iff (deps : Deps) :
    ∀ t : treeNode, t.WF → ∀ (p : String) (x : String × TreeOutput),
      x ∈ t.outputs deps p ↔
        ∃ q n, t.sub q = some n ∧ x ∈ dirOutputs (pathFrom p q) (descriptorOf deps n) := by
  apply treeNode.induct_aux
  intro l c ih hwf p x
  rw [treeNode.WF_mk] at hwf
  obtain ⟨-, hnc, hwc⟩ := hwf
  rw [treeNode.outputs_mk, List.mem_append, mem_childrenOutputs]
  constructor
  · rintro (h | ⟨nc, hm, h⟩)
    · exact ⟨[], .mk l c, treeNode.sub_nil _, h⟩
    · obtain ⟨q, n, hq, hx⟩ := (ih nc hm (hwc nc hm) _ x).1 h
      refine ⟨nc.1 :: q, n, ?_, ?_⟩
      · rw [treeNode.sub_cons, mapGet_eq_some_of_mem c nc.1 nc.2 hnc hm]
        exact hq
      · rw [pathFrom_cons]; exact hx
  · rintro ⟨q, n, hq, hx⟩
    cases q with
    | nil =>
      rw [treeNode.sub_nil] at hq
      cases hq
      exact Or.inl hx
    | cons s q =>
      rw [treeNode.sub_cons] at hq
      cases hg : mapGet c s with
      | none => rw [hg] at hq; cases hq
      | some child =>
        rw [hg] at hq
        have hm := mem_of_mapGet_eq_some c s child hg
        right
        refine ⟨(s, child), hm, ?_⟩
        exact (ih (s, child) hm (hwc _ hm) _ x).2 ⟨q, n, hq, by rw [pathFrom_cons] at hx; exact hx⟩

/-! ## The paths that the flattener computes, for normalized keys -/

theorem cleanForm_prefix (q : List String) (s : String) (h : CleanForm false (q ++ [s])) :
    CleanForm false q := by
  obtain ⟨k, plain, h1, h2, h3⟩ := h
  rcases List.eq_nil_or_concat plain with hp | ⟨plain2, x, hp⟩
  · subst hp
    rw [List.append_nil] at h1
    cases k with
    | zero => simp at h1
    | succ k =>
      rw [List.replicate_succ'] at h1
      have := List.append_inj_left' h1 rfl
      exact ⟨k, [], by rw [this, List.append_nil], by simp, by simp⟩
  · subst hp
    rw [List.concat_eq_append] at h1 h2
    rw [← List.append_assoc] at h1
    have := List.append_inj_left' h1 rfl
    exact ⟨k, plain2, this, fun e he => h2 e (List.mem_append_left _ he), by simp⟩

theorem Clean_joinSep_cleanForm (N : List String) (hne : N ≠ []) (h : CleanForm false N) :
    Clean (joinSep N) = joinSep N := by
  have hr : render false N = joinSep N := by simp [render, hne]
  rw [← hr]
  exact Clean_render h

theorem pathFrom_cleanForm (q : List String) (hq : CleanForm false q) :
    pathFrom "" q = if q = [] then "" else joinSep q := by
  induction q using List.reverseRecOn with
  | nil => rfl
  | append_singleton q s ih =>
    have hq1 := cleanForm_prefix q s hq
    have hs : s ≠ "" :=
      (cleanForm_ne_empty hq s (List.mem_append_right _ (List.mem_singleton_self _))).1
    rw [pathFrom_append, ih hq1]
    have e1 : pathFrom (if q = [] then "" else joinSep q) [s] =
        Join [(if q = [] then "" else joinSep q), s] := rfl
    rw [e1]
    have hne : q ++ [s] ≠ [] := by simp
    rw [if_neg hne]
    by_cases hqe : q = []
    · subst hqe
      simp only [if_true, List.nil_append]
      rw [Join_empty_left s hs]
      have := Clean_joinSep_cleanForm [s] (by simp) (by simpa using hq)
      rw [joinSep_singleton] at this ⊢
      exact this
    · simp only [hqe, if_false]
      have hne2 : joinSep q ≠ "" :=
        joinSep_ne_empty hqe (fun e he => (cleanForm_ne_empty hq1 e he).1)
      rw [Join_pair _ _ hne2]
      have : joinSep q ++ "/" ++ s = joinSep (q ++ [s]) := by
        rw [joinSep_append q [s] hqe (by simp), joinSep_singleton]
      rw [this]
      exact Clean_joinSep_cleanForm _ hne hq

/-- For a key that is a normalized relative path, the path that the flattener computes from
the empty root path along the elements of the key is the key. -/
theorem pathFrom_splitSep (k : String) (hc : Clean k = k) (ha : IsAbs k = false) :
    pathFrom "" (splitSep k) = k := by
  obtain ⟨rooted, N, hN, hr, -⟩ := Clean_spec k
  rw [hc] at hr
  have hroot : rooted = false := by
    have := IsAbs_render hN
    rw [← hr, ha] at this
    exact this.symm
  subst hroot
  by_cases hne : N = []
  · subst hne
    have hk : k = "." := by rw [hr]; rfl
    subst hk
    decide
  · have hk : k = joinSep N := by rw [hr]; simp [render, hne]
    rw [hk, splitSep_joinSep N hne (cleanForm_noSep hN), pathFrom_cleanForm N hN, if_neg hne]

end Client

namespace Client

/-! ## The nodes of the tree of a flat map -/

theorem prefix_dropLast_of_ne (q l : List String) (h : q <+: l) (hne : q ≠ l) :
    q <+: l.dropLast := by
  obtain ⟨r, rfl⟩ := h
  have hr : r ≠ [] := by
    intro h0
    apply hne
    rw [h0, List.append_nil]
  rw [List.dropLast_append_of_ne_nil _ hr]
  exact List.prefix_append _ _

theorem buildTree_leaf_mem (fs : List (String × fileSysNode)) (hnd : (mapKeys fs).Nodup)
    (q : List String) (n : treeNode) (hq : (buildTree fs).sub q = some n) (b : String)
    (fn : fileSysNode) :
    (b, fn) ∈ n.leaves ↔
      ∃ k, (k, fn) ∈ fs ∧ fn.emptyDirectoryMarker = false ∧ splitSep k = q ++ [b] := by
  have hwf := buildTree_WF fs n (treeNode.mem_nodes_of_sub q _ n hq)
  rw [← buildTree_leafAt fs hnd q b fn]
  simp only [treeNode.leafAt, hq]
  constructor
  · exact mapGet_eq_some_of_mem _ _ _ hwf.1
  · exact mem_of_mapGet_eq_some _ _ _

theorem sub_child_isSome (T : treeNode) (q : List String) (n : treeNode)
    (hq : T.sub q = some n) (c : String) :
    (T.sub (q ++ [c])).isSome = true ↔ c ∈ mapKeys n.children := by
  rw [treeNode.sub_append, hq]
  obtain ⟨l, ch⟩ := n
  simp only [treeNode.sub_cons, treeNode.children]
  cases hg : mapGet ch c with
  | none =>
    simp only [Option.isSome_none, Bool.false_eq_true, false_iff]
    exact (mapGet_eq_none_iff _ _).1 hg
  | some x =>
    simp only [treeNode.sub_nil, Option.isSome_some, true_iff]
    have := (mapGet_eq_none_iff ch c).2
    by_contra hc
    rw [this hc] at hg
    cases hg

theorem mem_leafFiles (deps : Deps) (leaves : List (String × fileSysNode)) (f : FileNode) :
    f ∈ leafFiles deps leaves ↔
      ∃ kv ∈ leaves, ∃ fl, kv.2.file = some fl ∧
        f = { Name := kv.1, Digest := fl.ue.Digest.ToProto, IsExecutable := fl.isExecutable,
              NodeProperties := deps.NodePropertiesToAPI kv.2.nodeProperties } := by
  simp only [leafFiles, List.mem_filterMap, Option.map_eq_some']
  constructor
  · rintro ⟨kv, hkv, fl, h1, h2⟩
    exact ⟨kv, hkv, fl, h1, h2.symm⟩
  · rintro ⟨kv, hkv, fl, h1, h2⟩
    exact ⟨kv, hkv, fl, h1, h2.symm⟩

theorem mem_leafSymlinks (deps : Deps) (leaves : List (String × fileSysNode))
    (s : SymlinkNode) (h : s ∈ leafSymlinks deps leaves) :
    ∃ kv ∈ leaves, kv.2.file = none ∧ kv.2.symlink ≠ none := by
  simp only [leafSymlinks, List.mem_filterMap] at h
  obtain ⟨kv, hkv, h2⟩ := h
  refine ⟨kv, hkv, ?_⟩
  cases hf : kv.2.file with
  | some fl => rw [hf] at h2; cases h2
  | none =>
    rw [hf] at h2
    refine ⟨rfl, ?_⟩
    intro hs
    rw [hs] at h2
    cases h2

/-- The descriptor of a node is the empty one when the node has no file leaf, no symlink leaf
and no child. -/
theorem descriptorOf_length (deps : Deps) (n : treeNode) :
    (descriptorOf deps n).Files.length = (leafFiles deps n.leaves).length ∧
    (descriptorOf deps n).Directories.length = n.children.length ∧
    (descriptorOf deps n).Symlinks.length = (leafSymlinks deps n.leaves).length := by
  refine ⟨(sortSlice_perm _ _).length_eq, ?_, (sortSlice_perm _ _).length_eq⟩
  have := (sortSlice_perm (fun a b : DirectoryNode => strLess a.Name b.Name)
    (childEntries deps n.children)).length_eq
  simp only [childEntries, List.length_map] at this
  exact this

theorem mem_descriptorOf_files (deps : Deps) (n : treeNode) (f : FileNode) :
    f ∈ (descriptorOf deps n).Files ↔ f ∈ leafFiles deps n.leaves :=
  (sortSlice_perm _ _).mem_iff

theorem mem_descriptorOf_symlinks (deps : Deps) (n : treeNode) (s : SymlinkNode) :
    s ∈ (descriptorOf deps n).Symlinks ↔ s ∈ leafSymlinks deps n.leaves :=
  (sortSlice_perm _ _).mem_iff

/-- A node of the tree of a flat map that lies on the way to a key has a child or holds the
leaf of the key. -/
theorem buildTree_node_nonempty (deps : Deps) (fs : List (String × fileSysNode))
    (hnd : (mapKeys fs).Nodup)
    (hnodes : ∀ kv ∈ fs, kv.2.symlink = none ∧
      (kv.2.emptyDirectoryMarker = true ∨ kv.2.file.isSome = true))
    (q : List String) (n : treeNode) (hq : (buildTree fs).sub q = some n)
    (kv : String × fileSysNode) (hkv : kv ∈ fs) (hpre : q <+: (splitSep kv.1).dropLast) :
    ¬ ((descriptorOf deps n).Files.length + (descriptorOf deps n).Directories.length +
      (descriptorOf deps n).Symlinks.length = 0) := by
  obtain ⟨h1, h2, h3⟩ := descriptorOf_length deps n
  rw [h1, h2, h3]
  intro hzero
  have hl : leafFiles deps n.leaves = [] := List.length_eq_zero.1 (by omega)
  have hc : n.children = [] := List.length_eq_zero.1 (by omega)
  have hnochild : ∀ c, ¬ ((buildTree fs).sub (q ++ [c])).isSome = true := by
    intro c hcs
    have := (sub_child_isSome _ q n hq c).1 hcs
    rw [hc] at this
    simp [mapKeys] at this
  obtain ⟨r, hr⟩ := hpre
  cases r with
  | nil =>
    rw [List.append_nil] at hr
    have hsplit := splitSep_dropLast kv.1
    rw [← hr] at hsplit
    cases hm : kv.2.emptyDirectoryMarker with
    | true =>
      apply hnochild ((splitSep kv.1).getLastD "")
      rw [buildTree_sub_isSome]
      exact Or.inr ⟨kv, hkv, Or.inr ⟨hm, hsplit⟩⟩
    | false =>
      have hleaf := (buildTree_leaf_mem fs hnd q n hq ((splitSep kv.1).getLastD "") kv.2).2
        ⟨kv.1, hkv, hm, hsplit.symm⟩
      have hfile := (hnodes kv hkv).2
      rw [hm] at hfile
      simp only [Bool.false_eq_true, false_or] at hfile
      obtain ⟨fl, hfl⟩ := Option.isSome_iff_exists.1 hfile
      have := (mem_leafFiles deps n.leaves _).2 ⟨_, hleaf, fl, hfl, rfl⟩
      rw [hl] at this
      cases this
  | cons s r =>
    apply hnochild s
    rw [buildTree_sub_isSome]
    refine Or.inr ⟨kv, hkv, Or.inl ?_⟩
    rw [← hr]
    exact ⟨r, by simp⟩

end Client

namespace Client

/-! ## The outputs of the tree of a flat map -/

theorem entryBelow_iff (fs : List (String × fileSysNode)) (k : String) :
    entryBelow fs k = true ↔ ∃ kv ∈ fs, splitSep k <+: splitSep kv.1 ∧ kv.1 ≠ k := by
  simp only [entryBelow, List.any_eq_true, Bool.and_eq_true, List.isPrefixOf_iff_prefix,
    decide_eq_true_eq]

theorem append_singleton_ne_self (q : List String) (b : String) : q ++ [b] ≠ q := by
  intro h
  have := congrArg List.length h
  simp at this

theorem expectedOut_marker (deps : Deps) (kv : String × fileSysNode) (dir : Directory)
    (hm : kv.2.emptyDirectoryMarker = true) (hd : dir.NodeProperties = none) :
    emptyDirOut kv.1 dir = (kv.1, expectedOut deps kv) := by
  simp only [emptyDirOut, expectedOut, hm, if_true, hd]

theorem expectedOut_file (deps : Deps) (k : String) (fn : fileSysNode) (fl : fileNode)
    (p b : String) (hm : fn.emptyDirectoryMarker = false) (hf : fn.file = some fl)
    (hp : Join [p, b] = k) :
    fileOut p { Name := b, Digest := fl.ue.Digest.ToProto, IsExecutable := fl.isExecutable,
                NodeProperties := deps.NodePropertiesToAPI fn.nodeProperties } =
      (k, expectedOut deps (k, fn)) := by
  simp only [fileOut, expectedOut, hm, hf, hp, NewFromProtoUnvalidated_ToProto,
    Bool.false_eq_true, if_false]

theorem Join_pathFrom (q : List String) (b : String) :
    Join [pathFrom "" q, b] = pathFrom "" (q ++ [b]) := by
  rw [pathFrom_append]
  rfl

/-- The outputs of the nodes of the tree of a flat map whose keys the flattener computes back
from their elements, and whose entries are files and empty-directory markers: one for every
file, and one for every marker that has no entry below it. -/
theorem buildTree_outputs (deps : Deps) (fs : List (String × fileSysNode))
    (hnd : (mapKeys fs).Nodup) (hne : fs ≠ [])
    (hkeys : ∀ kv ∈ fs, pathFrom "" (splitSep kv.1) = kv.1)
    (hnodes : ∀ kv ∈ fs, kv.2.symlink = none ∧
      (kv.2.emptyDirectoryMarker = true ∨ kv.2.file.isSome = true))
    (x : String × TreeOutput) :
    x ∈ (buildTree fs).outputs deps "" ↔
      ∃ kv ∈ fs, (kv.2.emptyDirectoryMarker = true → entryBelow fs kv.1 = false) ∧
        x = (kv.1, expectedOut deps kv) := by
  rw [mem_outputs_iff deps _ (buildTree_WF fs)]
  constructor
  · rintro ⟨q, n, hq, hx⟩
    have hsome : ((buildTree fs).sub q).isSome = true := by rw [hq]; rfl
    by_cases hemp : (descriptorOf deps n).Files.length +
        (descriptorOf deps n).Directories.length + (descriptorOf deps n).Symlinks.length = 0
    · simp only [dirOutputs, hemp, if_true, List.mem_singleton] at hx
      rcases (buildTree_sub_isSome fs q).1 hsome with h | ⟨kv, hkv, h | ⟨hm, h⟩⟩
      · exfalso
        obtain ⟨kv0, hkv0⟩ := List.exists_mem_of_ne_nil fs hne
        exact buildTree_node_nonempty deps fs hnd hnodes q n hq kv0 hkv0
          (by rw [h]; exact List.nil_prefix) hemp
      · exact absurd hemp (buildTree_node_nonempty deps fs hnd hnodes q n hq kv hkv h)
      · refine ⟨kv, hkv, ?_, ?_⟩
        · intro _
          by_contra hbelow
          have hb : entryBelow fs kv.1 = true := by simpa using hbelow
          obtain ⟨kv2, hkv2, hpre, hne2⟩ := (entryBelow_iff fs kv.1).1 hb
          rw [← h] at hpre
          have hq2 : q ≠ splitSep kv2.1 := by
            intro h0
            apply hne2
            exact splitSep_inj _ _ (by rw [← h0, h])
          exact buildTree_node_nonempty deps fs hnd hnodes q n hq kv2 hkv2
            (prefix_dropLast_of_ne q _ hpre hq2) hemp
        · rw [hx, h, hkeys kv hkv]
          exact expectedOut_marker deps kv _ hm rfl
    · simp only [dirOutputs, hemp, if_false, List.mem_append, List.mem_map] at hx
      rcases hx with ⟨f, hf, rfl⟩ | ⟨s, hs, rfl⟩
      · obtain ⟨leaf, hleaf, fl, hfl, rfl⟩ :=
          (mem_leafFiles deps n.leaves f).1 ((mem_descriptorOf_files deps n f).1 hf)
        obtain ⟨k, hk, hm, hsk⟩ := (buildTree_leaf_mem fs hnd q n hq leaf.1 leaf.2).1 hleaf
        refine ⟨(k, leaf.2), hk, ?_, ?_⟩
        · intro h0
          simp only at h0
          rw [hm] at h0
          cases h0
        · apply expectedOut_file deps k leaf.2 fl _ leaf.1 hm hfl
          rw [Join_pathFrom, ← hsk]
          exact hkeys (k, leaf.2) hk
      · exfalso
        obtain ⟨leaf, hleaf, hnone, _⟩ :=
          mem_leafSymlinks deps n.leaves s ((mem_descriptorOf_symlinks deps n s).1 hs)
        obtain ⟨k, hk, hm, _⟩ := (buildTree_leaf_mem fs hnd q n hq leaf.1 leaf.2).1 hleaf
        have := (hnodes (k, leaf.2) hk).2
        simp only [hm, hnone, Bool.false_eq_true, Option.isSome_none, or_self] at this
  · rintro ⟨kv, hkv, hkept, rfl⟩
    cases hm : kv.2.emptyDirectoryMarker with
    | true =>
      have hnb : ∀ kv2 ∈ fs, splitSep kv.1 <+: splitSep kv2.1 → kv2.1 = kv.1 := by
        intro kv2 hkv2 hpre
        by_contra hne2
        have := (entryBelow_iff fs kv.1).2 ⟨kv2, hkv2, hpre, hne2⟩
        rw [hkept hm] at this
        cases this
      have hsome : ((buildTree fs).sub (splitSep kv.1)).isSome = true :=
        (buildTree_sub_isSome fs _).2 (Or.inr ⟨kv, hkv, Or.inr ⟨hm, rfl⟩⟩)
      obtain ⟨n, hq⟩ := Option.isSome_iff_exists.1 hsome
      have hleaves : n.leaves = [] := by
        apply List.eq_nil_iff_forall_not_mem.2
        intro leaf hleaf
        obtain ⟨k, hk, _, hsk⟩ :=
          (buildTree_leaf_mem fs hnd _ n hq leaf.1 leaf.2).1 hleaf
        have := hnb (k, leaf.2) hk (by simp only; rw [hsk]; exact List.prefix_append _ _)
        simp only at this
        rw [this] at hsk
        exact append_singleton_ne_self _ _ hsk.symm
      have hchildren : n.children = [] := by
        cases hc : n.children with
        | nil => rfl
        | cons nc rest =>
          exfalso
          have hmem : nc.1 ∈ mapKeys n.children := by rw [hc]; simp [mapKeys]
          have hs2 := (sub_child_isSome _ _ n hq nc.1).2 hmem
          rcases (buildTree_sub_isSome fs _).1 hs2 with h | ⟨kv3, hkv3, h | ⟨_, h⟩⟩
          · simp at h
          · have hpre : splitSep kv.1 <+: splitSep kv3.1 :=
              ((List.prefix_append _ _).trans h).trans (List.dropLast_prefix _)
            have := hnb kv3 hkv3 hpre
            rw [this] at h
            have h2 := (h.trans (List.dropLast_prefix _)).length_le
            simp at h2
          · have hpre : splitSep kv.1 <+: splitSep kv3.1 := by
              rw [← h]; exact List.prefix_append _ _
            have := hnb kv3 hkv3 hpre
            rw [this] at h
            exact append_singleton_ne_self _ _ h
      have hemp : (descriptorOf deps n).Files.length +
          (descriptorOf deps n).Directories.length +
          (descriptorOf deps n).Symlinks.length = 0 := by
        obtain ⟨h1, h2, h3⟩ := descriptorOf_length deps n
        rw [h1, h2, h3, hleaves, hchildren]
        rfl
      refine ⟨splitSep kv.1, n, hq, ?_⟩
      rw [hkeys kv hkv]
      simp only [dirOutputs, hemp, if_true, List.mem_singleton]
      exact (expectedOut_marker deps kv _ hm rfl).symm
    | false =>
      have hfile := (hnodes kv hkv).2
      rw [hm] at hfile
      simp only [Bool.false_eq_true, false_or] at hfile
      obtain ⟨fl, hfl⟩ := Option.isSome_iff_exists.1 hfile
      have hsplit := splitSep_dropLast kv.1
      have hleafAt := (buildTree_leafAt fs hnd (splitSep kv.1).dropLast
        ((splitSep kv.1).getLastD "") kv.2).2 ⟨kv.1, hkv, hm, hsplit.symm⟩
      simp only [treeNode.leafAt] at hleafAt
      cases hq : (buildTree fs).sub (splitSep kv.1).dropLast with
      | none => rw [hq] at hleafAt; cases hleafAt
      | some n =>
        rw [hq] at hleafAt
        simp only at hleafAt
        have hleaf := mem_of_mapGet_eq_some _ _ _ hleafAt
        have hf := (mem_leafFiles deps n.leaves _).2 ⟨_, hleaf, fl, hfl, rfl⟩
        have hf2 := (mem_descriptorOf_files deps n _).2 hf
        have hemp : ¬ ((descriptorOf deps n).Files.length +
            (descriptorOf deps n).Directories.length +
            (descriptorOf deps n).Symlinks.length = 0) := by
          intro h0
          have : (descriptorOf deps n).Files = [] := List.length_eq_zero.1 (by omega)
          rw [this] at hf2
          cases hf2
        refine ⟨(splitSep kv.1).dropLast, n, hq, ?_⟩
        simp only [dirOutputs, hemp, if_false, List.mem_append, List.mem_map]
        left
        refine ⟨_, hf2, ?_⟩
        apply expectedOut_file deps kv.1 kv.2 fl _ _ hm hfl
        rw [Join_pathFrom, hsplit]
        exact hkeys kv hkv

end Client

namespace Client

/-! ## A round of the loader under the resolve policy -/

theorem loadFilesNonSymlink_frame (host : Host) (excl : List InputExclusion)
    (absPath normPath k : String) (np : Option NodeProperties) (md : Metadata)
    (s : loadState) :
    loadFilesNonSymlink host excl absPath normPath k np md s =
      match loadFilesNonSymlink host excl absPath normPath k np md loadState.empty with
      | .error e => .error e
      | .ok s2 =>
        .ok { filesToProcess := s.filesToProcess ++ s2.filesToProcess
              fs := applyWrite s.fs s2.fs.head?
              seenAncestorSymlinkRel := s.seenAncestorSymlinkRel } := by
  simp only [loadFilesNonSymlink, loadState.empty]
  by_cases h1 : md.IsDirectory = true
  · simp only [h1, if_true]
    by_cases h2 : shouldIgnore host absPath .DirectoryInputType excl = true
    · simp [h2, applyWrite]
    · simp only [h2, if_false]
      cases md.Err with
      | some e => rfl
      | none =>
        simp only
        cases host.Readdirnames absPath with
        | error e => rfl
        | ok files =>
          simp only
          by_cases h3 : files.length = 0
          · simp only [h3, if_true]
            by_cases h4 : normPath ≠ "."
            · simp [h4, applyWrite, mapSet]
            · simp [h4, applyWrite]
          · simp [h3, applyWrite]
  · simp only [h1, if_false]
    by_cases h2 : shouldIgnore host absPath .FileInputType excl = true
    · simp [h2, applyWrite]
    · simp only [h2, if_false]
      cases md.Err with
      | some e => rfl
      | none => simp [applyWrite, mapSet]

theorem getExecRootRelPaths_noremap (absPath execRoot lwd rwd : String)
    (hw : rwd = "" ∨ rwd = lwd) :
    getExecRootRelPaths absPath execRoot lwd rwd =
      match getRelPath execRoot absPath with
      | .error e => .error e
      | .ok rel => .ok (rel, rel) := by
  unfold getExecRootRelPaths
  cases getRelPath execRoot absPath with
  | error e => rfl
  | ok rel => simp only [hw, if_true]

/-- The normal form of a round of the loader when symlinks are resolved and the remote working
directory is the local one. -/
theorem loadFilesStep_resolve_eq (host : Host) (execRoot lwd rwd : String)
    (excl : List InputExclusion) (opts : TreeSymlinkOpts)
    (np : List (String × NodeProperties)) (path : String) (s : loadState)
    (hP : opts.Preserved = false) (hw : rwd = "" ∨ rwd = lwd) :
    loadFilesStep host execRoot lwd rwd excl opts np path s =
      if path = "" then .error .emptyInput
      else
        match getRelPath execRoot (Join [execRoot, path]) with
        | .error e => .error e
        | .ok normPath =>
          match (host.Get (Join [execRoot, path])).Symlink with
          | none =>
            loadFilesNonSymlink host excl (Join [execRoot, path]) normPath normPath
              (mapGet np normPath) (host.Get (Join [execRoot, path])) s
          | some sl =>
            if sl.IsDangling = true then .ok s
            else
              loadFilesNonSymlink host excl (Join [execRoot, path]) normPath normPath
                (mapGet np normPath) (host.Get (Join [execRoot, path])) s := by
  simp only [loadFilesStep, hP, getExecRootRelPaths_noremap _ _ _ _ hw]
  by_cases h0 : path = ""
  · simp only [h0, if_true]
  · simp only [h0, if_false, Bool.false_eq_true]
    cases getRelPath execRoot (Join [execRoot, path]) with
    | error e => rfl
    | ok normPath =>
      simp only
      cases (host.Get (Join [execRoot, path])).Symlink with
      | none => rfl
      | some sl =>
        simp only
        by_cases hd : sl.IsDangling = true
        · simp [hd]
        · simp [hd]

/-- A round of the loader, when symlinks are resolved and the remote working directory is the
local one, does to any state what `resolveEffect` tells: it appends paths to the queue and
writes at most one entry, and which ones does not depend on the state. -/
theorem loadFilesStep_resolve (host : Host) (execRoot lwd rwd : String)
    (excl : List InputExclusion) (opts : TreeSymlinkOpts)
    (np : List (String × NodeProperties)) (path : String) (s : loadState)
    (hP : opts.Preserved = false) (hw : rwd = "" ∨ rwd = lwd) :
    loadFilesStep host execRoot lwd rwd excl opts np path s =
      match resolveEffect host execRoot excl np path with
      | .error e => .error e
      | .ok (adds, w) =>
        .ok { filesToProcess := s.filesToProcess ++ adds
              fs := applyWrite s.fs w
              seenAncestorSymlinkRel := s.seenAncestorSymlinkRel } := by
  rw [loadFilesStep_resolve_eq host execRoot lwd rwd excl opts np path s hP hw]
  simp only [resolveEffect]
  rw [loadFilesStep_resolve_eq host execRoot "" "" excl DefaultTreeSymlinkOpts np path
    loadState.empty rfl (Or.inl rfl)]
  by_cases h0 : path = ""
  · simp only [h0, if_true]
  · simp only [h0, if_false]
    cases getRelPath execRoot (Join [execRoot, path]) with
    | error e => rfl
    | ok normPath =>
      simp only
      have hframe := loadFilesNonSymlink_frame host excl (Join [execRoot, path]) normPath
        normPath (mapGet np normPath) (host.Get (Join [execRoot, path])) s
      cases (host.Get (Join [execRoot, path])).Symlink with
      | none =>
        simp only
        rw [hframe]
        cases loadFilesNonSymlink host excl (Join [execRoot, path]) normPath normPath
          (mapGet np normPath) (host.Get (Join [execRoot, path])) loadState.empty with
        | error e => rfl
        | ok s2 => rfl
      | some sl =>
        simp only
        by_cases hd : sl.IsDangling = true
        · simp [hd, loadState.empty, applyWrite]
        · simp only [hd, if_false]
          rw [hframe]
          cases loadFilesNonSymlink host excl (Join [execRoot, path]) normPath normPath
            (mapGet np normPath) (host.Get (Join [execRoot, path])) loadState.empty with
          | error e => rfl
          | ok s2 => rfl

end Client

namespace Client

/-! ## The rounds that a queue unfolds into -/

section Unfolding
variable (e : String → Except Err (List String × Option (String × fileSysNode)))

theorem Unfolds.cast {q : List String} {n n2 : Nat} {W W2 : List String}
    (h : Unfolds e q n W) (hn : n = n2) (hW : W = W2) : Unfolds e q n2 W2 := by
  subst hn hW
  exact h

theorem Unfolds.split (q1 q2 : List String) :
    ∀ (n : Nat) (W : List String), Unfolds e (q1 ++ q2) n W →
      ∃ n1 n2 W1 W2, Unfolds e q1 n1 W1 ∧ Unfolds e q2 n2 W2 ∧ n = n1 + n2 ∧
        W = W1 ++ W2 := by
  induction q1 with
  | nil =>
    intro n W h
    exact ⟨0, n, [], W, Unfolds.nil, h, by simp, by simp⟩
  | cons p rest ih =>
    intro n W h
    rw [List.cons_append] at h
    cases h with
    | cons _ _ adds w n1 n2 W1 W2 he ha hr =>
      obtain ⟨m1, m2, V1, V2, h1, h2, h3, h4⟩ := ih n2 W2 hr
      refine ⟨n1 + m1 + 1, m2, (w.map Prod.fst).toList ++ W1 ++ V1, V2,
        Unfolds.cons p rest adds w n1 m1 W1 V1 he ha h1, h2, by omega, ?_⟩
      rw [h4]
      simp only [List.append_assoc]

theorem Unfolds.join (q1 q2 : List String) :
    ∀ (n1 n2 : Nat) (W1 W2 : List String), Unfolds e q1 n1 W1 → Unfolds e q2 n2 W2 →
      Unfolds e (q1 ++ q2) (n1 + n2) (W1 ++ W2) := by
  induction q1 with
  | nil =>
    intro n1 n2 W1 W2 h1 h2
    cases h1
    simpa using h2
  | cons p rest ih =>
    intro n1 n2 W1 W2 h1 h2
    cases h1 with
    | cons _ _ adds w m1 m2 V1 V2 he ha hr =>
      have := ih m2 n2 V2 W2 hr h2
      exact (Unfolds.cons p (rest ++ q2) adds w m1 (m2 + n2) V1 (V2 ++ W2) he ha this).cast e
        (by omega) (by simp only [List.append_assoc])

/-- The rounds that a queue unfolds into do not depend on the order of the queue: a permuted
queue unfolds into as many rounds, which write under the same keys. -/
theorem Unfolds.perm {q1 q2 : List String} (hp : q1.Perm q2) :
    ∀ (n : Nat) (W : List String), Unfolds e q1 n W →
      ∃ W2, Unfolds e q2 n W2 ∧ ∀ k, k ∈ W2 ↔ k ∈ W := by
  induction hp with
  | nil => intro n W h; exact ⟨W, h, fun _ => Iff.rfl⟩
  | cons x _ ih =>
    intro n W h
    cases h with
    | cons _ _ adds w n1 n2 W1 W2 he ha hr =>
      obtain ⟨V, hV, hm⟩ := ih n2 W2 hr
      refine ⟨_, Unfolds.cons x _ adds w n1 n2 W1 V he ha hV, ?_⟩
      intro k
      simp only [List.mem_append, hm]
  | swap x y l =>
    intro n W h
    cases h with
    | cons _ _ addsy wy n1 n2 W1 W2 hey hay hr =>
      cases hr with
      | cons _ _ addsx wx m1 m2 V1 V2 hex hax hl =>
        refine ⟨_, (Unfolds.cons x (y :: l) addsx wx m1 (n1 + m2 + 1) V1 _ hex hax
          (Unfolds.cons y l addsy wy n1 m2 W1 V2 hey hay hl)).cast e (by omega) rfl, ?_⟩
        intro k
        simp only [List.mem_append]
        tauto
  | trans _ _ ih1 ih2 =>
    intro n W h
    obtain ⟨V, hV, hm⟩ := ih1 n W h
    obtain ⟨V2, hV2, hm2⟩ := ih2 n V hV
    exact ⟨V2, hV2, fun k => (hm2 k).trans (hm k)⟩

end Unfolding

end Client

namespace Client

/-! ## The loader under the resolve policy: the entries that it writes -/

theorem Clean_Join_pair (a b : String) (hb : b ≠ "") : Clean (Join [a, b]) = Join [a, b] := by
  by_cases ha : a = ""
  · subst ha
    rw [Join_empty_left b hb, Clean_idem]
  · rw [Join_pair a b ha, Clean_idem]

theorem loadFilesNonSymlink_write (host : Host) (excl : List InputExclusion)
    (absPath normPath : String) (np : Option NodeProperties) (s2 : loadState)
    (kv : String × fileSysNode)
    (h : loadFilesNonSymlink host excl absPath normPath normPath np (host.Get absPath)
      loadState.empty = .ok s2)
    (hw : s2.fs.head? = some kv) :
    kv.1 = normPath ∧
    kv.2 = if (host.Get absPath).IsDirectory then
        { file := none, emptyDirectoryMarker := true, symlink := none, nodeProperties := np }
      else
        { file := some { ue := EntryFromFile (host.Get absPath).Digest absPath,
                         isExecutable := (host.Get absPath).IsExecutable },
          emptyDirectoryMarker := false, symlink := none, nodeProperties := np } := by
  simp only [loadFilesNonSymlink, loadState.empty] at h
  by_cases h1 : (host.Get absPath).IsDirectory = true
  · rw [if_pos h1] at h
    simp only [h1, if_true]
    split at h
    · cases Except.ok.inj h
      simp at hw
    · split at h
      · cases h
      · split at h
        · cases h
        · split at h
          · split at h
            · cases Except.ok.inj h
              simp only [mapSet, List.head?_cons, Option.some.injEq] at hw
              rw [← hw]
              exact ⟨rfl, rfl⟩
            · cases Except.ok.inj h
              simp at hw
          · cases Except.ok.inj h
            simp at hw
  · rw [if_neg h1] at h
    simp only [h1, if_false]
    split at h
    · cases Except.ok.inj h
      simp at hw
    · split at h
      · cases h
      · cases Except.ok.inj h
        simp only [mapSet, List.head?_cons, Option.some.injEq] at hw
        rw [← hw]
        exact ⟨rfl, rfl⟩

/-- The entry that a round of the loader writes under the resolve policy is determined by its
key: it is the node that the metadata of the key under the exec root tells. -/
theorem resolveEffect_write (host : Host) (execRoot : String) (excl : List InputExclusion)
    (np : List (String × NodeProperties)) (path : String) (adds : List String)
    (kv : String × fileSysNode)
    (h : resolveEffect host execRoot excl np path = .ok (adds, some kv)) :
    kv.2 = resolveNode host execRoot np kv.1 := by
  simp only [resolveEffect] at h
  rw [loadFilesStep_resolve_eq host execRoot "" "" excl DefaultTreeSymlinkOpts np path
    loadState.empty rfl (Or.inl rfl)] at h
  by_cases h0 : path = ""
  · simp only [h0, if_true] at h
    cases h
  · simp only [h0, if_false] at h
    cases hr : getRelPath execRoot (Join [execRoot, path]) with
    | error e => rw [hr] at h; cases h
    | ok normPath =>
      rw [hr] at h
      simp only at h
      have hjoin : Join [execRoot, normPath] = Join [execRoot, path] := by
        rw [getRelPath_join _ _ _ hr, Clean_Join_pair _ _ h0]
      have key : ∀ s2, loadFilesNonSymlink host excl (Join [execRoot, path]) normPath normPath
          (mapGet np normPath) (host.Get (Join [execRoot, path])) loadState.empty = .ok s2 →
          s2.fs.head? = some kv → kv.2 = resolveNode host execRoot np kv.1 := by
        intro s2 hs2 hw
        obtain ⟨e1, e2⟩ := loadFilesNonSymlink_write host excl _ normPath _ s2 kv hs2 hw
        rw [e2, e1]
        simp only [resolveNode, hjoin]
      cases hS : (host.Get (Join [execRoot, path])).Symlink with
      | none =>
        rw [hS] at h
        simp only at h
        cases hN : loadFilesNonSymlink host excl (Join [execRoot, path]) normPath normPath
          (mapGet np normPath) (host.Get (Join [execRoot, path])) loadState.empty with
        | error e => rw [hN] at h; cases h
        | ok s2 =>
          rw [hN] at h
          simp only [Except.ok.injEq, Prod.mk.injEq] at h
          exact key s2 hN h.2
      | some sl =>
        rw [hS] at h
        simp only at h
        by_cases hd : sl.IsDangling = true
        · rw [if_pos hd] at h
          have h2 := (Prod.mk.inj (Except.ok.inj h)).2
          simp [loadState.empty] at h2
        · rw [if_neg hd] at h
          cases hN : loadFilesNonSymlink host excl (Join [execRoot, path]) normPath normPath
            (mapGet np normPath) (host.Get (Join [execRoot, path])) loadState.empty with
          | error e => rw [hN] at h; cases h
          | ok s2 =>
            rw [hN] at h
            simp only [Except.ok.injEq, Prod.mk.injEq] at h
            exact key s2 hN h.2

end Client

namespace Client

/-! ## The loader under the resolve policy: the loop and the rounds of its queue -/

theorem mapGet_applyWrite (fs : List (String × fileSysNode))
    (w : Option (String × fileSysNode)) (k : String) :
    mapGet (applyWrite fs w) k =
      match w with
      | none => mapGet fs k
      | some kv => if k = kv.1 then some kv.2 else mapGet fs k := by
  cases w with
  | none => rfl
  | some kv => simp only [applyWrite, mapGet_mapSet]

/-- When the loop of the loader ends without error under the resolve policy, its queue unfolds
into at most as many rounds as the fuel, and the flat map holds, under the keys that the rounds
write, the nodes that the metadata tells, and what it held under the other keys. -/
theorem loadFilesLoop_unfolds (host : Host) (execRoot lwd rwd : String)
    (excl : List InputExclusion) (opts : TreeSymlinkOpts)
    (np : List (String × NodeProperties)) (hP : opts.Preserved = false)
    (hw : rwd = "" ∨ rwd = lwd) :
    ∀ (fuel : Nat) (s : loadState) (r : List (String × fileSysNode)),
      loadFilesLoop host execRoot lwd rwd excl opts np fuel s = some (.ok r) →
      ∃ n W, Unfolds (resolveEffect host execRoot excl np) s.filesToProcess n W ∧ n ≤ fuel ∧
        ∀ k, mapGet r k =
          if k ∈ W then some (resolveNode host execRoot np k) else mapGet s.fs k := by
  intro fuel
  induction fuel with
  | zero =>
    intro s r h
    rw [loadFilesLoop] at h
    split at h
    · rename_i hq
      cases h
      exact ⟨0, [], by rw [hq]; exact Unfolds.nil, Nat.le_refl _, by simp⟩
    · cases h
  | succ f ih =>
    intro s r h
    rw [loadFilesLoop] at h
    split at h
    · rename_i hq
      cases h
      exact ⟨0, [], by rw [hq]; exact Unfolds.nil, Nat.zero_le _, by simp⟩
    · rename_i p rest hq
      simp only at h
      rw [loadFilesStep_resolve host execRoot lwd rwd excl opts np p _ hP hw] at h
      cases he : resolveEffect host execRoot excl np p with
      | error e =>
        rw [he] at h
        cases h
      | ok aw =>
        obtain ⟨adds, w⟩ := aw
        rw [he] at h
        simp only at h
        obtain ⟨n, W, hU, hn, hget⟩ := ih _ r h
        simp only at hU hget
        obtain ⟨n1, n2, W1, W2, h1, h2, h3, h4⟩ := Unfolds.split _ rest adds n W hU
        refine ⟨n2 + n1 + 1, (w.map Prod.fst).toList ++ W2 ++ W1, ?_, by omega, ?_⟩
        · rw [hq]
          exact Unfolds.cons p rest adds w n2 n1 W2 W1 he h2 h1
        · intro k
          rw [hget k, h4, mapGet_applyWrite]
          cases w with
          | none =>
            simp only [Option.map_none', Option.toList_none, List.nil_append, List.mem_append]
            by_cases hk : k ∈ W1 ∨ k ∈ W2
            · rw [if_pos hk, if_pos hk.symm]
            · rw [if_neg hk, if_neg (fun h0 => hk h0.symm)]
          | some kv =>
            have hv := resolveEffect_write host execRoot excl np p adds kv he
            simp only [Option.map_some', Option.toList_some, List.mem_append,
              List.mem_singleton]
            by_cases hk : k ∈ W1 ∨ k ∈ W2
            · rw [if_pos hk, if_pos (by tauto)]
            · rw [if_neg hk]
              by_cases hk2 : k = kv.1
              · rw [if_pos hk2, if_pos (by tauto), hk2, hv]
              · rw [if_neg hk2, if_neg (by tauto)]

/-- When the queue of the loader unfolds into no more rounds than the fuel, the loop ends
without error under the resolve policy, and the flat map holds, under the keys that the rounds
write, the nodes that the metadata tells, and what it held under the other keys. -/
theorem loadFilesLoop_of_unfolds (host : Host) (execRoot lwd rwd : String)
    (excl : List InputExclusion) (opts : TreeSymlinkOpts)
    (np : List (String × NodeProperties)) (hP : opts.Preserved = false)
    (hw : rwd = "" ∨ rwd = lwd) :
    ∀ (fuel : Nat) (s : loadState) (n : Nat) (W : List String),
      Unfolds (resolveEffect host execRoot excl np) s.filesToProcess n W → n ≤ fuel →
      ∃ r, loadFilesLoop host execRoot lwd rwd excl opts np fuel s = some (.ok r) ∧
        ∀ k, mapGet r k =
          if k ∈ W then some (resolveNode host execRoot np k) else mapGet s.fs k := by
  intro fuel
  induction fuel with
  | zero =>
    intro s n W hU hn
    generalize hq : s.filesToProcess = q at hU
    cases hU with
    | nil =>
      refine ⟨s.fs, ?_, by simp⟩
      rw [loadFilesLoop, hq]
    | cons p rest adds w n1 n2 W1 W2 he ha hr => omega
  | succ f ih =>
    intro s n W hU hn
    generalize hq : s.filesToProcess = q at hU
    cases hU with
    | nil =>
      refine ⟨s.fs, ?_, by simp⟩
      rw [loadFilesLoop, hq]
    | cons p rest adds w n1 n2 W1 W2 he ha hr =>
      have hU2 := Unfolds.join _ rest adds n2 n1 W2 W1 hr ha
      obtain ⟨r, hr1, hr2⟩ := ih
        { filesToProcess := rest ++ adds, fs := applyWrite s.fs w,
          seenAncestorSymlinkRel := s.seenAncestorSymlinkRel } (n2 + n1) (W2 ++ W1) hU2
        (by omega)
      refine ⟨r, ?_, ?_⟩
      · rw [loadFilesLoop, hq]
        simp only
        rw [loadFilesStep_resolve host execRoot lwd rwd excl opts np p _ hP hw, he]
        exact hr1
      · intro k
        rw [hr2 k]
        simp only
        rw [mapGet_applyWrite]
        cases w with
        | none =>
          simp only [Option.map_none', Option.toList_none, List.nil_append, List.mem_append]
          by_cases hk : k ∈ W2 ∨ k ∈ W1
          · rw [if_pos hk, if_pos hk.symm]
          · rw [if_neg hk, if_neg (fun h0 => hk h0.symm)]
        | some kv =>
          have hv := resolveEffect_write host execRoot excl np p adds kv he
          simp only [Option.map_some', Option.toList_some, List.mem_append,
            List.mem_singleton]
          by_cases hk : k ∈ W2 ∨ k ∈ W1
          · rw [if_pos hk, if_pos (by tauto)]
          · rw [if_neg hk]
            by_cases hk2 : k = kv.1
            · rw [if_pos hk2, if_pos (by tauto), hk2, hv]
            · rw [if_neg hk2, if_neg (by tauto)]

end Client

namespace Client

/-! ## Trees that hold the same maps -/

theorem mem_iff_mapGet {κ α : Type} [DecidableEq κ] (m : List (κ × α))
    (h : (mapKeys m).Nodup) (kv : κ × α) : kv ∈ m ↔ mapGet m kv.1 = some kv.2 :=
  ⟨fun hm => mapGet_eq_some_of_mem m kv.1 kv.2 h hm,
    fun hg => mem_of_mapGet_eq_some m kv.1 kv.2 hg⟩

/-- Two maps with the same reads hold the same entries, in some order. -/
theorem perm_of_mapGet_eq {κ α : Type} [DecidableEq κ] (m1 m2 : List (κ × α))
    (h1 : (mapKeys m1).Nodup) (h2 : (mapKeys m2).Nodup)
    (h : ∀ k, mapGet m1 k = mapGet m2 k) : m1.Perm m2 := by
  apply (List.perm_ext_iff_of_nodup (List.Nodup.of_map _ h1) (List.Nodup.of_map _ h2)).2
  intro kv
  rw [mem_iff_mapGet m1 h1, mem_iff_mapGet m2 h2, h]

/-- Two trees of maps in which the same paths lead to directories and to the same leaves are
reorderings of each other. -/
theorem reordered_of_same_paths :
    ∀ t1 : treeNode, t1.WF → ∀ t2 : treeNode, t2.WF →
      (∀ q b, t1.leafAt q b = t2.leafAt q b) →
      (∀ q, (t1.sub q).isSome = (t2.sub q).isSome) → t1.Reordered t2 := by
  apply treeNode.induct_aux
  intro l1 c1 ih hwf1 t2 hwf2 hleaf hsub
  obtain ⟨l2, c2⟩ := t2
  rw [treeNode.WF_mk] at hwf1 hwf2
  obtain ⟨hnl1, hnc1, hwc1⟩ := hwf1
  obtain ⟨hnl2, hnc2, hwc2⟩ := hwf2
  have hkeys : ∀ s, (mapGet c1 s).isSome = (mapGet c2 s).isSome := by
    intro s
    have := hsub [s]
    rw [treeNode.sub_cons, treeNode.sub_cons] at this
    cases h1 : mapGet c1 s <;> cases h2 : mapGet c2 s <;>
      simp [h1, h2, treeNode.sub_nil] at this ⊢
  rw [treeNode.Reordered]
  simp only [treeNode.leaves, treeNode.children]
  refine ⟨?_, c1.map (fun nc => (nc.1, childAt c2 nc.1)), ?_, ?_⟩
  · apply perm_of_mapGet_eq l1 l2 hnl1 hnl2
    intro b
    have := hleaf [] b
    rw [treeNode.leafAt_nil, treeNode.leafAt_nil] at this
    exact this
  · have hk : mapKeys (c1.map (fun nc => (nc.1, childAt c2 nc.1))) = mapKeys c1 := by
      simp [mapKeys]
    apply (List.perm_ext_iff_of_nodup
      (List.Nodup.of_map Prod.fst (by rw [← mapKeys, hk]; exact hnc1))
      (List.Nodup.of_map Prod.fst hnc2)).2
    intro kv
    rw [mem_iff_mapGet c2 hnc2]
    simp only [List.mem_map]
    constructor
    · rintro ⟨nc, hnc, rfl⟩
      simp only [childAt]
      have h1 : (mapGet c1 nc.1).isSome = true := by
        rw [mapGet_eq_some_of_mem c1 nc.1 nc.2 hnc1 hnc]; rfl
      rw [hkeys] at h1
      obtain ⟨x, hx⟩ := Option.isSome_iff_exists.1 h1
      rw [hx]; rfl
    · intro hg
      have h2 : (mapGet c1 kv.1).isSome = true := by rw [hkeys, hg]; rfl
      obtain ⟨x, hx⟩ := Option.isSome_iff_exists.1 h2
      refine ⟨(kv.1, x), mem_of_mapGet_eq_some _ _ _ hx, ?_⟩
      simp only [childAt, hg, Option.getD_some]
  · rw [childrenReordered_iff, List.forall₂_map_right_iff, List.forall₂_same]
    intro nc hnc
    refine ⟨rfl, ?_⟩
    have hg1 := mapGet_eq_some_of_mem c1 nc.1 nc.2 hnc1 hnc
    have h1 : (mapGet c2 nc.1).isSome = true := by rw [← hkeys, hg1]; rfl
    obtain ⟨x, hx⟩ := Option.isSome_iff_exists.1 h1
    have hxm := mem_of_mapGet_eq_some _ _ _ hx
    simp only [childAt, hx, Option.getD_some]
    apply ih nc hnc (hwc1 nc hnc) x (hwc2 (nc.1, x) hxm)
    · intro q b
      have := hleaf (nc.1 :: q) b
      rw [treeNode.leafAt_cons, treeNode.leafAt_cons, hg1, hx] at this
      exact this
    · intro q
      have := hsub (nc.1 :: q)
      rw [treeNode.sub_cons, treeNode.sub_cons, hg1, hx] at this
      exact this

/-- The trees that `buildTree` returns for two flat maps with the same reads are reorderings
of each other. -/
theorem buildTree_reordered (fs1 fs2 : List (String × fileSysNode))
    (h1 : (mapKeys fs1).Nodup) (h2 : (mapKeys fs2).Nodup)
    (h : ∀ k, mapGet fs1 k = mapGet fs2 k) :
    (buildTree fs1).Reordered (buildTree fs2) := by
  have hmem : ∀ kv, kv ∈ fs1 ↔ kv ∈ fs2 := by
    intro kv
    rw [mem_iff_mapGet fs1 h1, mem_iff_mapGet fs2 h2, h]
  apply reordered_of_same_paths _ (buildTree_WF fs1) _ (buildTree_WF fs2)
  · intro q b
    apply Option.ext
    intro fn
    rw [Option.mem_def, Option.mem_def, buildTree_leafAt fs1 h1, buildTree_leafAt fs2 h2]
    simp only [hmem]
  · intro q
    rw [Bool.eq_iff_iff, buildTree_sub_isSome, buildTree_sub_isSome]
    simp only [hmem]

end Client

namespace Client

/-! ## C6: flattening the packaged tree of a flat map -/

/-- C6, as stated, fails: for the empty flat map the flattener returns one entry, the empty
directory at the root path, though the flat map has no entry; a key that is not normalized,
as `./a.txt`, comes back normalized, and an absolute one as a relative one; and an
empty-directory marker with an entry below it does not come back. -/
theorem flattenFlat_not_roundtrip :
    flattenFlat exampleDeps 1 [] =
        some (.ok [("", { Digest := Digest.Empty, Path := "", IsExecutable := false,
                          IsEmptyDirectory := true, SymlinkTarget := "",
                          NodeProperties := none })]) ∧
      (flattenFlat exampleDeps 2 [("./a.txt", exampleLoaded "A" "/e/a.txt")]).map
        (fun r => r.map outTriples) =
        some (.ok [("a.txt", { Hash := "A", Size := 3 }, false)]) ∧
      (flattenFlat exampleDeps 2 [("/a.txt", exampleLoaded "A" "/e/a.txt")]).map
        (fun r => r.map outTriples) =
        some (.ok [("a.txt", { Hash := "A", Size := 3 }, false)]) ∧
      (flattenFlat exampleDeps 2
          [("d", exampleMarker), ("d/b.txt", exampleLoaded "B" "/e/d/b.txt")]).map
        (fun r => r.map outTriples) =
        some (.ok [("d/b.txt", { Hash := "B", Size := 3 }, false)]) :=
  ⟨by decide, by decide, by decide, by decide⟩

/-- C6, amended: for every flat map that is not empty, contains no symlink nodes but files and
empty-directory markers, and has normalized relative paths for keys, building the tree with `buildTree`, packaging it with `packageDirectories`, and flattening the
resulting root and descendant descriptors with `FlattenTree` (root path empty, descriptor
digests collision-free, serialization succeeding, a round of the loop for every directory)
returns a map whose set of triples of path, digest and executable bit is exactly the set of
such triples of the files of the flat map and of its empty-directory markers that have no entry
below them. -/
theorem flatten_roundtrip (deps : Deps) (fs : List (String × fileSysNode))
    (hnd : (mapKeys fs).Nodup) (hne : fs ≠ [])
    (hkeys : ∀ kv ∈ fs, Clean kv.1 = kv.1 ∧ IsAbs kv.1 = false)
    (hnodes : ∀ kv ∈ fs, kv.2.symlink = none ∧
      (kv.2.emptyDirectoryMarker = true ∨ kv.2.file.isSome = true))
    (hpd : (packageDirectories deps (buildTree fs)).isOk = true)
    (hroot : (NewFromMessage deps (pdRoot deps (buildTree fs))).isOk = true)
    (hcoll : ∀ d1 ∈ pdRoot deps (buildTree fs) :: pdChildren deps (buildTree fs),
      ∀ d2 ∈ pdRoot deps (buildTree fs) :: pdChildren deps (buildTree fs),
        NewFromMessage deps d1 = NewFromMessage deps d2 → d1 = d2) :
    ∃ out, (∀ fuel, (buildTree fs).nodes.length ≤ fuel →
        flattenFlat deps fuel fs = some (.ok out)) ∧
      ∀ tr, tr ∈ outTriples out ↔ tr ∈ flatTriples fs := by
  have hout := buildTree_outputs deps fs hnd hne
    (fun kv hkv => pathFrom_splitSep kv.1 (hkeys kv hkv).1 (hkeys kv hkv).2) hnodes
  have hfun : Functional (fun x => x ∈ (buildTree fs).outputs deps "") := by
    intro x y hx hy hxy
    obtain ⟨kv1, hkv1, -, rfl⟩ := (hout x).1 hx
    obtain ⟨kv2, hkv2, -, rfl⟩ := (hout y).1 hy
    simp only at hxy
    have h1 := mapGet_eq_some_of_mem fs kv1.1 kv1.2 hnd hkv1
    have h2 := mapGet_eq_some_of_mem fs kv2.1 kv2.2 hnd hkv2
    rw [hxy, h2] at h1
    have h3 : kv2.2 = kv1.2 := Option.some.inj h1
    have : kv1 = kv2 := Prod.ext hxy h3.symm
    rw [this]
  obtain ⟨out, ho1, ho2⟩ := FlattenTree_outputs deps (buildTree fs) (buildTree_WF fs) hpd
    hroot hcoll hfun
  refine ⟨out, ?_, ?_⟩
  · intro fuel hfuel
    have := ho1 fuel hfuel
    simp only [pdRoot, pdChildren] at this
    simp only [flattenFlat]
    cases hp : packageDirectories deps (buildTree fs) with
    | error e => rw [hp] at hpd; cases hpd
    | ok r =>
      obtain ⟨root, files, treePb⟩ := r
      rw [hp] at this
      exact this
  · intro tr
    simp only [outTriples, flatTriples, List.mem_map, List.mem_filterMap]
    constructor
    · rintro ⟨x, hx, rfl⟩
      obtain ⟨kv, hkv, hkept, rfl⟩ := (hout x).1 ((ho2 x).1 hx)
      refine ⟨kv, hkv, ?_⟩
      cases hm : kv.2.emptyDirectoryMarker with
      | true => simp [hkept hm, expectedOut, hm]
      | false =>
        have hfile := (hnodes kv hkv).2
        rw [hm] at hfile
        simp only [Bool.false_eq_true, false_or] at hfile
        obtain ⟨fl, hfl⟩ := Option.isSome_iff_exists.1 hfile
        simp [expectedOut, hm, hfl]
    · rintro ⟨kv, hkv, hg⟩
      refine ⟨(kv.1, expectedOut deps kv), (ho2 _).2 ((hout _).2 ⟨kv, hkv, ?_, rfl⟩), ?_⟩
      · intro hm
        rw [hm] at hg
        simp only [if_true] at hg
        cases hb : entryBelow fs kv.1 with
        | true => rw [hb] at hg; simp at hg
        | false => rfl
      · cases hm : kv.2.emptyDirectoryMarker with
        | true =>
          rw [hm] at hg
          simp only [if_true] at hg
          cases hb : entryBelow fs kv.1 with
          | true => rw [hb] at hg; simp at hg
          | false =>
            rw [hb] at hg
            simp only [Bool.false_eq_true, if_false, Option.some.injEq] at hg
            rw [← hg]
            simp [expectedOut, hm]
        | false =>
          rw [hm] at hg
          simp only [Bool.false_eq_true, if_false, Option.map_eq_some'] at hg
          obtain ⟨fl, hfl, rfl⟩ := hg
          simp [expectedOut, hm, hfl]

/-- The amended claim C6 holds of the example flat map, whose three files and empty directory
come back from the flattener. -/
theorem flatten_roundtrip_witness :
    (mapKeys exampleFlat).Nodup ∧ exampleFlat ≠ [] ∧
    (∀ kv ∈ exampleFlat, Clean kv.1 = kv.1 ∧ IsAbs kv.1 = false) ∧
    (∀ kv ∈ exampleFlat, kv.2.symlink = none ∧
      (kv.2.emptyDirectoryMarker = true ∨ kv.2.file.isSome = true)) ∧
    (flattenFlat exampleDeps 4 exampleFlat).map (fun r => r.map outTriples) =
      some (.ok [("a.txt", { Hash := "A", Size := 3 }, false),
        ("d/b.txt", { Hash := "B", Size := 3 }, false),
        ("d/empty", Digest.Empty, false),
        ("d/sub/c.txt", { Hash := "C", Size := 3 }, false)]) ∧
    ∃ out, (∀ fuel, (buildTree exampleFlat).nodes.length ≤ fuel →
        flattenFlat exampleDeps fuel exampleFlat = some (.ok out)) ∧
      ∀ tr, tr ∈ outTriples out ↔ tr ∈ flatTriples exampleFlat :=
  ⟨by decide, by decide, by decide, by decide, by decide,
    flatten_roundtrip exampleDeps exampleFlat (by decide) (by decide) (by decide) (by decide)
      (by decide) (by decide) (by decide)⟩

end Client

namespace Client

/-! ## C7: the order of the inputs -/

/-- C7, as stated, fails.  With the local working directory `build` mapped to the remote
working directory `remote_build`, the inputs `build/out.o` and `remote_build/out.o` are stored
under the same key, the one processed last wins, and permuting the two inputs changes the flat
map and the root digest.  And under the preserve policy, without any remapping, the input
`a/x/f` marks the symlink `sub/b2/x` as an ancestor, so that the input `a/x`, which names that
symlink, is followed to the directory `sub/z` only when it comes first: the file `sub/z/g` is
in the flat map for the one order of the inputs and not for the other. -/
theorem loadFiles_order_dependent :
    (loadFiles exampleHost 5 "/e" "build" "remote_build" []
        ["build/out.o", "remote_build/out.o"] [] none [] =
        some (.ok [("remote_build/out.o", exampleLoaded "O2" "/e/remote_build/out.o")]) ∧
      loadFiles exampleHost 5 "/e" "build" "remote_build" []
        ["remote_build/out.o", "build/out.o"] [] none [] =
        some (.ok [("remote_build/out.o", exampleLoaded "O1" "/e/build/out.o")]) ∧
      rootDigest exampleDeps
          (buildTree [("remote_build/out.o", exampleLoaded "O2" "/e/remote_build/out.o")]) ≠
        rootDigest exampleDeps
          (buildTree [("remote_build/out.o", exampleLoaded "O1" "/e/build/out.o")])) ∧
    ((loadFiles exampleLinkHost 12 "/e" "" "" [] ["a/x", "a/x/f"] []
        (some examplePreserve) []).map (fun r => r.map mapKeys) =
        some (.ok ["sub/b2/x", "sub/z/f", "a", "c/x", "sub/z/g", "sub/b2", "z/h"]) ∧
      (loadFiles exampleLinkHost 12 "/e" "" "" [] ["a/x/f", "a/x"] []
        (some examplePreserve) []).map (fun r => r.map mapKeys) =
        some (.ok ["sub/z/f", "sub/b2/x", "a", "c/x", "sub/b2", "z/h"])) :=
  ⟨⟨by decide, by decide, by decide⟩, by decide, by decide⟩

/-- The keys of the flat map stay pairwise distinct through the loop of the loader. -/
theorem loadFilesLoop_nodup (host : Host) (execRoot lwd rwd : String)
    (excl : List InputExclusion) (opts : TreeSymlinkOpts)
    (np : List (String × NodeProperties)) (fuel : Nat) (s : loadState)
    (fs : List (String × fileSysNode))
    (h : loadFilesLoop host execRoot lwd rwd excl opts np fuel s = some (.ok fs))
    (h0 : (mapKeys s.fs).Nodup) : (mapKeys fs).Nodup := by
  refine loadFilesLoop_inv host execRoot lwd rwd excl opts np (fun m => (mapKeys m).Nodup) ?_
    fuel s fs h h0
  intro path s1 s2 hs hP
  rcases loadFilesStep_fs host execRoot lwd rwd excl opts np path s1 s2 hs with h1 | h1
  · rw [h1]; exact hP
  · obtain ⟨_, _, k, node, _, hfs, _⟩ := h1
    rw [hfs]
    exact mapKeys_mapSet_nodup _ _ _ hP

/-- C7, amended: for every filesystem state, exclusions and input list, under the resolve
policy and with the remote working directory empty or equal to the local one, when the loader
succeeds on the input list it succeeds, with the same number of rounds, on any permutation of
the list, and yields the same flat map (the same node under every key) and hence the same root
digest: `packageTree` succeeds on the tree of the one map when it does on the tree of the
other, with the same digest. -/
theorem loadFiles_order_independent (deps : Deps) (host : Host) (fuel : Nat)
    (execRoot lwd rwd : String) (excl : List InputExclusion) (inputs1 inputs2 : List String)
    (fs0 : List (String × fileSysNode)) (opts : Option TreeSymlinkOpts)
    (np : List (String × NodeProperties)) (fs1 : List (String × fileSysNode))
    (hperm : inputs1.Perm inputs2)
    (hP : (opts.getD DefaultTreeSymlinkOpts).Preserved = false)
    (hw : rwd = "" ∨ rwd = lwd) (h0 : (mapKeys fs0).Nodup)
    (h : loadFiles host fuel execRoot lwd rwd excl inputs1 fs0 opts np = some (.ok fs1)) :
    ∃ fs2, loadFiles host fuel execRoot lwd rwd excl inputs2 fs0 opts np = some (.ok fs2) ∧
      (∀ k, mapGet fs2 k = mapGet fs1 k) ∧
      (packageTreeRes deps (buildTree fs2)).isOk = (packageTreeRes deps (buildTree fs1)).isOk ∧
      rootDigest deps (buildTree fs2) = rootDigest deps (buildTree fs1) := by
  simp only [loadFiles] at h ⊢
  obtain ⟨n, W, hU, hn, hget1⟩ := loadFilesLoop_unfolds host execRoot lwd rwd excl _ np hP hw
    fuel _ fs1 h
  simp only at hU hget1
  obtain ⟨W2, hU2, hmem⟩ := Unfolds.perm _ hperm n W hU
  obtain ⟨fs2, hrun, hget2⟩ := loadFilesLoop_of_unfolds host execRoot lwd rwd excl _ np hP hw
    fuel { filesToProcess := inputs2, fs := fs0, seenAncestorSymlinkRel := [] } n W2 hU2 hn
  simp only at hget2
  have hget : ∀ k, mapGet fs2 k = mapGet fs1 k := by
    intro k
    rw [hget1 k, hget2 k]
    by_cases hk : k ∈ W
    · rw [if_pos hk, if_pos ((hmem k).2 hk)]
    · rw [if_neg hk, if_neg (fun h2 => hk ((hmem k).1 h2))]
  have hnd1 := loadFilesLoop_nodup host execRoot lwd rwd excl _ np fuel _ fs1 h h0
  have hnd2 := loadFilesLoop_nodup host execRoot lwd rwd excl _ np fuel _ fs2 hrun h0
  have hre := buildTree_reordered fs2 fs1 hnd2 hnd1 hget
  obtain ⟨s1, s2, -⟩ := reordered_same deps _ (buildTree_WF fs2) _ hre
  exact ⟨fs2, hrun, hget, s1, s2⟩

/-- The amended claim C7 holds of the inputs `d` and `a.txt` of the example file system, given
in either order under the resolve policy. -/
theorem loadFiles_order_independent_witness :
    ["d", "a.txt"].Perm ["a.txt", "d"] ∧
    ((none : Option TreeSymlinkOpts).getD DefaultTreeSymlinkOpts).Preserved = false ∧
    loadFiles exampleHost 8 "/e" "" "" [] ["d", "a.txt"] [] none [] =
      some (.ok [("a.txt", exampleLoaded "A" "/e/a.txt"),
        ("d/b.txt", exampleLoaded "B" "/e/d/b.txt"), ("d/l", exampleLoaded "A" "/e/d/l")]) ∧
    ∃ fs2, loadFiles exampleHost 8 "/e" "" "" [] ["a.txt", "d"] [] none [] = some (.ok fs2) ∧
      (∀ k, mapGet fs2 k = mapGet [("a.txt", exampleLoaded "A" "/e/a.txt"),
        ("d/b.txt", exampleLoaded "B" "/e/d/b.txt"), ("d/l", exampleLoaded "A" "/e/d/l")] k) ∧
      (packageTreeRes exampleDeps (buildTree fs2)).isOk =
        (packageTreeRes exampleDeps (buildTree [("a.txt", exampleLoaded "A" "/e/a.txt"),
          ("d/b.txt", exampleLoaded "B" "/e/d/b.txt"),
          ("d/l", exampleLoaded "A" "/e/d/l")])).isOk ∧
      rootDigest exampleDeps (buildTree fs2) =
        rootDigest exampleDeps (buildTree [("a.txt", exampleLoaded "A" "/e/a.txt"),
          ("d/b.txt", exampleLoaded "B" "/e/d/b.txt"), ("d/l", exampleLoaded "A" "/e/d/l")]) :=
  ⟨List.Perm.swap _ _ _, rfl, by decide,
    loadFiles_order_independent exampleDeps exampleHost 8 "/e" "" "" [] ["d", "a.txt"]
      ["a.txt", "d"] [] none [] _ (List.Perm.swap _ _ _) rfl (Or.inl rfl) (by decide)
      (by decide)⟩

end Client

namespace Client

/-! ## C8: the names in a descriptor -/

/-- C8, as stated, fails: from the virtual inputs `x` and `x/y` the method `ComputeMerkleTree`
builds a flat map with the keys `x` and `x/y`, and the root descriptor that `packageTree` builds
for the tree of that map lists the name `x` twice, once as a file and once as a directory. -/
theorem computeMerkleTree_duplicate_name :
    ComputeMerkleTreeFlat exampleDeps exampleHost 5 none "/e" "" "" exampleVirtualSpec =
        some (.ok [("x", exampleVirtual "X"), ("x/y", exampleVirtual "Y")]) ∧
      (packageTreeDir exampleDeps
        (buildTree [("x", exampleVirtual "X"), ("x/y", exampleVirtual "Y")])
        pkgState.zero "").1.map (fun r => r.1.names) = .ok ["x", "x"] ∧
      (ComputeMerkleTree exampleDeps exampleHost 5 none false "/e" "" ""
        exampleVirtualSpec).isSome = true := by
  decide

/-- C8, amended: for every flat map, every directory descriptor that `packageTree` builds for a
node of the tree of `buildTree` has no name occurring more than once among its files and
symlinks taken together, and none occurring more than once among its directories; and when no
entry of the flat map lies below a file or symlink entry, no name occurs more than once among
its files, directories and symlinks taken together. -/
theorem buildTree_descriptor_names (deps : Deps) (fs : List (String × fileSysNode))
    (hnd : (mapKeys fs).Nodup) :
    ∀ n ∈ (buildTree fs).nodes, ∀ st pfx dir blobs st2,
      packageTreeDir deps n st pfx = (.ok (dir, blobs), st2) →
        (dir.Files.map (fun f => f.Name) ++ dir.Symlinks.map (fun s => s.Name)).Nodup ∧
        (dir.Directories.map (fun d => d.Name)).Nodup ∧
        (NoEntryBelowLeaf fs → dir.names.Nodup) := by
  intro n hn st pfx dir blobs st2 h
  rw [(packageTreeDir_ok deps n st pfx dir blobs st2 h).1]
  have hwf := buildTree_WF fs
  obtain ⟨hl, hc⟩ := hwf n hn
  obtain ⟨h1, h2⟩ := descriptorOf_names_nodup deps n hl hc
  refine ⟨h1, h2, ?_⟩
  intro hfree
  obtain ⟨q, hq⟩ := treeNode.sub_of_mem_nodes _ hwf n hn
  have hdisj : ∀ x, x ∈ mapKeys n.leaves → x ∈ mapKeys n.children → False := by
    intro x hxl hxc
    cases hgl : mapGet n.leaves x with
    | none => exact (mapGet_eq_none_iff _ _).1 hgl hxl
    | some fn =>
      cases hgc : mapGet n.children x with
      | none => exact (mapGet_eq_none_iff _ _).1 hgc hxc
      | some c =>
        have hleaf : (buildTree fs).leafAt q x = some fn := by
          simp only [treeNode.leafAt, hq, hgl]
        obtain ⟨k, hk, hmk, hsk⟩ := (buildTree_leafAt fs hnd q x fn).1 hleaf
        have hsub : ((buildTree fs).sub (q ++ [x])).isSome = true := by
          rw [treeNode.sub_append, hq]
          obtain ⟨l2, c2⟩ := n
          simp only [treeNode.children] at hgc
          simp only [treeNode.sub_cons, hgc, treeNode.sub_nil, Option.isSome_some]
        rcases (buildTree_sub_isSome fs (q ++ [x])).1 hsub with h0 | ⟨kv, hkv, h3 | ⟨h3, h4⟩⟩
        · simp at h0
        · have hpre : splitSep k <+: splitSep kv.1 := by
            rw [hsk]
            exact h3.trans (List.dropLast_prefix _)
          have hkk := hfree (k, fn) hk kv hkv hmk hpre
          simp only at hkk
          rw [← hkk, hsk] at h3
          have := h3.length_le
          simp at this
        · have hkk : k = kv.1 := splitSep_inj _ _ (by rw [hsk, h4])
          have hg1 := mapGet_eq_some_of_mem fs k fn hnd hk
          have hg2 := mapGet_eq_some_of_mem fs kv.1 kv.2 hnd hkv
          rw [← hkk, hg1] at hg2
          have : fn = kv.2 := Option.some.inj hg2
          rw [← this, hmk] at h3
          cases h3
  have hF := (descriptorOf_file_names deps n).subset
  have hS := (descriptorOf_symlink_names deps n).subset
  have hD := (descriptorOf_directory_names deps n).subset
  have hFl : ∀ x ∈ (descriptorOf deps n).Files.map (fun f => f.Name), x ∈ mapKeys n.leaves :=
    fun x hx => (leafFiles_names_sublist deps n.leaves).subset (hF hx)
  have hSl : ∀ x ∈ (descriptorOf deps n).Symlinks.map (fun f => f.Name),
      x ∈ mapKeys n.leaves :=
    fun x hx => (leafSymlinks_names_sublist deps n.leaves).subset (hS hx)
  rw [List.nodup_append] at h1
  obtain ⟨hf, hs, hfs⟩ := h1
  simp only [Directory.names]
  rw [List.nodup_append, List.nodup_append]
  refine ⟨⟨hf, h2, ?_⟩, hs, ?_⟩
  · intro x hx hy
    exact hdisj x (hFl x hx) (hD hy)
  · intro x hx hy
    rcases List.mem_append.1 hx with hx | hx
    · exact hfs hx hy
    · exact hdisj x (hSl x hy) (hD hx)

/-- The amended claim C8 holds of the example flat map, whose root descriptor lists the file
`a.txt` and the directory `d`. -/
theorem buildTree_descriptor_names_witness :
    (mapKeys exampleFlat).Nodup ∧
    (packageTreeDir exampleDeps (buildTree exampleFlat) pkgState.zero "").1.map
        (fun r => r.1.names) = .ok ["a.txt", "d"] ∧
      ∀ n ∈ (buildTree exampleFlat).nodes, ∀ st pfx dir blobs st2,
        packageTreeDir exampleDeps n st pfx = (.ok (dir, blobs), st2) →
          (dir.Files.map (fun f => f.Name) ++ dir.Symlinks.map (fun s => s.Name)).Nodup ∧
          (dir.Directories.map (fun d => d.Name)).Nodup ∧
          (NoEntryBelowLeaf exampleFlat → dir.names.Nodup) :=
  ⟨by decide, by decide, buildTree_descriptor_names exampleDeps exampleFlat (by decide)⟩

end Client

namespace Client

/-! ## C9: the symlink targets that the loader stores -/

/-- C9, as stated, fails: under the preserve policy the loader stores the link `d/l` with the
target `../a.txt`, and that target, resolved from the directory `/e/d` that holds the link, is
`/e/a.txt`, which is above that directory (though under the exec root `/e`). -/
theorem loadFiles_target_above_link :
    loadFiles exampleHost 20 "/e" "" "" [] ["d/l"] [] (some examplePreserve) [] =
        some (.ok [("d/l", exampleSymlink "../a.txt"),
          ("a.txt", exampleLoaded "A" "/e/a.txt")]) ∧
      Join [Join ["/e", Dir "d/l"], "../a.txt"] = "/e/a.txt" ∧
      getRelPath (Join ["/e", Dir "d/l"]) (Join [Join ["/e", Dir "d/l"], "../a.txt"]) =
        .error (.notUnder "/e/a.txt" "/e/d") := by
  decide

/-- C9, amended: for every symlink node that `loadFiles` stores in the flat map (it stores one
only under the preserve policy), the key is the remote form of a path `normPath` under the exec
root, and the stored target resolved from the directory that holds the link locally (the
directory of `normPath` under the exec root) does not resolve above the exec root: `getRelPath`
from the exec root succeeds on it. -/
theorem loadFiles_symlink_targets (host : Host) (fuel : Nat) (execRoot lwd rwd : String)
    (excl : List InputExclusion) (inputs : List String) (fs0 : List (String × fileSysNode))
    (opts : Option TreeSymlinkOpts) (np : List (String × NodeProperties))
    (fs : List (String × fileSysNode))
    (h : loadFiles host fuel execRoot lwd rwd excl inputs fs0 opts np = some (.ok fs)) :
    ∀ kn ∈ fs, ∀ sl, kn.2.symlink = some sl → kn ∈ fs0 ∨
      ((opts.getD DefaultTreeSymlinkOpts).Preserved = true ∧
        ∃ absPath normPath r1,
          getExecRootRelPaths absPath execRoot lwd rwd = .ok (normPath, kn.1) ∧
          getRelPath execRoot (Join [Join [execRoot, Dir normPath], sl.target]) = .ok r1) := by
  simp only [loadFiles] at h
  refine loadFilesLoop_inv host execRoot lwd rwd excl (opts.getD DefaultTreeSymlinkOpts) np
    (fun m => ∀ kn ∈ m, ∀ sl, kn.2.symlink = some sl → kn ∈ fs0 ∨
      ((opts.getD DefaultTreeSymlinkOpts).Preserved = true ∧
        ∃ absPath normPath r1,
          getExecRootRelPaths absPath execRoot lwd rwd = .ok (normPath, kn.1) ∧
          getRelPath execRoot (Join [Join [execRoot, Dir normPath], sl.target]) = .ok r1))
    ?_ fuel _ fs h ?_
  · intro path s s2 hs hP kn hkn sl hsl
    rcases loadFilesStep_fs host execRoot lwd rwd excl _ np path s s2 hs with h1 | h1
    · rw [h1] at hkn
      exact hP kn hkn sl hsl
    · obtain ⟨absPath, normPath, k2, node, hrel, hfs, hnode⟩ := h1
      rw [hfs] at hkn
      rcases mem_mapSet _ _ _ _ hkn with hk | hk
      · subst hk
        obtain ⟨hpres, tgt, r1, ht⟩ := hnode sl hsl
        exact Or.inr ⟨hpres, absPath, normPath, r1, hrel,
          getTargetRelPath_resolve execRoot absPath normPath tgt r1 sl.target
            (getExecRootRelPaths_spec absPath execRoot lwd rwd normPath _ hrel).1 ht⟩
      · exact hP kn hk sl hsl
  · intro kn hkn sl _
    exact Or.inl hkn

/-- The amended claim C9 holds of the link `d/l` of the example file system, loaded under the
preserve policy. -/
theorem loadFiles_symlink_targets_witness :
    loadFiles exampleHost 20 "/e" "" "" [] ["d/l"] [] (some examplePreserve) [] =
        some (.ok [("d/l", exampleSymlink "../a.txt"),
          ("a.txt", exampleLoaded "A" "/e/a.txt")]) ∧
      ∀ kn ∈ [("d/l", exampleSymlink "../a.txt"), ("a.txt", exampleLoaded "A" "/e/a.txt")],
        ∀ sl, kn.2.symlink = some sl → kn ∈ ([] : List (String × fileSysNode)) ∨
          (((some examplePreserve).getD DefaultTreeSymlinkOpts).Preserved = true ∧
            ∃ absPath normPath r1,
              getExecRootRelPaths absPath "/e" "" "" = .ok (normPath, kn.1) ∧
              getRelPath "/e" (Join [Join ["/e", Dir normPath], sl.target]) = .ok r1) :=
  ⟨by decide,
    loadFiles_symlink_targets exampleHost 20 "/e" "" "" [] ["d/l"] [] (some examplePreserve) [] _
      (by decide)⟩

end Client

namespace Client

/-! ## C10: the keys that the loader writes -/

/-- C10, as stated, fails: with the local working directory `build/obj` mapped to the remote
working directory `out`, the loader succeeds on the input `a.txt` and stores the file under the
key `../a.txt`, which begins with an ascending component. -/
theorem loadFiles_key_ascends :
    loadFiles exampleHost 20 "/e" "build/obj" "out" [] ["a.txt"] [] none [] =
        some (.ok [("../a.txt", exampleLoaded "A" "/e/a.txt")]) ∧
      HasPrefix "../a.txt" ".." = true := by
  decide

/-- C10, amended: when `loadFiles` succeeds, every key of the resulting flat map that was not
already a key of the map it was given is a normalized path (`Clean` leaves it unchanged), and it
is the remote form of a normalized relative path `normPath` that does not begin with `..`, that
is, of a descendant of the exec root: the key is `normPath` itself when the remote working
directory is empty or equal to the local one, and is `getRemotePath normPath` otherwise. -/
theorem loadFiles_keys (host : Host) (fuel : Nat) (execRoot lwd rwd : String)
    (excl : List InputExclusion) (inputs : List String) (fs0 : List (String × fileSysNode))
    (opts : Option TreeSymlinkOpts) (np : List (String × NodeProperties))
    (fs : List (String × fileSysNode))
    (h : loadFiles host fuel execRoot lwd rwd excl inputs fs0 opts np = some (.ok fs)) :
    ∀ k ∈ mapKeys fs, k ∈ mapKeys fs0 ∨
      (Clean k = k ∧ ∃ normPath, Clean normPath = normPath ∧ IsAbs normPath = false ∧
        HasPrefix normPath ".." = false ∧
        (((rwd = "" ∨ rwd = lwd) ∧ k = normPath) ∨
          (¬ (rwd = "" ∨ rwd = lwd) ∧ getRemotePath normPath lwd rwd = .ok k))) := by
  simp only [loadFiles] at h
  refine loadFilesLoop_inv host execRoot lwd rwd excl (opts.getD DefaultTreeSymlinkOpts) np
    (fun m => ∀ k ∈ mapKeys m, k ∈ mapKeys fs0 ∨
      (Clean k = k ∧ ∃ normPath, Clean normPath = normPath ∧ IsAbs normPath = false ∧
        HasPrefix normPath ".." = false ∧
        (((rwd = "" ∨ rwd = lwd) ∧ k = normPath) ∨
          (¬ (rwd = "" ∨ rwd = lwd) ∧ getRemotePath normPath lwd rwd = .ok k))))
    ?_ fuel _ fs h ?_
  · intro path s s2 hs hP k hk
    rcases loadFilesStep_fs host execRoot lwd rwd excl _ np path s s2 hs with h1 | h1
    · rw [h1] at hk
      exact hP k hk
    · obtain ⟨absPath, normPath, k2, node, hrel, hfs, _⟩ := h1
      rw [hfs, mem_mapKeys_mapSet] at hk
      rcases hk with hk | hk
      · subst hk
        obtain ⟨hn, hk⟩ := getExecRootRelPaths_spec _ _ _ _ _ _ hrel
        obtain ⟨c1, c2, c3⟩ := getRelPath_clean _ _ _ hn
        refine Or.inr ⟨?_, normPath, c1, c2, c3, hk⟩
        rcases hk with ⟨_, hk⟩ | ⟨hw, hk⟩
        · rw [hk]; exact c1
        · exact getRemotePath_clean _ _ _ _ (fun h0 => hw (Or.inl h0)) hk
      · exact hP k hk
  · intro k hk
    exact Or.inl hk

/-- The amended claim C10 holds of the example file system, loaded from the exec root under
the preserve policy without a remote working directory. -/
theorem loadFiles_keys_witness :
    loadFiles exampleHost 20 "/e" "" "" [] ["."] [] (some examplePreserve) [] =
        some (.ok [("a.txt", exampleLoaded "A" "/e/a.txt"),
          ("build/out.o", exampleLoaded "O1" "/e/build/out.o"),
          ("d/b.txt", exampleLoaded "B" "/e/d/b.txt"),
          ("d/l", exampleSymlink "../a.txt"),
          ("remote_build/out.o", exampleLoaded "O2" "/e/remote_build/out.o")]) ∧
      ∀ k ∈ mapKeys [("a.txt", exampleLoaded "A" "/e/a.txt"),
          ("build/out.o", exampleLoaded "O1" "/e/build/out.o"),
          ("d/b.txt", exampleLoaded "B" "/e/d/b.txt"),
          ("d/l", exampleSymlink "../a.txt"),
          ("remote_build/out.o", exampleLoaded "O2" "/e/remote_build/out.o")],
        k ∈ mapKeys ([] : List (String × fileSysNode)) ∨
        (Clean k = k ∧ ∃ normPath, Clean normPath = normPath ∧ IsAbs normPath = false ∧
          HasPrefix normPath ".." = false ∧
          ((("" = "" ∨ "" = "") ∧ k = normPath) ∨
            (¬ ("" = "" ∨ "" = "") ∧ getRemotePath normPath "" "" = .ok k))) :=
  ⟨by decide, loadFiles_keys exampleHost 20 "/e" "" "" [] ["."] [] (some examplePreserve) [] _
    (by decide)⟩

end Client

namespace Client

/-! ## The node properties of the entries that are written -/

theorem loadFilesNonSymlink_np (host : Host) (excl : List InputExclusion)
    (absPath normPath k : String) (np : Option NodeProperties) (md : Metadata)
    (s s2 : loadState)
    (h : loadFilesNonSymlink host excl absPath normPath k np md s = .ok s2) :
    s2.fs = s.fs ∨ ∃ node, s2.fs = mapSet s.fs k node ∧ node.nodeProperties = np := by
  simp only [loadFilesNonSymlink] at h
  split at h
  · split at h
    · cases h; exact Or.inl rfl
    · split at h
      · cases h
      · split at h
        · cases h
        · split at h
          · split at h
            · cases h; exact Or.inr ⟨_, rfl, rfl⟩
            · cases h; exact Or.inl rfl
          · cases h; exact Or.inl rfl
  · split at h
    · cases h; exact Or.inl rfl
    · split at h
      · cases h
      · cases h; exact Or.inr ⟨_, rfl, rfl⟩

/-- A round of the loader writes nothing, or one entry that carries the node properties that
the map of node properties holds for its key. -/
theorem loadFilesStep_np (host : Host) (execRoot lwd rwd : String)
    (excl : List InputExclusion) (opts : TreeSymlinkOpts)
    (np : List (String × NodeProperties)) (path : String) (s s2 : loadState)
    (h : loadFilesStep host execRoot lwd rwd excl opts np path s = .ok s2) :
    s2.fs = s.fs ∨ ∃ k node, s2.fs = mapSet s.fs k node ∧
      node.nodeProperties = mapGet np k := by
  simp only [loadFilesStep] at h
  split at h
  · cases h
  · split at h
    · cases h
    · rename_i absPath s1 hres
      have hs1 : s1.fs = s.fs := by
        split at hres
        · split at hres
          · cases hres
          · cases hres
            exact loadFilesAncestors_fs _ _
        · cases hres
          rfl
      split at h
      · cases h
      · rename_i normPath k hrel
        split at h
        · rcases loadFilesNonSymlink_np _ _ _ _ _ _ _ _ _ h with h1 | ⟨node, h1, h2⟩
          · exact Or.inl (h1.trans hs1)
          · exact Or.inr ⟨k, node, by rw [h1, hs1], h2⟩
        · rename_i sl hsym
          split at h
          · cases h; exact Or.inl hs1
          · split at h
            · rename_i hpres
              split at h
              · cases h; exact Or.inl hs1
              · split at h
                · split at h
                  · cases h
                  · split at h
                    · cases h
                    · rcases loadFilesNonSymlink_np _ _ _ _ _ _ _ _ _ h with
                        h1 | ⟨node, h1, h2⟩
                      · exact Or.inl (h1.trans hs1)
                      · exact Or.inr ⟨k, node, by rw [h1, hs1], h2⟩
                · rename_i r1 r2 htgt
                  refine Or.inr ⟨k,
                    { file := none, emptyDirectoryMarker := false,
                      symlink := some { target := r2 }, nodeProperties := mapGet np k },
                    ?_, rfl⟩
                  rw [← hs1]
                  split at h <;> split at h <;> cases h <;> rfl
            · rcases loadFilesNonSymlink_np _ _ _ _ _ _ _ _ _ h with h1 | ⟨node, h1, h2⟩
              · exact Or.inl (h1.trans hs1)
              · exact Or.inr ⟨k, node, by rw [h1, hs1], h2⟩

/-- The loop over the virtual inputs adds only entries that carry the node properties that the
map of node properties holds for their keys. -/
theorem ComputeMerkleTreeVirtual_np (deps : Deps) (execRoot wd rwd : String)
    (np : List (String × NodeProperties)) (vis : List VirtualInput) :
    ∀ (fs0 fs : List (String × fileSysNode)),
      ComputeMerkleTreeVirtual deps execRoot wd rwd np vis fs0 = .ok fs →
      ∀ kn ∈ fs, kn ∈ fs0 ∨ kn.2.nodeProperties = mapGet np kn.1 := by
  induction vis with
  | nil =>
    intro fs0 fs h kn hkn
    simp only [ComputeMerkleTreeVirtual, Except.ok.injEq] at h
    subst h
    exact Or.inl hkn
  | cons i rest ih =>
    intro fs0 fs h kn hkn
    have hset : ∀ node : fileSysNode, ∀ k, node.nodeProperties = mapGet np k →
        ComputeMerkleTreeVirtual deps execRoot wd rwd np rest (mapSet fs0 k node) = .ok fs →
        kn ∈ fs0 ∨ kn.2.nodeProperties = mapGet np kn.1 := by
      intro node k hnode h2
      rcases ih _ _ h2 kn hkn with h1 | h1
      · rcases mem_mapSet _ _ _ _ h1 with h3 | h3
        · subst h3
          exact Or.inr hnode
        · exact Or.inl h3
      · exact Or.inr h1
    rw [ComputeMerkleTreeVirtual] at h
    by_cases hp : i.Path = ""
    · simp only [hp, if_true] at h
      cases h
    · simp only [hp, if_false] at h
      cases hrel : getExecRootRelPaths (Join [execRoot, i.Path]) execRoot wd rwd with
      | error e => rw [hrel] at h; cases h
      | ok pr =>
        obtain ⟨normPath, k⟩ := pr
        rw [hrel] at h
        simp only at h
        by_cases he : i.IsEmptyDirectory = true
        · simp only [he, if_true] at h
          by_cases hn : normPath ≠ "."
          · rw [if_pos hn] at h
            exact hset _ k rfl h
          · rw [if_neg hn] at h
            exact ih _ _ h kn hkn
        · simp only [he] at h
          exact hset _ k rfl h

end Client

namespace Client

/-! ## A round of the loader does not read the queue or the flat map -/

theorem loadFilesStep_classify (host : Host) (execRoot lwd rwd : String)
    (excl : List InputExclusion) (opts : TreeSymlinkOpts)
    (np : List (String × NodeProperties)) (path : String) (s : loadState) :
    loadFilesStep host execRoot lwd rwd excl opts np path s =
      if path = "" then .error .emptyInput
      else if opts.Preserved then
        match evalParentSymlinks host execRoot path opts.MaterializeOutsideExecRoot with
        | .error e => .error e
        | .ok (evaledPath, parentSymlinks) =>
          loadFilesClassify host execRoot lwd rwd excl opts np (Join [execRoot, evaledPath])
            (loadFilesAncestors parentSymlinks s)
      else loadFilesClassify host execRoot lwd rwd excl opts np (Join [execRoot, path]) s := by
  unfold loadFilesStep
  by_cases h0 : path = ""
  · rw [if_pos h0, if_pos h0]
  · rw [if_neg h0, if_neg h0]
    dsimp only
    by_cases hp : opts.Preserved = true
    · rw [if_pos hp, if_pos hp]
      cases evalParentSymlinks host execRoot path opts.MaterializeOutsideExecRoot with
      | error e => rfl
      | ok r => rfl
    · rw [if_neg hp, if_neg hp]
      rfl

theorem loadFilesAncestors_frame (ps : List String) :
    ∀ (q : List String) (m : List (String × fileSysNode)) (seen : List (String × Bool)),
      loadFilesAncestors ps
          { filesToProcess := q, fs := m, seenAncestorSymlinkRel := seen } =
        { filesToProcess := q ++ (loadFilesAncestors ps
            { filesToProcess := [], fs := [], seenAncestorSymlinkRel := seen }).filesToProcess
          fs := m
          seenAncestorSymlinkRel := (loadFilesAncestors ps
            { filesToProcess := [], fs := [],
              seenAncestorSymlinkRel := seen }).seenAncestorSymlinkRel } := by
  induction ps with
  | nil => intro q m seen; simp [loadFilesAncestors]
  | cons p ps ih =>
    intro q m seen
    simp only [loadFilesAncestors]
    cases mapGet seen p with
    | some b => exact ih q m seen
    | none =>
      simp only
      rw [ih (q ++ [p]) m, ih ([] ++ [p]) []]
      simp

theorem head_applyWrite_nil (w : Option (String × fileSysNode)) :
    (applyWrite [] w).head? = w := by
  cases w with
  | none => rfl
  | some kv => rfl

theorem loadFilesNonSymlink_framed (host : Host) (excl : List InputExclusion)
    (absPath normPath k : String) (np : Option NodeProperties) (md : Metadata)
    (q a : List String) (m : List (String × fileSysNode)) (seen : List (String × Bool)) :
    loadFilesNonSymlink host excl absPath normPath k np md
        { filesToProcess := q ++ a, fs := m, seenAncestorSymlinkRel := seen } =
      framedResult q m (loadFilesNonSymlink host excl absPath normPath k np md
        { filesToProcess := a, fs := [], seenAncestorSymlinkRel := seen }) := by
  rw [loadFilesNonSymlink_frame host excl absPath normPath k np md
      { filesToProcess := q ++ a, fs := m, seenAncestorSymlinkRel := seen },
    loadFilesNonSymlink_frame host excl absPath normPath k np md
      { filesToProcess := a, fs := [], seenAncestorSymlinkRel := seen }]
  cases loadFilesNonSymlink host excl absPath normPath k np md loadState.empty with
  | error e => rfl
  | ok s2 =>
    simp only [framedResult, loadState.framed, head_applyWrite_nil, List.append_assoc]

/-- The treatment of a path by the loader, on any queue and flat map, is its treatment on the
empty flat map, put together with the queue and the flat map. -/
theorem loadFilesClassify_frame (host : Host) (execRoot lwd rwd : String)
    (excl : List InputExclusion) (opts : TreeSymlinkOpts)
    (np : List (String × NodeProperties)) (absPath : String)
    (q a : List String) (m : List (String × fileSysNode)) (seen : List (String × Bool)) :
    loadFilesClassify host execRoot lwd rwd excl opts np absPath
        { filesToProcess := q ++ a, fs := m, seenAncestorSymlinkRel := seen } =
      framedResult q m (loadFilesClassify host execRoot lwd rwd excl opts np absPath
        { filesToProcess := a, fs := [], seenAncestorSymlinkRel := seen }) := by
  unfold loadFilesClassify
  cases getExecRootRelPaths absPath execRoot lwd rwd with
  | error e => rfl
  | ok pr =>
    obtain ⟨normPath, k⟩ := pr
    dsimp only
    cases (host.Get absPath).Symlink with
    | none => exact loadFilesNonSymlink_framed _ _ _ _ _ _ _ _ _ _ _
    | some sl =>
      dsimp only
      by_cases h1 : sl.IsDangling = true ∧ ¬ opts.Preserved = true
      · rw [if_pos h1, if_pos h1]
        simp [framedResult, loadState.framed, applyWrite]
      · rw [if_neg h1, if_neg h1]
        by_cases h2 : opts.Preserved = true
        · rw [if_pos h2, if_pos h2]
          by_cases h3 : shouldIgnore host absPath .SymlinkInputType excl = true
          · rw [if_pos h3, if_pos h3]
            simp [framedResult, loadState.framed, applyWrite]
          · rw [if_neg h3, if_neg h3]
            cases getTargetRelPath execRoot normPath sl.Target with
            | error e =>
              dsimp only
              by_cases h4 : ¬ opts.MaterializeOutsideExecRoot = true
              · rw [if_pos h4, if_pos h4]
                rfl
              · rw [if_neg h4, if_neg h4]
                by_cases h5 : sl.IsDangling = true
                · rw [if_pos h5, if_pos h5]
                  rfl
                · rw [if_neg h5, if_neg h5]
                  exact loadFilesNonSymlink_framed _ _ _ _ _ _ _ _ _ _ _
            | ok tr =>
              obtain ⟨t1, t2⟩ := tr
              dsimp only
              by_cases h6 : mapGet seen normPath = some true
              · simp [h6, framedResult, loadState.framed, applyWrite, mapSet]
              · cases hd : sl.IsDangling <;> cases hf : opts.FollowsTarget <;>
                  simp [h6, framedResult, loadState.framed, applyWrite, mapSet]
        · rw [if_neg h2, if_neg h2]
          exact loadFilesNonSymlink_framed _ _ _ _ _ _ _ _ _ _ _

/-- A round of the loader, on any queue and flat map, is the round on the empty queue and the
empty flat map, put together with the queue and the flat map: the round reads neither. -/
theorem loadFilesStep_frame (host : Host) (execRoot lwd rwd : String)
    (excl : List InputExclusion) (opts : TreeSymlinkOpts)
    (np : List (String × NodeProperties)) (path : String)
    (q : List String) (m : List (String × fileSysNode)) (seen : List (String × Bool)) :
    loadFilesStep host execRoot lwd rwd excl opts np path
        { filesToProcess := q, fs := m, seenAncestorSymlinkRel := seen } =
      framedResult q m (loadFilesStep host execRoot lwd rwd excl opts np path
        { filesToProcess := [], fs := [], seenAncestorSymlinkRel := seen }) := by
  rw [loadFilesStep_classify, loadFilesStep_classify]
  by_cases h0 : path = ""
  · rw [if_pos h0, if_pos h0]
    rfl
  · rw [if_neg h0, if_neg h0]
    by_cases hp : opts.Preserved = true
    · rw [if_pos hp, if_pos hp]
      cases evalParentSymlinks host execRoot path opts.MaterializeOutsideExecRoot with
      | error e => rfl
      | ok r =>
        obtain ⟨evaled, ps⟩ := r
        dsimp only
        rw [loadFilesAncestors_frame ps q m seen, loadFilesAncestors_frame ps [] [] seen,
          List.nil_append]
        exact loadFilesClassify_frame _ _ _ _ _ _ _ _ _ _ _ _
    · rw [if_neg hp, if_neg hp]
      have := loadFilesClassify_frame host execRoot lwd rwd excl opts np
        (Join [execRoot, path]) q [] m seen
      rw [List.append_nil] at this
      exact this

/-- A round of the loader leaves the queue that it is given in place and appends to it. -/
theorem loadFilesStep_queue (host : Host) (execRoot lwd rwd : String)
    (excl : List InputExclusion) (opts : TreeSymlinkOpts)
    (np : List (String × NodeProperties)) (path : String) (s s2 : loadState)
    (h : loadFilesStep host execRoot lwd rwd excl opts np path s = .ok s2) :
    ∃ adds, s2.filesToProcess = s.filesToProcess ++ adds := by
  obtain ⟨q, m, seen⟩ := s
  rw [loadFilesStep_frame] at h
  cases hb : loadFilesStep host execRoot lwd rwd excl opts np path
      { filesToProcess := [], fs := [], seenAncestorSymlinkRel := seen } with
  | error e => rw [hb] at h; cases h
  | ok b =>
    rw [hb] at h
    simp only [framedResult, Except.ok.injEq] at h
    subst h
    exact ⟨b.filesToProcess, rfl⟩

theorem mapGet_overlay_applyWrite (m m2 under : List (String × fileSysNode))
    (w : Option (String × fileSysNode)) (h : ∀ k, mapGet m k = overlayGet m2 under k) :
    ∀ k, mapGet (applyWrite m w) k = overlayGet (applyWrite m2 w) under k := by
  intro k
  simp only [overlayGet, mapGet_applyWrite]
  cases w with
  | none => exact h k
  | some kv =>
    simp only
    by_cases hk : k = kv.1
    · simp only [hk, if_true]
    · simp only [hk, if_false]
      exact h k

/-- The loader, started on a flat map that lies over another one, ends as it does when started
on the flat map alone, with a result that lies over the other map. -/
theorem loadFilesLoop_overlay (host : Host) (execRoot lwd rwd : String)
    (excl : List InputExclusion) (opts : TreeSymlinkOpts)
    (np : List (String × NodeProperties)) (under : List (String × fileSysNode)) :
    ∀ (fuel : Nat) (q : List String) (seen : List (String × Bool))
      (m m2 r : List (String × fileSysNode)),
      (∀ k, mapGet m k = overlayGet m2 under k) →
      loadFilesLoop host execRoot lwd rwd excl opts np fuel
        { filesToProcess := q, fs := m, seenAncestorSymlinkRel := seen } = some (.ok r) →
      ∃ r2, loadFilesLoop host execRoot lwd rwd excl opts np fuel
          { filesToProcess := q, fs := m2, seenAncestorSymlinkRel := seen } = some (.ok r2) ∧
        ∀ k, mapGet r k = overlayGet r2 under k := by
  intro fuel
  induction fuel with
  | zero =>
    intro q seen m m2 r hm h
    cases q with
    | nil =>
      rw [loadFilesLoop] at h ⊢
      simp only [Option.some.injEq, Except.ok.injEq] at h
      subst h
      exact ⟨m2, rfl, hm⟩
    | cons p rest =>
      rw [loadFilesLoop] at h
      cases h
  | succ n ih =>
    intro q seen m m2 r hm h
    cases q with
    | nil =>
      rw [loadFilesLoop] at h ⊢
      simp only [Option.some.injEq, Except.ok.injEq] at h
      subst h
      exact ⟨m2, rfl, hm⟩
    | cons p rest =>
      rw [loadFilesLoop] at h ⊢
      simp only at h ⊢
      rw [loadFilesStep_frame] at h ⊢
      cases hb : loadFilesStep host execRoot lwd rwd excl opts np p
          { filesToProcess := [], fs := [], seenAncestorSymlinkRel := seen } with
      | error e =>
        rw [hb] at h
        simp only [framedResult] at h
        cases h
      | ok b =>
        rw [hb] at h
        simp only [framedResult, loadState.framed] at h ⊢
        exact ih _ _ _ _ r (mapGet_overlay_applyWrite m m2 under _ hm) h

end Client

namespace Client

/-! ## The writes of a round of the flattener -/

theorem flattenTreeFiles_eq_foldl (p : String) (files : List FileNode) :
    ∀ flat : List (String × TreeOutput),
      flattenTreeFiles p files flat =
        (files.map (fileOut p)).foldl (fun m w => mapSet m w.1 w.2) flat := by
  induction files with
  | nil => intro flat; rfl
  | cons f rest ih =>
    intro flat
    rw [flattenTreeFiles, ih]
    rfl

theorem flattenTreeSymlinks_eq_foldl (p : String) (sms : List SymlinkNode) :
    ∀ flat : List (String × TreeOutput),
      flattenTreeSymlinks p sms flat =
        (sms.map (symlinkOut p)).foldl (fun m w => mapSet m w.1 w.2) flat := by
  induction sms with
  | nil => intro flat; rfl
  | cons f rest ih =>
    intro flat
    rw [flattenTreeSymlinks, ih]
    rfl

/-- A run of writes to a map: every entry of the result is an entry from before or one of the
writes, and the keys of the result are the keys from before and those of the writes. -/
theorem foldl_mapSet_spec {κ α : Type} [DecidableEq κ] (ws : List (κ × α)) :
    ∀ flat : List (κ × α),
      ((mapKeys flat).Nodup →
        (mapKeys (ws.foldl (fun m w => mapSet m w.1 w.2) flat)).Nodup) ∧
      (∀ x ∈ ws.foldl (fun m w => mapSet m w.1 w.2) flat, x ∈ flat ∨ x ∈ ws) ∧
      (∀ k, k ∈ mapKeys (ws.foldl (fun m w => mapSet m w.1 w.2) flat) ↔
        k ∈ mapKeys flat ∨ k ∈ ws.map Prod.fst) := by
  induction ws with
  | nil => intro flat; simp
  | cons w rest ih =>
    intro flat
    obtain ⟨h1, h2, h3⟩ := ih (mapSet flat w.1 w.2)
    refine ⟨fun hnd => h1 (mapKeys_mapSet_nodup flat w.1 w.2 hnd), ?_, ?_⟩
    · intro x hx
      rcases h2 x hx with h | h
      · rcases mem_mapSet _ _ _ _ h with h | h
        · exact Or.inr (by rw [h]; exact List.mem_cons_self _ _)
        · exact Or.inl h
      · exact Or.inr (List.mem_cons_of_mem _ h)
    · intro k
      rw [List.foldl_cons, h3, mem_mapKeys_mapSet, List.map_cons, List.mem_cons]
      constructor
      · rintro ((h | h) | h)
        · exact Or.inr (Or.inl h)
        · exact Or.inl h
        · exact Or.inr (Or.inr h)
      · rintro (h | h | h)
        · exact Or.inl (Or.inr h)
        · exact Or.inl (Or.inl h)
        · exact Or.inr h

/-- The flat map after the round of `flattenTree` for a directory at path `p`. -/
theorem flattenTree_round (p : String) (dir : Directory) (flat : List (String × TreeOutput)) :
    (if dir.Files.length + dir.Directories.length + dir.Symlinks.length = 0 then
        mapSet flat p
          { Path := p, Digest := Digest.Empty, IsExecutable := false,
            IsEmptyDirectory := true, SymlinkTarget := "",
            NodeProperties := dir.NodeProperties }
      else flattenTreeSymlinks p dir.Symlinks (flattenTreeFiles p dir.Files flat)) =
      (dirOutputs p dir).foldl (fun m w => mapSet m w.1 w.2) flat := by
  unfold dirOutputs
  by_cases h : dir.Files.length + dir.Directories.length + dir.Symlinks.length = 0
  · rw [if_pos h, if_pos h]
    rfl
  · rw [if_neg h, if_neg h, flattenTreeSymlinks_eq_foldl, flattenTreeFiles_eq_foldl,
      List.foldl_append]

/-- One round of the loop of `flattenTree`, for a queue element whose descriptor `dirs`
holds: the outputs of the descriptor are written and, unless it is empty, its subdirectory
entries are appended to the queue. -/
theorem flattenTreeLoop_round (dirs : List (Digest × Directory)) (fuel : Nat) (d : Digest)
    (p : String) (dir : Directory) (queue : List (Digest × String))
    (flat : List (String × TreeOutput)) (hd : mapGet dirs d = some dir) :
    flattenTreeLoop dirs (fuel + 1) ((d, p) :: queue) flat =
      flattenTreeLoop dirs fuel (queue ++ dir.Directories.map (subdirElem p))
        ((dirOutputs p dir).foldl (fun m w => mapSet m w.1 w.2) flat) := by
  rw [flattenTreeLoop, hd]
  dsimp only
  rw [← flattenTree_round]
  by_cases h : dir.Files.length + dir.Directories.length + dir.Symlinks.length = 0
  · rw [if_pos h, if_pos h]
    have hdirs : dir.Directories = [] := by
      apply List.eq_nil_of_length_eq_zero
      omega
    rw [hdirs, List.map_nil, List.append_nil]
  · rw [if_neg h, if_neg h]
    rfl

end Client

namespace Client

/-! ## Errors and termination of the flattener -/

theorem flattenTreeLoop_missing (dirs : List (Digest × Directory)) (fuel : Nat) (d : Digest)
    (p : String) (queue : List (Digest × String)) (flat : List (String × TreeOutput))
    (hd : mapGet dirs d = none) :
    flattenTreeLoop dirs (fuel + 1) ((d, p) :: queue) flat =
      some (.error (.missingDirectory p d)) := by
  rw [flattenTreeLoop, hd]

/-- An error of the loop of `flattenTree` names a directory that is reached from an element of
the queue and that `dirs` does not hold. -/
theorem flattenTreeLoop_error (dirs : List (Digest × Directory)) :
    ∀ (fuel : Nat) (queue : List (Digest × String)) (flat : List (String × TreeOutput))
      (e : Err), flattenTreeLoop dirs fuel queue flat = some (.error e) →
      ∃ x ∈ queue, ∃ d p, ReachedAt dirs x (d, p) ∧ mapGet dirs d = none ∧
        e = .missingDirectory p d := by
  intro fuel
  induction fuel with
  | zero =>
    intro queue flat e h
    cases queue with
    | nil => rw [flattenTreeLoop] at h; cases h
    | cons x rest => rw [flattenTreeLoop] at h; cases h
  | succ n ih =>
    intro queue flat e h
    cases queue with
    | nil => rw [flattenTreeLoop] at h; cases h
    | cons x rest =>
      obtain ⟨d, p⟩ := x
      cases hd : mapGet dirs d with
      | none =>
        rw [flattenTreeLoop_missing dirs n d p rest flat hd] at h
        simp only [Option.some.injEq, Except.error.injEq] at h
        exact ⟨(d, p), List.mem_cons_self _ _, d, p, .start _, hd, h.symm⟩
      | some dir =>
        rw [flattenTreeLoop_round dirs n d p dir rest flat hd] at h
        obtain ⟨x, hx, d2, p2, hr, hm, he⟩ := ih _ _ e h
        rcases List.mem_append.1 hx with hx | hx
        · exact ⟨x, List.mem_cons_of_mem _ hx, d2, p2, hr, hm, he⟩
        · obtain ⟨subdir, hsub, rfl⟩ := List.mem_map.1 hx
          exact ⟨(d, p), List.mem_cons_self _ _, d2, p2,
            .descend (d, p) dir subdir _ hd hsub hr, hm, he⟩

/-- When the loop of `flattenTree` fails on every queue that starts with `x`, it fails on every
queue that holds `x`. -/
theorem flattenTreeLoop_fails_of_head (dirs : List (Digest × Directory)) (x : Digest × String)
    (hx : ∀ post flat, ∃ fuel e, flattenTreeLoop dirs fuel (x :: post) flat = some (.error e))
    (pre : List (Digest × String)) :
    ∀ post flat, ∃ fuel e,
      flattenTreeLoop dirs fuel (pre ++ x :: post) flat = some (.error e) := by
  induction pre with
  | nil => exact hx
  | cons y pre ih =>
    intro post flat
    obtain ⟨d, p⟩ := y
    cases hd : mapGet dirs d with
    | none =>
      exact ⟨1, _, flattenTreeLoop_missing dirs 0 d p _ flat hd⟩
    | some dir =>
      obtain ⟨fuel, e, h⟩ := ih (post ++ dir.Directories.map (subdirElem p))
        ((dirOutputs p dir).foldl (fun m w => mapSet m w.1 w.2) flat)
      refine ⟨fuel + 1, e, ?_⟩
      rw [List.cons_append, flattenTreeLoop_round dirs fuel d p dir _ flat hd,
        List.append_assoc, List.cons_append]
      exact h

/-- When a directory that `dirs` does not hold is reached from `x`, the loop of `flattenTree`
fails on every queue that starts with `x`. -/
theorem flattenTreeLoop_fails (dirs : List (Digest × Directory)) (x y : Digest × String)
    (hr : ReachedAt dirs x y) (hy : mapGet dirs y.1 = none) :
    ∀ post flat, ∃ fuel e, flattenTreeLoop dirs fuel (x :: post) flat = some (.error e) := by
  induction hr with
  | start x =>
    intro post flat
    obtain ⟨d, p⟩ := x
    exact ⟨1, _, flattenTreeLoop_missing dirs 0 d p _ flat hy⟩
  | descend x dir subdir y hd hsub _ ih =>
    intro post flat
    obtain ⟨d, p⟩ := x
    obtain ⟨c1, c2, hc⟩ := List.append_of_mem (List.mem_map_of_mem (subdirElem p) hsub)
    obtain ⟨fuel, e, h⟩ := flattenTreeLoop_fails_of_head dirs _ (ih hy) (post ++ c1) c2
      ((dirOutputs p dir).foldl (fun m w => mapSet m w.1 w.2) flat)
    refine ⟨fuel + 1, e, ?_⟩
    rw [flattenTreeLoop_round dirs fuel d p dir _ flat hd, hc, ← List.append_assoc]
    exact h

theorem depthWithin_pos (dirs : List (Digest × Directory)) (n : Nat) (d : Digest)
    (h : depthWithin dirs n d = true) : ∃ m, n = m + 1 := by
  cases n with
  | zero => simp [depthWithin] at h
  | succ m => exact ⟨m, rfl⟩

/-- The loop of `flattenTree` ends without an error when `dirs` holds every directory that is
reached from the queue and the chains of subdirectory entries from the queue are bounded: as
many rounds as the directories unfold into are enough. -/
theorem flattenTreeLoop_ends (dirs : List (Digest × Directory)) :
    ∀ (fuel : Nat) (aq : List (Nat × Digest × String)) (flat : List (String × TreeOutput)),
      (∀ a ∈ aq, depthWithin dirs a.1 a.2.1 = true) →
      (∀ a ∈ aq, ∀ y, ReachedAt dirs a.2 y → mapGet dirs y.1 ≠ none) →
      (aq.map (fun a => unfoldSize dirs a.1 a.2.1)).sum ≤ fuel →
      ∃ out, flattenTreeLoop dirs fuel (aq.map (fun a => a.2)) flat = some (.ok out) := by
  intro fuel
  induction fuel with
  | zero =>
    intro aq flat hdepth _ hsum
    cases aq with
    | nil => exact ⟨flat, by simp [flattenTreeLoop]⟩
    | cons a rest =>
      obtain ⟨n, d, p⟩ := a
      obtain ⟨m, rfl⟩ := depthWithin_pos dirs n d (hdepth _ (List.mem_cons_self _ _))
      simp only [List.map_cons, List.sum_cons, unfoldSize] at hsum
      split at hsum <;> omega
  | succ f ih =>
    intro aq flat hdepth hpres hsum
    cases aq with
    | nil => exact ⟨flat, by simp [flattenTreeLoop]⟩
    | cons a rest =>
      obtain ⟨n, d, p⟩ := a
      have hdep := hdepth _ (List.mem_cons_self _ _)
      obtain ⟨m, rfl⟩ := depthWithin_pos dirs n d hdep
      cases hd : mapGet dirs d with
      | none => exact absurd hd (hpres _ (List.mem_cons_self _ _) (d, p) (.start _))
      | some dir =>
        simp only [List.map_cons, List.sum_cons, unfoldSize, hd] at hsum
        simp only [depthWithin, hd, List.all_eq_true] at hdep
        rw [List.map_cons, flattenTreeLoop_round dirs f d p dir _ flat hd]
        have hq : rest.map (fun a => a.2) ++ dir.Directories.map (subdirElem p) =
            (rest ++ dir.Directories.map (fun subdir => (m, subdirElem p subdir))).map
              (fun a => a.2) := by
          simp [List.map_map, Function.comp_def]
        rw [hq]
        apply ih
        · intro a ha
          rcases List.mem_append.1 ha with ha | ha
          · exact hdepth a (List.mem_cons_of_mem _ ha)
          · obtain ⟨subdir, hsub, rfl⟩ := List.mem_map.1 ha
            exact hdep subdir hsub
        · intro a ha y hy
          rcases List.mem_append.1 ha with ha | ha
          · exact hpres a (List.mem_cons_of_mem _ ha) y hy
          · obtain ⟨subdir, hsub, rfl⟩ := List.mem_map.1 ha
            exact hpres _ (List.mem_cons_self _ _) y (.descend (d, p) dir subdir y hd hsub hy)
        · have hmap : ((rest ++ dir.Directories.map
              (fun subdir => (m, subdirElem p subdir))).map
                (fun a => unfoldSize dirs a.1 a.2.1)).sum =
              (rest.map (fun a => unfoldSize dirs a.1 a.2.1)).sum +
                (dir.Directories.map (fun subdir =>
                  unfoldSize dirs m (NewFromProtoUnvalidated subdir.Digest))).sum := by
            simp [List.map_map, Function.comp_def, subdirElem]
          rw [hmap]
          omega

end Client

namespace Client

/-! ## The entries that the flattener records -/

theorem Emitted.of_outputs (dirs : List (Digest × Directory)) (d : Digest) (p : String)
    (dir : Directory) (kv : String × TreeOutput) (hd : mapGet dirs d = some dir)
    (h : kv ∈ dirOutputs p dir) : Emitted dirs (d, p) kv :=
  ⟨d, p, dir, .start _, hd, h⟩

theorem Emitted.of_subdir (dirs : List (Digest × Directory)) (d : Digest) (p : String)
    (dir : Directory) (subdir : DirectoryNode) (kv : String × TreeOutput)
    (hd : mapGet dirs d = some dir) (hsub : subdir ∈ dir.Directories)
    (h : Emitted dirs (subdirElem p subdir) kv) : Emitted dirs (d, p) kv := by
  obtain ⟨d2, p2, dir2, hr, hd2, hkv⟩ := h
  exact ⟨d2, p2, dir2, .descend (d, p) dir subdir _ hd hsub hr, hd2, hkv⟩

/-- An entry recorded from a queue element is an output of the descriptor of the element or is
recorded from one of its subdirectory entries. -/
theorem Emitted.cases_on_head (dirs : List (Digest × Directory)) (d : Digest) (p : String)
    (dir : Directory) (kv : String × TreeOutput) (hd : mapGet dirs d = some dir)
    (h : Emitted dirs (d, p) kv) :
    kv ∈ dirOutputs p dir ∨
      ∃ subdir ∈ dir.Directories, Emitted dirs (subdirElem p subdir) kv := by
  obtain ⟨d2, p2, dir2, hr, hd2, hkv⟩ := h
  cases hr with
  | start _ =>
    rw [hd] at hd2
    cases hd2
    exact Or.inl hkv
  | descend _ dir3 subdir _ hd3 hsub hr2 =>
    simp only at hd3
    rw [hd] at hd3
    cases hd3
    exact Or.inr ⟨subdir, hsub, d2, p2, dir2, hr2, hd2, hkv⟩

/-- The flat map that the loop of `flattenTree` returns: its keys are distinct when they were
at the start, its entries are entries from the start or entries recorded from the queue, and
every key from the start and every path of an entry recorded from the queue is among its
keys. -/
theorem flattenTreeLoop_emitted (dirs : List (Digest × Directory)) :
    ∀ (fuel : Nat) (queue : List (Digest × String)) (flat out : List (String × TreeOutput)),
      flattenTreeLoop dirs fuel queue flat = some (.ok out) →
      ((mapKeys flat).Nodup → (mapKeys out).Nodup) ∧
      (∀ kv ∈ out, kv ∈ flat ∨ ∃ x ∈ queue, Emitted dirs x kv) ∧
      (∀ k, (k ∈ mapKeys flat ∨ ∃ x ∈ queue, ∃ kv, Emitted dirs x kv ∧ kv.1 = k) →
        k ∈ mapKeys out) := by
  intro fuel
  induction fuel with
  | zero =>
    intro queue flat out h
    cases queue with
    | nil =>
      rw [flattenTreeLoop] at h
      cases h
      exact ⟨id, fun kv hkv => Or.inl hkv, fun k hk => by
        rcases hk with hk | ⟨x, hx, -⟩
        · exact hk
        · cases hx⟩
    | cons x rest => rw [flattenTreeLoop] at h; cases h
  | succ n ih =>
    intro queue flat out h
    cases queue with
    | nil =>
      rw [flattenTreeLoop] at h
      cases h
      exact ⟨id, fun kv hkv => Or.inl hkv, fun k hk => by
        rcases hk with hk | ⟨x, hx, -⟩
        · exact hk
        · cases hx⟩
    | cons x rest =>
      obtain ⟨d, p⟩ := x
      cases hd : mapGet dirs d with
      | none =>
        rw [flattenTreeLoop_missing dirs n d p rest flat hd] at h
        cases h
      | some dir =>
        rw [flattenTreeLoop_round dirs n d p dir rest flat hd] at h
        obtain ⟨h1, h2, h3⟩ := ih _ _ out h
        obtain ⟨g1, g2, g3⟩ := foldl_mapSet_spec (dirOutputs p dir) flat
        refine ⟨fun hnd => h1 (g1 hnd), ?_, ?_⟩
        · intro kv hkv
          rcases h2 kv hkv with hf | ⟨x, hx, hem⟩
          · rcases g2 kv hf with hf | hf
            · exact Or.inl hf
            · exact Or.inr ⟨(d, p), List.mem_cons_self _ _,
                Emitted.of_outputs dirs d p dir kv hd hf⟩
          · rcases List.mem_append.1 hx with hx | hx
            · exact Or.inr ⟨x, List.mem_cons_of_mem _ hx, hem⟩
            · obtain ⟨subdir, hsub, rfl⟩ := List.mem_map.1 hx
              exact Or.inr ⟨(d, p), List.mem_cons_self _ _,
                Emitted.of_subdir dirs d p dir subdir kv hd hsub hem⟩
        · intro k hk
          apply h3
          rcases hk with hk | ⟨x, hx, kv, hem, hkv⟩
          · exact Or.inl ((g3 k).2 (Or.inl hk))
          · rcases List.mem_cons.1 hx with rfl | hx
            · rcases Emitted.cases_on_head dirs d p dir kv hd hem with hout | ⟨subdir, hsub, hem2⟩
              · exact Or.inl ((g3 k).2 (Or.inr (List.mem_map.2 ⟨kv, hout, hkv⟩)))
              · exact Or.inr ⟨subdirElem p subdir,
                  List.mem_append_right _ (List.mem_map_of_mem _ hsub), kv, hem2, hkv⟩
            · exact Or.inr ⟨x, List.mem_append_left _ hx, kv, hem, hkv⟩

end Client

namespace Client

/-! ## Local paths -/

theorem cleanStep_head_dotdot (T : List String) (e : String) (h : T.head? = some "..") :
    (cleanStep false T e).head? = some ".." := by
  cases T with
  | nil => cases h
  | cons t T1 =>
    simp only [List.head?_cons, Option.some.injEq] at h
    subst h
    simp only [cleanStep]
    by_cases h1 : e = "" ∨ e = "."
    · simp only [h1, if_true, List.head?_cons]
    · simp only [h1, if_false]
      by_cases h2 : e = ".."
      · simp only [h2, if_true]
        induction T1 using List.reverseRecOn with
        | nil => simp
        | append_singleton T2 x _ =>
          rw [← List.cons_append, List.reverse_append]
          simp only [List.reverse_singleton, List.singleton_append, List.reverse_reverse]
          by_cases h3 : x = ".."
          · simp [h3]
          · simp [h3]
      · simp only [h2, if_false, List.cons_append, List.head?_cons]

theorem foldl_cleanStep_head_dotdot (l : List String) :
    ∀ T : List String, T.head? = some ".." →
      (l.foldl (cleanStep false) T).head? = some ".." := by
  induction l with
  | nil => intro T h; exact h
  | cons e l ih =>
    intro T h
    rw [List.foldl_cons]
    exact ih _ (cleanStep_head_dotdot T e h)

theorem not_plain_dotdot : ¬ Plain ".." := fun h => h.2.2.1 rfl

theorem plain_of_head (T : List String) (h : ∀ e ∈ T, Plain e) : T.head? ≠ some ".." := by
  intro h2
  cases T with
  | nil => cases h2
  | cons t T1 =>
    simp only [List.head?_cons, Option.some.injEq] at h2
    exact not_plain_dotdot (h2 ▸ h t (List.mem_cons_self _ _))

theorem cleanForm_plain_of_head {T : List String} (hT : CleanForm false T)
    (h : T.head? ≠ some "..") : ∀ e ∈ T, Plain e := by
  obtain ⟨k, plain, rfl, hp, -⟩ := hT
  cases k with
  | zero => simpa using hp
  | succ k => exact absurd (by simp [List.replicate_succ]) h

/-- While a path is cleaned to a path without `..`, the elements written so far are plain, and
the cleaning does the same on top of any elements written before. -/
theorem foldl_cleanStep_local (l : List String) (hl : ∀ e ∈ l, NoSep e) :
    ∀ T : List String, (∀ e ∈ T, Plain e) → (∀ e ∈ l.foldl (cleanStep false) T, Plain e) →
      ∀ (rooted : Bool) (S : List String),
        l.foldl (cleanStep rooted) (S ++ T) = S ++ l.foldl (cleanStep false) T := by
  induction l with
  | nil => intro T _ _ rooted S; rfl
  | cons e l ih =>
    intro T hT hres rooted S
    have hl2 : ∀ x ∈ l, NoSep x := fun x hx => hl x (List.mem_cons_of_mem _ hx)
    rw [List.foldl_cons] at hres
    rw [List.foldl_cons, List.foldl_cons]
    by_cases h1 : e = "" ∨ e = "."
    · have e1 : ∀ (r : Bool) (X : List String), cleanStep r X e = X := by
        intro r X
        simp [cleanStep, h1]
      rw [e1, e1] at *
      exact ih hl2 T hT hres rooted S
    · by_cases h2 : e = ".."
      · subst h2
        induction T using List.reverseRecOn with
        | nil =>
          have h3 : cleanStep false [] ".." = [".."] := by simp [cleanStep]
          rw [h3] at hres
          exact absurd (foldl_cleanStep_head_dotdot l [".."] rfl) (plain_of_head _ hres)
        | append_singleton T0 t _ =>
          have ht : Plain t := hT t (by simp)
          have e1 : ∀ (r : Bool) (X : List String), cleanStep r (X ++ [t]) ".." = X := by
            intro r X
            simp [cleanStep, ht.2.2.1]
          rw [e1] at hres
          rw [← List.append_assoc, e1, e1]
          exact ih hl2 T0 (fun x hx => hT x (by simp [hx])) hres rooted S
      · have he : Plain e := by
          refine ⟨fun h => h1 (Or.inl h), fun h => h1 (Or.inr h), h2, hl e (List.mem_cons_self _ _)⟩
        rw [cleanStep_plain _ _ e he] at hres
        rw [cleanStep_plain _ _ e he, cleanStep_plain _ _ e he, List.append_assoc]
        refine ih hl2 (T ++ [e]) ?_ hres rooted S
        intro x hx
        rcases List.mem_append.1 hx with hx | hx
        · exact hT x hx
        · rw [List.mem_singleton.1 hx]; exact he

/-- The elements of a local path: they are plain, they make its cleaned form, and cleaning the
path on top of any elements adds them. -/
theorem IsLocalPath.spec (x : String) (h : IsLocalPath x) :
    ∃ xs, (∀ e ∈ xs, Plain e) ∧ Clean x = render false xs ∧
      ∀ (rooted : Bool) (S : List String),
        (splitSep x).foldl (cleanStep rooted) S = S ++ xs := by
  obtain ⟨habs, hdd⟩ := h
  have hform : CleanForm false ((splitSep x).foldl (cleanStep false) []) := by
    have := Clean_form x
    rw [habs] at this
    exact this
  have hclean : Clean x = render false ((splitSep x).foldl (cleanStep false) []) := by
    by_cases hx : x = ""
    · subst hx; rfl
    · rw [Clean_eq x hx, habs]
  have hplain : ∀ e ∈ (splitSep x).foldl (cleanStep false) [], Plain e := by
    apply cleanForm_plain_of_head hform
    intro hhead
    apply hdd
    have hne : (splitSep x).foldl (cleanStep false) [] ≠ [] := by
      intro h0
      rw [h0] at hhead
      cases hhead
    rw [hclean]
    simp only [render, Bool.false_eq_true, if_false, hne]
    rw [splitSep_joinSep _ hne (cleanForm_noSep hform)]
    exact List.mem_of_mem_head? hhead
  refine ⟨_, hplain, hclean, ?_⟩
  intro rooted S
  have := foldl_cleanStep_local (splitSep x) (splitSep_mem_noSep x) [] (by simp) hplain rooted S
  rw [List.append_nil] at this
  exact this

end Client

namespace Client

/-! ## Joins with local paths and the paths relative to a directory -/

theorem cleanForm_append_plain {rb : Bool} {E xs : List String} (hE : CleanForm rb E)
    (hxs : ∀ e ∈ xs, Plain e) : CleanForm rb (E ++ xs) := by
  obtain ⟨k, plain, h1, h2, h3⟩ := hE
  refine ⟨k, plain ++ xs, by rw [h1, List.append_assoc], ?_, h3⟩
  intro e he
  rcases List.mem_append.1 he with he | he
  · exact h2 e he
  · exact hxs e he

/-- The elements of a cleaned path: the root flag and the elements of `Clean_spec`, which
cleaning the path on top of nothing gives when the path is not empty. -/
theorem Clean_elems (a : String) :
    ∃ rb E, CleanForm rb E ∧ Clean a = render rb E ∧
      (a ≠ "" → rb = IsAbs a ∧ E = (splitSep a).foldl (cleanStep (IsAbs a)) []) ∧
      (a = "" → rb = false ∧ E = []) := by
  by_cases h : a = ""
  · subst h
    exact ⟨false, [], cleanForm_nil false, rfl, fun h => absurd rfl h, fun _ => ⟨rfl, rfl⟩⟩
  · exact ⟨IsAbs a, _, Clean_form a, Clean_eq a h, fun _ => ⟨rfl, rfl⟩, fun h0 => absurd h0 h⟩

/-- The join of a directory with a local path has the elements of both. -/
theorem Join_local (a x : String) (rb : Bool) (E xs : List String)
    (ha : a ≠ "" → rb = IsAbs a ∧ E = (splitSep a).foldl (cleanStep (IsAbs a)) [])
    (ha0 : a = "" → rb = false ∧ E = [])
    (hcx : Clean x = render false xs)
    (hfold : ∀ (rooted : Bool) (S : List String),
      (splitSep x).foldl (cleanStep rooted) S = S ++ xs)
    (hne : a ≠ "" ∨ x ≠ "") : Join [a, x] = render rb (E ++ xs) := by
  by_cases h : a = ""
  · obtain ⟨h1, h2⟩ := ha0 h
    subst h h1 h2
    have hx : x ≠ "" := by
      rcases hne with h | h
      · exact absurd rfl h
      · exact h
    rw [Join_empty_left x hx, hcx, List.nil_append]
  · obtain ⟨h1, h2⟩ := ha h
    rw [Join_pair a x h, Clean_append a x h, hfold, ← h2, ← h1]

/-- The path of a target whose elements extend those of the base, relative to the base, is the
path of the further elements. -/
theorem Rel_extension (base targ : String) (rb : Bool) (W xs : List String)
    (hW : CleanForm rb W) (hxs : ∀ e ∈ xs, Plain e)
    (hcb : Clean base = render rb W) (hct : Clean targ = render rb (W ++ xs)) :
    Rel base targ = .ok (render false xs) := by
  have hT : CleanForm rb (W ++ xs) := cleanForm_append_plain hW hxs
  rw [Rel_eq base targ rb rb W (W ++ xs) hW hT hcb hct]
  by_cases heq : render rb (W ++ xs) = render rb W
  · rw [if_pos heq]
    have := render_inj hT hW heq
    have hx0 : xs = [] := by simpa using this
    subst hx0
    rfl
  · rw [if_neg heq]
    simp only [ne_eq, not_true_eq_false, if_false]
    have hx0 : xs ≠ [] := by
      intro h0
      subst h0
      exact heq (by rw [List.append_nil])
    have hl : relLoop (baseElems rb W) (targElems rb (W ++ xs)) = some (joinSep xs) := by
      have h1 := relLoop_common W [] xs
      rw [List.append_nil] at h1
      cases rb with
      | true =>
        simp only [baseElems, targElems, if_true, relLoop]
        rw [h1, relLoop]
      | false =>
        have hnn : W ++ xs ≠ [] := by simp [hx0]
        simp only [baseElems, targElems, Bool.false_eq_true, if_false, hnn]
        rw [h1, relLoop]
    rw [hl]
    simp [render, hx0]

/-- Walking the result of `filepath.Rel`, from any elements that end in the further elements
of the base below a common ancestor, ends at the further elements of the target. -/
theorem Rel_walk (base targ r : String) (rb : Bool) (E d ts : List String)
    (hb : CleanForm rb (E ++ d)) (ht : CleanForm rb (E ++ ts))
    (hd : ∀ e ∈ d, Plain e) (hts : ∀ e ∈ ts, Plain e)
    (hcb : Clean base = render rb (E ++ d)) (hct : Clean targ = render rb (E ++ ts))
    (h : Rel base targ = .ok r) :
    ∀ (rooted : Bool) (S : List String),
      (splitSep r).foldl (cleanStep rooted) (S ++ d) = S ++ ts := by
  intro rooted S
  rw [Rel_eq base targ rb rb _ _ hb ht hcb hct] at h
  by_cases heq : render rb (E ++ ts) = render rb (E ++ d)
  · simp only [heq, if_true, Except.ok.injEq] at h
    subst h
    have h1 := render_inj ht hb heq
    have h2 : ts = d := List.append_cancel_left h1
    have : splitSep "." = ["."] := rfl
    rw [this, List.foldl_cons, cleanStep_dot, List.foldl_nil, h2]
  · simp only [heq, if_false, ne_eq, not_true_eq_false] at h
    have hdts : d ≠ ts := fun h0 => heq (by rw [h0])
    by_cases hE : rb = false ∧ E ++ ts = []
    · obtain ⟨hr, hnil⟩ := hE
      obtain ⟨hE0, hts0⟩ := List.append_eq_nil.1 hnil
      subst hr hE0 hts0
      cases d with
      | nil => exact absurd rfl hdts
      | cons b bs =>
        have hbp := hd b (List.mem_cons_self _ _)
        have hl : relLoop (baseElems false ([] ++ b :: bs)) (targElems false ([] ++ [])) =
            some (joinSep (List.replicate (bs.length + 1) ".." ++ ["."])) := by
          simp [baseElems, targElems, relLoop, hbp.2.1, hbp.2.2.1]
        rw [hl] at h
        simp only [Except.ok.injEq] at h
        subst h
        have hns : ∀ x ∈ List.replicate (bs.length + 1) ".." ++ ["."], NoSep x := by
          intro x hx
          rcases List.mem_append.1 hx with hx | hx
          · rw [(List.mem_replicate.1 hx).2]; exact dotdot_noSep
          · rw [List.mem_singleton.1 hx]; simp [NoSep]
        rw [splitSep_joinSep _ (by simp) hns, List.foldl_append]
        have hpop := foldl_cleanStep_pop rooted S (b :: bs) hd
        simp only [List.length_cons] at hpop
        rw [hpop, List.foldl_cons, cleanStep_dot, List.foldl_nil, List.append_nil]
    · have hl : relLoop (baseElems rb (E ++ d)) (targElems rb (E ++ ts)) = relLoop d ts := by
        cases rb with
        | true =>
          simp only [baseElems, targElems, if_true, relLoop]
          exact relLoop_common E d ts
        | false =>
          have hnn : E ++ ts ≠ [] := fun h0 => hE ⟨rfl, h0⟩
          simp only [baseElems, targElems, Bool.false_eq_true, if_false, hnn]
          exact relLoop_common E d ts
      rw [hl] at h
      cases hl2 : relLoop d ts with
      | none => rw [hl2] at h; cases h
      | some rel =>
        rw [hl2] at h
        simp only [Except.ok.injEq] at h
        subst h
        exact relLoop_join rooted S d ts rel hd hts hdts hl2

/-- The directory of a local path is a path of plain elements. -/
theorem Dir_local (link : String) (h : IsLocalPath link) :
    ∃ d, (∀ e ∈ d, Plain e) ∧ Dir link = render false d := by
  obtain ⟨xs, hxs, -, hfold⟩ := IsLocalPath.spec link h
  have hl := splitSep_dropLast link
  have hlink : link = joinSep ((splitSep link).dropLast ++ [(splitSep link).getLastD ""]) := by
    rw [hl, joinSep_splitSep]
  have hns : ∀ e ∈ (splitSep link).dropLast ++ [(splitSep link).getLastD ""], NoSep e := by
    rw [hl]
    exact splitSep_mem_noSep link
  have hfull := hfold false []
  rw [← hl, List.nil_append] at hfull
  generalize (splitSep link).dropLast = init at hlink hns hfull
  generalize (splitSep link).getLastD "" = last at hlink hns hfull
  have hlast : NoSep last := hns last (by simp)
  have hinit : ∀ e ∈ init, NoSep e := fun e he => hns e (by simp [he])
  by_cases hi : init = []
  · subst hi
    rw [List.nil_append, joinSep_singleton] at hlink
    refine ⟨[], by simp, ?_⟩
    rw [hlink]
    simp only [Dir]
    rw [dirChars_noSep _ hlast]
    rfl
  · rw [joinSep_append _ _ hi (by simp), joinSep_singleton] at hlink
    have hjne : joinSep init ≠ "" := by
      intro h0
      rw [h0] at hlink
      have h1 : IsAbs link = true := by
        rw [hlink]
        simpa using IsAbs_slash_append last
      rw [h.1] at h1
      cases h1
    have habs : IsAbs (joinSep init) = false := by
      rw [← h.1, hlink, String.append_assoc, IsAbs_append _ _ hjne]
    have hform : CleanForm false (init.foldl (cleanStep false) []) :=
      foldl_cleanStep_form false init [] (cleanForm_nil false) hinit
    have hplain : ∀ e ∈ init.foldl (cleanStep false) [], Plain e := by
      apply cleanForm_plain_of_head hform
      intro hhead
      rw [List.foldl_append, List.foldl_cons, List.foldl_nil] at hfull
      have := cleanStep_head_dotdot _ last hhead
      rw [hfull] at this
      exact plain_of_head xs hxs this
    refine ⟨_, hplain, ?_⟩
    have hdata : link.data = (joinSep init).data ++ '/' :: last.data := by
      rw [hlink]
      simp [String.data_append]
    have hmk : String.mk ((joinSep init).data ++ ['/']) = joinSep init ++ "/" ++ "" := by
      apply String.ext
      simp [String.data_append]
    simp only [Dir]
    rw [hdata, dirChars_append _ _ hlast, hmk, Clean_append _ _ hjne, habs, splitSep_empty,
      splitSep_joinSep init hi hinit, List.foldl_cons, cleanStep_empty, List.foldl_nil]

end Client

namespace Client

/-! ## The results of `getRelPath` and `getTargetRelPath` -/

theorem render_plain_fold (xs : List String) (hxs : ∀ e ∈ xs, Plain e) (rooted : Bool)
    (S : List String) :
    (splitSep (render false xs)).foldl (cleanStep rooted) S = S ++ xs := by
  by_cases h : xs = []
  · subst h
    have : splitSep (render false []) = ["."] := rfl
    rw [this, List.foldl_cons, cleanStep_dot, List.foldl_nil, List.append_nil]
  · have : render false xs = joinSep xs := by simp [render, h]
    rw [this, splitSep_joinSep xs h (fun e he => (hxs e he).2.2.2),
      foldl_cleanStep_plain rooted S xs hxs]

theorem render_plain_local (xs : List String) (hxs : ∀ e ∈ xs, Plain e) :
    IsLocalPath (render false xs) := by
  refine ⟨IsAbs_render (plain_cleanForm hxs), ?_⟩
  rw [Clean_render (plain_cleanForm hxs)]
  by_cases h : xs = []
  · subst h
    decide
  · have : render false xs = joinSep xs := by simp [render, h]
    rw [this, splitSep_joinSep xs h (fun e he => (hxs e he).2.2.2)]
    intro hmem
    exact not_plain_dotdot (hxs _ hmem)

/-- The result of `getRelPath` is the path of plain elements by which the cleaned path extends
the cleaned base. -/
theorem getRelPath_elems (base path r : String) (rb : Bool) (E : List String)
    (hE : CleanForm rb E) (hcE : Clean base = render rb E)
    (h : getRelPath base path = .ok r) :
    ∃ ts, (∀ e ∈ ts, Plain e) ∧ CleanForm rb (E ++ ts) ∧ Clean path = render rb (E ++ ts) ∧
      r = render false ts := by
  obtain ⟨rt, Nt, ht, hct, -⟩ := Clean_spec path
  rcases getRelPath_spec base path rb rt E Nt hE ht hcE hct r h with
    ⟨h1, h3⟩ | ⟨h3, ts, h4, h5, h6, h7⟩
  · exact ⟨[], by simp, by simpa using hE, by rw [h3, hcE, List.append_nil], h1⟩
  · subst h3 h4
    exact ⟨ts, h6, ht, hct, by simp [render, h5, h7]⟩

/-- The result of `getRelPath` is a local path. -/
theorem getRelPath_local (base path r : String) (h : getRelPath base path = .ok r) :
    IsLocalPath r := by
  obtain ⟨rb, E, hE, hcE, -⟩ := Clean_spec base
  obtain ⟨ts, hts, -, -, hr⟩ := getRelPath_elems base path r rb E hE hcE h
  rw [hr]
  exact render_plain_local ts hts

/-- A path on which `getRelPath` succeeds is under the base. -/
theorem getRelPath_under (base path r : String) (h : getRelPath base path = .ok r) :
    Under base path :=
  ⟨r, getRelPath_local base path r h, getRelPath_join base path r h⟩

/-- The two results of `getTargetRelPath` for a link at a local path, by their elements: the
directory of the link has plain elements `d` below the exec root, the target has plain
elements `ts` below it, the first result is the path of `ts`, and walking the second result
from `d` ends at `ts`. -/
theorem getTargetRelPath_elems (execRoot link tgt r1 r2 : String) (hloc : IsLocalPath link)
    (h : getTargetRelPath execRoot link tgt = .ok (r1, r2)) :
    ∃ d ts, (∀ e ∈ d, Plain e) ∧ (∀ e ∈ ts, Plain e) ∧ Dir link = render false d ∧
      r1 = render false ts ∧
      getRelPath execRoot (targetAbs execRoot link tgt) = .ok r1 ∧
      Join [Join [execRoot, Dir link], r2] = Clean (targetAbs execRoot link tgt) ∧
      ∀ (rooted : Bool) (S : List String),
        (splitSep r2).foldl (cleanStep rooted) (S ++ d) = S ++ ts := by
  obtain ⟨d, hd, hdir⟩ := Dir_local link hloc
  obtain ⟨rb, E, hE, hcE, hEd, hjoin⟩ := Join_plain execRoot d hd
  simp only [getTargetRelPath] at h
  split at h
  · cases h
  · rename_i rel hrel
    split at h
    · cases h
    · rename_i rs hrs
      simp only [Except.ok.injEq, Prod.mk.injEq] at h
      obtain ⟨h1, h2⟩ := h
      subst h1 h2
      have hT : (if ¬ IsAbs tgt = true then Join [Join [execRoot, Dir link], tgt] else tgt) =
          targetAbs execRoot link tgt := rfl
      rw [hT] at hrel hrs
      obtain ⟨ts, hts, htf, hcT, hr1⟩ :=
        getRelPath_elems execRoot _ rel rb E hE hcE hrel
      rw [hdir, hjoin] at hrs ⊢
      refine ⟨d, ts, hd, hts, rfl, hr1, hrel, ?_, ?_⟩
      · exact Rel_join_common _ _ rs rb E d ts hEd htf hd hts (Clean_render hEd) hcT
          (render_ne_empty hEd) hrs
      · exact Rel_walk _ _ rs rb E d ts hEd htf hd hts (Clean_render hEd) hcT hrs

/-! ## From a rooted base -/

theorem IsAbs_ne_empty (s : String) (h : IsAbs s = true) : s ≠ "" := by
  intro h0
  subst h0
  exact absurd h (by decide)

/-- From a rooted base, joining the result of `filepath.Rel` to the base gives the cleaned
target. -/
theorem Rel_join_abs (base targ r : String) (habs : IsAbs base = true)
    (h : Rel base targ = .ok r) : Join [base, r] = Clean targ := by
  have hbase : base ≠ "" := IsAbs_ne_empty base habs
  obtain ⟨rb, Nb, hb, hcb, hb2⟩ := Clean_spec base
  obtain ⟨rt, Nt, ht, hct, -⟩ := Clean_spec targ
  obtain ⟨hrb, hNb⟩ := hb2 hbase
  rw [habs] at hrb hNb
  subst hrb
  rw [Join_pair base r hbase, Clean_append base r hbase, habs, ← hNb]
  rw [Rel_eq base targ true rt Nb Nt hb ht hcb hct] at h
  by_cases heq : render rt Nt = render true Nb
  · simp only [heq, if_true, Except.ok.injEq] at h
    subst h
    have : splitSep "." = ["."] := rfl
    rw [this, List.foldl_cons, cleanStep_dot, List.foldl_nil, hct, heq]
  · simp only [heq, if_false] at h
    by_cases hr : true = rt
    · subst hr
      simp only [ne_eq, not_true_eq_false, if_false] at h
      have hpl : ∀ e ∈ Nb, Plain e := by
        obtain ⟨k, plain, h1, h2, h3⟩ := hb
        have hk := h3 rfl
        subst hk
        simp only [List.replicate_zero, List.nil_append] at h1
        subst h1
        exact h2
      have hplt : ∀ e ∈ Nt, Plain e := by
        obtain ⟨k, plain, h1, h2, h3⟩ := ht
        have hk := h3 rfl
        subst hk
        simp only [List.replicate_zero, List.nil_append] at h1
        subst h1
        exact h2
      have hloop : relLoop (baseElems true Nb) (targElems true Nt) = relLoop Nb Nt := by
        simp [baseElems, targElems, relLoop]
      rw [hloop] at h
      cases hl : relLoop Nb Nt with
      | none => rw [hl] at h; cases h
      | some rel =>
        rw [hl] at h
        simp only [Except.ok.injEq] at h
        subst h
        obtain ⟨c, b2, t2, h1, h2, h3⟩ :=
          relLoop_plain Nb Nt rel (fun b hbm => (hpl b hbm).2.2.1) hl
        have hne : List.replicate b2.length ".." ++ t2 ≠ [] := by
          intro h0
          obtain ⟨h4, h5⟩ := List.append_eq_nil.1 h0
          have hb2 : b2 = [] := by
            cases b2 with
            | nil => rfl
            | cons x xs => simp [List.replicate_succ] at h4
          subst hb2 h5
          apply heq
          rw [h1, h2]
        have hns : ∀ x ∈ List.replicate b2.length ".." ++ t2, NoSep x := by
          intro x hx
          rcases List.mem_append.1 hx with hx | hx
          · rw [(List.mem_replicate.1 hx).2]; exact dotdot_noSep
          · exact plain_noSep (hplt x (by rw [h2]; exact List.mem_append_right _ hx))
        rw [h3, splitSep_joinSep _ hne hns, List.foldl_append, h1,
          foldl_cleanStep_pop true c b2
            (fun e he => hpl e (by rw [h1]; exact List.mem_append_right _ he)),
          foldl_cleanStep_plain true c t2
            (fun e he => hplt e (by rw [h2]; exact List.mem_append_right _ he)),
          ← h2, hct]
    · simp [hr] at h

theorem IsAbs_Join_pair (a b : String) (h : IsAbs a = true) : IsAbs (Join [a, b]) = true := by
  have ha := IsAbs_ne_empty a h
  rw [Join_pair a b ha, IsAbs_Clean, String.append_assoc, IsAbs_append a _ ha, h]

/-- With an absolute exec root, the second result of `getTargetRelPath`, joined to the
directory of the link under the exec root, gives the cleaned resolved target, wherever the link
is. -/
theorem getTargetRelPath_join_abs (execRoot link tgt r1 r2 : String)
    (habs : IsAbs execRoot = true)
    (h : getTargetRelPath execRoot link tgt = .ok (r1, r2)) :
    Join [Join [execRoot, Dir link], r2] = Clean (targetAbs execRoot link tgt) := by
  simp only [getTargetRelPath] at h
  split at h
  · cases h
  · split at h
    · cases h
    · rename_i rs hrs
      simp only [Except.ok.injEq, Prod.mk.injEq] at h
      rw [← h.2]
      exact Rel_join_abs _ _ _ (IsAbs_Join_pair execRoot _ habs) hrs

end Client

namespace Client

/-! ## C11: the errors of the flattener -/

theorem exampleLoopDirs_reached (x y : Digest × String)
    (hr : ReachedAt exampleLoopDirs x y) (hx : x.1 = { Hash := "r", Size := 1 }) :
    y.1 = { Hash := "r", Size := 1 } := by
  induction hr with
  | start x => exact hx
  | descend x dir subdir y hd hsub _ ih =>
    apply ih
    rw [hx] at hd
    have hdir : dir = exampleLoopDir := by
      have : mapGet exampleLoopDirs { Hash := "r", Size := 1 } = some exampleLoopDir := by
        decide
      rw [this] at hd
      exact (Option.some.inj hd).symm
    subst hdir
    have hs : subdir = { Name := "a", Digest := { Hash := "r", SizeBytes := 1 } } := by
      simpa [exampleLoopDir] using hsub
    rw [hs]
    rfl

theorem exampleLoopDirs_loop (fuel : Nat) :
    ∀ (p : String) (flat : List (String × TreeOutput)),
      flattenTreeLoop exampleLoopDirs fuel [({ Hash := "r", Size := 1 }, p)] flat = none := by
  induction fuel with
  | zero => intro p flat; rfl
  | succ n ih =>
    intro p flat
    have hd : mapGet exampleLoopDirs { Hash := "r", Size := 1 } = some exampleLoopDir := by
      decide
    rw [flattenTreeLoop_round exampleLoopDirs n _ p _ [] flat hd]
    exact ih _ _

/-- C11, as stated, fails: the map `exampleLoopDirs` holds one directory, which lists itself as
its subdirectory `a`.  Every directory reached from it has a digest that is a key of the map,
and yet `flattenTree` returns no map: every round appends the directory to the queue again,
and the loop does not end, however many rounds it may run. -/
theorem flattenTree_cycle_never_returns :
    (∀ y, ReachedAt exampleLoopDirs ({ Hash := "r", Size := 1 }, "") y →
      mapGet exampleLoopDirs y.1 ≠ none) ∧
    ∀ fuel, flattenTree fuel { Hash := "r", Size := 1 } "" exampleLoopDirs = none := by
  constructor
  · intro y hr
    rw [exampleLoopDirs_reached _ y hr rfl]
    decide
  · intro fuel
    exact exampleLoopDirs_loop fuel "" []

/-- C11, amended: `flattenTree` returns an error if and only if some directory reached from the
root through the subdirectory entries of the descriptors of `dirs` has a digest that is not a
key of `dirs`, and the error names such a directory and its path.  Otherwise it returns a map
and no error, provided that the chains of subdirectory entries from the root are bounded (no
directory is reached from itself): as many rounds as the directories unfold into are enough. -/
theorem flattenTree_error_iff (dirs : List (Digest × Directory)) (root : Digest)
    (rootPath : String) :
    ((∃ fuel e, flattenTree fuel root rootPath dirs = some (.error e)) ↔
      ∃ y, ReachedAt dirs (root, rootPath) y ∧ mapGet dirs y.1 = none) ∧
    (∀ fuel e, flattenTree fuel root rootPath dirs = some (.error e) →
      ∃ d p, ReachedAt dirs (root, rootPath) (d, p) ∧ mapGet dirs d = none ∧
        e = .missingDirectory p d) ∧
    ((¬ ∃ y, ReachedAt dirs (root, rootPath) y ∧ mapGet dirs y.1 = none) →
      ∀ n, depthWithin dirs n root = true → ∀ fuel, unfoldSize dirs n root ≤ fuel →
        ∃ out, flattenTree fuel root rootPath dirs = some (.ok out)) := by
  have herr : ∀ fuel e, flattenTree fuel root rootPath dirs = some (.error e) →
      ∃ d p, ReachedAt dirs (root, rootPath) (d, p) ∧ mapGet dirs d = none ∧
        e = .missingDirectory p d := by
    intro fuel e h
    obtain ⟨x, hx, d, p, hr, hm, he⟩ := flattenTreeLoop_error dirs fuel _ _ e h
    rw [List.mem_singleton.1 hx] at hr
    exact ⟨d, p, hr, hm, he⟩
  refine ⟨⟨?_, ?_⟩, herr, ?_⟩
  · rintro ⟨fuel, e, h⟩
    obtain ⟨d, p, hr, hm, -⟩ := herr fuel e h
    exact ⟨(d, p), hr, hm⟩
  · rintro ⟨y, hr, hm⟩
    exact flattenTreeLoop_fails dirs _ y hr hm [] []
  · intro hno n hdepth fuel hfuel
    have := flattenTreeLoop_ends dirs fuel [(n, root, rootPath)] []
      (by intro a ha; rw [List.mem_singleton.1 ha]; exact hdepth)
      (by
        intro a ha y hy hm
        rw [List.mem_singleton.1 ha] at hy
        exact hno ⟨y, hy, hm⟩)
      (by simpa using hfuel)
    exact this

/-- The amended claim C11 on the descriptors of `exampleDirs`, whose chains of subdirectory
entries have at most three directories: `flattenTree` returns a map in three rounds. -/
theorem flattenTree_error_iff_witness :
    depthWithin exampleDirs 3 { Hash := "r", Size := 1 } = true ∧
      unfoldSize exampleDirs 3 { Hash := "r", Size := 1 } ≤ 3 ∧
      (¬ ∃ y, ReachedAt exampleDirs ({ Hash := "r", Size := 1 }, "") y ∧
        mapGet exampleDirs y.1 = none) ∧
      flattenTree 3 { Hash := "r", Size := 1 } "" exampleDirs = some (.ok exampleDirsOut) ∧
      ∃ out, flattenTree 3 { Hash := "r", Size := 1 } "" exampleDirs = some (.ok out) :=
  have hno : ¬ ∃ y, ReachedAt exampleDirs ({ Hash := "r", Size := 1 }, "") y ∧
      mapGet exampleDirs y.1 = none := by
    intro hy
    obtain ⟨fuel, e, he⟩ :=
      (flattenTree_error_iff exampleDirs { Hash := "r", Size := 1 } "").1.2 hy
    have h1 := flattenTreeLoop_fuel exampleDirs fuel _ _ _ he 3
    have h2 : flattenTreeLoop exampleDirs 3 [({ Hash := "r", Size := 1 }, "")] [] =
        some (.ok exampleDirsOut) := by decide
    have h3 := flattenTreeLoop_fuel exampleDirs 3 _ _ _ h2 fuel
    rw [Nat.add_comm] at h3
    rw [h3] at h1
    cases h1
  ⟨by decide, by decide, hno, by decide,
    (flattenTree_error_iff exampleDirs { Hash := "r", Size := 1 } "").2.2 hno 3 (by decide) 3
      (by decide)⟩

end Client

namespace Client

/-! ## C12: the entries of the flattened tree -/

/-- C12, as stated, fails, because entries of the same path overwrite one another.  The root
of `exampleClashDirs` holds the file `x` with the digest `A` and the symlink `x`: the result
holds the entry of the symlink only, and no entry with the digest of the file.  The root of
`exampleNestedDirs`, the descriptors that `packageDirectories` makes of the flat map of the
files `x` and `x/y`, holds the file `x` and the directory `x`, which is not empty: the result
holds an entry, that of the file, at the path `x` of this directory. -/
theorem flattenTree_paths_clash :
    flattenTree 1 { Hash := "r", Size := 1 } "" exampleClashDirs = some (.ok exampleClashOut) ∧
      (∀ kv ∈ exampleClashOut, kv.2.Digest ≠ { Hash := "A", Size := 3 }) ∧
      flattenFlat exampleDeps 2 exampleNestedFlat = some (.ok exampleNestedOut) ∧
      flattenTree 2 { Hash := "fx=X;dx=fy=Y;;", Size := 14 } "" exampleNestedDirs =
        some (.ok exampleNestedOut) ∧
      (mapGet exampleNestedOut "x").isSome = true ∧
      ReachedAt exampleNestedDirs ({ Hash := "fx=X;dx=fy=Y;;", Size := 14 }, "")
        ({ Hash := "fy=Y;", Size := 5 }, "x") ∧
      (mapGet exampleNestedDirs { Hash := "fy=Y;", Size := 5 }).map
        (fun dir => dir.Files.length + dir.Directories.length + dir.Symlinks.length) =
          some 1 := by
  refine ⟨by decide, by decide, by decide, by decide, by decide, ?_, by decide⟩
  have hs : subdirElem "" { Name := "x", Digest := { Hash := "fy=Y;", SizeBytes := 5 } } =
      ({ Hash := "fy=Y;", Size := 5 }, "x") := by decide
  exact .descend _ exampleNestedRoot
    { Name := "x", Digest := { Hash := "fy=Y;", SizeBytes := 5 } } _
    (by decide) (by decide) (hs ▸ .start _)

/-- C12, amended: when `flattenTree` succeeds, its result is a map whose entries are all among
the following, and which has an entry at the path of each of the following, that very entry
unless another of them has the same path: for each file of each reached directory the entry at
the join of the path of the directory and the name, with the digest, the executable bit and
the node properties of the file; for each symlink the entry with its target; for each reached
directory without files, directories and symlinks the entry at its own path, flagged as an
empty directory, with the empty digest.  A directory that is not empty contributes no entry of
its own: an entry flagged as an empty directory is that of a reached empty directory. -/
theorem flattenTree_entries (fuel : Nat) (root : Digest) (rootPath : String)
    (dirs : List (Digest × Directory)) (out : List (String × TreeOutput))
    (h : flattenTree fuel root rootPath dirs = some (.ok out)) :
    (mapKeys out).Nodup ∧
    (∀ kv ∈ out, Emitted dirs (root, rootPath) kv) ∧
    (∀ kv, Emitted dirs (root, rootPath) kv →
      ∃ v, (kv.1, v) ∈ out ∧ Emitted dirs (root, rootPath) (kv.1, v)) ∧
    (∀ kv, Emitted dirs (root, rootPath) kv →
      (∀ kv2, Emitted dirs (root, rootPath) kv2 → kv2.1 = kv.1 → kv2 = kv) → kv ∈ out) ∧
    (∀ kv ∈ out, kv.2.IsEmptyDirectory = true →
      ∃ d p dir, ReachedAt dirs (root, rootPath) (d, p) ∧ mapGet dirs d = some dir ∧
        dir.Files.length + dir.Directories.length + dir.Symlinks.length = 0 ∧
        kv = emptyDirOut p dir) := by
  obtain ⟨h1, h2, h3⟩ := flattenTreeLoop_emitted dirs fuel _ _ out h
  have hsound : ∀ kv ∈ out, Emitted dirs (root, rootPath) kv := by
    intro kv hkv
    rcases h2 kv hkv with hf | ⟨x, hx, hem⟩
    · cases hf
    · rw [List.mem_singleton.1 hx] at hem
      exact hem
  have hkey : ∀ kv, Emitted dirs (root, rootPath) kv →
      ∃ v, (kv.1, v) ∈ out ∧ Emitted dirs (root, rootPath) (kv.1, v) := by
    intro kv hem
    have hk : kv.1 ∈ mapKeys out :=
      h3 kv.1 (Or.inr ⟨(root, rootPath), List.mem_singleton.2 rfl, kv, hem, rfl⟩)
    obtain ⟨kv2, hkv2, hfst⟩ := List.mem_map.1 hk
    obtain ⟨k2, v⟩ := kv2
    simp only at hfst
    subst hfst
    exact ⟨v, hkv2, hsound _ hkv2⟩
  refine ⟨h1 (by simp [mapKeys]), hsound, hkey, ?_, ?_⟩
  · intro kv hem huniq
    obtain ⟨v, hv, hem2⟩ := hkey kv hem
    rw [← huniq _ hem2 rfl]
    exact hv
  · intro kv hkv hempty
    obtain ⟨d, p, dir, hr, hd, hout⟩ := hsound kv hkv
    refine ⟨d, p, dir, hr, hd, ?_⟩
    unfold dirOutputs at hout
    by_cases he : dir.Files.length + dir.Directories.length + dir.Symlinks.length = 0
    · rw [if_pos he] at hout
      exact ⟨he, List.mem_singleton.1 hout⟩
    · rw [if_neg he] at hout
      rcases List.mem_append.1 hout with hf | hf
      · obtain ⟨f, -, rfl⟩ := List.mem_map.1 hf
        simp [fileOut] at hempty
      · obtain ⟨f, -, rfl⟩ := List.mem_map.1 hf
        simp [symlinkOut] at hempty

/-- The amended claim C12 on the descriptors of `exampleDirs`: the result holds the entry of
the file `d/b.txt` and that of the empty directory `d/e`, and no other. -/
theorem flattenTree_entries_witness :
    flattenTree 3 { Hash := "r", Size := 1 } "" exampleDirs = some (.ok exampleDirsOut) ∧
      (mapKeys exampleDirsOut).Nodup ∧
      ∀ kv ∈ exampleDirsOut, Emitted exampleDirs ({ Hash := "r", Size := 1 }, "") kv :=
  ⟨by decide,
    (flattenTree_entries 3 { Hash := "r", Size := 1 } "" exampleDirs exampleDirsOut
      (by decide)).1,
    (flattenTree_entries 3 { Hash := "r", Size := 1 } "" exampleDirs exampleDirsOut
      (by decide)).2.1⟩

end Client

namespace Client

/-! ## C13: the exclusion matcher -/

/-- C13: `shouldIgnore inp t excl` is true exactly when `excl` holds a rule whose type is
unspecified or equal to `t` and whose expression compiles and matches `inp` (the call of
`regexp.MatchString` gives true without an error); hence a rule of another specific type and a
rule whose expression does not compile cause no exclusion, and the empty list of rules gives
false. -/
theorem shouldIgnore_iff (host : Host) (inp : String) (t : InputType)
    (excl : List InputExclusion) :
    (shouldIgnore host inp t excl = true ↔
      ∃ r ∈ excl, r.appliesTo t ∧ host.MatchString r.Regex inp = .ok true) ∧
    ((∀ r ∈ excl, ¬ r.appliesTo t ∨ ∃ e, host.MatchString r.Regex inp = .error e) →
      shouldIgnore host inp t excl = false) ∧
    shouldIgnore host inp t [] = false := by
  have hiff : ∀ excl : List InputExclusion, (shouldIgnore host inp t excl = true ↔
      ∃ r ∈ excl, r.appliesTo t ∧ host.MatchString r.Regex inp = .ok true) := by
    intro excl
    induction excl with
    | nil => simp [shouldIgnore]
    | cons r rest ih =>
      rw [shouldIgnore]
      by_cases hty : r.Typ ≠ .UnspecifiedInputType ∧ r.Typ ≠ t
      · rw [if_pos hty, ih]
        constructor
        · rintro ⟨r2, hr2, h⟩
          exact ⟨r2, List.mem_cons_of_mem _ hr2, h⟩
        · rintro ⟨r2, hr2, h⟩
          rcases List.mem_cons.1 hr2 with rfl | hr2
          · rcases h.1 with h1 | h1
            · exact absurd h1 hty.1
            · exact absurd h1 hty.2
          · exact ⟨r2, hr2, h⟩
      · rw [if_neg hty]
        have happ : r.appliesTo t := by
          by_cases h1 : r.Typ = .UnspecifiedInputType
          · exact Or.inl h1
          · by_cases h2 : r.Typ = t
            · exact Or.inr h2
            · exact absurd ⟨h1, h2⟩ hty
        cases hm : host.MatchString r.Regex inp with
        | error e =>
          simp only
          rw [ih]
          constructor
          · rintro ⟨r2, hr2, h⟩
            exact ⟨r2, List.mem_cons_of_mem _ hr2, h⟩
          · rintro ⟨r2, hr2, h⟩
            rcases List.mem_cons.1 hr2 with rfl | hr2
            · rw [hm] at h
              cases h.2
            · exact ⟨r2, hr2, h⟩
        | ok b =>
          cases b with
          | true =>
            simp only [true_iff]
            exact ⟨r, List.mem_cons_self _ _, happ, hm⟩
          | false =>
            simp only
            rw [ih]
            constructor
            · rintro ⟨r2, hr2, h⟩
              exact ⟨r2, List.mem_cons_of_mem _ hr2, h⟩
            · rintro ⟨r2, hr2, h⟩
              rcases List.mem_cons.1 hr2 with rfl | hr2
              · rw [hm] at h
                cases h.2
              · exact ⟨r2, hr2, h⟩
  refine ⟨hiff excl, ?_, rfl⟩
  intro hall
  cases hs : shouldIgnore host inp t excl with
  | false => rfl
  | true =>
    obtain ⟨r, hr, happ, hm⟩ := (hiff excl).1 hs
    rcases hall r hr with h1 | ⟨e, h1⟩
    · exact absurd happ h1
    · rw [hm] at h1
      cases h1

/-- C13 at a concrete list of rules: a rule whose expression does not compile and a rule for
directories do not exclude the file `/e/a.txt`; a rule of unspecified type that matches it
does. -/
theorem shouldIgnore_iff_witness :
    shouldIgnore examplePrefixHost "/e/a.txt" .FileInputType
        [{ Regex := "(", Typ := .FileInputType },
         { Regex := "/e/a", Typ := .DirectoryInputType }] = false ∧
      shouldIgnore examplePrefixHost "/e/a.txt" .FileInputType
        [{ Regex := "(", Typ := .FileInputType },
         { Regex := "/e/a", Typ := .UnspecifiedInputType }] = true :=
  ⟨(shouldIgnore_iff examplePrefixHost "/e/a.txt" .FileInputType _).2.1 (by
      intro r hr
      rcases List.mem_cons.1 hr with rfl | hr
      · exact Or.inr ⟨_, rfl⟩
      · rcases List.mem_cons.1 hr with rfl | hr
        · exact Or.inl (by simp [InputExclusion.appliesTo])
        · cases hr),
    (shouldIgnore_iff examplePrefixHost "/e/a.txt" .FileInputType _).1.2
      ⟨{ Regex := "/e/a", Typ := .UnspecifiedInputType }, by simp, Or.inl rfl, by decide⟩⟩

end Client

namespace Client

/-! ## C14: the containment check of `getRelPath` -/

/-- C14 at the path `/e/..foo` and the base `/e`: the path is under the base, its form relative
to the base is the one element `..foo`, which is not the element `..`, and joining that form to
the base gives the path; yet `getRelPath` fails, with the error that the path is not under the
base, because the relative form begins with the two characters of `..`. -/
theorem getRelPath_rejects_dotdot_name :
    getRelPath "/e" "/e/..foo" = .error (.notUnder "/e/..foo" "/e") ∧
      Rel "/e" "/e/..foo" = .ok "..foo" ∧
      splitSep "..foo" = ["..foo"] ∧
      Join ["/e", "..foo"] = Clean "/e/..foo" ∧
      Under "/e" "/e/..foo" :=
  ⟨by decide, by decide, by decide, by decide, "..foo", ⟨by decide, by decide⟩, by decide⟩

/-- X1. What `getRelPath` does, apart from the names that begin with two dots: whenever it
succeeds, its result is a local path (relative, with no `..` element) whose join with the base
is the cleaned path; it fails on every path that is not under the base; and it fails exactly
when `filepath.Rel` fails or gives a relative form that begins with the two characters of
`..`. -/
theorem getRelPath_result (base path : String) :
    (∀ r, getRelPath base path = .ok r → IsLocalPath r ∧ Join [base, r] = Clean path) ∧
    (¬ Under base path → ∃ e, getRelPath base path = .error e) ∧
    ((∃ e, getRelPath base path = .error e) ↔
      (∃ e, Rel base path = .error e) ∨
        ∃ rel, Rel base path = .ok rel ∧ HasPrefix rel ".." = true) := by
  refine ⟨fun r h => ⟨getRelPath_local _ _ _ h, getRelPath_join _ _ _ h⟩, ?_, ?_⟩
  · intro hout
    cases h : getRelPath base path with
    | error e => exact ⟨e, rfl⟩
    | ok r => exact absurd (getRelPath_under _ _ _ h) hout
  · simp only [getRelPath]
    cases Rel base path with
    | error e => simp
    | ok rel =>
      by_cases hp : HasPrefix rel ".." = true
      · simp [hp]
      · simp [hp]

/-- X1 at the base `/e`: the path `/e/d/b.txt` gives `d/b.txt`, and
the path `/x`, which is not under the base, gives an error. -/
theorem getRelPath_result_witness :
    getRelPath "/e" "/e/d/b.txt" = .ok "d/b.txt" ∧
      (IsLocalPath "d/b.txt" ∧ Join ["/e", "d/b.txt"] = Clean "/e/d/b.txt") ∧
      getRelPath "/e" "/x" = .error (.notUnder "/x" "/e") :=
  ⟨by decide, (getRelPath_result "/e" "/e/d/b.txt").1 "d/b.txt" (by decide), by decide⟩

end Client

namespace Client

/-! ## C15: the two forms of the target of a symlink -/

theorem getTargetRelPath_ok (execRoot link tgt r1 r2 : String)
    (h : getTargetRelPath execRoot link tgt = .ok (r1, r2)) :
    getRelPath execRoot (targetAbs execRoot link tgt) = .ok r1 := by
  simp only [getTargetRelPath] at h
  split at h
  · cases h
  · rename_i rel hrel
    split at h
    · cases h
    · simp only [Except.ok.injEq, Prod.mk.injEq] at h
      rw [← h.1]
      exact hrel

/-- C15: for every exec root, every link path and every target, absolute or relative to the
directory of the link, `getTargetRelPath` fails when the resolved target is not under the exec
root, and when it succeeds its two results name the same place. The first is a local path (a
path relative to the exec root that does not climb out of it) which joined to the exec root
gives the cleaned resolved target. The second, joined to the directory of the link under the
exec root, gives the cleaned resolved target too, when the exec root is absolute or the link is
at a local path; and for a link at a local path the first result is the cleaned join of the
directory of the link with the second. -/
theorem getTargetRelPath_spec (execRoot link tgt : String) :
    (¬ Under execRoot (targetAbs execRoot link tgt) →
      ∃ e, getTargetRelPath execRoot link tgt = .error e) ∧
    (∀ r1 r2, getTargetRelPath execRoot link tgt = .ok (r1, r2) →
      IsLocalPath r1 ∧ Join [execRoot, r1] = Clean (targetAbs execRoot link tgt) ∧
      (IsAbs execRoot = true →
        Join [Join [execRoot, Dir link], r2] = Clean (targetAbs execRoot link tgt)) ∧
      (IsLocalPath link →
        Join [Join [execRoot, Dir link], r2] = Clean (targetAbs execRoot link tgt) ∧
        r1 = Join [Dir link, r2])) := by
  constructor
  · intro hout
    cases h : getTargetRelPath execRoot link tgt with
    | error e => exact ⟨e, rfl⟩
    | ok r =>
      obtain ⟨r1, r2⟩ := r
      exact absurd (getRelPath_under _ _ _ (getTargetRelPath_ok _ _ _ _ _ h)) hout
  · intro r1 r2 h
    have hrel := getTargetRelPath_ok _ _ _ _ _ h
    refine ⟨getRelPath_local _ _ _ hrel, getRelPath_join _ _ _ hrel,
      fun habs => getTargetRelPath_join_abs _ _ _ _ _ habs h, ?_⟩
    intro hloc
    obtain ⟨d, ts, hd, hts, hdir, hr1, -, hjoin, hwalk⟩ :=
      getTargetRelPath_elems execRoot link tgt r1 r2 hloc h
    refine ⟨hjoin, ?_⟩
    have hdf : CleanForm false d := plain_cleanForm hd
    have h2 := hwalk false []
    rw [List.nil_append, List.nil_append] at h2
    rw [hdir, Join_pair _ _ (render_ne_empty hdf), Clean_append _ _ (render_ne_empty hdf),
      IsAbs_render hdf, foldl_splitSep_render hdf, h2, hr1]

/-- C15 at the exec root `/e` and the link `d/l`: the target `../a.txt` has the forms `a.txt`
and `../a.txt`, and for the target `../../x`, which is not under the exec root, the function
fails. -/
theorem getTargetRelPath_spec_witness :
    getTargetRelPath "/e" "d/l" "../a.txt" = .ok ("a.txt", "../a.txt") ∧
      (IsLocalPath "a.txt" ∧ Join ["/e", "a.txt"] = Clean (targetAbs "/e" "d/l" "../a.txt") ∧
        Join [Join ["/e", Dir "d/l"], "../a.txt"] = Clean (targetAbs "/e" "d/l" "../a.txt") ∧
        "a.txt" = Join [Dir "d/l", "../a.txt"]) ∧
      targetAbs "/e" "d/l" "../../x" = "/x" ∧
      getTargetRelPath "/e" "d/l" "../../x" = .error (.notUnder "/x" "/e") :=
  have h := (getTargetRelPath_spec "/e" "d/l" "../a.txt").2 "a.txt" "../a.txt" (by decide)
  ⟨by decide, ⟨h.1, h.2.1, h.2.2.1 (by decide), (h.2.2.2 ⟨by decide, by decide⟩).2⟩,
    by decide, by decide⟩

end Client

namespace Client

/-! ## C16: the remote form of a path -/

/-- C16 at the path `/e/..foo` and the exec root `/e`: the path is under the exec root, with
the form `..foo` relative to it, and `getExecRootRelPaths` returns no paths but the error of
`getRelPath`, that the path is not under the exec root. -/
theorem getExecRootRelPaths_rejects_dotdot_name :
    Under "/e" "/e/..foo" ∧ Rel "/e" "/e/..foo" = .ok "..foo" ∧
      getExecRootRelPaths "/e/..foo" "/e" "" "" = .error (.notUnder "/e/..foo" "/e") ∧
      getExecRootRelPaths "/e/..foo" "/e" "build" "remote_build" =
        .error (.notUnder "/e/..foo" "/e") :=
  ⟨⟨"..foo", ⟨by decide, by decide⟩, by decide⟩, by decide, by decide, by decide⟩

/-- X2. The remote form of a path on which `getRelPath` succeeds, with the result `relPath`:
`getExecRootRelPaths` returns `relPath` as the local form, and as the remote form `relPath`
again when the remote working directory is empty or is the local working directory; otherwise,
when `relPath` is the join of the working directory and a local path `x`, the remote form is the
join of the remote working directory and `x`. -/
theorem getExecRootRelPaths_remote (absPath execRoot wd rwd relPath : String)
    (hrel : getRelPath execRoot absPath = .ok relPath) :
    ((rwd = "" ∨ rwd = wd) →
      getExecRootRelPaths absPath execRoot wd rwd = .ok (relPath, relPath)) ∧
    (¬ (rwd = "" ∨ rwd = wd) → ∀ x, IsLocalPath x → relPath = Join [wd, x] →
      getExecRootRelPaths absPath execRoot wd rwd = .ok (relPath, Join [rwd, x])) := by
  constructor
  · intro hw
    rw [getExecRootRelPaths_noremap _ _ _ _ hw, hrel]
  · intro hw x hx hform
    have hrwd : rwd ≠ "" := fun h => hw (Or.inl h)
    obtain ⟨xs, hxs, hcx, hfold⟩ := IsLocalPath.spec x hx
    obtain ⟨rbw, W, hW, hcW, hW1, hW0⟩ := Clean_elems wd
    obtain ⟨rbr, R, -, -, hR1, hR0⟩ := Clean_elems rwd
    have hclean := (getRelPath_clean execRoot absPath relPath hrel).1
    have hne : wd ≠ "" ∨ x ≠ "" := by
      by_contra hcon
      have h1 : wd = "" := by
        by_contra h; exact hcon (Or.inl h)
      have h2 : x = "" := by
        by_contra h; exact hcon (Or.inr h)
      subst h1 h2
      have h3 : relPath = "" := hform
      rw [h3] at hclean
      exact Clean_ne_empty "" hclean
    have hrp : relPath = render rbw (W ++ xs) := by
      rw [hform]
      exact Join_local wd x rbw W xs hW1 hW0 hcx hfold hne
    have hcrp : Clean relPath = render rbw (W ++ xs) := by
      rw [hclean]
      exact hrp
    have hRel := Rel_extension wd relPath rbw W xs hW hxs hcW hcrp
    have hj1 := Join_local rwd x rbr R xs hR1 hR0 hcx hfold (Or.inl hrwd)
    have hj2 := Join_local rwd (render false xs) rbr R xs hR1 hR0
      (Clean_render (plain_cleanForm hxs)) (render_plain_fold xs hxs) (Or.inl hrwd)
    simp only [getExecRootRelPaths, hrel, hw, if_false, getRemotePath, hRel, hj2, hj1]

/-- X2 at the exec root `/e` for the file `/e/build/out.o`: with the working directory
`build` and the remote working directory `remote_build` the remote form is
`remote_build/out.o`, and with no remote working directory it is `build/out.o`. -/
theorem getExecRootRelPaths_remote_witness :
    getRelPath "/e" "/e/build/out.o" = .ok "build/out.o" ∧
      getExecRootRelPaths "/e/build/out.o" "/e" "build" "" = .ok ("build/out.o", "build/out.o") ∧
      getExecRootRelPaths "/e/build/out.o" "/e" "build" "remote_build" =
        .ok ("build/out.o", Join ["remote_build", "out.o"]) ∧
      Join ["remote_build", "out.o"] = "remote_build/out.o" :=
  ⟨by decide,
    (getExecRootRelPaths_remote "/e/build/out.o" "/e" "build" "" "build/out.o"
      (by decide)).1 (Or.inl rfl),
    (getExecRootRelPaths_remote "/e/build/out.o" "/e" "build" "remote_build" "build/out.o"
      (by decide)).2 (by decide) "out.o" ⟨by decide, by decide⟩ (by decide),
    by decide⟩

end Client

namespace Client

/-! ## C17: real inputs over virtual inputs -/

/-- C17: in `ComputeMerkleTree`, let `fsV` be the flat map after the loop over the virtual
inputs and `fs` the flat map after `loadFiles`.  Then `loadFiles` on the same real inputs and
the empty flat map succeeds too, with a flat map `fsR` of the entries that the real inputs
produce, and `fs` is `fsR` laid over `fsV`: under a path that a real input produces, `fs` holds
the entry produced from the real input, whether or not a virtual input produced that path too,
and under any other path it holds what `fsV` holds. -/
theorem ComputeMerkleTree_real_over_virtual (deps : Deps) (host : Host) (fuel : Nat)
    (clientOpts : Option TreeSymlinkOpts) (execRoot wd rwd : String) (is : InputSpec)
    (fsV fs : List (String × fileSysNode))
    (hv : ComputeMerkleTreeVirtual deps execRoot wd rwd is.InputNodeProperties
      is.VirtualInputs [] = .ok fsV)
    (h : ComputeMerkleTreeFlat deps host fuel clientOpts execRoot wd rwd is = some (.ok fs)) :
    ∃ fsR, loadFiles host fuel execRoot wd rwd is.InputExclusions is.Inputs []
        (some (treeSymlinkOpts clientOpts is.SymlinkBehavior)) is.InputNodeProperties =
          some (.ok fsR) ∧
      (∀ k n, mapGet fsR k = some n → mapGet fs k = some n) ∧
      (∀ k, mapGet fsR k = none → mapGet fs k = mapGet fsV k) := by
  simp only [ComputeMerkleTreeFlat, hv, loadFiles] at h
  obtain ⟨fsR, h1, h2⟩ := loadFilesLoop_overlay host execRoot wd rwd is.InputExclusions _
    is.InputNodeProperties fsV fuel is.Inputs [] fsV [] fs (fun k => rfl) h
  refine ⟨fsR, h1, ?_, ?_⟩
  · intro k n hk
    rw [h2 k, overlayGet, hk]
  · intro k hk
    rw [h2 k, overlayGet, hk]

/-- C17 on the example file system: the virtual file `a.txt` and the real input `a.txt` have
the same path, and the flat map holds the entry of the real file under it; the virtual file
`v.txt` stays. -/
theorem ComputeMerkleTree_real_over_virtual_witness :
    ComputeMerkleTreeVirtual exampleDeps "/e" "" "" [] exampleCollideSpec.VirtualInputs [] =
        .ok [("a.txt", exampleVirtual "V"), ("v.txt", exampleVirtual "V")] ∧
      ComputeMerkleTreeFlat exampleDeps exampleHost 5 none "/e" "" "" exampleCollideSpec =
        some (.ok [("a.txt", exampleLoaded "A" "/e/a.txt"), ("v.txt", exampleVirtual "V")]) ∧
      ∃ fsR, loadFiles exampleHost 5 "/e" "" "" [] ["a.txt"] []
          (some (treeSymlinkOpts none .UnspecifiedSymlinkBehavior)) [] = some (.ok fsR) ∧
        (∀ k n, mapGet fsR k = some n →
          mapGet [("a.txt", exampleLoaded "A" "/e/a.txt"), ("v.txt", exampleVirtual "V")] k =
            some n) ∧
        (∀ k, mapGet fsR k = none →
          mapGet [("a.txt", exampleLoaded "A" "/e/a.txt"), ("v.txt", exampleVirtual "V")] k =
            mapGet [("a.txt", exampleVirtual "V"), ("v.txt", exampleVirtual "V")] k) :=
  ⟨by decide, by decide,
    ComputeMerkleTree_real_over_virtual exampleDeps exampleHost 5 none "/e" "" ""
      exampleCollideSpec _ _ (by decide) (by decide)⟩

end Client

namespace Client

/-! ## C18: the node properties of the entries of the flat map -/

/-- C18: every entry that the loop of `ComputeMerkleTree` over the virtual inputs or `loadFiles`
adds to the flat map carries the node properties that the map of node properties holds for the
key of the entry (none when the map has no entry for the key); so does every entry of the flat
map that `ComputeMerkleTree` builds. -/
theorem flatMap_nodeProperties (deps : Deps) (host : Host) (fuel : Nat)
    (execRoot wd rwd : String) (np : List (String × NodeProperties)) :
    (∀ vis fs0 fs, ComputeMerkleTreeVirtual deps execRoot wd rwd np vis fs0 = .ok fs →
      ∀ kn ∈ fs, kn ∈ fs0 ∨ kn.2.nodeProperties = mapGet np kn.1) ∧
    (∀ excl inputs fs0 opts fs,
      loadFiles host fuel execRoot wd rwd excl inputs fs0 opts np = some (.ok fs) →
      ∀ kn ∈ fs, kn ∈ fs0 ∨ kn.2.nodeProperties = mapGet np kn.1) ∧
    (∀ clientOpts (is : InputSpec) fs, is.InputNodeProperties = np →
      ComputeMerkleTreeFlat deps host fuel clientOpts execRoot wd rwd is = some (.ok fs) →
      ∀ kn ∈ fs, kn.2.nodeProperties = mapGet np kn.1) := by
  have hload : ∀ excl inputs fs0 opts fs,
      loadFiles host fuel execRoot wd rwd excl inputs fs0 opts np = some (.ok fs) →
      ∀ kn ∈ fs, kn ∈ fs0 ∨ kn.2.nodeProperties = mapGet np kn.1 := by
    intro excl inputs fs0 opts fs h
    simp only [loadFiles] at h
    refine loadFilesLoop_inv host execRoot wd rwd excl (opts.getD DefaultTreeSymlinkOpts) np
      (fun m => ∀ kn ∈ m, kn ∈ fs0 ∨ kn.2.nodeProperties = mapGet np kn.1) ?_ fuel _ fs h ?_
    · intro path s s2 hs hP kn hkn
      rcases loadFilesStep_np host execRoot wd rwd excl _ np path s s2 hs with h1 | h1
      · rw [h1] at hkn
        exact hP kn hkn
      · obtain ⟨k, node, hfs, hnode⟩ := h1
        rw [hfs] at hkn
        rcases mem_mapSet _ _ _ _ hkn with hk | hk
        · subst hk
          exact Or.inr hnode
        · exact hP kn hk
    · intro kn hkn
      exact Or.inl hkn
  refine ⟨ComputeMerkleTreeVirtual_np deps execRoot wd rwd np, hload, ?_⟩
  intro clientOpts is fs hnp h
  subst hnp
  simp only [ComputeMerkleTreeFlat] at h
  cases hv : ComputeMerkleTreeVirtual deps execRoot wd rwd is.InputNodeProperties
      is.VirtualInputs [] with
  | error e => rw [hv] at h; cases h
  | ok fsV =>
    rw [hv] at h
    intro kn hkn
    rcases hload _ _ _ _ _ h kn hkn with h1 | h1
    · rcases ComputeMerkleTreeVirtual_np deps execRoot wd rwd _ _ _ _ hv kn h1 with h2 | h2
      · cases h2
      · exact h2
    · exact h1

/-- C18 on the example file system: the entry of the real input `a.txt` carries the node
properties given for `a.txt`, and the entry of the virtual input `v.txt`, for which none are
given, carries none. -/
theorem flatMap_nodeProperties_witness :
    ComputeMerkleTreeFlat exampleDeps exampleHost 5 none "/e" "" "" examplePropsSpec =
        some (.ok [("v.txt", exampleVirtual "V"),
          ("a.txt", { exampleLoaded "A" "/e/a.txt" with
            nodeProperties := some { Properties := [("mtime", "1")] } })]) ∧
      ∀ kn ∈ [("v.txt", exampleVirtual "V"),
          ("a.txt", { exampleLoaded "A" "/e/a.txt" with
            nodeProperties := some { Properties := [("mtime", "1")] } })],
        kn.2.nodeProperties = mapGet examplePropsSpec.InputNodeProperties kn.1 :=
  ⟨by decide,
    (flatMap_nodeProperties exampleDeps exampleHost 5 "/e" "" ""
      examplePropsSpec.InputNodeProperties).2.2 none examplePropsSpec _ rfl (by decide)⟩

end Client

namespace Client

/-! ## C19: the empty input path -/

/-- The loader fails when its queue holds the empty string, within as many rounds as lead to
it: with the error for the empty input, or with the error of the round of a path before it. -/
theorem loadFilesLoop_empty_input (host : Host) (execRoot lwd rwd : String)
    (excl : List InputExclusion) (opts : TreeSymlinkOpts)
    (np : List (String × NodeProperties)) (pre : List String) :
    ∀ (fuel : Nat) (s : loadState) (rest : List String),
      s.filesToProcess = pre ++ "" :: rest → pre.length < fuel →
      ∃ e, loadFilesLoop host execRoot lwd rwd excl opts np fuel s = some (.error e) ∧
        (e = .emptyInput ∨ ∃ p ∈ pre, ∃ s2,
          loadFilesStep host execRoot lwd rwd excl opts np p s2 = .error e) := by
  induction pre with
  | nil =>
    intro fuel s rest hq hfuel
    cases fuel with
    | zero => cases hfuel
    | succ n =>
      rw [loadFilesLoop, hq]
      refine ⟨.emptyInput, ?_, Or.inl rfl⟩
      simp [loadFilesStep]
  | cons p pre ih =>
    intro fuel s rest hq hfuel
    cases fuel with
    | zero => cases hfuel
    | succ n =>
      rw [loadFilesLoop, hq]
      simp only [List.cons_append]
      cases hs : loadFilesStep host execRoot lwd rwd excl opts np p
          { s with filesToProcess := pre ++ "" :: rest } with
      | error e =>
        exact ⟨e, rfl, Or.inr ⟨p, List.mem_cons_self _ _, _, hs⟩⟩
      | ok s2 =>
        obtain ⟨adds, hadds⟩ := loadFilesStep_queue _ _ _ _ _ _ _ _ _ _ hs
        simp only at hadds
        have hq2 : s2.filesToProcess = pre ++ "" :: (rest ++ adds) := by
          rw [hadds]; simp
        obtain ⟨e, h1, h2⟩ := ih n s2 (rest ++ adds) hq2
          (Nat.lt_of_succ_lt_succ hfuel)
        refine ⟨e, h1, ?_⟩
        rcases h2 with h2 | ⟨p2, hp2, s3, h3⟩
        · exact Or.inl h2
        · exact Or.inr ⟨p2, List.mem_cons_of_mem _ hp2, s3, h3⟩

theorem ComputeMerkleTreeVirtual_empty_path (deps : Deps) (execRoot wd rwd : String)
    (np : List (String × NodeProperties)) (vis : List VirtualInput)
    (h : ∃ v ∈ vis, v.Path = "") :
    ∀ fs0, ∃ e, ComputeMerkleTreeVirtual deps execRoot wd rwd np vis fs0 = .error e := by
  induction vis with
  | nil =>
    obtain ⟨v, hv, -⟩ := h
    cases hv
  | cons i rest ih =>
    intro fs0
    rw [ComputeMerkleTreeVirtual]
    by_cases hp : i.Path = ""
    · exact ⟨.emptyVirtualPath, by rw [if_pos hp]⟩
    · rw [if_neg hp]
      have hrest : ∃ v ∈ rest, v.Path = "" := by
        obtain ⟨v, hv, hv2⟩ := h
        rcases List.mem_cons.1 hv with rfl | hv
        · exact absurd hv2 hp
        · exact ⟨v, hv, hv2⟩
      dsimp only
      cases getExecRootRelPaths (Join [execRoot, i.Path]) execRoot wd rwd with
      | error e => exact ⟨e, rfl⟩
      | ok pr =>
        obtain ⟨normPath, k⟩ := pr
        dsimp only
        by_cases he : i.IsEmptyDirectory = true
        · rw [if_pos he]
          by_cases hn : normPath ≠ "."
          · rw [if_pos hn]
            exact ih hrest _
          · rw [if_neg hn]
            exact ih hrest _
        · rw [if_neg he]
          exact ih hrest _

/-- C19: `loadFiles` on a list of inputs that holds the empty string returns an error, once
it may run as many rounds as the list has paths: the error for the empty input, unless the
round of a path before the empty string in the list fails, whose error it then returns.
Likewise `ComputeMerkleTree` returns an error when a virtual input has the empty path. -/
theorem loadFiles_empty_input (deps : Deps) (host : Host) (fuel : Nat)
    (execRoot lwd rwd : String) :
    (∀ (excl : List InputExclusion) (inputs : List String) (fs0 : List (String × fileSysNode))
        (opts : Option TreeSymlinkOpts) (np : List (String × NodeProperties)),
      "" ∈ inputs → inputs.length ≤ fuel →
      ∃ e, loadFiles host fuel execRoot lwd rwd excl inputs fs0 opts np = some (.error e) ∧
        (e = .emptyInput ∨ ∃ pre post p s2, inputs = pre ++ "" :: post ∧ p ∈ pre ∧
          loadFilesStep host execRoot lwd rwd excl (opts.getD DefaultTreeSymlinkOpts) np p s2 =
            .error e)) ∧
    (∀ (clientOpts : Option TreeSymlinkOpts) (verbose : Bool) (is : InputSpec),
      (∃ v ∈ is.VirtualInputs, v.Path = "") →
      ∃ e, ComputeMerkleTree deps host fuel clientOpts verbose execRoot lwd rwd is =
        some (.error e)) := by
  constructor
  · intro excl inputs fs0 opts np hmem hfuel
    obtain ⟨pre, post, hsplit⟩ := List.append_of_mem hmem
    have hlen : pre.length < fuel := by
      have : inputs.length = pre.length + (post.length + 1) := by
        rw [hsplit]; simp
      omega
    obtain ⟨e, h1, h2⟩ := loadFilesLoop_empty_input host execRoot lwd rwd excl
      (opts.getD DefaultTreeSymlinkOpts) np pre fuel
      { filesToProcess := inputs, fs := fs0, seenAncestorSymlinkRel := [] } post hsplit hlen
    refine ⟨e, h1, ?_⟩
    rcases h2 with h2 | ⟨p, hp, s2, h3⟩
    · exact Or.inl h2
    · exact Or.inr ⟨pre, post, p, s2, hsplit, hp, h3⟩
  · intro clientOpts verbose is hv
    obtain ⟨e, he⟩ := ComputeMerkleTreeVirtual_empty_path deps execRoot lwd rwd
      is.InputNodeProperties is.VirtualInputs hv []
    exact ⟨e, by simp only [ComputeMerkleTree, ComputeMerkleTreeFlat, he]⟩

/-- C19 on the example file system: the inputs `a.txt`, the empty string and `d` make
`loadFiles` fail with the error for the empty input, and a virtual input with the empty path
makes `ComputeMerkleTree` fail. -/
theorem loadFiles_empty_input_witness :
    loadFiles exampleHost 3 "/e" "" "" [] ["a.txt", "", "d"] [] none [] =
        some (.error .emptyInput) ∧
      ComputeMerkleTree exampleDeps exampleHost 3 none false "/e" "" "" exampleEmptyPathSpec =
        some (.error .emptyVirtualPath) ∧
      (∃ e, loadFiles exampleHost 3 "/e" "" "" [] ["a.txt", "", "d"] [] none [] =
          some (.error e) ∧
        (e = .emptyInput ∨ ∃ pre post p s2, ["a.txt", "", "d"] = pre ++ "" :: post ∧ p ∈ pre ∧
          loadFilesStep exampleHost "/e" "" "" [] (none.getD DefaultTreeSymlinkOpts) [] p s2 =
            .error e)) ∧
      ∃ e, ComputeMerkleTree exampleDeps exampleHost 3 none false "/e" "" ""
        exampleEmptyPathSpec = some (.error e) :=
  ⟨by decide, by decide,
    (loadFiles_empty_input exampleDeps exampleHost 3 "/e" "" "").1 [] ["a.txt", "", "d"] []
      none [] (by simp) (by decide),
    (loadFiles_empty_input exampleDeps exampleHost 3 "/e" "" "").2 none false
      exampleEmptyPathSpec ⟨_, List.mem_cons_of_mem _ (List.mem_cons_self _ _), rfl⟩⟩

end Client

namespace Client

/-! ## C20: dangling symlinks under the resolve policy -/

/-- The round of the loader checks that the path is not empty and lies under the exec root
before it looks at the metadata: for the input `../l` under the exec root `/e`, `loadFiles`
returns the error that `/l` is not under `/e`, and for the empty input the error for the empty
input, whatever the metadata of those paths report. -/
theorem loadFiles_dangling_error :
    (exampleDanglingHost.Get (Join ["/e", "../l"])).Symlink =
        some { Target := "nowhere", IsDangling := true } ∧
      loadFiles exampleDanglingHost 5 "/e" "" "" [] ["../l"] [] none [] =
        some (.error (.notUnder "/l" "/e")) ∧
      (exampleDanglingHost.Get (Join ["/e/l", ""])).Symlink =
        some { Target := "nowhere", IsDangling := true } ∧
      loadFiles exampleDanglingHost 5 "/e/l" "" "" [] [""] [] none [] =
        some (.error .emptyInput) := by
  decide

theorem loadFilesStep_dangling (host : Host) (execRoot lwd rwd : String)
    (excl : List InputExclusion) (opts : TreeSymlinkOpts)
    (np : List (String × NodeProperties)) (path : String) (s : loadState)
    (hP : opts.Preserved = false) (hd : DanglingInput host execRoot lwd rwd path) :
    loadFilesStep host execRoot lwd rwd excl opts np path s = .ok s := by
  obtain ⟨h0, ⟨r, hr⟩, sl, hsl, hdang⟩ := hd
  obtain ⟨normPath, k⟩ := r
  have hnp : ¬ opts.Preserved = true := by simp [hP]
  rw [loadFilesStep_classify, if_neg h0, if_neg hnp]
  unfold loadFilesClassify
  rw [hr]
  dsimp only
  rw [hsl]
  dsimp only
  rw [if_pos ⟨hdang, hnp⟩]

/-- C20: when symlinks are resolved, the round of the loader for a dequeued path whose
metadata it comes to read (the path is not empty and lies under the exec root, so that its
local and remote paths can be computed) and whose metadata reports a dangling symlink leaves
the state as it is: no entry is added, nothing is queued, and there is no error.  Hence
`loadFiles` on a list of such paths, once it may run as many rounds as the list has paths,
succeeds and returns the flat map that it was given. -/
theorem loadFiles_dangling_dropped (host : Host) (fuel : Nat) (execRoot lwd rwd : String)
    (excl : List InputExclusion) (opts : Option TreeSymlinkOpts)
    (np : List (String × NodeProperties))
    (hP : (opts.getD DefaultTreeSymlinkOpts).Preserved = false) :
    (∀ path s, DanglingInput host execRoot lwd rwd path →
      loadFilesStep host execRoot lwd rwd excl (opts.getD DefaultTreeSymlinkOpts) np path s =
        .ok s) ∧
    (∀ (inputs : List String) (fs0 : List (String × fileSysNode)),
      (∀ p ∈ inputs, DanglingInput host execRoot lwd rwd p) → inputs.length ≤ fuel →
      loadFiles host fuel execRoot lwd rwd excl inputs fs0 opts np = some (.ok fs0)) := by
  refine ⟨fun path s hd => loadFilesStep_dangling _ _ _ _ _ _ _ _ _ hP hd, ?_⟩
  intro inputs fs0 hall hfuel
  simp only [loadFiles]
  induction inputs generalizing fuel with
  | nil => rw [loadFilesLoop]
  | cons p rest ih =>
    cases fuel with
    | zero => simp at hfuel
    | succ n =>
      rw [loadFilesLoop]
      simp only
      rw [loadFilesStep_dangling _ _ _ _ _ _ _ _ _ hP (hall p (List.mem_cons_self _ _))]
      exact ih n (fun q hq => hall q (List.mem_cons_of_mem _ hq))
        (Nat.le_of_succ_le_succ hfuel)

/-- C20 on the example file system: the input `l`, a dangling symlink under
the exec root, is dropped, and the flat map stays empty. -/
theorem loadFiles_dangling_dropped_witness :
    (DefaultTreeSymlinkOpts).Preserved = false ∧
      DanglingInput exampleDanglingHost "/e" "" "" "l" ∧
      loadFiles exampleDanglingHost 2 "/e" "" "" [] ["l", "l"] [] none [] = some (.ok []) :=
  have hd : DanglingInput exampleDanglingHost "/e" "" "" "l" :=
    ⟨by decide, ⟨("l", "l"), by decide⟩, { Target := "nowhere", IsDangling := true },
      by decide, rfl⟩
  ⟨rfl, hd,
    (loadFiles_dangling_dropped exampleDanglingHost 2 "/e" "" "" [] none [] rfl).2 ["l", "l"] []
      (by
        intro p hp
        rcases List.mem_cons.1 hp with rfl | hp
        · exact hd
        · rcases List.mem_cons.1 hp with rfl | hp
          · exact hd
          · cases hp)
      (by decide)⟩

end Client

namespace Client

/-! ## The output packager, exactly -/

/-- A child on which `packageTree` succeeds passes its round of `packageDirectories`, which
finds the descriptor and the digest that `packageTree` computes for it. -/
theorem pd_child_facts (deps : Deps) (c : treeNode) (hwf : c.WF)
    (hok : (packageTreeRes deps c).isOk = true) :
    pdGood deps c ∧ pdRoot deps c = descriptorOf deps c ∧
      pdDigest deps c = rootDigest deps c ∧
      (pdChildren deps c).Perm (c.nodes.tail.map (descriptorOf deps)) := by
  have h1 := (packageTreeRes_isOk deps c).1 hok
  obtain ⟨files, ch, hpd, hch⟩ := (packageDirectories_spec deps c hwf).1 h1.1
  obtain ⟨e1, -, e3⟩ := pd_of_eq deps c _ _ _ hpd
  obtain ⟨ue, hue, hrd⟩ := rootDigest_of_isOk deps c hok
  refine ⟨⟨by rw [hpd]; rfl, by rw [e1]; exact h1.2⟩, e1, ?_, by rw [e3]; exact hch⟩
  rw [pdDigest, e1, hue, hrd]

/-- When `packageDirectories` succeeds on a node, `packageTree` succeeds on every child. -/
theorem packageDirectories_children_ok (deps : Deps) (t : treeNode) (hwf : t.WF)
    (hok : (packageDirectories deps t).isOk = true) :
    ∀ nc ∈ t.children, (packageTreeRes deps nc.2).isOk = true := by
  by_contra hcon
  have := (packageDirectories_spec deps t hwf).2 hcon
  rw [hok] at this
  cases this

/-- What `packageDirectories` returns on a node for whose children `packageTree` succeeds: the
descriptor of the node, the files of the children and of the node, and the list that holds, for
every child in ascending order of name, the descriptor of the child followed by the list of the
child. -/
theorem packageDirectories_exact (deps : Deps) (leaves : List (String × fileSysNode))
    (children : List (String × treeNode)) (hwf : (treeNode.mk leaves children).WF)
    (hall : ∀ nc ∈ children, (packageTreeRes deps nc.2).isOk = true) :
    packageDirectories deps (.mk leaves children) =
      .ok (descriptorOf deps (.mk leaves children),
        mapMerge ((sortStrings (mapKeys children)).foldl
          (fun b name => mapMerge b (pdFiles deps (childAt children name))) [])
          (leafBlobs leaves),
        { Root := none,
          Children := ((sortStrings (mapKeys children)).map (fun name =>
            descriptorOf deps (childAt children name) ::
              pdChildren deps (childAt children name))).flatten }) := by
  rw [treeNode.WF_mk] at hwf
  obtain ⟨-, hnc, hwc⟩ := hwf
  have hperm : (sortStrings (mapKeys children)).Perm (mapKeys children) := sortSlice_perm _ _
  have hname : ∀ name ∈ sortStrings (mapKeys children),
      ∃ c, mapGet children name = some c ∧ (name, c) ∈ children ∧ childAt children name = c := by
    intro name hname
    obtain ⟨c, hc, hmem⟩ := childAt_mem children name (hperm.mem_iff.1 hname)
    exact ⟨c, hc, hmem, by simp [childAt, hc]⟩
  have hok : ∀ name ∈ sortStrings (mapKeys children),
      ∃ c, mapGet children name = some c ∧ pdGood deps c := by
    intro name hn
    obtain ⟨c, hc, hmem, -⟩ := hname name hn
    exact ⟨c, hc, (pd_child_facts deps c (hwc _ hmem) (hall _ hmem)).1⟩
  rw [packageDirectories, packageDirectories_fold_ok deps children _ hok,
    packageDirectoriesSorted_ok]
  have hpair : ((sortStrings (mapKeys children)).map
      (fun name => (name, childAt children name))).Perm children := by
    have := hperm.map (fun name => (name, childAt children name))
    rwa [map_childAt children hnc] at this
  have hentries : ((sortStrings (mapKeys children)).map (fun name =>
      ({ Name := name, Digest := (pdDigest deps (childAt children name)).ToProto } :
        DirectoryNode))).Perm (childEntries deps children) := by
    have h1 := hpair.map (fun nc : String × treeNode =>
      ({ Name := nc.1, Digest := (pdDigest deps nc.2).ToProto } : DirectoryNode))
    rw [List.map_map] at h1
    refine h1.trans (List.Perm.of_eq ?_)
    simp only [childEntries]
    apply List.map_congr_left
    intro nc hmem
    rw [(pd_child_facts deps nc.2 (hwc _ hmem) (hall nc hmem)).2.2.1]
  have hdirs : sortSlice (fun a b : DirectoryNode => strLess a.Name b.Name)
      ((sortStrings (mapKeys children)).map (fun name =>
        ({ Name := name, Digest := (pdDigest deps (childAt children name)).ToProto } :
          DirectoryNode))) =
      sortSlice (fun a b : DirectoryNode => strLess a.Name b.Name)
        (childEntries deps children) := by
    apply sortSlice_eq_of_perm (fun f : DirectoryNode => f.Name) _ _ hentries
    rw [List.map_map]
    have hid : ((fun f : DirectoryNode => f.Name) ∘ fun name =>
        ({ Name := name, Digest := (pdDigest deps (childAt children name)).ToProto } :
          DirectoryNode)) = id := rfl
    rw [hid, List.map_id]
    exact (hperm.nodup_iff).2 hnc
  have hch : (List.map (fun name => pdRoot deps (childAt children name) ::
        pdChildren deps (childAt children name)) (sortStrings (mapKeys children))) =
      (List.map (fun name => descriptorOf deps (childAt children name) ::
        pdChildren deps (childAt children name)) (sortStrings (mapKeys children))) := by
    apply List.map_congr_left
    intro name hn
    obtain ⟨c, -, hmem, hc⟩ := hname name hn
    rw [hc, (pd_child_facts deps c (hwc _ hmem) (hall _ hmem)).2.1]
  simp only [descriptorOf, Directory.empty, List.nil_append, treeNode.leaves,
    treeNode.children, hdirs, hch]

/-- The keys of a map into which a list of maps has been merged. -/
theorem mem_keys_foldl_mapMerge {κ α β : Type} [DecidableEq κ] (f : β → List (κ × α))
    (names : List β) (init : List (κ × α)) (d : κ) :
    d ∈ mapKeys (names.foldl (fun b name => mapMerge b (f name)) init) ↔
      d ∈ mapKeys init ∨ ∃ name ∈ names, d ∈ mapKeys (f name) := by
  induction names generalizing init with
  | nil => simp
  | cons n rest ih =>
    rw [List.foldl_cons, ih, mem_mapKeys_mapMerge]
    constructor
    · rintro ((h | h) | ⟨m, hm, h⟩)
      · exact .inl h
      · exact .inr ⟨n, List.mem_cons_self _ _, h⟩
      · exact .inr ⟨m, List.mem_cons_of_mem _ hm, h⟩
    · rintro (h | ⟨m, hm, h⟩)
      · exact .inl (.inl h)
      · rcases List.mem_cons.1 hm with rfl | hm
        · exact .inl (.inr h)
        · exact .inr ⟨m, hm, h⟩

/-- The keys of the files that `packageDirectories` returns are the digests of the file
leaves of the tree. -/
theorem pdFiles_keys (deps : Deps) : ∀ t : treeNode, t.WF →
    (packageDirectories deps t).isOk = true →
    ∀ d, d ∈ mapKeys (pdFiles deps t) ↔ d ∈ t.fileEntries.map (fun e => e.Digest) := by
  apply treeNode.induct_aux
  intro leaves children ih hwf hok d
  have hall := packageDirectories_children_ok deps _ hwf hok
  simp only [treeNode.children] at hall
  have hex := packageDirectories_exact deps leaves children hwf hall
  rw [treeNode.WF_mk] at hwf
  obtain ⟨-, hnc, hwc⟩ := hwf
  have hperm : (sortStrings (mapKeys children)).Perm (mapKeys children) := sortSlice_perm _ _
  rw [(pd_of_eq deps _ _ _ _ hex).2.1, mem_mapKeys_mapMerge, mem_keys_foldl_mapMerge,
    treeNode.fileEntries_mk, List.map_append, List.mem_append, leafBlobs_keys]
  have hchild : (∃ name ∈ sortStrings (mapKeys children),
        d ∈ mapKeys (pdFiles deps (childAt children name))) ↔
      d ∈ ((children.map (fun nc => nc.2.fileEntries)).flatten).map (fun e => e.Digest) := by
    constructor
    · rintro ⟨name, hn, hd⟩
      obtain ⟨c, hc, hmem⟩ := childAt_mem children name (hperm.mem_iff.1 hn)
      have hcc : childAt children name = c := by simp [childAt, hc]
      rw [hcc] at hd
      have hcok : (packageDirectories deps c).isOk = true :=
        (pd_child_facts deps c (hwc _ hmem) (hall _ hmem)).1.1
      have := (ih (name, c) hmem (hwc _ hmem) hcok d).1 hd
      obtain ⟨e, he, hed⟩ := List.mem_map.1 this
      exact List.mem_map.2 ⟨e, List.mem_flatten.2 ⟨_, List.mem_map.2 ⟨(name, c), hmem, rfl⟩, he⟩,
        hed⟩
    · intro h
      obtain ⟨e, he, hed⟩ := List.mem_map.1 h
      obtain ⟨l, hl, hel⟩ := List.mem_flatten.1 he
      obtain ⟨nc, hmem, rfl⟩ := List.mem_map.1 hl
      have hcok : (packageDirectories deps nc.2).isOk = true :=
        (pd_child_facts deps nc.2 (hwc _ hmem) (hall _ hmem)).1.1
      refine ⟨nc.1, hperm.mem_iff.2 (List.mem_map.2 ⟨nc, hmem, rfl⟩), ?_⟩
      have hcc : childAt children nc.1 = nc.2 := by
        simp [childAt, mapGet_eq_some_of_mem children nc.1 nc.2 hnc hmem]
      rw [hcc]
      exact (ih nc hmem (hwc _ hmem) hcok d).2 (List.mem_map.2 ⟨e, hel, hed⟩)
  rw [hchild]
  simp only [mapKeys, List.map_nil, List.not_mem_nil, false_or]
  tauto

end Client

namespace Client

/-! ## The descriptor of a node and the descriptors below it -/

theorem treeNode.height_mk (l : List (String × fileSysNode)) (c : List (String × treeNode)) :
    (treeNode.mk l c).height = childrenHeight c := by
  rw [treeNode.height]

theorem childrenHeight_ge (cs : List (String × treeNode)) :
    ∀ nc ∈ cs, nc.2.height + 1 ≤ childrenHeight cs := by
  induction cs with
  | nil => intro nc h; cases h
  | cons x rest ih =>
    obtain ⟨n, c⟩ := x
    intro nc h
    rw [childrenHeight]
    rcases List.mem_cons.1 h with rfl | h
    · exact le_max_left _ _
    · exact le_trans (ih nc h) (le_max_right _ _)

theorem childrenHeight_le (cs : List (String × treeNode)) (k : Nat)
    (h : ∀ nc ∈ cs, nc.2.height + 1 ≤ k) : childrenHeight cs ≤ k := by
  induction cs with
  | nil => simp [childrenHeight]
  | cons x rest ih =>
    obtain ⟨n, c⟩ := x
    rw [childrenHeight]
    exact max_le (h (n, c) (List.mem_cons_self _ _))
      (ih (fun nc hnc => h nc (List.mem_cons_of_mem _ hnc)))

/-- A node below a node is less high. -/
theorem treeNode.height_of_mem_tail : ∀ t : treeNode, ∀ n ∈ t.nodes.tail, n.height < t.height := by
  apply treeNode.induct_aux
  intro leaves children ih n hn
  rw [treeNode.nodes_tail_mk] at hn
  obtain ⟨l, hl, hnl⟩ := List.mem_flatten.1 hn
  obtain ⟨nc, hnc, rfl⟩ := List.mem_map.1 hl
  rw [treeNode.height_mk]
  have h1 := childrenHeight_ge children nc hnc
  rw [treeNode.nodes_eq_cons nc.2] at hnl
  rcases List.mem_cons.1 hnl with rfl | h
  · omega
  · have := ih nc hnc n h
    omega

/-- The children of a node below a node are below that node. -/
theorem treeNode.child_mem_tail (t a : treeNode) (ha : a ∈ t.nodes) :
    ∀ nc ∈ a.children, nc.2 ∈ t.nodes.tail := by
  revert a
  apply treeNode.induct_aux (fun t => ∀ a ∈ t.nodes, ∀ nc ∈ a.children, nc.2 ∈ t.nodes.tail)
  intro leaves children ih a ha nc hnc
  rw [treeNode.nodes_tail_mk]
  rw [treeNode.nodes_mk] at ha
  rcases List.mem_cons.1 ha with rfl | ha
  · simp only [treeNode.children] at hnc
    refine List.mem_flatten.2 ⟨nc.2.nodes, List.mem_map.2 ⟨nc, hnc, rfl⟩, ?_⟩
    rw [treeNode.nodes_eq_cons]
    exact List.mem_cons_self _ _
  · obtain ⟨l, hl, hal⟩ := List.mem_flatten.1 ha
    obtain ⟨nc2, hnc2, rfl⟩ := List.mem_map.1 hl
    have := ih nc2 hnc2 a hal nc hnc
    refine List.mem_flatten.2 ⟨nc2.2.nodes, List.mem_map.2 ⟨nc2, hnc2, rfl⟩, ?_⟩
    exact List.mem_of_mem_tail this

/-- Two nodes with the same descriptor, in a tree without collisions: the first is not higher
than the second. -/
theorem treeNode.height_le_of_descriptor (deps : Deps) (t : treeNode)
    (hcf : t.CollisionFree deps) :
    ∀ a : treeNode, a ∈ t.nodes → ∀ b ∈ t.nodes,
      descriptorOf deps a = descriptorOf deps b → a.height ≤ b.height := by
  apply treeNode.induct_aux
    (fun a => a ∈ t.nodes → ∀ b ∈ t.nodes,
      descriptorOf deps a = descriptorOf deps b → a.height ≤ b.height)
  intro leaves children ih ha b hb hd
  rw [treeNode.height_mk]
  apply childrenHeight_le
  intro nc hnc
  -- the entry of the child is an entry of the other descriptor
  have hent : ({ Name := nc.1, Digest := (rootDigest deps nc.2).ToProto } : DirectoryNode) ∈
      (descriptorOf deps b).Directories := by
    rw [← hd]
    simp only [descriptorOf, treeNode.children]
    exact (sortSlice_perm _ _).mem_iff.2 (List.mem_map.2 ⟨nc, hnc, rfl⟩)
  simp only [descriptorOf] at hent
  obtain ⟨nc2, hnc2, heq⟩ := List.mem_map.1 ((sortSlice_perm _ _).mem_iff.1 hent)
  have hdg : rootDigest deps nc2.2 = rootDigest deps nc.2 := by
    have := congrArg (fun d : DirectoryNode => NewFromProtoUnvalidated d.Digest) heq
    simpa [NewFromProtoUnvalidated_ToProto] using this
  have h1 : nc.2 ∈ t.nodes.tail :=
    treeNode.child_mem_tail t _ ha nc (by simpa [treeNode.children] using hnc)
  have h2 : nc2.2 ∈ t.nodes.tail := treeNode.child_mem_tail t b hb nc2 hnc2
  have hdesc := hcf nc.2 h1 nc2.2 h2 hdg.symm
  have := ih nc hnc (List.mem_of_mem_tail h1) nc2.2 (List.mem_of_mem_tail h2) hdesc
  have h3 : nc2.2.height + 1 ≤ b.height := by
    obtain ⟨bl, bc⟩ := b
    rw [treeNode.height_mk]
    exact childrenHeight_ge bc nc2 hnc2
  omega

/-- In a tree without collisions the descriptor of the root is not the descriptor of a node
below it. -/
theorem treeNode.descriptor_ne_of_mem_tail (deps : Deps) (t : treeNode)
    (hcf : t.CollisionFree deps) :
    ∀ n ∈ t.nodes.tail, descriptorOf deps n ≠ descriptorOf deps t := by
  intro n hn heq
  have h1 := treeNode.height_of_mem_tail t n hn
  have ht : t ∈ t.nodes := by rw [treeNode.nodes_eq_cons]; exact List.mem_cons_self _ _
  have h2 := treeNode.height_le_of_descriptor deps t hcf t ht n (List.mem_of_mem_tail hn) heq.symm
  omega

end Client

namespace Client

/-! ## The two packagers on the nodes of a tree -/

/-- The nodes of a node of a tree are nodes of the tree. -/
theorem treeNode.nodes_trans : ∀ t : treeNode, ∀ n ∈ t.nodes, ∀ m ∈ n.nodes, m ∈ t.nodes := by
  apply treeNode.induct_aux
  intro leaves children ih n hn m hm
  rw [treeNode.nodes_mk] at hn
  rcases List.mem_cons.1 hn with rfl | hn
  · exact hm
  · obtain ⟨l, hl, hnl⟩ := List.mem_flatten.1 hn
    obtain ⟨nc, hnc, rfl⟩ := List.mem_map.1 hl
    exact treeNode.child_nodes_subset leaves children nc hnc m (ih nc hnc n hnl m hm)

/-- A node of a tree of Go maps is a tree of Go maps. -/
theorem treeNode.WF_of_mem (t n : treeNode) (hwf : t.WF) (hn : n ∈ t.nodes) : n.WF :=
  fun m hm => hwf m (treeNode.nodes_trans t n hn m hm)

/-- `packageTree` succeeds on a node exactly when the descriptor of every node of the tree can
be serialized. -/
theorem packageTreeRes_isOk_nodes (deps : Deps) : ∀ t : treeNode,
    ((packageTreeRes deps t).isOk = true ↔
      ∀ n ∈ t.nodes, (EntryFromProto deps (descriptorOf deps n)).isOk = true) := by
  apply treeNode.induct_aux
  intro leaves children ih
  rw [packageTreeRes_isOk_mk, treeNode.nodes_mk]
  constructor
  · rintro ⟨hc, hr⟩ n hn
    rcases List.mem_cons.1 hn with rfl | hn
    · exact hr
    · obtain ⟨l, hl, hnl⟩ := List.mem_flatten.1 hn
      obtain ⟨nc, hnc, rfl⟩ := List.mem_map.1 hl
      exact (ih nc hnc).1 (hc nc hnc) n hnl
  · intro h
    refine ⟨fun nc hnc => (ih nc hnc).2 (fun n hn => h n ?_), h _ (List.mem_cons_self _ _)⟩
    exact List.mem_cons_of_mem _
      (List.mem_flatten.2 ⟨nc.2.nodes, List.mem_map.2 ⟨nc, hnc, rfl⟩, hn⟩)

/-- `packageTree` succeeds on the nodes of a tree on which it succeeds. -/
theorem packageTreeRes_isOk_of_mem (deps : Deps) (t n : treeNode)
    (hok : (packageTreeRes deps t).isOk = true) (hn : n ∈ t.nodes) :
    (packageTreeRes deps n).isOk = true :=
  (packageTreeRes_isOk_nodes deps n).2 (fun m hm =>
    (packageTreeRes_isOk_nodes deps t).1 hok m (treeNode.nodes_trans t n hn m hm))

/-- `packageTree` succeeds on the nodes below a node on which `packageDirectories`
succeeds. -/
theorem packageTreeRes_isOk_of_mem_tail (deps : Deps) (t n : treeNode) (hwf : t.WF)
    (hok : (packageDirectories deps t).isOk = true) (hn : n ∈ t.nodes.tail) :
    (packageTreeRes deps n).isOk = true := by
  obtain ⟨leaves, children⟩ := t
  rw [treeNode.nodes_tail_mk] at hn
  obtain ⟨l, hl, hnl⟩ := List.mem_flatten.1 hn
  obtain ⟨nc, hnc, rfl⟩ := List.mem_map.1 hl
  exact packageTreeRes_isOk_of_mem deps nc.2 n
    (packageDirectories_children_ok deps _ hwf hok nc hnc) hnl

/-- `packageDirectories` succeeds on a node when the descriptor of every node below it can be
serialized. -/
theorem packageDirectories_isOk (deps : Deps) (t : treeNode) (hwf : t.WF)
    (h : ∀ n ∈ t.nodes.tail, (EntryFromProto deps (descriptorOf deps n)).isOk = true) :
    ∃ files ch, packageDirectories deps t =
      .ok (descriptorOf deps t, files, { Root := none, Children := ch }) := by
  have hall : ∀ nc ∈ t.children, (packageTreeRes deps nc.2).isOk = true := by
    intro nc hnc
    apply (packageTreeRes_isOk_nodes deps nc.2).2
    intro n hn
    apply h
    obtain ⟨leaves, children⟩ := t
    rw [treeNode.nodes_tail_mk]
    exact List.mem_flatten.2 ⟨nc.2.nodes, List.mem_map.2 ⟨nc, hnc, rfl⟩, hn⟩
  obtain ⟨files, ch, hpd, -⟩ := (packageDirectories_spec deps t hwf).1 hall
  exact ⟨files, ch, hpd⟩

/-- The descriptor that `packageTree` builds for a node on whose children it succeeds is the
descriptor of the node. -/
theorem packageTreeDir_descriptor (deps : Deps) (t : treeNode) (st : pkgState) (pfx : String)
    (hall : ∀ nc ∈ t.children, (packageTreeRes deps nc.2).isOk = true) :
    ∃ blobs, (packageTreeDir deps t st pfx).1 = .ok (descriptorOf deps t, blobs) := by
  obtain ⟨leaves, children⟩ := t
  simp only [treeNode.children] at hall
  simp only [packageTreeDir, treeNode.leaves, treeNode.children]
  have h1 := (packageTreeChildren_ok deps children (fun nc _ => treeNode.good deps nc.2) hall
    pfx Directory.empty [] st).1
  rcases hc : packageTreeChildren deps pfx children Directory.empty [] st with ⟨r, s⟩
  rw [hc] at h1
  simp only at h1
  subst h1
  rw [packageTreeSorted_fst]
  exact ⟨_, rfl⟩

end Client

namespace Client

/-! ## The symlink resolver, element by element -/

theorem joinSep_snoc (pre : List String) (b : String) :
    joinSep (pre ++ [b]) = (if pre = [] then "" else joinSep pre ++ "/") ++ b := by
  by_cases h : pre = []
  · subst h
    simp [joinSep_singleton]
  · rw [if_neg h, joinSep_append pre [b] h (by simp), joinSep_singleton]

/-- The text that the loop of `evalParentSymlinks` holds in its builder before it writes the
next element, when the elements `pre` are written. -/
theorem evaled_sep (pre : List String) (first : Bool) (evaled : String)
    (he : evaled = joinSep pre) (hf : first = true ↔ pre = []) (p : String) :
    (if first = true then evaled else evaled ++ "/") ++ p = joinSep (pre ++ [p]) := by
  rw [joinSep_snoc, he]
  by_cases h : pre = []
  · rw [if_pos (hf.2 h), if_pos h, h, joinSep_nil]
  · rw [if_neg (fun hc => h (hf.1 hc)), if_neg h]

theorem evalParentSymlinksLoop_last (host : Host) (execRoot : String) (mat first : Bool)
    (p evaled target : String) (symlinks : List String) :
    evalParentSymlinksLoop host execRoot mat first [p] evaled target symlinks =
      .ok ((if first = true then evaled else evaled ++ "/") ++ p, symlinks) := by
  rw [evalParentSymlinksLoop]

theorem evalParentSymlinksLoop_cons (host : Host) (execRoot : String) (mat first : Bool)
    (p q : String) (qs : List String) (evaled target : String) (symlinks : List String) :
    evalParentSymlinksLoop host execRoot mat first (p :: q :: qs) evaled target symlinks =
      match (host.Get (Join [execRoot,
          (if first = true then evaled else evaled ++ "/") ++ p])).Symlink with
      | none =>
        evalParentSymlinksLoop host execRoot mat false (q :: qs)
          ((if first = true then evaled else evaled ++ "/") ++ p)
          ((if first = true then target else target ++ "/") ++ p) symlinks
      | some sl =>
        match getTargetRelPath execRoot ((if first = true then evaled else evaled ++ "/") ++ p)
            ((if IsAbs sl.Target = true then ""
              else if first = true then target else target ++ "/") ++ sl.Target) with
        | .error e =>
          if mat = true then
            evalParentSymlinksLoop host execRoot mat false (q :: qs)
              ((if first = true then evaled else evaled ++ "/") ++ p)
              ((if IsAbs sl.Target = true then ""
                else if first = true then target else target ++ "/") ++ sl.Target) symlinks
          else .error e
        | .ok (_, r) =>
          evalParentSymlinksLoop host execRoot mat false (q :: qs)
            ((if first = true then evaled else evaled ++ "/") ++ r)
            ((if IsAbs sl.Target = true then ""
              else if first = true then target else target ++ "/") ++ sl.Target)
            (symlinks ++ [(if first = true then evaled else evaled ++ "/") ++ p]) := by
  rfl

/-- What the loop of `evalParentSymlinks` returns, told element by element. -/
theorem evalParentSymlinksLoop_resolved (host : Host) (execRoot : String) (mat : Bool)
    (base : String) :
    ∀ (parents pre : List String) (tgt : String) (first : Bool) (evaled target : String)
      (symlinks0 : List String) (ev : String) (syms : List String),
      evaled = joinSep pre → (first = true ↔ pre = []) →
      (if first = true then target else target ++ "/") = tgt →
      evalParentSymlinksLoop host execRoot mat first (parents ++ [base]) evaled target
        symlinks0 = .ok (ev, syms) →
      ∃ parts symsNew, ParentsResolved host execRoot mat pre tgt parents parts symsNew ∧
        syms = symlinks0 ++ symsNew ∧ ev = joinSep (pre ++ parts ++ [base]) := by
  intro parents
  induction parents with
  | nil =>
    intro pre tgt first evaled target symlinks0 ev syms he hf _ h
    rw [List.nil_append, evalParentSymlinksLoop_last] at h
    simp only [Except.ok.injEq, Prod.mk.injEq] at h
    refine ⟨[], [], .done pre tgt, by simp [h.2], ?_⟩
    rw [← h.1, List.append_nil]
    exact evaled_sep pre first evaled he hf base
  | cons p rest ih =>
    intro pre tgt first evaled target symlinks0 ev syms he hf htg h
    have hrel := evaled_sep pre first evaled he hf p
    obtain ⟨q, qs, hq⟩ : ∃ q qs, rest ++ [base] = q :: qs := by
      cases rest with
      | nil => exact ⟨base, [], rfl⟩
      | cons r rs => exact ⟨r, rs ++ [base], rfl⟩
    rw [List.cons_append, hq, evalParentSymlinksLoop_cons] at h
    simp only [hrel, htg] at h
    cases hs : (host.Get (Join [execRoot, joinSep (pre ++ [p])])).Symlink with
    | none =>
      rw [hs] at h
      simp only at h
      rw [← hq] at h
      obtain ⟨parts, symsNew, hres, hsy, hev⟩ :=
        ih (pre ++ [p]) (tgt ++ p ++ "/") false (joinSep (pre ++ [p])) _ symlinks0 ev syms rfl
          (by simp) (by simp) h
      refine ⟨p :: parts, symsNew, .keep pre tgt p rest parts symsNew hs hres, hsy, ?_⟩
      rw [hev]
      simp [List.append_assoc]
    | some sl =>
      rw [hs] at h
      simp only at h
      cases ht : getTargetRelPath execRoot (joinSep (pre ++ [p]))
          ((if IsAbs sl.Target = true then "" else tgt) ++ sl.Target) with
      | error e =>
        rw [ht] at h
        simp only at h
        by_cases hm : mat = true
        · rw [if_pos hm, ← hq] at h
          obtain ⟨parts, symsNew, hres, hsy, hev⟩ :=
            ih (pre ++ [p]) ((if IsAbs sl.Target = true then "" else tgt) ++ sl.Target ++ "/")
              false (joinSep (pre ++ [p])) _ symlinks0 ev syms rfl (by simp) (by simp) h
          refine ⟨p :: parts, symsNew,
            .materialize pre tgt p rest parts symsNew sl e hs ht hm hres, hsy, ?_⟩
          rw [hev]
          simp [List.append_assoc]
        · rw [if_neg hm] at h
          cases h
      | ok r =>
        obtain ⟨r1, r2⟩ := r
        rw [ht] at h
        simp only at h
        rw [← hq] at h
        have hrel2 := evaled_sep pre first evaled he hf r2
        obtain ⟨parts, symsNew, hres, hsy, hev⟩ :=
          ih (pre ++ [r2]) ((if IsAbs sl.Target = true then "" else tgt) ++ sl.Target ++ "/")
            false _ _ (symlinks0 ++ [joinSep (pre ++ [p])]) ev syms hrel2
            (by simp) (by simp) h
        refine ⟨r2 :: parts, joinSep (pre ++ [p]) :: symsNew,
          .replace pre tgt p rest parts symsNew sl r1 r2 hs ht hres, ?_, ?_⟩
        · rw [hsy]; simp
        · rw [hev]
          simp [List.append_assoc]

/-- The loop of `evalParentSymlinks` returns what the telling element by element says. -/
theorem evalParentSymlinksLoop_of_resolved (host : Host) (execRoot : String) (mat : Bool)
    (base : String) (pre : List String) (tgt : String) (parents parts symsNew : List String)
    (hres : ParentsResolved host execRoot mat pre tgt parents parts symsNew) :
    ∀ (first : Bool) (evaled target : String) (symlinks0 : List String),
      evaled = joinSep pre → (first = true ↔ pre = []) →
      (if first = true then target else target ++ "/") = tgt →
      evalParentSymlinksLoop host execRoot mat first (parents ++ [base]) evaled target
        symlinks0 = .ok (joinSep (pre ++ parts ++ [base]), symlinks0 ++ symsNew) := by
  induction hres with
  | done pre tgt =>
    intro first evaled target symlinks0 he hf _
    rw [List.nil_append, evalParentSymlinksLoop_last, List.append_nil, List.append_nil,
      evaled_sep pre first evaled he hf base]
  | keep pre tgt p rest parts symlinks hs _ ih =>
    intro first evaled target symlinks0 he hf htg
    have hrel := evaled_sep pre first evaled he hf p
    obtain ⟨q, qs, hq⟩ : ∃ q qs, rest ++ [base] = q :: qs := by
      cases rest with
      | nil => exact ⟨base, [], rfl⟩
      | cons r rs => exact ⟨r, rs ++ [base], rfl⟩
    rw [List.cons_append, hq, evalParentSymlinksLoop_cons]
    simp only [hrel, htg, hs]
    rw [← hq, ih false (joinSep (pre ++ [p])) (tgt ++ p) symlinks0 rfl (by simp) (by simp)]
    simp [List.append_assoc]
  | replace pre tgt p rest parts symlinks sl r1 r2 hs ht _ ih =>
    intro first evaled target symlinks0 he hf htg
    have hrel := evaled_sep pre first evaled he hf p
    have hrel2 := evaled_sep pre first evaled he hf r2
    obtain ⟨q, qs, hq⟩ : ∃ q qs, rest ++ [base] = q :: qs := by
      cases rest with
      | nil => exact ⟨base, [], rfl⟩
      | cons r rs => exact ⟨r, rs ++ [base], rfl⟩
    rw [List.cons_append, hq, evalParentSymlinksLoop_cons]
    simp only [hrel, htg, hs, ht]
    rw [← hq, ih false _ ((if IsAbs sl.Target = true then "" else tgt) ++ sl.Target)
      (symlinks0 ++ [joinSep (pre ++ [p])]) hrel2 (by simp) (by simp)]
    simp [List.append_assoc]
  | materialize pre tgt p rest parts symlinks sl e hs ht hm _ ih =>
    intro first evaled target symlinks0 he hf htg
    have hrel := evaled_sep pre first evaled he hf p
    obtain ⟨q, qs, hq⟩ : ∃ q qs, rest ++ [base] = q :: qs := by
      cases rest with
      | nil => exact ⟨base, [], rfl⟩
      | cons r rs => exact ⟨r, rs ++ [base], rfl⟩
    rw [List.cons_append, hq, evalParentSymlinksLoop_cons]
    simp only [hrel, htg, hs, ht]
    rw [if_pos hm]
    rw [← hq, ih false (joinSep (pre ++ [p]))
      ((if IsAbs sl.Target = true then "" else tgt) ++ sl.Target) symlinks0 rfl (by simp)
      (by simp)]
    simp [List.append_assoc]

/-- How the loop of `evalParentSymlinks` fails, told element by element. -/
theorem evalParentSymlinksLoop_fails (host : Host) (execRoot : String) (mat : Bool)
    (base : String) (e : Err) :
    ∀ (parents pre : List String) (tgt : String) (first : Bool) (evaled target : String)
      (symlinks0 : List String),
      evaled = joinSep pre → (first = true ↔ pre = []) →
      (if first = true then target else target ++ "/") = tgt →
      evalParentSymlinksLoop host execRoot mat first (parents ++ [base]) evaled target
        symlinks0 = .error e →
      mat = false ∧ ParentsFail host execRoot pre tgt parents e := by
  intro parents
  induction parents with
  | nil =>
    intro pre tgt first evaled target symlinks0 _ _ _ h
    rw [List.nil_append, evalParentSymlinksLoop_last] at h
    cases h
  | cons p rest ih =>
    intro pre tgt first evaled target symlinks0 he hf htg h
    have hrel := evaled_sep pre first evaled he hf p
    obtain ⟨q, qs, hq⟩ : ∃ q qs, rest ++ [base] = q :: qs := by
      cases rest with
      | nil => exact ⟨base, [], rfl⟩
      | cons r rs => exact ⟨r, rs ++ [base], rfl⟩
    rw [List.cons_append, hq, evalParentSymlinksLoop_cons] at h
    simp only [hrel, htg] at h
    cases hs : (host.Get (Join [execRoot, joinSep (pre ++ [p])])).Symlink with
    | none =>
      rw [hs] at h
      simp only at h
      rw [← hq] at h
      obtain ⟨hm, hres⟩ :=
        ih (pre ++ [p]) (tgt ++ p ++ "/") false (joinSep (pre ++ [p])) _ symlinks0 rfl
          (by simp) (by simp) h
      exact ⟨hm, .keep pre tgt p rest e hs hres⟩
    | some sl =>
      rw [hs] at h
      simp only at h
      cases ht : getTargetRelPath execRoot (joinSep (pre ++ [p]))
          ((if IsAbs sl.Target = true then "" else tgt) ++ sl.Target) with
      | error e2 =>
        rw [ht] at h
        simp only at h
        by_cases hm : mat = true
        · rw [if_pos hm, ← hq] at h
          obtain ⟨hm2, -⟩ :=
            ih (pre ++ [p]) ((if IsAbs sl.Target = true then "" else tgt) ++ sl.Target ++ "/")
              false (joinSep (pre ++ [p])) _ symlinks0 rfl (by simp) (by simp) h
          rw [hm] at hm2
          cases hm2
        · rw [if_neg hm] at h
          simp only [Except.error.injEq] at h
          subst h
          exact ⟨by simpa using hm, .here pre tgt p rest sl e2 hs ht⟩
      | ok r =>
        obtain ⟨r1, r2⟩ := r
        rw [ht] at h
        simp only at h
        rw [← hq] at h
        have hrel2 := evaled_sep pre first evaled he hf r2
        obtain ⟨hm, hres⟩ :=
          ih (pre ++ [r2]) ((if IsAbs sl.Target = true then "" else tgt) ++ sl.Target ++ "/")
            false _ _ (symlinks0 ++ [joinSep (pre ++ [p])]) hrel2 (by simp) (by simp) h
        exact ⟨hm, .replace pre tgt p rest sl r1 r2 e hs ht hres⟩

/-- The loop of `evalParentSymlinks` fails as the telling element by element says. -/
theorem evalParentSymlinksLoop_of_fails (host : Host) (execRoot : String) (base : String)
    (e : Err) (pre : List String) (tgt : String) (parents : List String)
    (hres : ParentsFail host execRoot pre tgt parents e) :
    ∀ (first : Bool) (evaled target : String) (symlinks0 : List String),
      evaled = joinSep pre → (first = true ↔ pre = []) →
      (if first = true then target else target ++ "/") = tgt →
      evalParentSymlinksLoop host execRoot false first (parents ++ [base]) evaled target
        symlinks0 = .error e := by
  induction hres with
  | here pre tgt p rest sl e hs ht =>
    intro first evaled target symlinks0 he hf htg
    have hrel := evaled_sep pre first evaled he hf p
    obtain ⟨q, qs, hq⟩ : ∃ q qs, rest ++ [base] = q :: qs := by
      cases rest with
      | nil => exact ⟨base, [], rfl⟩
      | cons r rs => exact ⟨r, rs ++ [base], rfl⟩
    rw [List.cons_append, hq, evalParentSymlinksLoop_cons]
    simp only [hrel, htg, hs, ht]
    rfl
  | keep pre tgt p rest e hs _ ih =>
    intro first evaled target symlinks0 he hf htg
    have hrel := evaled_sep pre first evaled he hf p
    obtain ⟨q, qs, hq⟩ : ∃ q qs, rest ++ [base] = q :: qs := by
      cases rest with
      | nil => exact ⟨base, [], rfl⟩
      | cons r rs => exact ⟨r, rs ++ [base], rfl⟩
    rw [List.cons_append, hq, evalParentSymlinksLoop_cons]
    simp only [hrel, htg, hs]
    rw [← hq, ih false (joinSep (pre ++ [p])) (tgt ++ p) symlinks0 rfl (by simp) (by simp)]
  | replace pre tgt p rest sl r1 r2 e hs ht _ ih =>
    intro first evaled target symlinks0 he hf htg
    have hrel := evaled_sep pre first evaled he hf p
    have hrel2 := evaled_sep pre first evaled he hf r2
    obtain ⟨q, qs, hq⟩ : ∃ q qs, rest ++ [base] = q :: qs := by
      cases rest with
      | nil => exact ⟨base, [], rfl⟩
      | cons r rs => exact ⟨r, rs ++ [base], rfl⟩
    rw [List.cons_append, hq, evalParentSymlinksLoop_cons]
    simp only [hrel, htg, hs, ht]
    rw [← hq, ih false _ ((if IsAbs sl.Target = true then "" else tgt) ++ sl.Target)
      (symlinks0 ++ [joinSep (pre ++ [p])]) hrel2 (by simp) (by simp)]

/-- When links that point outside the exec root are materialized, the loop of
`evalParentSymlinks` does not fail. -/
theorem evalParentSymlinksLoop_materialize (host : Host) (execRoot : String) :
    ∀ (ps : List String) (first : Bool) (evaled target : String) (symlinks0 : List String),
      ∃ r, evalParentSymlinksLoop host execRoot true first ps evaled target symlinks0 = .ok r := by
  intro ps
  induction ps with
  | nil => intro first evaled target symlinks0; exact ⟨_, rfl⟩
  | cons p rest ih =>
    intro first evaled target symlinks0
    cases rest with
    | nil => exact ⟨_, evalParentSymlinksLoop_last _ _ _ _ _ _ _ _⟩
    | cons q qs =>
      rw [evalParentSymlinksLoop_cons]
      split
      · exact ih _ _ _ _
      · split
        · simp only [if_true]
          exact ih _ _ _ _
        · exact ih _ _ _ _

/-- On a path none of whose parent elements names a symlink, the loop of `evalParentSymlinks`
writes the elements as they are. -/
theorem evalParentSymlinksLoop_plain (host : Host) (execRoot : String) (mat : Bool)
    (base : String) :
    ∀ (parents pre : List String) (first : Bool) (evaled target : String)
      (symlinks0 : List String),
      evaled = joinSep pre → (first = true ↔ pre = []) →
      (∀ i, i < parents.length →
        (host.Get (Join [execRoot, joinSep (pre ++ parents.take (i + 1))])).Symlink = none) →
      evalParentSymlinksLoop host execRoot mat first (parents ++ [base]) evaled target
        symlinks0 = .ok (joinSep (pre ++ parents ++ [base]), symlinks0) := by
  intro parents
  induction parents with
  | nil =>
    intro pre first evaled target symlinks0 he hf _
    rw [List.nil_append, evalParentSymlinksLoop_last, List.append_nil,
      evaled_sep pre first evaled he hf base]
  | cons p rest ih =>
    intro pre first evaled target symlinks0 he hf hno
    have hrel := evaled_sep pre first evaled he hf p
    obtain ⟨q, qs, hq⟩ : ∃ q qs, rest ++ [base] = q :: qs := by
      cases rest with
      | nil => exact ⟨base, [], rfl⟩
      | cons r rs => exact ⟨r, rs ++ [base], rfl⟩
    rw [List.cons_append, hq, evalParentSymlinksLoop_cons]
    simp only [hrel]
    have h0 := hno 0 (by simp)
    simp only [zero_add, List.take_succ_cons, List.take_zero] at h0
    rw [h0]
    simp only
    rw [← hq, ih (pre ++ [p]) false (joinSep (pre ++ [p])) _ symlinks0 rfl (by simp)]
    · simp [List.append_assoc]
    · intro i hi
      have := hno (i + 1) (by simp; omega)
      simpa [List.append_assoc] using this

end Client

namespace Client

/-! ## The loop of the loader, round by round -/

theorem loadFilesLoop_nil (host : Host) (execRoot lwd rwd : String)
    (excl : List InputExclusion) (opts : TreeSymlinkOpts)
    (np : List (String × NodeProperties)) (fuel : Nat) (s : loadState)
    (h : s.filesToProcess = []) :
    loadFilesLoop host execRoot lwd rwd excl opts np fuel s = some (.ok s.fs) := by
  rewrite [loadFilesLoop, h]
  rfl

theorem loadFilesLoop_zero (host : Host) (execRoot lwd rwd : String)
    (excl : List InputExclusion) (opts : TreeSymlinkOpts)
    (np : List (String × NodeProperties)) (s : loadState) (path : String)
    (rest : List String) (h : s.filesToProcess = path :: rest) :
    loadFilesLoop host execRoot lwd rwd excl opts np 0 s = none := by
  rewrite [loadFilesLoop, h]
  rfl

theorem loadFilesLoop_succ (host : Host) (execRoot lwd rwd : String)
    (excl : List InputExclusion) (opts : TreeSymlinkOpts)
    (np : List (String × NodeProperties)) (fuel : Nat) (s : loadState) (path : String)
    (rest : List String) (h : s.filesToProcess = path :: rest) :
    loadFilesLoop host execRoot lwd rwd excl opts np (fuel + 1) s =
      match loadFilesStep host execRoot lwd rwd excl opts np path
          { s with filesToProcess := rest } with
      | .error e => some (.error e)
      | .ok s2 => loadFilesLoop host execRoot lwd rwd excl opts np fuel s2 := by
  obtain ⟨q, fs, seen⟩ := s
  cases h
  rfl

/-! ## Paths under a directory and `filepath.Rel` -/

/-- For a path under a directory, `filepath.Rel` gives a local path. -/
theorem Under.rel (base path : String) (h : Under base path) :
    ∃ r, Rel base path = .ok r ∧ IsLocalPath r := by
  obtain ⟨x, hloc, hj⟩ := h
  obtain ⟨xs, hxs, hcx, hfold⟩ := IsLocalPath.spec x hloc
  obtain ⟨rb, E, hE, hcb, ha, ha0⟩ := Clean_elems base
  have hne : base ≠ "" ∨ x ≠ "" := by
    by_contra hcon
    simp only [not_or, not_not] at hcon
    rw [hcon.1, hcon.2] at hj
    exact Clean_ne_empty path hj.symm
  have hjoin := Join_local base x rb E xs ha ha0 hcx hfold hne
  rw [hj] at hjoin
  exact ⟨render false xs, Rel_extension base path rb E xs hE hxs hcb hjoin,
    render_plain_local xs hxs⟩

/-- A path for which `filepath.Rel` gives a form that is not a local path is not under the
directory. -/
theorem not_under_of_rel (base path r : String) (h : Rel base path = .ok r)
    (hn : ¬ IsLocalPath r) : ¬ Under base path := by
  intro hu
  obtain ⟨r2, h2, hloc⟩ := Under.rel base path hu
  rw [h] at h2
  cases h2
  exact hn hloc

end Client

namespace Client

/-! ## Rounds of the loader under the preserve policy -/

/-- The treatment of a regular file by the loader: the file is recorded. -/
theorem loadFilesClassify_file (host : Host) (execRoot lwd rwd : String)
    (excl : List InputExclusion) (opts : TreeSymlinkOpts)
    (np : List (String × NodeProperties)) (absPath normPath k : String) (s : loadState)
    (hrel : getExecRootRelPaths absPath execRoot lwd rwd = .ok (normPath, k))
    (hsym : (host.Get absPath).Symlink = none)
    (hdir : (host.Get absPath).IsDirectory = false)
    (hex : shouldIgnore host absPath .FileInputType excl = false)
    (herr : (host.Get absPath).Err = none) :
    loadFilesClassify host execRoot lwd rwd excl opts np absPath s =
      .ok { s with
        fs := mapSet s.fs k (fileNodeOf (host.Get absPath) absPath (mapGet np k)) } := by
  unfold loadFilesClassify
  rw [hrel]
  dsimp only
  rw [hsym]
  dsimp only
  unfold loadFilesNonSymlink
  rw [if_neg (by simp [hdir]), hex, herr]
  rfl

/-- The treatment of a preserved symlink whose target is under the exec root: the symlink is
recorded; when the path is marked as an ancestor symlink the mark is cleared and nothing is
appended to the queue, and otherwise the target is appended if targets are followed and the
link is not dangling. -/
theorem loadFilesClassify_symlink (host : Host) (execRoot lwd rwd : String)
    (excl : List InputExclusion) (opts : TreeSymlinkOpts)
    (np : List (String × NodeProperties)) (absPath normPath k : String)
    (sl : SymlinkMetadata) (t1 t2 : String) (s : loadState) (hP : opts.Preserved = true)
    (hrel : getExecRootRelPaths absPath execRoot lwd rwd = .ok (normPath, k))
    (hsym : (host.Get absPath).Symlink = some sl)
    (hex : shouldIgnore host absPath .SymlinkInputType excl = false)
    (htg : getTargetRelPath execRoot normPath sl.Target = .ok (t1, t2)) :
    loadFilesClassify host execRoot lwd rwd excl opts np absPath s =
      if mapGet s.seenAncestorSymlinkRel normPath = some true then
        .ok { s with
          fs := mapSet s.fs k (symlinkNodeOf t2 (mapGet np k))
          seenAncestorSymlinkRel := mapSet s.seenAncestorSymlinkRel normPath false }
      else if sl.IsDangling = false ∧ opts.FollowsTarget = true then
        .ok { s with
          fs := mapSet s.fs k (symlinkNodeOf t2 (mapGet np k))
          filesToProcess := s.filesToProcess ++ [t1] }
      else
        .ok { s with
          fs := mapSet s.fs k (symlinkNodeOf t2 (mapGet np k)) } := by
  unfold loadFilesClassify
  rw [hrel]
  dsimp only
  rw [hsym]
  dsimp only
  rw [if_neg (by simp [hP]), if_pos hP, hex, htg]
  dsimp only
  by_cases hseen : mapGet s.seenAncestorSymlinkRel normPath = some true
  · simp [hseen, symlinkNodeOf]
  · cases hd : sl.IsDangling <;> cases hf : opts.FollowsTarget <;> simp [hseen, symlinkNodeOf]

end Client

namespace Client

/-! ## The loader ends when the paths that rounds append are bounded -/

theorem loadFilesAncestors_adds (ps : List String) :
    ∀ s : loadState, ∃ adds,
      (loadFilesAncestors ps s).filesToProcess = s.filesToProcess ++ adds ∧
        adds.Sublist ps := by
  induction ps with
  | nil => intro s; exact ⟨[], by simp [loadFilesAncestors], List.Sublist.refl _⟩
  | cons p ps ih =>
    intro s
    rw [loadFilesAncestors]
    cases mapGet s.seenAncestorSymlinkRel p with
    | some b =>
      obtain ⟨adds, h1, h2⟩ := ih s
      exact ⟨adds, h1, h2.cons p⟩
    | none =>
      obtain ⟨adds, h1, h2⟩ := ih { s with
        seenAncestorSymlinkRel := mapSet s.seenAncestorSymlinkRel p true
        filesToProcess := s.filesToProcess ++ [p] }
      refine ⟨p :: adds, ?_, h2.cons₂ p⟩
      rw [h1]
      simp

theorem loadFilesNonSymlink_adds (host : Host) (excl : List InputExclusion)
    (absPath normPath k : String) (np : Option NodeProperties) (md : Metadata)
    (s s2 : loadState)
    (h : loadFilesNonSymlink host excl absPath normPath k np md s = .ok s2) :
    ∃ b, loadFilesNonSymlink host excl absPath normPath k np md loadState.empty = .ok b ∧
      s2.filesToProcess = s.filesToProcess ++ b.filesToProcess := by
  rw [loadFilesNonSymlink_frame] at h
  cases hb : loadFilesNonSymlink host excl absPath normPath k np md loadState.empty with
  | error e => rw [hb] at h; cases h
  | ok b =>
    rw [hb] at h
    simp only [Except.ok.injEq] at h
    subst h
    exact ⟨b, rfl, rfl⟩

/-- The treatment of a path by the loader appends to the queue, whatever ancestor symlinks are
marked, some of the paths that it appends when none is marked. -/
theorem loadFilesClassify_adds (host : Host) (execRoot lwd rwd : String)
    (excl : List InputExclusion) (opts : TreeSymlinkOpts)
    (np : List (String × NodeProperties)) (absPath : String) (s s2 : loadState)
    (h : loadFilesClassify host execRoot lwd rwd excl opts np absPath s = .ok s2) :
    ∃ adds, s2.filesToProcess = s.filesToProcess ++ adds ∧
      adds.Sublist (loadFilesClassifyAdds host execRoot lwd rwd excl opts np absPath) := by
  unfold loadFilesClassifyAdds
  unfold loadFilesClassify at h ⊢
  cases hg : getExecRootRelPaths absPath execRoot lwd rwd with
  | error e => rw [hg] at h; cases h
  | ok pr =>
    obtain ⟨normPath, k⟩ := pr
    rw [hg] at h
    dsimp only at h ⊢
    have hns : ∀ t : Except Err loadState,
        loadFilesNonSymlink host excl absPath normPath k (mapGet np k) (host.Get absPath)
          loadState.empty = t →
        loadFilesNonSymlink host excl absPath normPath k (mapGet np k) (host.Get absPath) s =
          .ok s2 →
        ∃ adds, s2.filesToProcess = s.filesToProcess ++ adds ∧
          adds.Sublist (match t with
            | .error _ => []
            | .ok s => s.filesToProcess) := by
      intro t ht h2
      obtain ⟨b, hb, hq⟩ := loadFilesNonSymlink_adds _ _ _ _ _ _ _ _ _ h2
      rw [hb] at ht
      subst ht
      exact ⟨b.filesToProcess, hq, List.Sublist.refl _⟩
    have hnil : ∀ l : List String, ∃ adds : List String,
        s.filesToProcess = s.filesToProcess ++ adds ∧ adds.Sublist l :=
      fun l => ⟨[], (List.append_nil _).symm, List.nil_sublist _⟩
    cases hsym : (host.Get absPath).Symlink with
    | none =>
      rw [hsym] at h
      exact hns _ rfl h
    | some sl =>
      rw [hsym] at h
      dsimp only at h ⊢
      by_cases h1 : sl.IsDangling = true ∧ ¬ opts.Preserved = true
      · rw [if_pos h1] at h
        cases h
        exact hnil _
      · rw [if_neg h1] at h
        rw [if_neg h1]
        by_cases h2 : opts.Preserved = true
        · rw [if_pos h2] at h
          rw [if_pos h2]
          by_cases h3 : shouldIgnore host absPath .SymlinkInputType excl = true
          · rw [if_pos h3] at h
            cases h
            exact hnil _
          · rw [if_neg h3] at h
            rw [if_neg h3]
            cases hT : getTargetRelPath execRoot normPath sl.Target with
            | error e =>
              rw [hT] at h
              dsimp only at h ⊢
              by_cases h4 : ¬ opts.MaterializeOutsideExecRoot = true
              · rw [if_pos h4] at h
                cases h
              · rw [if_neg h4] at h
                rw [if_neg h4]
                by_cases h5 : sl.IsDangling = true
                · rw [if_pos h5] at h
                  cases h
                · rw [if_neg h5] at h
                  rw [if_neg h5]
                  exact hns _ rfl h
            | ok tr =>
              obtain ⟨t1, t2⟩ := tr
              rw [hT] at h
              dsimp only at h ⊢
              by_cases h6 : mapGet s.seenAncestorSymlinkRel normPath = some true
              · simp only [h6, if_true, Bool.false_eq_true, and_false, if_false,
                  Except.ok.injEq] at h
                subst h
                exact hnil _
              · cases hd : sl.IsDangling <;> cases hf : opts.FollowsTarget
                all_goals
                  simp only [h6, hd, hf, if_false, Bool.false_eq_true, not_false_eq_true,
                    not_true_eq_false, and_false, and_true, and_self, false_and, if_true,
                    Except.ok.injEq] at h
                  subst h
                  simp [loadState.empty, mapGet]
        · rw [if_neg h2] at h
          rw [if_neg h2]
          exact hns _ rfl h

/-- A round of the loader leaves the queue that it is given in place and appends to it some
of the paths of `loadFilesAdds`, whatever the state. -/
theorem loadFilesStep_adds (host : Host) (execRoot lwd rwd : String)
    (excl : List InputExclusion) (opts : TreeSymlinkOpts)
    (np : List (String × NodeProperties)) (path : String) (s s2 : loadState)
    (h : loadFilesStep host execRoot lwd rwd excl opts np path s = .ok s2) :
    ∃ adds, s2.filesToProcess = s.filesToProcess ++ adds ∧
      adds.Sublist (loadFilesAdds host execRoot lwd rwd excl opts np path) := by
  rw [loadFilesStep_classify] at h
  unfold loadFilesAdds
  by_cases h0 : path = ""
  · rw [if_pos h0] at h
    cases h
  · rw [if_neg h0] at h
    rw [if_neg h0]
    by_cases hp : opts.Preserved = true
    · rw [if_pos hp] at h
      rw [if_pos hp]
      cases hev : evalParentSymlinks host execRoot path opts.MaterializeOutsideExecRoot with
      | error e => rw [hev] at h; cases h
      | ok r =>
        obtain ⟨evaled, ps⟩ := r
        rw [hev] at h
        dsimp only at h ⊢
        obtain ⟨a1, ha1, hs1⟩ := loadFilesAncestors_adds ps s
        obtain ⟨a2, ha2, hs2⟩ := loadFilesClassify_adds _ _ _ _ _ _ _ _ _ _ h
        refine ⟨a1 ++ a2, ?_, hs1.append hs2⟩
        rw [ha2, ha1, List.append_assoc]
    · rw [if_neg hp] at h
      rw [if_neg hp]
      exact loadFilesClassify_adds _ _ _ _ _ _ _ _ _ _ h

theorem loadFilesWithin_pos (adds : String → List String) (n : Nat) (p : String)
    (h : loadFilesWithin adds n p = true) : ∃ m, n = m + 1 := by
  cases n with
  | zero => simp [loadFilesWithin] at h
  | succ m => exact ⟨m, rfl⟩

theorem sum_map_le_of_sublist (f : String → Nat) (l1 l2 : List String)
    (h : l1.Sublist l2) : (l1.map f).sum ≤ (l2.map f).sum := by
  induction h with
  | slnil => exact Nat.le_refl _
  | cons a _ ih =>
    simp only [List.map_cons, List.sum_cons]
    omega
  | cons₂ a _ ih =>
    simp only [List.map_cons, List.sum_cons]
    omega

/-- The loop of `loadFiles` ends, with a flat map or with an error, when the chains of paths
that rounds can append are bounded from every path of the queue: as many rounds as the queue
unfolds into are enough. -/
theorem loadFilesLoop_ends (host : Host) (execRoot lwd rwd : String)
    (excl : List InputExclusion) (opts : TreeSymlinkOpts)
    (np : List (String × NodeProperties)) :
    ∀ (fuel : Nat) (aq : List (Nat × String)) (fs : List (String × fileSysNode))
      (seen : List (String × Bool)),
      (∀ a ∈ aq, loadFilesWithin (loadFilesAdds host execRoot lwd rwd excl opts np)
        a.1 a.2 = true) →
      (aq.map (fun a => loadFilesRounds (loadFilesAdds host execRoot lwd rwd excl opts np)
        a.1 a.2)).sum ≤ fuel →
      ∃ r, loadFilesLoop host execRoot lwd rwd excl opts np fuel
        { filesToProcess := aq.map (fun a => a.2), fs := fs,
          seenAncestorSymlinkRel := seen } = some r := by
  intro fuel
  induction fuel with
  | zero =>
    intro aq fs seen hdepth hsum
    cases aq with
    | nil => exact ⟨_, loadFilesLoop_nil _ _ _ _ _ _ _ _ _ rfl⟩
    | cons a rest =>
      obtain ⟨n, p⟩ := a
      obtain ⟨m, rfl⟩ := loadFilesWithin_pos _ n p (hdepth _ (List.mem_cons_self _ _))
      simp only [List.map_cons, List.sum_cons, loadFilesRounds] at hsum
      omega
  | succ f ih =>
    intro aq fs seen hdepth hsum
    cases aq with
    | nil => exact ⟨_, loadFilesLoop_nil _ _ _ _ _ _ _ _ _ rfl⟩
    | cons a rest =>
      obtain ⟨n, p⟩ := a
      have hdep := hdepth _ (List.mem_cons_self _ _)
      obtain ⟨m, rfl⟩ := loadFilesWithin_pos _ n p hdep
      simp only [List.map_cons, List.sum_cons, loadFilesRounds] at hsum
      simp only [loadFilesWithin, List.all_eq_true] at hdep
      rw [loadFilesLoop_succ host execRoot lwd rwd excl opts np f _ p
        (rest.map (fun a => a.2)) rfl]
      cases hst : loadFilesStep host execRoot lwd rwd excl opts np p
          { filesToProcess := rest.map (fun a => a.2), fs := fs,
            seenAncestorSymlinkRel := seen } with
      | error e => exact ⟨_, rfl⟩
      | ok s2 =>
        obtain ⟨adds, hq, hsub⟩ := loadFilesStep_adds _ _ _ _ _ _ _ _ _ _ hst
        obtain ⟨q2, fs2, seen2⟩ := s2
        dsimp only at hq ⊢
        have hq2 : q2 = (rest ++ adds.map (fun x => (m, x))).map (fun a => a.2) := by
          rw [hq]
          simp [List.map_map, Function.comp_def]
        rw [hq2]
        apply ih
        · intro a ha
          rcases List.mem_append.1 ha with ha | ha
          · exact hdepth a (List.mem_cons_of_mem _ ha)
          · obtain ⟨x, hx, rfl⟩ := List.mem_map.1 ha
            exact hdep x (hsub.subset hx)
        · have hle := sum_map_le_of_sublist
            (loadFilesRounds (loadFilesAdds host execRoot lwd rwd excl opts np) m) _ _ hsub
          have hmap : ((rest ++ adds.map (fun x => (m, x))).map (fun a =>
              loadFilesRounds (loadFilesAdds host execRoot lwd rwd excl opts np)
                a.1 a.2)).sum =
              (rest.map (fun a => loadFilesRounds
                (loadFilesAdds host execRoot lwd rwd excl opts np) a.1 a.2)).sum +
                (adds.map (loadFilesRounds
                  (loadFilesAdds host execRoot lwd rwd excl opts np) m)).sum := by
            simp [List.map_map, Function.comp_def]
          rw [hmap]
          omega

end Client

namespace Client

/-! ## Rounds of the loader under the preserve policy, by their paths -/

theorem loadFilesPaths_ok (host : Host) (execRoot lwd rwd : String) (opts : TreeSymlinkOpts)
    (path : String) (r : roundPaths)
    (hr : loadFilesPaths host execRoot lwd rwd opts path = .ok r) :
    path ≠ "" ∧ ∃ evaled,
      evalParentSymlinks host execRoot path opts.MaterializeOutsideExecRoot =
        .ok (evaled, r.parents) ∧
      r.absPath = Join [execRoot, evaled] ∧
      getExecRootRelPaths r.absPath execRoot lwd rwd = .ok (r.normPath, r.key) := by
  unfold loadFilesPaths at hr
  by_cases h0 : path = ""
  · rw [if_pos h0] at hr; cases hr
  · rw [if_neg h0] at hr
    refine ⟨h0, ?_⟩
    cases hev : evalParentSymlinks host execRoot path opts.MaterializeOutsideExecRoot with
    | error e => rw [hev] at hr; cases hr
    | ok pr =>
      obtain ⟨evaled, ps⟩ := pr
      rw [hev] at hr
      dsimp only at hr
      cases hg : getExecRootRelPaths (Join [execRoot, evaled]) execRoot lwd rwd with
      | error e => rw [hg] at hr; cases hr
      | ok nk =>
        obtain ⟨n, k⟩ := nk
        rw [hg] at hr
        simp only [Except.ok.injEq] at hr
        subst hr
        exact ⟨evaled, rfl, rfl, hg⟩

/-- A round of the loader under the preserve policy is the treatment of the absolute path
that it computes, after the parent symlinks are marked. -/
theorem loadFilesStep_paths (host : Host) (execRoot lwd rwd : String)
    (excl : List InputExclusion) (opts : TreeSymlinkOpts)
    (np : List (String × NodeProperties)) (path : String) (r : roundPaths) (s : loadState)
    (hP : opts.Preserved = true)
    (hr : loadFilesPaths host execRoot lwd rwd opts path = .ok r) :
    loadFilesStep host execRoot lwd rwd excl opts np path s =
      loadFilesClassify host execRoot lwd rwd excl opts np r.absPath
        (loadFilesAncestors r.parents s) := by
  obtain ⟨h0, evaled, hev, habs, -⟩ := loadFilesPaths_ok host execRoot lwd rwd opts path r hr
  rw [loadFilesStep_classify, if_neg h0, if_pos hP, hev, habs]

/-- A round of the loader under the preserve policy that does not fail has computed its
paths. -/
theorem loadFilesStep_ok_paths (host : Host) (execRoot lwd rwd : String)
    (excl : List InputExclusion) (opts : TreeSymlinkOpts)
    (np : List (String × NodeProperties)) (path : String) (s s2 : loadState)
    (hP : opts.Preserved = true)
    (h : loadFilesStep host execRoot lwd rwd excl opts np path s = .ok s2) :
    ∃ r, loadFilesPaths host execRoot lwd rwd opts path = .ok r := by
  rw [loadFilesStep_classify] at h
  unfold loadFilesPaths
  by_cases h0 : path = ""
  · rw [if_pos h0] at h; cases h
  · rw [if_neg h0, if_pos hP] at h
    rw [if_neg h0]
    cases hev : evalParentSymlinks host execRoot path opts.MaterializeOutsideExecRoot with
    | error e => rw [hev] at h; cases h
    | ok pr =>
      obtain ⟨evaled, ps⟩ := pr
      rw [hev] at h
      dsimp only at h ⊢
      cases hg : getExecRootRelPaths (Join [execRoot, evaled]) execRoot lwd rwd with
      | error e =>
        unfold loadFilesClassify at h
        rw [hg] at h
        cases h
      | ok nk =>
        obtain ⟨n, k⟩ := nk
        exact ⟨_, rfl⟩

/-! ## The marks of ancestor symlinks -/

/-- The loop over the parent symlinks of a path appends those that have no mark yet, each
once, and gives them the mark; it changes no other mark. -/
theorem loadFilesAncestors_marks (ps : List String) :
    ∀ s : loadState, ∃ adds : List String,
      (loadFilesAncestors ps s).filesToProcess = s.filesToProcess ++ adds ∧
      adds.Nodup ∧
      (∀ x, x ∈ adds ↔ x ∈ ps ∧ mapGet s.seenAncestorSymlinkRel x = none) ∧
      (∀ x, mapGet (loadFilesAncestors ps s).seenAncestorSymlinkRel x =
        if x ∈ adds then some true else mapGet s.seenAncestorSymlinkRel x) := by
  induction ps with
  | nil =>
    intro s
    exact ⟨[], by simp [loadFilesAncestors], List.nodup_nil, by simp, by simp [loadFilesAncestors]⟩
  | cons p ps ih =>
    intro s
    rw [loadFilesAncestors]
    cases hp : mapGet s.seenAncestorSymlinkRel p with
    | some b =>
      obtain ⟨adds, h1, h2, h3, h4⟩ := ih s
      refine ⟨adds, h1, h2, ?_, h4⟩
      intro x
      rw [h3 x]
      constructor
      · rintro ⟨hx, hn⟩
        exact ⟨List.mem_cons_of_mem _ hx, hn⟩
      · rintro ⟨hx, hn⟩
        rcases List.mem_cons.1 hx with rfl | hx
        · rw [hp] at hn; cases hn
        · exact ⟨hx, hn⟩
    | none =>
      obtain ⟨adds, h1, h2, h3, h4⟩ := ih { s with
        seenAncestorSymlinkRel := mapSet s.seenAncestorSymlinkRel p true
        filesToProcess := s.filesToProcess ++ [p] }
      dsimp only at h1 h3 h4 ⊢
      have hpn : p ∉ adds := by
        intro hmem
        have := ((h3 p).1 hmem).2
        rw [mapGet_mapSet, if_pos rfl] at this
        cases this
      refine ⟨p :: adds, ?_, List.nodup_cons.2 ⟨hpn, h2⟩, ?_, ?_⟩
      · rw [h1]; simp
      · intro x
        rw [List.mem_cons, h3 x, mapGet_mapSet]
        by_cases hx : x = p
        · subst hx
          simp [hp]
        · simp [hx]
      · intro x
        rw [h4 x, mapGet_mapSet]
        by_cases hx : x = p
        · subst hx
          simp [hpn]
        · simp [hx]

end Client

namespace Client

/-! ## What the treatment of a path does to the state -/

theorem loadFilesNonSymlink_effect (host : Host) (excl : List InputExclusion)
    (absPath normPath k : String) (np : Option NodeProperties) (md : Metadata)
    (s s2 : loadState)
    (h : loadFilesNonSymlink host excl absPath normPath k np md s = .ok s2) :
    (s2.fs = s.fs ∨ ∃ node, s2.fs = mapSet s.fs k node) ∧
      s2.seenAncestorSymlinkRel = s.seenAncestorSymlinkRel ∧
      ∃ adds, s2.filesToProcess = s.filesToProcess ++ adds := by
  have hfs := loadFilesNonSymlink_fs host excl absPath normPath k np md s s2 h
  rw [loadFilesNonSymlink_frame] at h
  cases hb : loadFilesNonSymlink host excl absPath normPath k np md loadState.empty with
  | error e => rw [hb] at h; cases h
  | ok b =>
    rw [hb] at h
    simp only [Except.ok.injEq] at h
    subst h
    refine ⟨?_, rfl, _, rfl⟩
    rcases hfs with h1 | ⟨node, h1, -⟩
    · exact Or.inl h1
    · exact Or.inr ⟨node, h1⟩

/-- The treatment of a path by the loader writes at most one entry, under the remote form of
the path; it changes no mark of an ancestor symlink but that of the path itself, which it
clears if it is set; and it keeps the queue and appends to it. -/
theorem loadFilesClassify_effect (host : Host) (execRoot lwd rwd : String)
    (excl : List InputExclusion) (opts : TreeSymlinkOpts)
    (np : List (String × NodeProperties)) (absPath : String) (s s2 : loadState)
    (h : loadFilesClassify host execRoot lwd rwd excl opts np absPath s = .ok s2) :
    ∃ n k, getExecRootRelPaths absPath execRoot lwd rwd = .ok (n, k) ∧
      (s2.fs = s.fs ∨ ∃ node, s2.fs = mapSet s.fs k node) ∧
      (s2.seenAncestorSymlinkRel = s.seenAncestorSymlinkRel ∨
        (mapGet s.seenAncestorSymlinkRel n = some true ∧
          s2.seenAncestorSymlinkRel = mapSet s.seenAncestorSymlinkRel n false)) ∧
      ∃ adds, s2.filesToProcess = s.filesToProcess ++ adds := by
  unfold loadFilesClassify at h
  cases hg : getExecRootRelPaths absPath execRoot lwd rwd with
  | error e => rw [hg] at h; cases h
  | ok pr =>
    obtain ⟨n, k⟩ := pr
    rw [hg] at h
    dsimp only at h
    refine ⟨n, k, rfl, ?_⟩
    have hns : loadFilesNonSymlink host excl absPath n k (mapGet np k) (host.Get absPath) s =
          .ok s2 →
        (s2.fs = s.fs ∨ ∃ node, s2.fs = mapSet s.fs k node) ∧
        (s2.seenAncestorSymlinkRel = s.seenAncestorSymlinkRel ∨
          (mapGet s.seenAncestorSymlinkRel n = some true ∧
            s2.seenAncestorSymlinkRel = mapSet s.seenAncestorSymlinkRel n false)) ∧
        ∃ adds, s2.filesToProcess = s.filesToProcess ++ adds := by
      intro h2
      obtain ⟨a, b, c⟩ := loadFilesNonSymlink_effect _ _ _ _ _ _ _ _ _ h2
      exact ⟨a, Or.inl b, c⟩
    have hsame : s2 = s →
        (s2.fs = s.fs ∨ ∃ node, s2.fs = mapSet s.fs k node) ∧
        (s2.seenAncestorSymlinkRel = s.seenAncestorSymlinkRel ∨
          (mapGet s.seenAncestorSymlinkRel n = some true ∧
            s2.seenAncestorSymlinkRel = mapSet s.seenAncestorSymlinkRel n false)) ∧
        ∃ adds, s2.filesToProcess = s.filesToProcess ++ adds := by
      intro h2
      subst h2
      exact ⟨Or.inl rfl, Or.inl rfl, [], (List.append_nil _).symm⟩
    cases hsym : (host.Get absPath).Symlink with
    | none =>
      rw [hsym] at h
      exact hns h
    | some sl =>
      rw [hsym] at h
      dsimp only at h
      by_cases h1 : sl.IsDangling = true ∧ ¬ opts.Preserved = true
      · rw [if_pos h1] at h
        cases h
        exact hsame rfl
      · rw [if_neg h1] at h
        by_cases h2 : opts.Preserved = true
        · rw [if_pos h2] at h
          by_cases h3 : shouldIgnore host absPath .SymlinkInputType excl = true
          · rw [if_pos h3] at h
            cases h
            exact hsame rfl
          · rw [if_neg h3] at h
            cases hT : getTargetRelPath execRoot n sl.Target with
            | error e =>
              rw [hT] at h
              dsimp only at h
              by_cases h4 : ¬ opts.MaterializeOutsideExecRoot = true
              · rw [if_pos h4] at h
                cases h
              · rw [if_neg h4] at h
                by_cases h5 : sl.IsDangling = true
                · rw [if_pos h5] at h
                  cases h
                · rw [if_neg h5] at h
                  exact hns h
            | ok tr =>
              obtain ⟨t1, t2⟩ := tr
              rw [hT] at h
              dsimp only at h
              by_cases h6 : mapGet s.seenAncestorSymlinkRel n = some true
              · simp only [h6, if_true, Bool.false_eq_true, and_false, if_false,
                  Except.ok.injEq] at h
                subst h
                exact ⟨Or.inr ⟨_, rfl⟩, Or.inr ⟨h6, rfl⟩, [], (List.append_nil _).symm⟩
              · cases hd : sl.IsDangling <;> cases hf : opts.FollowsTarget
                all_goals
                  simp only [h6, hd, hf, if_false, Bool.false_eq_true, not_false_eq_true,
                    not_true_eq_false, and_false, and_true, and_self, false_and, if_true,
                    Except.ok.injEq] at h
                  subst h
                  first
                    | exact ⟨Or.inr ⟨_, rfl⟩, Or.inl rfl, [], (List.append_nil _).symm⟩
                    | exact ⟨Or.inr ⟨_, rfl⟩, Or.inl rfl, _, rfl⟩
        · rw [if_neg h2] at h
          exact hns h

/-- What a round of the loader under the preserve policy does to the state: it writes at most
one entry, under the key of its paths; the paths that have a mark after the round are those
that had one before and the parent symlinks, of which those without a mark before are in the
queue after the round; and the queue is kept. -/
theorem loadFilesStep_effect (host : Host) (execRoot lwd rwd : String)
    (excl : List InputExclusion) (opts : TreeSymlinkOpts)
    (np : List (String × NodeProperties)) (path : String) (r : roundPaths) (s s2 : loadState)
    (hP : opts.Preserved = true)
    (hr : loadFilesPaths host execRoot lwd rwd opts path = .ok r)
    (h : loadFilesStep host execRoot lwd rwd excl opts np path s = .ok s2) :
    (s2.fs = s.fs ∨ ∃ node, s2.fs = mapSet s.fs r.key node) ∧
      (∀ x, (mapGet s2.seenAncestorSymlinkRel x).isSome =
        ((mapGet s.seenAncestorSymlinkRel x).isSome || decide (x ∈ r.parents))) ∧
      (∀ x, mapGet s.seenAncestorSymlinkRel x = none → x ∈ r.parents →
        x ∈ s2.filesToProcess) ∧
      (∀ x, x ∈ s.filesToProcess → x ∈ s2.filesToProcess) ∧
      (∀ x, mapGet s2.seenAncestorSymlinkRel x = some true →
        mapGet s.seenAncestorSymlinkRel x = some true ∨
          (mapGet s.seenAncestorSymlinkRel x = none ∧ x ∈ r.parents)) := by
  rw [loadFilesStep_paths host execRoot lwd rwd excl opts np path r s hP hr] at h
  obtain ⟨-, evaled, -, -, hg⟩ := loadFilesPaths_ok host execRoot lwd rwd opts path r hr
  obtain ⟨n, k, hg2, hfs, hseen, adds2, hq2⟩ := loadFilesClassify_effect _ _ _ _ _ _ _ _ _ _ h
  rw [hg] at hg2
  simp only [Except.ok.injEq, Prod.mk.injEq] at hg2
  obtain ⟨rfl, rfl⟩ := hg2
  obtain ⟨adds, hq, -, hmem, hmark⟩ := loadFilesAncestors_marks r.parents s
  rw [loadFilesAncestors_fs] at hfs
  have hkey : ∀ x, (mapGet s2.seenAncestorSymlinkRel x).isSome =
      (mapGet (loadFilesAncestors r.parents s).seenAncestorSymlinkRel x).isSome := by
    intro x
    rcases hseen with h1 | ⟨h1, h2⟩
    · rw [h1]
    · rw [h2, mapGet_mapSet]
      by_cases hx : x = r.normPath
      · subst hx
        rw [if_pos rfl, h1]
        rfl
      · rw [if_neg hx]
  refine ⟨hfs, ?_, ?_, ?_, ?_⟩
  · intro x
    rw [hkey x, hmark x]
    by_cases hx : x ∈ adds
    · rw [if_pos hx]
      simp [((hmem x).1 hx).1]
    · rw [if_neg hx]
      by_cases hp : x ∈ r.parents
      · have : mapGet s.seenAncestorSymlinkRel x ≠ none := fun hn => hx ((hmem x).2 ⟨hp, hn⟩)
        cases hm : mapGet s.seenAncestorSymlinkRel x with
        | none => exact absurd hm this
        | some b => simp
      · simp [hp]
  · intro x hn hp
    rw [hq2, hq]
    exact List.mem_append_left _ (List.mem_append_right _ ((hmem x).2 ⟨hp, hn⟩))
  · intro x hx
    rw [hq2, hq]
    exact List.mem_append_left _ (List.mem_append_left _ hx)
  · intro x hx
    have hx2 : mapGet (loadFilesAncestors r.parents s).seenAncestorSymlinkRel x = some true := by
      rcases hseen with h1 | ⟨h1, h2⟩
      · rw [← h1]; exact hx
      · rw [h2, mapGet_mapSet] at hx
        by_cases hxn : x = r.normPath
        · rw [if_pos hxn] at hx; cases hx
        · rw [if_neg hxn] at hx; exact hx
    rw [hmark x] at hx2
    by_cases hxa : x ∈ adds
    · exact Or.inr ⟨((hmem x).1 hxa).2, ((hmem x).1 hxa).1⟩
    · rw [if_neg hxa] at hx2
      exact Or.inl hx2

end Client

namespace Client

/-! ## The absolute path of a round -/

theorem ParentsResolved.length_parts {host : Host} {execRoot : String} {mat : Bool}
    {pre : List String} {tgt : String} {parents parts symlinks : List String}
    (h : ParentsResolved host execRoot mat pre tgt parents parts symlinks) :
    parts.length = parents.length := by
  induction h with
  | done => rfl
  | keep _ _ _ _ _ _ _ _ ih => simp [ih]
  | replace _ _ _ _ _ _ _ _ _ _ _ _ ih => simp [ih]
  | materialize _ _ _ _ _ _ _ _ _ _ _ _ ih => simp [ih]

theorem append_sep_ne_empty (a b : String) : a ++ "/" ++ b ≠ "" := by
  intro h
  have := congrArg String.length h
  simp only [String.length_append] at this
  have h1 : "/".length = 1 := rfl
  have h2 : "".length = 0 := rfl
  omega

/-- The path that `evalParentSymlinks` returns for a path that is not empty is not empty. -/
theorem evalParentSymlinks_ne_empty (host : Host) (execRoot relPath : String) (mat : Bool)
    (evaled : String) (symlinks : List String) (h0 : relPath ≠ "")
    (h : evalParentSymlinks host execRoot relPath mat = .ok (evaled, symlinks)) :
    evaled ≠ "" := by
  rw [evalParentSymlinks, ← splitSep_dropLast relPath] at h
  obtain ⟨parts, symsNew, hres, -, hev⟩ :=
    evalParentSymlinksLoop_resolved host execRoot mat _ _ [] (execRoot ++ "/") true "" _ []
      evaled symlinks rfl (by simp) rfl h
  rw [List.nil_append] at hev
  have hlen := hres.length_parts
  by_cases hp : parts = []
  · subst hp
    have hd : (splitSep relPath).dropLast = [] := by
      apply List.eq_nil_of_length_eq_zero
      rw [← hlen]; rfl
    have hrel : relPath = (splitSep relPath).getLastD "" := by
      have h1 := splitSep_dropLast relPath
      rw [hd, List.nil_append] at h1
      have h2 := joinSep_splitSep relPath
      rw [← h1, joinSep_singleton] at h2
      exact h2.symm
    rw [hev, List.nil_append, joinSep_singleton, ← hrel]
    exact h0
  · rw [hev, joinSep_snoc, if_neg hp]
    exact append_sep_ne_empty _ _

/-- The absolute path of a round is the path relative to the exec root, joined to the exec
root. -/
theorem loadFilesPaths_abs (host : Host) (execRoot lwd rwd : String) (opts : TreeSymlinkOpts)
    (path : String) (r : roundPaths)
    (hr : loadFilesPaths host execRoot lwd rwd opts path = .ok r) :
    r.absPath = Join [execRoot, r.normPath] ∧ ((rwd = "" ∨ rwd = lwd) → r.key = r.normPath) := by
  obtain ⟨h0, evaled, hev, habs, hg⟩ := loadFilesPaths_ok host execRoot lwd rwd opts path r hr
  obtain ⟨hrel, hk⟩ := getExecRootRelPaths_spec _ _ _ _ _ _ hg
  have hne := evalParentSymlinks_ne_empty host execRoot path _ evaled r.parents h0 hev
  refine ⟨?_, ?_⟩
  · rw [getRelPath_join execRoot r.absPath r.normPath hrel, habs, Clean_Join_pair _ _ hne]
  · intro hw
    rcases hk with ⟨-, h⟩ | ⟨hn, -⟩
    · exact h
    · exact absurd hw hn

/-- Two rounds with the same key have the same absolute path when the remote working
directory is the local one. -/
theorem loadFilesPaths_abs_eq (host : Host) (execRoot lwd rwd : String)
    (opts : TreeSymlinkOpts) (p q : String) (r r2 : roundPaths) (hw : rwd = "" ∨ rwd = lwd)
    (hr : loadFilesPaths host execRoot lwd rwd opts p = .ok r)
    (hr2 : loadFilesPaths host execRoot lwd rwd opts q = .ok r2) (hk : r2.key = r.key) :
    r2.absPath = r.absPath ∧ r2.normPath = r.normPath := by
  obtain ⟨a1, a2⟩ := loadFilesPaths_abs host execRoot lwd rwd opts p r hr
  obtain ⟨b1, b2⟩ := loadFilesPaths_abs host execRoot lwd rwd opts q r2 hr2
  have hn : r2.normPath = r.normPath := by rw [← a2 hw, ← b2 hw, hk]
  exact ⟨by rw [a1, b1, hn], hn⟩

/-! ## The loop of the loader keeps what every round keeps -/

/-- What holds of the state of the loader before the loop and is kept by every round that
does not fail, holds of a state with an empty queue and the flat map that the loop returns. -/
theorem loadFilesLoop_state_inv (host : Host) (execRoot lwd rwd : String)
    (excl : List InputExclusion) (opts : TreeSymlinkOpts)
    (np : List (String × NodeProperties)) (I : loadState → Prop)
    (hstep : ∀ path rest s s2, s.filesToProcess = path :: rest → I s →
      loadFilesStep host execRoot lwd rwd excl opts np path { s with filesToProcess := rest } =
        .ok s2 → I s2) :
    ∀ fuel s fs, loadFilesLoop host execRoot lwd rwd excl opts np fuel s = some (.ok fs) →
      I s → ∃ sEnd, I sEnd ∧ sEnd.filesToProcess = [] ∧ sEnd.fs = fs := by
  intro fuel
  induction fuel with
  | zero =>
    intro s fs h hI
    cases hq : s.filesToProcess with
    | nil =>
      rw [loadFilesLoop_nil _ _ _ _ _ _ _ _ _ hq] at h
      simp only [Option.some.injEq, Except.ok.injEq] at h
      exact ⟨s, hI, hq, h⟩
    | cons p rest =>
      rw [loadFilesLoop_zero _ _ _ _ _ _ _ _ p rest hq] at h
      cases h
  | succ n ih =>
    intro s fs h hI
    cases hq : s.filesToProcess with
    | nil =>
      rw [loadFilesLoop_nil _ _ _ _ _ _ _ _ _ hq] at h
      simp only [Option.some.injEq, Except.ok.injEq] at h
      exact ⟨s, hI, hq, h⟩
    | cons p rest =>
      rw [loadFilesLoop_succ _ _ _ _ _ _ _ n s p rest hq] at h
      cases hst : loadFilesStep host execRoot lwd rwd excl opts np p
          { s with filesToProcess := rest } with
      | error e => rw [hst] at h; cases h
      | ok s2 =>
        rw [hst] at h
        exact ih s2 fs h (hstep p rest s s2 hq hI hst)

end Client

namespace Client

/-! ## Rounds of regular files and of symlinks under the preserve policy -/

theorem isLoadedFile_spec (host : Host) (execRoot lwd rwd : String)
    (excl : List InputExclusion) (opts : TreeSymlinkOpts) (path : String)
    (h : isLoadedFile host execRoot lwd rwd excl opts path = true) :
    loadFilesPaths host execRoot lwd rwd opts path =
        .ok (pathsOf host execRoot lwd rwd opts path) ∧
      (host.Get (pathsOf host execRoot lwd rwd opts path).absPath).Symlink = none ∧
      (host.Get (pathsOf host execRoot lwd rwd opts path).absPath).IsDirectory = false ∧
      shouldIgnore host (pathsOf host execRoot lwd rwd opts path).absPath .FileInputType excl =
        false ∧
      (host.Get (pathsOf host execRoot lwd rwd opts path).absPath).Err = none := by
  unfold isLoadedFile at h
  unfold pathsOf
  cases hr : loadFilesPaths host execRoot lwd rwd opts path with
  | error e => rw [hr] at h; cases h
  | ok r =>
    rw [hr] at h
    simp only [Bool.and_eq_true, Bool.not_eq_true', Option.isNone_iff_eq_none] at h
    exact ⟨rfl, h.1.1.1, h.1.1.2, h.1.2, h.2⟩

theorem isAncestorLink_spec (host : Host) (execRoot lwd rwd : String)
    (excl : List InputExclusion) (opts : TreeSymlinkOpts)
    (np : List (String × NodeProperties)) (path : String)
    (h : isAncestorLink host execRoot lwd rwd excl opts path = true) :
    loadFilesPaths host execRoot lwd rwd opts path =
        .ok (pathsOf host execRoot lwd rwd opts path) ∧
      (pathsOf host execRoot lwd rwd opts path).normPath = path ∧
      ∃ sl t1 t2,
        (host.Get (pathsOf host execRoot lwd rwd opts path).absPath).Symlink = some sl ∧
        shouldIgnore host (pathsOf host execRoot lwd rwd opts path).absPath
          .SymlinkInputType excl = false ∧
        getTargetRelPath execRoot (pathsOf host execRoot lwd rwd opts path).normPath
          sl.Target = .ok (t1, t2) ∧
        ancestorNode host execRoot np (pathsOf host execRoot lwd rwd opts path) =
          some (symlinkNodeOf t2
            (mapGet np (pathsOf host execRoot lwd rwd opts path).key)) := by
  unfold isAncestorLink at h
  unfold pathsOf
  cases hr : loadFilesPaths host execRoot lwd rwd opts path with
  | error e => rw [hr] at h; cases h
  | ok r =>
    rw [hr] at h
    dsimp only at h ⊢
    cases hs : (host.Get r.absPath).Symlink with
    | none => rw [hs] at h; simp at h
    | some sl =>
      rw [hs] at h
      dsimp only at h
      cases ht : getTargetRelPath execRoot r.normPath sl.Target with
      | error e => rw [ht] at h; simp [Except.isOk, Except.toBool] at h
      | ok tr =>
        obtain ⟨t1, t2⟩ := tr
        simp only [Bool.and_eq_true, Bool.not_eq_true', beq_iff_eq] at h
        refine ⟨rfl, h.1, sl, t1, t2, rfl, h.2.1, ht, ?_⟩
        simp only [ancestorNode, hs, ht]

/-- The round of a regular file under the preserve policy marks the parent symlinks and
records the file under the key of its paths. -/
theorem loadFilesStep_file (host : Host) (execRoot lwd rwd : String)
    (excl : List InputExclusion) (opts : TreeSymlinkOpts)
    (np : List (String × NodeProperties)) (path : String) (s : loadState)
    (hP : opts.Preserved = true)
    (h : isLoadedFile host execRoot lwd rwd excl opts path = true) :
    loadFilesStep host execRoot lwd rwd excl opts np path s =
      .ok { loadFilesAncestors (pathsOf host execRoot lwd rwd opts path).parents s with
        fs := mapSet s.fs (pathsOf host execRoot lwd rwd opts path).key
          (fileNodeOf (host.Get (pathsOf host execRoot lwd rwd opts path).absPath)
            (pathsOf host execRoot lwd rwd opts path).absPath
            (mapGet np (pathsOf host execRoot lwd rwd opts path).key)) } := by
  obtain ⟨hr, h1, h2, h3, h4⟩ := isLoadedFile_spec host execRoot lwd rwd excl opts path h
  obtain ⟨-, -, -, -, hg⟩ := loadFilesPaths_ok host execRoot lwd rwd opts path _ hr
  rw [loadFilesStep_paths host execRoot lwd rwd excl opts np path _ s hP hr,
    loadFilesClassify_file host execRoot lwd rwd excl opts np _ _ _ _ hg h1 h2 h3 h4,
    loadFilesAncestors_fs]

/-- Every round on the absolute path of a regular file records the file. -/
theorem loadFilesClassify_file_fs (host : Host) (execRoot lwd rwd : String)
    (excl : List InputExclusion) (opts : TreeSymlinkOpts)
    (np : List (String × NodeProperties)) (path : String) (s s2 : loadState)
    (h : isLoadedFile host execRoot lwd rwd excl opts path = true)
    (hc : loadFilesClassify host execRoot lwd rwd excl opts np
      (pathsOf host execRoot lwd rwd opts path).absPath s = .ok s2) :
    s2.fs = mapSet s.fs (pathsOf host execRoot lwd rwd opts path).key
      (fileNodeOf (host.Get (pathsOf host execRoot lwd rwd opts path).absPath)
        (pathsOf host execRoot lwd rwd opts path).absPath
        (mapGet np (pathsOf host execRoot lwd rwd opts path).key)) := by
  obtain ⟨hr, h1, h2, h3, h4⟩ := isLoadedFile_spec host execRoot lwd rwd excl opts path h
  obtain ⟨-, -, -, -, hg⟩ := loadFilesPaths_ok host execRoot lwd rwd opts path _ hr
  rw [loadFilesClassify_file host execRoot lwd rwd excl opts np _ _ _ _ hg h1 h2 h3 h4] at hc
  simp only [Except.ok.injEq] at hc
  rw [← hc]

/-- Every round on the absolute path of a preserved symlink whose target is under the exec
root records the symlink, whether or not the path is marked. -/
theorem loadFilesClassify_link_fs (host : Host) (execRoot lwd rwd : String)
    (excl : List InputExclusion) (opts : TreeSymlinkOpts)
    (np : List (String × NodeProperties)) (path : String) (s s2 : loadState)
    (hP : opts.Preserved = true)
    (h : isAncestorLink host execRoot lwd rwd excl opts path = true)
    (hc : loadFilesClassify host execRoot lwd rwd excl opts np
      (pathsOf host execRoot lwd rwd opts path).absPath s = .ok s2) :
    ∃ node, ancestorNode host execRoot np (pathsOf host execRoot lwd rwd opts path) =
        some node ∧
      s2.fs = mapSet s.fs (pathsOf host execRoot lwd rwd opts path).key node := by
  obtain ⟨hr, hn, sl, t1, t2, h1, h2, h3, h4⟩ :=
    isAncestorLink_spec host execRoot lwd rwd excl opts np path h
  obtain ⟨-, -, -, -, hg⟩ := loadFilesPaths_ok host execRoot lwd rwd opts path _ hr
  rw [loadFilesClassify_symlink host execRoot lwd rwd excl opts np _ _ _ sl t1 t2 _ hP hg h1
    h2 h3] at hc
  refine ⟨_, h4, ?_⟩
  split at hc
  · simp only [Except.ok.injEq] at hc
    rw [← hc]
  · split at hc <;>
    · simp only [Except.ok.injEq] at hc
      rw [← hc]

end Client

namespace Client

/-! ## What the flat map holds of an input and of its parent symlinks -/

/-- When the loader returns a flat map, a property of flat maps that every round keeps and
that the round of the input `p` brings about holds of the flat map; so does, for every parent
symlink of `p`, a property that every round keeps and that the round of the parent symlink
brings about. -/
theorem loadFiles_reaches (host : Host) (execRoot lwd rwd : String)
    (excl : List InputExclusion) (opts : TreeSymlinkOpts)
    (np : List (String × NodeProperties)) (hP : opts.Preserved = true) (p : String)
    (rp : roundPaths) (hrp : loadFilesPaths host execRoot lwd rwd opts p = .ok rp)
    (Qp : List (String × fileSysNode) → Prop)
    (Qa : String → List (String × fileSysNode) → Prop) (good : String → Prop)
    (pres : ∀ path s s2, loadFilesStep host execRoot lwd rwd excl opts np path s = .ok s2 →
      (Qp s.fs → Qp s2.fs) ∧ ∀ a, good a → Qa a s.fs → Qa a s2.fs)
    (estp : ∀ s s2, loadFilesStep host execRoot lwd rwd excl opts np p s = .ok s2 → Qp s2.fs)
    (esta : ∀ a, good a → ∀ s s2,
      loadFilesStep host execRoot lwd rwd excl opts np a s = .ok s2 → Qa a s2.fs)
    (fuel : Nat) (inputs : List String) (fs0 fs : List (String × fileSysNode))
    (hp : p ∈ inputs)
    (h : loadFiles host fuel execRoot lwd rwd excl inputs fs0 (some opts) np = some (.ok fs)) :
    Qp fs ∧ ∀ a ∈ rp.parents, good a → Qa a fs := by
  rw [loadFiles, Option.getD_some] at h
  obtain ⟨sEnd, hI, hq, hfs⟩ := loadFilesLoop_state_inv host execRoot lwd rwd excl opts np
    (fun s => (p ∈ s.filesToProcess ∨
        (Qp s.fs ∧ ∀ a ∈ rp.parents, (mapGet s.seenAncestorSymlinkRel a).isSome = true)) ∧
      ∀ a ∈ rp.parents, good a → (mapGet s.seenAncestorSymlinkRel a).isSome = true →
        (a ∈ s.filesToProcess ∨ Qa a s.fs))
    (by
      intro path rest s s2 hqs hI hst
      obtain ⟨hI1, hI2⟩ := hI
      obtain ⟨r2, hr2⟩ := loadFilesStep_ok_paths host execRoot lwd rwd excl opts np path _ s2
        hP hst
      obtain ⟨-, hkeys, hnew, hqueue, -⟩ :=
        loadFilesStep_effect host execRoot lwd rwd excl opts np path r2 _ s2 hP hr2 hst
      obtain ⟨hpp, hpa⟩ := pres path _ s2 hst
      dsimp only at hkeys hnew hqueue hpp hpa
      refine ⟨?_, ?_⟩
      · rcases hI1 with hin | ⟨hq1, hq2⟩
        · rw [hqs] at hin
          rcases List.mem_cons.1 hin with rfl | hin
          · right
            refine ⟨estp _ s2 hst, ?_⟩
            intro a ha
            have : r2 = rp := by
              rw [hrp] at hr2
              simp only [Except.ok.injEq] at hr2
              exact hr2.symm
            rw [hkeys a, this]
            simp [ha]
          · exact Or.inl (hqueue p hin)
        · right
          refine ⟨hpp hq1, ?_⟩
          intro a ha
          rw [hkeys a, hq2 a ha]
          rfl
      · intro a ha hg hs
        rw [hkeys a] at hs
        cases hm : mapGet s.seenAncestorSymlinkRel a with
        | none =>
          rw [hm] at hs
          simp only [Option.isSome_none, Bool.false_or, decide_eq_true_eq] at hs
          exact Or.inl (hnew a hm hs)
        | some b =>
          rcases hI2 a ha hg (by rw [hm]; rfl) with hin | hq1
          · rw [hqs] at hin
            rcases List.mem_cons.1 hin with rfl | hin
            · exact Or.inr (esta _ hg _ s2 hst)
            · exact Or.inl (hqueue a hin)
          · exact Or.inr (hpa a hg hq1))
    fuel _ fs h
    ⟨Or.inl hp, by
      intro a _ _ hs
      simp [mapGet] at hs⟩
  obtain ⟨hI1, hI2⟩ := hI
  rw [hq] at hI1 hI2
  rw [hfs] at hI1 hI2
  rcases hI1 with hin | ⟨hq1, hq2⟩
  · cases hin
  · refine ⟨hq1, ?_⟩
    intro a ha hg
    rcases hI2 a ha hg (hq2 a ha) with hin | hqa
    · cases hin
    · exact hqa

end Client

namespace Client

theorem mem_mapKeys_of_fs (fs fs2 : List (String × fileSysNode)) (k x : String)
    (h : fs2 = fs ∨ ∃ node, fs2 = mapSet fs k node) (hx : x ∈ mapKeys fs) :
    x ∈ mapKeys fs2 := by
  rcases h with h | ⟨node, h⟩
  · rw [h]; exact hx
  · rw [h, mem_mapKeys_mapSet]; exact Or.inr hx

/-- When the loader returns a flat map under the preserve policy, the flat map has an entry
under the key of every input that is a regular file, and under the key of every parent symlink
of such an input that the loader records as a symlink under the name that the resolver
returned. -/
theorem loadFiles_holds_keys (host : Host) (execRoot lwd rwd : String)
    (excl : List InputExclusion) (opts : TreeSymlinkOpts)
    (np : List (String × NodeProperties)) (hP : opts.Preserved = true) (p : String)
    (hfile : isLoadedFile host execRoot lwd rwd excl opts p = true)
    (fuel : Nat) (inputs : List String) (fs0 fs : List (String × fileSysNode))
    (hp : p ∈ inputs)
    (h : loadFiles host fuel execRoot lwd rwd excl inputs fs0 (some opts) np = some (.ok fs)) :
    (pathsOf host execRoot lwd rwd opts p).key ∈ mapKeys fs ∧
      ∀ a ∈ (pathsOf host execRoot lwd rwd opts p).parents,
        isAncestorLink host execRoot lwd rwd excl opts a = true →
        (pathsOf host execRoot lwd rwd opts a).key ∈ mapKeys fs := by
  obtain ⟨hrp, -⟩ := isLoadedFile_spec host execRoot lwd rwd excl opts p hfile
  refine loadFiles_reaches host execRoot lwd rwd excl opts np hP p _ hrp
    (fun m => (pathsOf host execRoot lwd rwd opts p).key ∈ mapKeys m)
    (fun a m => (pathsOf host execRoot lwd rwd opts a).key ∈ mapKeys m)
    (fun a => isAncestorLink host execRoot lwd rwd excl opts a = true)
    ?_ ?_ ?_ fuel inputs fs0 fs hp h
  · intro path s s2 hst
    obtain ⟨r2, hr2⟩ := loadFilesStep_ok_paths host execRoot lwd rwd excl opts np path s s2
      hP hst
    obtain ⟨hfs, -⟩ :=
      loadFilesStep_effect host execRoot lwd rwd excl opts np path r2 s s2 hP hr2 hst
    exact ⟨mem_mapKeys_of_fs _ _ _ _ hfs, fun a _ => mem_mapKeys_of_fs _ _ _ _ hfs⟩
  · intro s s2 hst
    rw [loadFilesStep_file host execRoot lwd rwd excl opts np p s hP hfile] at hst
    simp only [Except.ok.injEq] at hst
    rw [← hst]
    exact (mem_mapKeys_mapSet _ _ _ _).2 (Or.inl rfl)
  · intro a ha s s2 hst
    obtain ⟨hra, -⟩ := isAncestorLink_spec host execRoot lwd rwd excl opts np a ha
    rw [loadFilesStep_paths host execRoot lwd rwd excl opts np a _ s hP hra] at hst
    obtain ⟨node, -, hfs⟩ :=
      loadFilesClassify_link_fs host execRoot lwd rwd excl opts np a _ s2 hP ha hst
    rw [hfs]
    exact (mem_mapKeys_mapSet _ _ _ _).2 (Or.inl rfl)

/-- When the remote working directory is the local one, the entries are the file node and
the symlink node. -/
theorem loadFiles_holds_nodes (host : Host) (execRoot lwd rwd : String)
    (excl : List InputExclusion) (opts : TreeSymlinkOpts)
    (np : List (String × NodeProperties)) (hP : opts.Preserved = true)
    (hw : rwd = "" ∨ rwd = lwd) (p : String)
    (hfile : isLoadedFile host execRoot lwd rwd excl opts p = true)
    (fuel : Nat) (inputs : List String) (fs0 fs : List (String × fileSysNode))
    (hp : p ∈ inputs)
    (h : loadFiles host fuel execRoot lwd rwd excl inputs fs0 (some opts) np = some (.ok fs)) :
    mapGet fs (pathsOf host execRoot lwd rwd opts p).key =
        some (fileNodeOf (host.Get (pathsOf host execRoot lwd rwd opts p).absPath)
          (pathsOf host execRoot lwd rwd opts p).absPath
          (mapGet np (pathsOf host execRoot lwd rwd opts p).key)) ∧
      ∀ a ∈ (pathsOf host execRoot lwd rwd opts p).parents,
        isAncestorLink host execRoot lwd rwd excl opts a = true →
        ∃ node, ancestorNode host execRoot np (pathsOf host execRoot lwd rwd opts a) =
            some node ∧
          mapGet fs (pathsOf host execRoot lwd rwd opts a).key = some node := by
  obtain ⟨hrp, -⟩ := isLoadedFile_spec host execRoot lwd rwd excl opts p hfile
  refine loadFiles_reaches host execRoot lwd rwd excl opts np hP p _ hrp
    (fun m => mapGet m (pathsOf host execRoot lwd rwd opts p).key =
      some (fileNodeOf (host.Get (pathsOf host execRoot lwd rwd opts p).absPath)
        (pathsOf host execRoot lwd rwd opts p).absPath
        (mapGet np (pathsOf host execRoot lwd rwd opts p).key)))
    (fun a m => ∃ node, ancestorNode host execRoot np (pathsOf host execRoot lwd rwd opts a) =
        some node ∧ mapGet m (pathsOf host execRoot lwd rwd opts a).key = some node)
    (fun a => isAncestorLink host execRoot lwd rwd excl opts a = true)
    ?_ ?_ ?_ fuel inputs fs0 fs hp h
  · intro path s s2 hst
    obtain ⟨r2, hr2⟩ := loadFilesStep_ok_paths host execRoot lwd rwd excl opts np path s s2
      hP hst
    obtain ⟨hfs, -⟩ :=
      loadFilesStep_effect host execRoot lwd rwd excl opts np path r2 s s2 hP hr2 hst
    have hcl := hst
    rw [loadFilesStep_paths host execRoot lwd rwd excl opts np path r2 s hP hr2] at hcl
    refine ⟨?_, ?_⟩
    · intro hq
      by_cases hk : r2.key = (pathsOf host execRoot lwd rwd opts p).key
      · obtain ⟨habs, -⟩ := loadFilesPaths_abs_eq host execRoot lwd rwd opts p path _ r2 hw
          hrp hr2 hk
        rw [habs] at hcl
        rw [loadFilesClassify_file_fs host execRoot lwd rwd excl opts np p _ s2 hfile hcl,
          mapGet_mapSet, if_pos rfl]
      · rcases hfs with h1 | ⟨node, h1⟩
        · rw [h1]; exact hq
        · rw [h1, mapGet_mapSet, if_neg (fun hc => hk hc.symm)]
          exact hq
    · intro a ha hq
      obtain ⟨node, hn, hq⟩ := hq
      obtain ⟨hra, -⟩ := isAncestorLink_spec host execRoot lwd rwd excl opts np a ha
      by_cases hk : r2.key = (pathsOf host execRoot lwd rwd opts a).key
      · obtain ⟨habs, -⟩ := loadFilesPaths_abs_eq host execRoot lwd rwd opts a path _ r2 hw
          hra hr2 hk
        rw [habs] at hcl
        obtain ⟨node2, hn2, hfs2⟩ :=
          loadFilesClassify_link_fs host execRoot lwd rwd excl opts np a _ s2 hP ha hcl
        refine ⟨node2, hn2, ?_⟩
        rw [hfs2, mapGet_mapSet, if_pos rfl]
      · refine ⟨node, hn, ?_⟩
        rcases hfs with h1 | ⟨node2, h1⟩
        · rw [h1]; exact hq
        · rw [h1, mapGet_mapSet, if_neg (fun hc => hk hc.symm)]
          exact hq
  · intro s s2 hst
    rw [loadFilesStep_file host execRoot lwd rwd excl opts np p s hP hfile] at hst
    simp only [Except.ok.injEq] at hst
    rw [← hst]
    simp only [mapGet_mapSet, if_true]
  · intro a ha s s2 hst
    obtain ⟨hra, -⟩ := isAncestorLink_spec host execRoot lwd rwd excl opts np a ha
    rw [loadFilesStep_paths host execRoot lwd rwd excl opts np a _ s hP hra] at hst
    obtain ⟨node, hn, hfs⟩ :=
      loadFilesClassify_link_fs host execRoot lwd rwd excl opts np a _ s2 hP ha hst
    refine ⟨node, hn, ?_⟩
    rw [hfs, mapGet_mapSet, if_pos rfl]

end Client

namespace Client

/-! ## The loader on inputs that are regular files -/

theorem filter_unmarked_count (L adds : List String) (seen seen2 : List (String × Bool))
    (hnd : adds.Nodup) (hsub : ∀ x ∈ adds, x ∈ L ∧ mapGet seen x = none)
    (hmark : ∀ x, mapGet seen2 x = if x ∈ adds then some true else mapGet seen x) :
    adds.length + (L.filter (fun a => (mapGet seen2 a).isNone)).length ≤
      (L.filter (fun a => (mapGet seen a).isNone)).length := by
  have h2 : L.filter (fun a => (mapGet seen2 a).isNone) =
      (L.filter (fun a => (mapGet seen a).isNone)).filter (fun a => !decide (a ∈ adds)) := by
    rw [List.filter_filter]
    apply List.filter_congr
    intro x _
    rw [hmark x]
    by_cases hx : x ∈ adds
    · simp [hx]
    · simp [hx]
  have h3 := List.length_eq_length_filter_add (l := L.filter (fun a => (mapGet seen a).isNone))
    (fun a => decide (a ∈ adds))
  have h4 : adds.length ≤ ((L.filter (fun a => (mapGet seen a).isNone)).filter
      (fun a => decide (a ∈ adds))).length := by
    apply List.Subperm.length_le
    apply hnd.subperm
    intro x hx
    rw [List.mem_filter, List.mem_filter]
    obtain ⟨h5, h6⟩ := hsub x hx
    refine ⟨⟨h5, by rw [h6]; rfl⟩, by simpa using hx⟩
  rw [h2]
  omega

theorem filter_unmarked_clear (L : List String) (seen : List (String × Bool)) (a : String)
    (b : Bool) (ha : mapGet seen a = some true) :
    L.filter (fun x => (mapGet (mapSet seen a b) x).isNone) =
      L.filter (fun x => (mapGet seen x).isNone) := by
  apply List.filter_congr
  intro x _
  rw [mapGet_mapSet]
  by_cases hx : x = a
  · subst hx
    rw [if_pos rfl, ha]
    rfl
  · rw [if_neg hx]

/-- The round of a symlink that carries the ancestor mark under its own name and has no
parent symlinks records the symlink, clears the mark and leaves the queue as it is. -/
theorem loadFilesStep_marked (host : Host) (execRoot lwd rwd : String)
    (excl : List InputExclusion) (opts : TreeSymlinkOpts)
    (np : List (String × NodeProperties)) (a : String) (s : loadState)
    (hP : opts.Preserved = true)
    (ha : isAncestorLink host execRoot lwd rwd excl opts a = true)
    (hpar : (pathsOf host execRoot lwd rwd opts a).parents = [])
    (hm : mapGet s.seenAncestorSymlinkRel a = some true) :
    ∃ node, loadFilesStep host execRoot lwd rwd excl opts np a s =
      .ok { s with
        fs := mapSet s.fs (pathsOf host execRoot lwd rwd opts a).key node
        seenAncestorSymlinkRel := mapSet s.seenAncestorSymlinkRel a false } := by
  obtain ⟨hr, hn, sl, t1, t2, h1, h2, h3, -⟩ :=
    isAncestorLink_spec host execRoot lwd rwd excl opts np a ha
  obtain ⟨-, -, -, -, hg⟩ := loadFilesPaths_ok host execRoot lwd rwd opts a _ hr
  refine ⟨symlinkNodeOf t2 (mapGet np (pathsOf host execRoot lwd rwd opts a).key), ?_⟩
  rw [loadFilesStep_paths host execRoot lwd rwd excl opts np a _ s hP hr, hpar,
    loadFilesClassify_symlink host execRoot lwd rwd excl opts np _ _ _ sl t1 t2 _ hP hg h1
      h2 h3]
  simp only [loadFilesAncestors]
  rw [hn, if_pos hm]

/-- The loop of the loader on a queue of regular files followed by marked parent symlinks:
it returns, and every key of the flat map is one of the flat map before, the key of one of
the files or the key of one of the parent symlinks. -/
theorem loadFilesLoop_files (host : Host) (execRoot lwd rwd : String)
    (excl : List InputExclusion) (opts : TreeSymlinkOpts)
    (np : List (String × NodeProperties)) (hP : opts.Preserved = true)
    (inputs : List String) (Allowed : String → Prop)
    (hin : ∀ p ∈ inputs, isLoadedFile host execRoot lwd rwd excl opts p = true ∧
      ∀ a ∈ (pathsOf host execRoot lwd rwd opts p).parents,
        isAncestorLink host execRoot lwd rwd excl opts a = true ∧
          (pathsOf host execRoot lwd rwd opts a).parents = [])
    (hall1 : ∀ p ∈ inputs, Allowed (pathsOf host execRoot lwd rwd opts p).key)
    (hall2 : ∀ a ∈ inputs.flatMap (fun p => (pathsOf host execRoot lwd rwd opts p).parents),
      Allowed (pathsOf host execRoot lwd rwd opts a).key) :
    ∀ (fuel : Nat) (ins ancs : List String) (fs : List (String × fileSysNode))
      (seen : List (String × Bool)),
      (∀ q ∈ ins, q ∈ inputs) → ancs.Nodup →
      (∀ a ∈ ancs,
        a ∈ inputs.flatMap (fun p => (pathsOf host execRoot lwd rwd opts p).parents) ∧
          mapGet seen a = some true) →
      (∀ k ∈ mapKeys fs, Allowed k) →
      ins.length + ancs.length +
        ((inputs.flatMap (fun p => (pathsOf host execRoot lwd rwd opts p).parents)).filter
          (fun a => (mapGet seen a).isNone)).length ≤ fuel →
      ∃ out, loadFilesLoop host execRoot lwd rwd excl opts np fuel
          { filesToProcess := ins ++ ancs, fs := fs, seenAncestorSymlinkRel := seen } =
            some (.ok out) ∧
        ∀ k ∈ mapKeys out, Allowed k := by
  intro fuel
  induction fuel with
  | zero =>
    intro ins ancs fs seen _ _ _ hfs hpot
    have h1 : ins = [] := List.eq_nil_of_length_eq_zero (by omega)
    have h2 : ancs = [] := List.eq_nil_of_length_eq_zero (by omega)
    subst h1 h2
    exact ⟨fs, loadFilesLoop_nil _ _ _ _ _ _ _ _ _ rfl, hfs⟩
  | succ n ih =>
    intro ins ancs fs seen hins hnd hancs hfs hpot
    cases ins with
    | cons p ins2 =>
      obtain ⟨hfile, hpar⟩ := hin p (hins p (List.mem_cons_self _ _))
      rw [List.cons_append,
        loadFilesLoop_succ _ _ _ _ _ _ _ n _ p (ins2 ++ ancs) rfl,
        loadFilesStep_file host execRoot lwd rwd excl opts np p _ hP hfile]
      dsimp only
      obtain ⟨adds, hq, haddnd, hmem, hmark⟩ := loadFilesAncestors_marks
        (pathsOf host execRoot lwd rwd opts p).parents
        { filesToProcess := ins2 ++ ancs, fs := fs, seenAncestorSymlinkRel := seen }
      generalize loadFilesAncestors (pathsOf host execRoot lwd rwd opts p).parents
        { filesToProcess := ins2 ++ ancs, fs := fs, seenAncestorSymlinkRel := seen } = sA
        at hq hmark ⊢
      obtain ⟨qA, fA, seenA⟩ := sA
      dsimp only at hq hmem hmark ⊢
      subst hq
      rw [List.append_assoc]
      apply ih
      · intro q hq
        exact hins q (List.mem_cons_of_mem _ hq)
      · refine List.Nodup.append hnd haddnd ?_
        intro x hx1 hx2
        have := ((hmem x).1 hx2).2
        rw [(hancs x hx1).2] at this
        cases this
      · intro a ha
        rcases List.mem_append.1 ha with ha | ha
        · refine ⟨(hancs a ha).1, ?_⟩
          rw [hmark a]
          by_cases hx : a ∈ adds
          · rw [if_pos hx]
          · rw [if_neg hx]; exact (hancs a ha).2
        · refine ⟨List.mem_flatMap.2 ⟨p, hins p (List.mem_cons_self _ _),
            ((hmem a).1 ha).1⟩, ?_⟩
          rw [hmark a, if_pos ha]
      · intro k hk
        rcases (mem_mapKeys_mapSet _ _ _ _).1 hk with rfl | hk
        · exact hall1 p (hins p (List.mem_cons_self _ _))
        · exact hfs k hk
      · have hc := filter_unmarked_count
          (inputs.flatMap (fun p => (pathsOf host execRoot lwd rwd opts p).parents)) adds seen
          seenA haddnd
          (fun x hx => ⟨List.mem_flatMap.2 ⟨p, hins p (List.mem_cons_self _ _),
            ((hmem x).1 hx).1⟩, ((hmem x).1 hx).2⟩) hmark
        simp only [List.length_cons, List.length_append] at hpot ⊢
        omega
    | nil =>
      cases ancs with
      | nil => exact ⟨fs, loadFilesLoop_nil _ _ _ _ _ _ _ _ _ rfl, hfs⟩
      | cons a ancs2 =>
        obtain ⟨hanc, hm⟩ := hancs a (List.mem_cons_self _ _)
        obtain ⟨p, hp, hap⟩ := List.mem_flatMap.1 hanc
        obtain ⟨halink, hapar⟩ := (hin p hp).2 a hap
        obtain ⟨node, hst⟩ := loadFilesStep_marked host execRoot lwd rwd excl opts np a
          { filesToProcess := ancs2, fs := fs, seenAncestorSymlinkRel := seen } hP halink
          hapar hm
        rw [List.nil_append, loadFilesLoop_succ _ _ _ _ _ _ _ n _ a ancs2 rfl, hst]
        dsimp only
        have hnd2 := List.nodup_cons.1 hnd
        have := ih [] ancs2 (mapSet fs (pathsOf host execRoot lwd rwd opts a).key node)
          (mapSet seen a false) (by intro q hq; cases hq) hnd2.2
          (by
            intro x hx
            refine ⟨(hancs x (List.mem_cons_of_mem _ hx)).1, ?_⟩
            have hxa : x ≠ a := fun hc => hnd2.1 (by rw [← hc]; exact hx)
            rw [mapGet_mapSet, if_neg hxa]
            exact (hancs x (List.mem_cons_of_mem _ hx)).2)
          (by
            intro k hk
            rcases (mem_mapKeys_mapSet _ _ _ _).1 hk with rfl | hk
            · exact hall2 a hanc
            · exact hfs k hk)
          (by
            rw [filter_unmarked_clear _ seen a false hm]
            simp only [List.length_cons, List.length_nil] at hpot ⊢
            omega)
        rw [List.nil_append] at this
        exact this

end Client

namespace Client

/-! ## C21: preserved symlinks that point outside the exec root -/

/-- The round of the loader checks that the path lies under the exec root before it looks at
the metadata: the input `../l` under the exec root `/e` names the symlink `/l`, and the loader
returns the error that `/l` is not under `/e` without reading what `/l` is. -/
theorem loadFiles_outside_symlink_error :
    (exampleOutsideHost.Get (Join ["/e", "../l"])).Symlink =
        some { Target := "/o/t", IsDangling := false } ∧
      shouldIgnore exampleOutsideHost (Join ["/e", "../l"]) .SymlinkInputType [] = false ∧
      getRelPath "/e" "/o/t" = .error (.notUnder "/o/t" "/e") ∧
      loadFiles exampleOutsideHost 5 "/e" "" "" [] ["../l"] [] (some exampleMaterialize) [] =
        some (.error (.notUnder "/l" "/e")) := by
  decide

/-- The treatment of a symlink by the loader when symlinks are preserved and the target of the
link cannot be computed under the exec root. -/
theorem loadFilesClassify_outside (host : Host) (execRoot lwd rwd : String)
    (excl : List InputExclusion) (opts : TreeSymlinkOpts)
    (np : List (String × NodeProperties)) (absPath normPath k : String)
    (sl : SymlinkMetadata) (e : Err) (s : loadState) (hP : opts.Preserved = true)
    (hrel : getExecRootRelPaths absPath execRoot lwd rwd = .ok (normPath, k))
    (hsym : (host.Get absPath).Symlink = some sl)
    (hex : shouldIgnore host absPath .SymlinkInputType excl = false)
    (hte : getTargetRelPath execRoot normPath sl.Target = .error e) :
    loadFilesClassify host execRoot lwd rwd excl opts np absPath s =
      if opts.MaterializeOutsideExecRoot = false then
        .error (.symlinkTarget normPath execRoot e)
      else if sl.IsDangling = true then .error (.danglingSymlink normPath sl.Target)
      else loadFilesNonSymlink host excl absPath normPath k (mapGet np k) (host.Get absPath)
        s := by
  unfold loadFilesClassify
  rw [hrel]
  dsimp only
  rw [hsym]
  dsimp only
  rw [if_neg (by simp [hP]), if_pos hP, hex, hte]
  dsimp only
  cases opts.MaterializeOutsideExecRoot <;> cases sl.IsDangling <;> simp

theorem getTargetRelPath_error_of_outside (execRoot link tgt : String)
    (h : ¬ Under execRoot (targetAbs execRoot link tgt)) :
    ∃ e, getTargetRelPath execRoot link tgt = .error e := by
  cases hg : getTargetRelPath execRoot link tgt with
  | error e => exact ⟨e, rfl⟩
  | ok r =>
    obtain ⟨r1, r2⟩ := r
    exact absurd (getRelPath_under _ _ _ (getTargetRelPath_ok _ _ _ _ _ hg)) h

/-- C21: under the preserve policy, let the loader take a path from its queue for which the
round comes to look at the metadata (the path is not empty, its parent symlinks
resolve, and the resolved path lies under the exec root), and let the metadata report a
symlink that no rule excludes and whose target lies outside the exec root.  Then the round,
and with it `loadFiles`, fails if `MaterializeOutsideExecRoot` is false; it fails if
`MaterializeOutsideExecRoot` is true and the symlink is dangling; and otherwise the round is
the treatment of the path as a file or directory, which records no symlink node. -/
theorem loadFiles_symlink_outside (host : Host) (execRoot lwd rwd : String)
    (excl : List InputExclusion) (opts : TreeSymlinkOpts)
    (np : List (String × NodeProperties)) (path evaled normPath k : String)
    (parents : List String) (sl : SymlinkMetadata)
    (hP : opts.Preserved = true) (hp : path ≠ "")
    (hev : evalParentSymlinks host execRoot path opts.MaterializeOutsideExecRoot =
      .ok (evaled, parents))
    (hrel : getExecRootRelPaths (Join [execRoot, evaled]) execRoot lwd rwd = .ok (normPath, k))
    (hsym : (host.Get (Join [execRoot, evaled])).Symlink = some sl)
    (hex : shouldIgnore host (Join [execRoot, evaled]) .SymlinkInputType excl = false)
    (hout : ¬ Under execRoot (targetAbs execRoot normPath sl.Target)) :
    (opts.MaterializeOutsideExecRoot = false →
      ∃ e, (∀ s, loadFilesStep host execRoot lwd rwd excl opts np path s =
          .error (.symlinkTarget normPath execRoot e)) ∧
        ∀ fuel rest fs, loadFiles host (fuel + 1) execRoot lwd rwd excl (path :: rest) fs
          (some opts) np = some (.error (.symlinkTarget normPath execRoot e))) ∧
    (opts.MaterializeOutsideExecRoot = true → sl.IsDangling = true →
      (∀ s, loadFilesStep host execRoot lwd rwd excl opts np path s =
          .error (.danglingSymlink normPath sl.Target)) ∧
        ∀ fuel rest fs, loadFiles host (fuel + 1) execRoot lwd rwd excl (path :: rest) fs
          (some opts) np = some (.error (.danglingSymlink normPath sl.Target))) ∧
    (opts.MaterializeOutsideExecRoot = true → sl.IsDangling = false →
      ∀ s, loadFilesStep host execRoot lwd rwd excl opts np path s =
          loadFilesNonSymlink host excl (Join [execRoot, evaled]) normPath k (mapGet np k)
            (host.Get (Join [execRoot, evaled])) (loadFilesAncestors parents s) ∧
        ∀ s2, loadFilesStep host execRoot lwd rwd excl opts np path s = .ok s2 →
          s2.fs = s.fs ∨ ∃ node, s2.fs = mapSet s.fs k node ∧ node.symlink = none) := by
  obtain ⟨e, hte⟩ := getTargetRelPath_error_of_outside execRoot normPath sl.Target hout
  have hstep : ∀ s, loadFilesStep host execRoot lwd rwd excl opts np path s =
      if opts.MaterializeOutsideExecRoot = false then
        .error (.symlinkTarget normPath execRoot e)
      else if sl.IsDangling = true then .error (.danglingSymlink normPath sl.Target)
      else loadFilesNonSymlink host excl (Join [execRoot, evaled]) normPath k (mapGet np k)
        (host.Get (Join [execRoot, evaled])) (loadFilesAncestors parents s) := by
    intro s
    rw [loadFilesStep_classify, if_neg hp, if_pos hP, hev]
    exact loadFilesClassify_outside host execRoot lwd rwd excl opts np _ normPath k sl e _ hP
      hrel hsym hex hte
  refine ⟨?_, ?_, ?_⟩
  · intro hm
    refine ⟨e, fun s => by rw [hstep s, if_pos hm], ?_⟩
    intro fuel rest fs
    rw [loadFiles, Option.getD_some, loadFilesLoop_succ _ _ _ _ _ _ _ _ _ path rest rfl, hstep,
      if_pos hm]
  · intro hm hd
    have hm2 : ¬ opts.MaterializeOutsideExecRoot = false := by simp [hm]
    refine ⟨fun s => by rw [hstep s, if_neg hm2, if_pos hd], ?_⟩
    intro fuel rest fs
    rw [loadFiles, Option.getD_some, loadFilesLoop_succ _ _ _ _ _ _ _ _ _ path rest rfl, hstep,
      if_neg hm2, if_pos hd]
  · intro hm hd s
    have hm2 : ¬ opts.MaterializeOutsideExecRoot = false := by simp [hm]
    have hd2 : ¬ sl.IsDangling = true := by simp [hd]
    have := hstep s
    rw [if_neg hm2, if_neg hd2] at this
    refine ⟨this, ?_⟩
    intro s2 h2
    rw [this] at h2
    have := loadFilesNonSymlink_fs host excl _ normPath k _ _ _ s2 h2
    rwa [loadFilesAncestors_fs] at this

/-- C21 at the exec root `/e`: with materialization the symlink `m` to the file
`/o/t` is recorded as a file, and the dangling symlink `g` to `/o/none` makes the loader
fail. -/
theorem loadFiles_symlink_outside_witness :
    loadFiles exampleOutsideHost 5 "/e" "" "" [] ["m"] [] (some exampleMaterialize) [] =
        some (.ok [("m", exampleLoaded "T" "/e/m")]) ∧
      (∀ fuel rest fs, loadFiles exampleOutsideHost (fuel + 1) "/e" "" "" [] ("g" :: rest) fs
        (some exampleMaterialize) [] = some (.error (.danglingSymlink "g" "/o/none"))) ∧
      ∀ s s2, loadFilesStep exampleOutsideHost "/e" "" "" [] exampleMaterialize [] "m" s =
          .ok s2 →
        s2.fs = s.fs ∨ ∃ node, s2.fs = mapSet s.fs "m" node ∧ node.symlink = none :=
  ⟨by decide,
    ((loadFiles_symlink_outside exampleOutsideHost "/e" "" "" [] exampleMaterialize [] "g" "g"
      "g" "g" [] { Target := "/o/none", IsDangling := true } (by decide) (by decide)
      (by decide) (by decide) (by decide) (by decide)
      (not_under_of_rel "/e" _ "../o/none" (by decide)
        (fun h => absurd h.2 (by decide)))).2.1 (by decide) (by decide)).2,
    fun s => ((loadFiles_symlink_outside exampleOutsideHost "/e" "" "" [] exampleMaterialize []
      "m" "m" "m" "m" [] { Target := "/o/t", IsDangling := false } (by decide) (by decide)
      (by decide) (by decide) (by decide) (by decide)
      (not_under_of_rel "/e" _ "../o/t" (by decide)
        (fun h => absurd h.2 (by decide)))).2.2 (by decide) (by decide) s).2⟩

end Client

namespace Client

/-! ## C22: ancestor symlinks -/

/-- C22 fails as stated.  The input `a/x.txt` passes through the symlink `a`, which is not
named as an input.  When a rule excludes the symlink, the flat map holds no node for it; when
the symlink `l` to `a` is an input too, the target of `l` is followed to `a` and the target of
`a` is followed in its turn, so that the sibling `realdir/y.txt` is loaded; and when the
working directory `build` is remapped to `out`, the symlink `build/a` is recorded under the
key `out/a`, under which the file `out/a` of the input directory `out` is recorded after it,
so that the flat map holds no symlink node for `build/a`. -/
theorem loadFiles_ancestor_by_design :
    evalParentSymlinks exampleAncestorHost "/e" "a/x.txt" false =
        .ok ("realdir/x.txt", ["a"]) ∧
      loadFiles exampleAncestorHost 10 "/e" "" "" [exampleExcludeLink] ["a/x.txt"] []
          (some examplePreserve) [] =
        some (.ok [("realdir/x.txt", exampleLoaded "X" "/e/realdir/x.txt")]) ∧
      (loadFiles exampleAncestorHost 10 "/e" "" "" [] ["l", "a/x.txt"] []
          (some examplePreserve) []).map (fun r => r.map mapKeys) =
        some (.ok ["l", "realdir/x.txt", "a", "realdir/y.txt"]) ∧
      evalParentSymlinks exampleRemapLinkHost "/e" "build/a/x.txt" false =
        .ok ("build/real/x.txt", ["build/a"]) ∧
      loadFiles exampleRemapLinkHost 10 "/e" "build" "out" [] ["build/a/x.txt", "out"] []
          (some examplePreserve) [] =
        some (.ok [("out/real/x.txt", exampleLoaded "X" "/e/build/real/x.txt"),
          ("out/a", exampleLoaded "A" "/e/out/a")]) := by
  decide

/-- The state that the loop of `loadFiles` passes on after the round of a path with the parent
symlinks `parents`. -/
theorem loadFilesStep_preserved (host : Host) (execRoot lwd rwd : String)
    (excl : List InputExclusion) (opts : TreeSymlinkOpts)
    (np : List (String × NodeProperties)) (path evaled : String) (parents : List String)
    (s : loadState) (hP : opts.Preserved = true) (hp : path ≠ "")
    (hev : evalParentSymlinks host execRoot path opts.MaterializeOutsideExecRoot =
      .ok (evaled, parents)) :
    loadFilesStep host execRoot lwd rwd excl opts np path s =
      loadFilesClassify host execRoot lwd rwd excl opts np (Join [execRoot, evaled])
        (loadFilesAncestors parents s) := by
  rw [loadFilesStep_classify, if_neg hp, if_pos hP, hev]

theorem mem_mapKeys_loadFiles (host : Host) (execRoot lwd rwd : String)
    (excl : List InputExclusion) (opts : Option TreeSymlinkOpts)
    (np : List (String × NodeProperties)) (fuel : Nat) (inputs : List String)
    (fs0 fs : List (String × fileSysNode))
    (h : loadFiles host fuel execRoot lwd rwd excl inputs fs0 opts np = some (.ok fs))
    (k : String) (hk : k ∈ mapKeys fs0) : k ∈ mapKeys fs := by
  rw [loadFiles] at h
  refine loadFilesLoop_inv host execRoot lwd rwd excl _ np (fun m => k ∈ mapKeys m) ?_ fuel _
    fs h hk
  intro path s s2 hst hm
  rcases loadFilesStep_fs host execRoot lwd rwd excl _ np path s s2 hst with h1 |
    ⟨_, _, k2, node, -, h1, -⟩
  · rw [h1]; exact hm
  · rw [h1, mem_mapKeys_mapSet]; exact Or.inr hm

/-- C22, amended: under the preserve policy, whether or not targets are followed, with the
paths of a round being the absolute path, the path relative to the exec root, the key and the
parent symlinks that the round computes for its path.
(1) A round appends to the queue every parent symlink of its path that has no entry in the
map of marks, each once, and gives it the mark; it changes no other mark.
(2) The round of a path for which the loader finds a symlink that no rule excludes and whose
target is under the exec root records the symlink node under the key of the path.  When the
map of marks holds the mark under the path relative to the exec root that the round has
computed, the round clears the mark and appends no target to the queue; when it holds no such
mark, the round appends the target if targets are followed and the link is not dangling.
(3) Whatever the inputs are, when `loadFiles` returns a flat map and one of the inputs is a
regular file that no rule excludes, the flat map has an entry under the key of the file and
under the key of each parent symlink of the file that no rule excludes, whose target is under
the exec root and whose name as the resolver returned it is the path relative to the exec root
that the loader computes for it; when the working directory is not remapped these entries are
the file node and the symlink node.
(4) When every input is such a file and every parent symlink of an input is such a symlink
and has no parent symlinks itself, `loadFiles` returns a flat map within as many rounds as
there are inputs and parent symlinks, and the keys of the flat map are those that it had
before, those of the inputs and those of the parent symlinks: no target of a parent symlink
is loaded. -/
theorem loadFiles_ancestor_symlink (host : Host) (execRoot lwd rwd : String)
    (excl : List InputExclusion) (opts : TreeSymlinkOpts)
    (np : List (String × NodeProperties)) (hP : opts.Preserved = true) :
    (∀ path r s, loadFilesPaths host execRoot lwd rwd opts path = .ok r →
      loadFilesStep host execRoot lwd rwd excl opts np path s =
        loadFilesClassify host execRoot lwd rwd excl opts np r.absPath
          (loadFilesAncestors r.parents s) ∧
      ∃ adds : List String,
        (loadFilesAncestors r.parents s).filesToProcess = s.filesToProcess ++ adds ∧
        adds.Nodup ∧
        (∀ x, x ∈ adds ↔ x ∈ r.parents ∧ mapGet s.seenAncestorSymlinkRel x = none) ∧
        (∀ x, mapGet (loadFilesAncestors r.parents s).seenAncestorSymlinkRel x =
          if x ∈ adds then some true else mapGet s.seenAncestorSymlinkRel x)) ∧
    (∀ path r sl t1 t2 s, loadFilesPaths host execRoot lwd rwd opts path = .ok r →
      (host.Get r.absPath).Symlink = some sl →
      shouldIgnore host r.absPath .SymlinkInputType excl = false →
      getTargetRelPath execRoot r.normPath sl.Target = .ok (t1, t2) →
      (mapGet (loadFilesAncestors r.parents s).seenAncestorSymlinkRel r.normPath =
          some true →
        loadFilesStep host execRoot lwd rwd excl opts np path s =
          .ok { loadFilesAncestors r.parents s with
            fs := mapSet s.fs r.key (symlinkNodeOf t2 (mapGet np r.key))
            seenAncestorSymlinkRel :=
              mapSet (loadFilesAncestors r.parents s).seenAncestorSymlinkRel r.normPath
                false }) ∧
      (mapGet (loadFilesAncestors r.parents s).seenAncestorSymlinkRel r.normPath ≠
          some true →
        loadFilesStep host execRoot lwd rwd excl opts np path s =
          .ok { loadFilesAncestors r.parents s with
            fs := mapSet s.fs r.key (symlinkNodeOf t2 (mapGet np r.key))
            filesToProcess :=
              if sl.IsDangling = false ∧ opts.FollowsTarget = true then
                (loadFilesAncestors r.parents s).filesToProcess ++ [t1]
              else (loadFilesAncestors r.parents s).filesToProcess })) ∧
    (∀ fuel inputs fs0 fs p,
      loadFiles host fuel execRoot lwd rwd excl inputs fs0 (some opts) np = some (.ok fs) →
      p ∈ inputs → isLoadedFile host execRoot lwd rwd excl opts p = true →
      (pathsOf host execRoot lwd rwd opts p).key ∈ mapKeys fs ∧
      (∀ a ∈ (pathsOf host execRoot lwd rwd opts p).parents,
        isAncestorLink host execRoot lwd rwd excl opts a = true →
        (pathsOf host execRoot lwd rwd opts a).key ∈ mapKeys fs) ∧
      (rwd = "" ∨ rwd = lwd →
        mapGet fs (pathsOf host execRoot lwd rwd opts p).key =
          some (fileNodeOf (host.Get (pathsOf host execRoot lwd rwd opts p).absPath)
            (pathsOf host execRoot lwd rwd opts p).absPath
            (mapGet np (pathsOf host execRoot lwd rwd opts p).key)) ∧
        ∀ a ∈ (pathsOf host execRoot lwd rwd opts p).parents,
          isAncestorLink host execRoot lwd rwd excl opts a = true →
          ∃ node, ancestorNode host execRoot np (pathsOf host execRoot lwd rwd opts a) =
              some node ∧
            mapGet fs (pathsOf host execRoot lwd rwd opts a).key = some node)) ∧
    (∀ inputs fs0 fuel,
      (∀ p ∈ inputs, isLoadedFile host execRoot lwd rwd excl opts p = true ∧
        ∀ a ∈ (pathsOf host execRoot lwd rwd opts p).parents,
          isAncestorLink host execRoot lwd rwd excl opts a = true ∧
            (pathsOf host execRoot lwd rwd opts a).parents = []) →
      inputs.length +
        (inputs.flatMap (fun p => (pathsOf host execRoot lwd rwd opts p).parents)).length ≤
          fuel →
      ∃ fs, loadFiles host fuel execRoot lwd rwd excl inputs fs0 (some opts) np =
          some (.ok fs) ∧
        ∀ key, key ∈ mapKeys fs ↔
          key ∈ mapKeys fs0 ∨
            (∃ p ∈ inputs, key = (pathsOf host execRoot lwd rwd opts p).key) ∨
            ∃ p ∈ inputs, ∃ a ∈ (pathsOf host execRoot lwd rwd opts p).parents,
              key = (pathsOf host execRoot lwd rwd opts a).key) := by
  refine ⟨?_, ?_, ?_, ?_⟩
  · intro path r s hr
    exact ⟨loadFilesStep_paths host execRoot lwd rwd excl opts np path r s hP hr,
      loadFilesAncestors_marks r.parents s⟩
  · intro path r sl t1 t2 s hr hsym hex htg
    obtain ⟨-, -, -, -, hg⟩ := loadFilesPaths_ok host execRoot lwd rwd opts path r hr
    rw [loadFilesStep_paths host execRoot lwd rwd excl opts np path r s hP hr,
      loadFilesClassify_symlink host execRoot lwd rwd excl opts np _ _ _ sl t1 t2 _ hP hg hsym
        hex htg, loadFilesAncestors_fs]
    refine ⟨fun hm => ?_, fun hm => ?_⟩
    · rw [if_pos hm]
    · rw [if_neg hm]
      by_cases hf : sl.IsDangling = false ∧ opts.FollowsTarget = true
      · rw [if_pos hf, if_pos hf]
      · rw [if_neg hf, if_neg hf]
  · intro fuel inputs fs0 fs p h hp hfile
    obtain ⟨h1, h2⟩ := loadFiles_holds_keys host execRoot lwd rwd excl opts np hP p hfile fuel
      inputs fs0 fs hp h
    exact ⟨h1, h2, fun hw => loadFiles_holds_nodes host execRoot lwd rwd excl opts np hP hw p
      hfile fuel inputs fs0 fs hp h⟩
  · intro inputs fs0 fuel hin hfuel
    obtain ⟨fs, hfs, hsub⟩ := loadFilesLoop_files host execRoot lwd rwd excl opts np hP inputs
      (fun key => key ∈ mapKeys fs0 ∨
        (∃ p ∈ inputs, key = (pathsOf host execRoot lwd rwd opts p).key) ∨
        ∃ p ∈ inputs, ∃ a ∈ (pathsOf host execRoot lwd rwd opts p).parents,
          key = (pathsOf host execRoot lwd rwd opts a).key)
      hin
      (fun p hp => Or.inr (Or.inl ⟨p, hp, rfl⟩))
      (fun a ha => by
        obtain ⟨p, hp, hap⟩ := List.mem_flatMap.1 ha
        exact Or.inr (Or.inr ⟨p, hp, a, hap, rfl⟩))
      fuel inputs [] fs0 [] (fun q hq => hq) List.nodup_nil
      (by intro a ha; cases ha) (fun k hk => Or.inl hk)
      (by
        have : (inputs.flatMap (fun p => (pathsOf host execRoot lwd rwd opts p).parents)).filter
            (fun a => (mapGet ([] : List (String × Bool)) a).isNone) =
            inputs.flatMap (fun p => (pathsOf host execRoot lwd rwd opts p).parents) := by
          apply List.filter_eq_self.2
          intro a _
          rfl
        rw [this]
        simp only [List.length_nil, Nat.add_zero]
        exact hfuel)
    rw [List.append_nil] at hfs
    have hload : loadFiles host fuel execRoot lwd rwd excl inputs fs0 (some opts) np =
        some (.ok fs) := by
      rw [loadFiles, Option.getD_some]
      exact hfs
    refine ⟨fs, hload, fun key => ⟨hsub key, ?_⟩⟩
    rintro (hk | ⟨p, hp, rfl⟩ | ⟨p, hp, a, ha, rfl⟩)
    · exact mem_mapKeys_loadFiles host execRoot lwd rwd excl _ np fuel inputs fs0 fs hload key
        hk
    · exact (loadFiles_holds_keys host execRoot lwd rwd excl opts np hP p (hin p hp).1 fuel
        inputs fs0 fs hp hload).1
    · exact (loadFiles_holds_keys host execRoot lwd rwd excl opts np hP p (hin p hp).1 fuel
        inputs fs0 fs hp hload).2 a ha ((hin p hp).2 a ha).1

/-- C22, amended, at the exec root `/e` with the symlink `a` to `realdir`, which holds
`x.txt` and `y.txt`: for the input `a/x.txt` the loader returns within two rounds a flat map
whose keys are `realdir/x.txt` and `a`, so that it does not hold `realdir/y.txt`; the entry
under `a` is the symlink node with the target `realdir`. -/
theorem loadFiles_ancestor_symlink_witness :
    examplePreserve.Preserved = true ∧
      pathsOf exampleAncestorHost "/e" "" "" examplePreserve "a/x.txt" =
        { absPath := "/e/realdir/x.txt", normPath := "realdir/x.txt", key := "realdir/x.txt",
          parents := ["a"] } ∧
      pathsOf exampleAncestorHost "/e" "" "" examplePreserve "a" =
        { absPath := "/e/a", normPath := "a", key := "a", parents := [] } ∧
      exampleAncestorHost.Readdirnames "/e/realdir" = .ok ["x.txt", "y.txt"] ∧
      (∃ fs, loadFiles exampleAncestorHost 2 "/e" "" "" [] ["a/x.txt"] []
          (some examplePreserve) [] = some (.ok fs) ∧
        (∀ key, key ∈ mapKeys fs ↔
          key ∈ mapKeys ([] : List (String × fileSysNode)) ∨
            (∃ p ∈ ["a/x.txt"],
              key = (pathsOf exampleAncestorHost "/e" "" "" examplePreserve p).key) ∨
            ∃ p ∈ ["a/x.txt"],
              ∃ a ∈ (pathsOf exampleAncestorHost "/e" "" "" examplePreserve p).parents,
                key = (pathsOf exampleAncestorHost "/e" "" "" examplePreserve a).key)) ∧
      ancestorNode exampleAncestorHost "/e" []
          (pathsOf exampleAncestorHost "/e" "" "" examplePreserve "a") =
        some (symlinkNodeOf "realdir" none) :=
  ⟨by decide, by decide, by decide, by decide,
    (loadFiles_ancestor_symlink exampleAncestorHost "/e" "" "" [] examplePreserve []
      (by decide)).2.2.2 ["a/x.txt"] [] 2 (by decide) (by decide),
    by decide⟩

end Client

namespace Client

/-! ## C23: output paths whose metadata carries an error -/

/-- The loop of `ComputeOutputsToUpload` checks that an output path lies under the exec root
before it looks at the metadata: the path `../x` names `/x`, and the call fails, as `/x` is
not under the exec root `/e`. -/
theorem ComputeOutputsToUpload_notFound_outside :
    (exampleHost.Get (Join ["/e", "", "../x"])).Err = some (.fileError true "not found") ∧
      ComputeOutputsToUpload exampleDeps exampleHost 5 none "/e" "" ["../x"]
        .UnspecifiedSymlinkBehavior [] = some (.error (.notUnder "/x" "/e")) := by
  decide

theorem ComputeOutputsToUploadStep_notFound (deps : Deps) (host : Host) (fuel : Nat)
    (clientOpts : Option TreeSymlinkOpts) (execRoot workingDir : String)
    (sb : SymlinkBehaviorType) (nodeProperties : List (String × NodeProperties))
    (path : String) (outs : List (Digest × Entry)) (resPb : ActionResult)
    (hu : ∃ r, getRelPath execRoot (Join [execRoot, workingDir, path]) = .ok r)
    (hn : notFoundOutput host execRoot workingDir path = true) :
    ComputeOutputsToUploadStep deps host fuel clientOpts execRoot workingDir sb nodeProperties
      path outs resPb = some (.ok (outs, resPb)) := by
  obtain ⟨r, hr⟩ := hu
  simp only [ComputeOutputsToUploadStep, hr]
  simp only [notFoundOutput] at hn
  cases he : (host.Get (Join [execRoot, workingDir, path])).Err with
  | none => rw [he] at hn; cases hn
  | some e =>
    rw [he] at hn
    cases e with
    | other msg => cases hn
    | fileError nf msg =>
      cases nf with
      | false => cases hn
      | true => rfl

theorem ComputeOutputsToUploadStep_error (deps : Deps) (host : Host) (fuel : Nat)
    (clientOpts : Option TreeSymlinkOpts) (execRoot workingDir : String)
    (sb : SymlinkBehaviorType) (nodeProperties : List (String × NodeProperties))
    (path : String) (outs : List (Digest × Entry)) (resPb : ActionResult) (e : MetaError)
    (hu : ∃ r, getRelPath execRoot (Join [execRoot, workingDir, path]) = .ok r)
    (he : (host.Get (Join [execRoot, workingDir, path])).Err = some e)
    (hn : e.isNotFound = false) :
    ComputeOutputsToUploadStep deps host fuel clientOpts execRoot workingDir sb nodeProperties
      path outs resPb = some (.error (.metadata e)) := by
  obtain ⟨r, hr⟩ := hu
  simp only [ComputeOutputsToUploadStep, hr, he]
  cases e with
  | other msg => rfl
  | fileError nf msg =>
    cases nf with
    | false => rfl
    | true => cases hn

/-- C23: in `ComputeOutputsToUpload`, an output path whose metadata the loop comes to read
(the path lies under the exec root) and whose metadata carries a `FileError` marked not-found
contributes nothing to the blob map or to the action result and does not cause failure: the
loop goes on with what it had, and the call returns what it returns on the paths without
those.  Any other metadata error of a path under
the exec root makes the loop return that error, and with it no blob map and no action
result. -/
theorem ComputeOutputsToUpload_metadata_errors (deps : Deps) (host : Host) (fuel : Nat)
    (clientOpts : Option TreeSymlinkOpts) (execRoot workingDir : String)
    (sb : SymlinkBehaviorType) (nodeProperties : List (String × NodeProperties)) :
    (∀ path rest outs resPb,
      (∃ r, getRelPath execRoot (Join [execRoot, workingDir, path]) = .ok r) →
      notFoundOutput host execRoot workingDir path = true →
      ComputeOutputsToUploadLoop deps host fuel clientOpts execRoot workingDir sb nodeProperties
          (path :: rest) outs resPb =
        ComputeOutputsToUploadLoop deps host fuel clientOpts execRoot workingDir sb
          nodeProperties rest outs resPb) ∧
    (∀ paths,
      (∀ p ∈ paths, notFoundOutput host execRoot workingDir p = true →
        ∃ r, getRelPath execRoot (Join [execRoot, workingDir, p]) = .ok r) →
      ComputeOutputsToUpload deps host fuel clientOpts execRoot workingDir paths sb
          nodeProperties =
        ComputeOutputsToUpload deps host fuel clientOpts execRoot workingDir
          (paths.filter (fun p => ! notFoundOutput host execRoot workingDir p)) sb
          nodeProperties) ∧
    (∀ path rest outs resPb e,
      (∃ r, getRelPath execRoot (Join [execRoot, workingDir, path]) = .ok r) →
      (host.Get (Join [execRoot, workingDir, path])).Err = some e → e.isNotFound = false →
      ComputeOutputsToUploadLoop deps host fuel clientOpts execRoot workingDir sb nodeProperties
          (path :: rest) outs resPb = some (.error (.metadata e))) := by
  have hskip : ∀ path rest outs resPb,
      (∃ r, getRelPath execRoot (Join [execRoot, workingDir, path]) = .ok r) →
      notFoundOutput host execRoot workingDir path = true →
      ComputeOutputsToUploadLoop deps host fuel clientOpts execRoot workingDir sb nodeProperties
          (path :: rest) outs resPb =
        ComputeOutputsToUploadLoop deps host fuel clientOpts execRoot workingDir sb
          nodeProperties rest outs resPb := by
    intro path rest outs resPb hu hn
    rw [ComputeOutputsToUploadLoop, ComputeOutputsToUploadStep_notFound deps host fuel clientOpts
      execRoot workingDir sb nodeProperties path outs resPb hu hn]
  refine ⟨hskip, ?_, ?_⟩
  · intro paths hp
    simp only [ComputeOutputsToUpload]
    generalize ([] : List (Digest × Entry)) = outs
    generalize ActionResult.empty = resPb
    induction paths generalizing outs resPb with
    | nil => rfl
    | cons p rest ih =>
      have ih' := ih (fun q hq => hp q (List.mem_cons_of_mem _ hq))
      by_cases hn : notFoundOutput host execRoot workingDir p = true
      · rw [hskip p rest outs resPb (hp p (List.mem_cons_self _ _) hn) hn, ih',
          List.filter_cons_of_neg (by simp [hn])]
      · rw [List.filter_cons_of_pos (by simpa using hn), ComputeOutputsToUploadLoop,
          ComputeOutputsToUploadLoop]
        cases hs : ComputeOutputsToUploadStep deps host fuel clientOpts execRoot workingDir sb
            nodeProperties p outs resPb with
        | none => rfl
        | some r =>
          cases r with
          | error e => rfl
          | ok r =>
            obtain ⟨o, rp⟩ := r
            exact ih' o rp
  · intro path rest outs resPb e hu he hn
    rw [ComputeOutputsToUploadLoop, ComputeOutputsToUploadStep_error deps host fuel clientOpts
      execRoot workingDir sb nodeProperties path outs resPb e hu he hn]

/-- C23 at the exec root `/e`: the path `nothere` does not exist and is skipped, and
the path `bad`, whose lookup fails with another error, makes the call return that error. -/
theorem ComputeOutputsToUpload_metadata_errors_witness :
    notFoundOutput exampleErrHost "/e" "" "nothere" = true ∧
      ComputeOutputsToUploadLoop exampleDeps exampleErrHost 5 none "/e" ""
          .UnspecifiedSymlinkBehavior [] ["nothere", "a.txt"] [] ActionResult.empty =
        ComputeOutputsToUploadLoop exampleDeps exampleErrHost 5 none "/e" ""
          .UnspecifiedSymlinkBehavior [] ["a.txt"] [] ActionResult.empty ∧
      ComputeOutputsToUpload exampleDeps exampleErrHost 5 none "/e" "" ["nothere", "a.txt"]
          .UnspecifiedSymlinkBehavior [] =
        some (.ok ([({ Hash := "A", Size := 3 }, EntryFromFile { Hash := "A", Size := 3 } "/e/a.txt")],
          { OutputFiles := [{ Path := "a.txt", Digest := { Hash := "A", SizeBytes := 3 },
                              IsExecutable := false, NodeProperties := none }],
            OutputDirectories := [] })) ∧
      ComputeOutputsToUploadLoop exampleDeps exampleErrHost 5 none "/e" ""
          .UnspecifiedSymlinkBehavior [] ["bad", "a.txt"] [] ActionResult.empty =
        some (.error (.metadata (.other "input/output error"))) :=
  have h := ComputeOutputsToUpload_metadata_errors exampleDeps exampleErrHost 5 none "/e" ""
    .UnspecifiedSymlinkBehavior []
  ⟨by decide, h.1 "nothere" ["a.txt"] [] ActionResult.empty ⟨"nothere", by decide⟩ (by decide),
    by decide,
    h.2.2 "bad" ["a.txt"] [] ActionResult.empty (.other "input/output error")
      ⟨"bad", by decide⟩ (by decide) (by decide)⟩

end Client

namespace Client

/-! ## C24: the tree message of an output directory -/

/-- C24: for every tree node `t` of Go maps, `packageDirectories` succeeds when the descriptor
of every directory below `t` can be serialized, and the tree message that is assembled from
what it returns has the descriptor of `t` as its root and the descriptors of the directory
nodes below `t` as its children, one for every such node: the children are these descriptors
in some order, there are as many children as nodes below `t`, and the descriptor of the root
is not among them when no two directories of different descriptors share a digest. -/
theorem outputTree_descriptors (deps : Deps) (t : treeNode) (hwf : t.WF) :
    ((∀ n ∈ t.nodes.tail, (EntryFromProto deps (descriptorOf deps n)).isOk = true) →
      (packageDirectories deps t).isOk = true) ∧
    ∀ rootDir files treePb, packageDirectories deps t = .ok (rootDir, files, treePb) →
      (outputTree rootDir treePb).Root = some (descriptorOf deps t) ∧
      (outputTree rootDir treePb).Children.Perm (t.nodes.tail.map (descriptorOf deps)) ∧
      (outputTree rootDir treePb).Children.length = t.nodes.tail.length ∧
      (t.CollisionFree deps → descriptorOf deps t ∉ (outputTree rootDir treePb).Children) := by
  constructor
  · intro h
    obtain ⟨files, ch, hpd⟩ := packageDirectories_isOk deps t hwf h
    rw [hpd]
    rfl
  · intro rootDir files treePb h
    have hok : (packageDirectories deps t).isOk = true := by rw [h]; rfl
    have hall := packageDirectories_children_ok deps t hwf hok
    obtain ⟨files2, ch, hpd, hch⟩ := (packageDirectories_spec deps t hwf).1 hall
    rw [h] at hpd
    simp only [Except.ok.injEq, Prod.mk.injEq] at hpd
    obtain ⟨h1, -, h3⟩ := hpd
    subst h1 h3
    refine ⟨rfl, hch, ?_, ?_⟩
    · exact hch.length_eq.trans (List.length_map _ _)
    · intro hcf hmem
      obtain ⟨n, hn, hnd⟩ := List.mem_map.1 (hch.mem_iff.1 hmem)
      exact treeNode.descriptor_ne_of_mem_tail deps t hcf n hn hnd

/-- C24 at the tree with the directory `z` and the directory `a` that holds the directory `b`:
the tree message has three children. -/
theorem outputTree_descriptors_witness :
    exampleDeepTree.WF ∧ exampleDeepTree.CollisionFree exampleDeps ∧
      exampleDeepTree.nodes.tail = [exampleDeepZ, exampleDeepA, exampleDeepB] ∧
      (outputTree (pdRoot exampleDeps exampleDeepTree)
          { Root := none, Children := pdChildren exampleDeps exampleDeepTree }).Root =
        some (descriptorOf exampleDeps exampleDeepTree) ∧
      (outputTree (pdRoot exampleDeps exampleDeepTree)
          { Root := none, Children := pdChildren exampleDeps exampleDeepTree }).Children.length =
        3 ∧
      descriptorOf exampleDeps exampleDeepTree ∉
        (outputTree (pdRoot exampleDeps exampleDeepTree)
          { Root := none, Children := pdChildren exampleDeps exampleDeepTree }).Children :=
  have h := (outputTree_descriptors exampleDeps exampleDeepTree (by decide)).2
    (pdRoot exampleDeps exampleDeepTree) (pdFiles exampleDeps exampleDeepTree)
    { Root := none, Children := pdChildren exampleDeps exampleDeepTree } (by decide)
  ⟨by decide, by decide, rfl, h.1, h.2.2.1, h.2.2.2 (by decide)⟩

end Client

namespace Client

/-! ## C25: the order of the children of the tree message -/

/-- C25 fails as stated: in the tree with the directory `z` and the directory `a` that holds
the directory `b`, the children of the tree message are the descriptors of `a`, of `b` and of
`z` in this order, so that the descriptor of `a` stands before the descriptor of `b`, which is
nested below `a`, and not after it. -/
theorem packageDirectories_children_not_postorder :
    exampleDeepA.children = [("b", exampleDeepB)] ∧
      (packageDirectories exampleDeps exampleDeepTree).map (fun r => r.2.2.Children) =
        .ok [descriptorOf exampleDeps exampleDeepA, descriptorOf exampleDeps exampleDeepB,
          descriptorOf exampleDeps exampleDeepZ] ∧
      descriptorOf exampleDeps exampleDeepA ≠ descriptorOf exampleDeps exampleDeepB ∧
      (packageDirectories exampleDeps exampleDeepTree).map (fun r => r.2.2.Children) ≠
        .ok [descriptorOf exampleDeps exampleDeepB, descriptorOf exampleDeps exampleDeepA,
          descriptorOf exampleDeps exampleDeepZ] :=
  ⟨rfl, by decide, by decide, by decide⟩

/-- C25, amended: for every tree node `t` of Go maps on which `packageDirectories` succeeds,
the children of the tree message are in pre-order.  The list holds, for every child directory
of `t` in ascending order of name, the descriptor of the child followed by the list that
`packageDirectories` returns for the child, so that the descriptor of a directory stands
before the descriptors of the directories nested below it. -/
theorem packageDirectories_children_preorder (deps : Deps) (t : treeNode) (root : Directory)
    (files : List (Digest × Entry)) (treePb : Tree) (hwf : t.WF)
    (h : packageDirectories deps t = .ok (root, files, treePb)) :
    treePb.Children = ((sortStrings (mapKeys t.children)).map (fun name =>
        descriptorOf deps (childAt t.children name) ::
          pdChildren deps (childAt t.children name))).flatten ∧
    (sortStrings (mapKeys t.children)).Pairwise (fun a b => a < b) ∧
    ∀ name, name ∈ sortStrings (mapKeys t.children) ↔
      ∃ c, (name, c) ∈ t.children ∧ childAt t.children name = c ∧
        ∃ r f tp, packageDirectories deps c = .ok (r, f, tp) ∧ r = descriptorOf deps c ∧
          tp.Children = pdChildren deps c := by
  have hok : (packageDirectories deps t).isOk = true := by rw [h]; rfl
  have hall := packageDirectories_children_ok deps t hwf hok
  obtain ⟨leaves, children⟩ := t
  simp only [treeNode.children] at hall ⊢
  have hex := packageDirectories_exact deps leaves children hwf hall
  rw [h] at hex
  simp only [Except.ok.injEq, Prod.mk.injEq] at hex
  rw [treeNode.WF_mk] at hwf
  obtain ⟨-, hnc, hwc⟩ := hwf
  have hperm : (sortStrings (mapKeys children)).Perm (mapKeys children) := sortSlice_perm _ _
  refine ⟨by rw [hex.2.2], ?_, ?_⟩
  · have := sortSlice_pairwise (fun s : String => s) (mapKeys children)
      (by simpa using hnc)
    exact this
  · intro name
    constructor
    · intro hn
      obtain ⟨c, hc, hmem⟩ := childAt_mem children name (hperm.mem_iff.1 hn)
      have hcc : childAt children name = c := by simp [childAt, hc]
      obtain ⟨hg, hr, -, -⟩ := pd_child_facts deps c (hwc _ hmem) (hall _ hmem)
      refine ⟨c, hmem, hcc, ?_⟩
      cases hpd : packageDirectories deps c with
      | error e =>
        have h1 := hg.1
        rw [hpd] at h1
        cases h1
      | ok r =>
        obtain ⟨r1, f1, tp1⟩ := r
        obtain ⟨e1, -, e3⟩ := pd_of_eq deps c _ _ _ hpd
        exact ⟨r1, f1, tp1, rfl, by rw [← e1, hr], e3.symm⟩
    · rintro ⟨c, hmem, -, -⟩
      exact hperm.mem_iff.2 (List.mem_map.2 ⟨(name, c), hmem, rfl⟩)

/-- C25, amended, at the tree with the directory `z` and the directory `a` that holds the
directory `b`: the list is the descriptor of `a` with the list of `a`, then the descriptor of
`z` with the list of `z`. -/
theorem packageDirectories_children_preorder_witness :
    exampleDeepTree.WF ∧
      sortStrings (mapKeys exampleDeepTree.children) = ["a", "z"] ∧
      pdChildren exampleDeps exampleDeepTree =
        ((sortStrings (mapKeys exampleDeepTree.children)).map (fun name =>
          descriptorOf exampleDeps (childAt exampleDeepTree.children name) ::
            pdChildren exampleDeps (childAt exampleDeepTree.children name))).flatten :=
  ⟨by decide, by decide,
    (packageDirectories_children_preorder exampleDeps exampleDeepTree
      (pdRoot exampleDeps exampleDeepTree) (pdFiles exampleDeps exampleDeepTree)
      { Root := none, Children := pdChildren exampleDeps exampleDeepTree } (by decide)
      (by decide)).1⟩

end Client

namespace Client

/-! ## C26: the tree of a flat map -/

/-- Two flat maps that hold the same entries, in whatever order, give the same reads. -/
theorem mapGet_of_perm {κ α : Type} [DecidableEq κ] (m1 m2 : List (κ × α))
    (h1 : (mapKeys m1).Nodup) (hp : m1.Perm m2) : ∀ k, mapGet m1 k = mapGet m2 k := by
  have h2 : (mapKeys m2).Nodup := (hp.map Prod.fst).nodup_iff.1 h1
  intro k
  cases hg : mapGet m2 k with
  | some v =>
    exact mapGet_eq_some_of_mem m1 k v h1 (hp.mem_iff.2 (mem_of_mapGet_eq_some m2 k v hg))
  | none =>
    cases hg1 : mapGet m1 k with
    | none => rfl
    | some v =>
      have := mapGet_eq_some_of_mem m2 k v h2 (hp.mem_iff.1 (mem_of_mapGet_eq_some m1 k v hg1))
      rw [hg] at this
      cases this

/-- The directory that `buildTree` makes for an empty-directory marker is empty when no other
entry of the flat map lies below the key of the marker. -/
theorem buildTree_marker_empty (fs : List (String × fileSysNode)) (hnd : (mapKeys fs).Nodup)
    (k : String) (n : treeNode) (hn : (buildTree fs).sub (splitSep k) = some n)
    (hbelow : ∀ kv ∈ fs, splitSep k <+: splitSep kv.1 → kv.1 = k) : n = .mk [] [] := by
  obtain ⟨l, c⟩ := n
  have hl : l = [] := by
    apply List.eq_nil_iff_forall_not_mem.2
    rintro ⟨b, fn⟩ hmem
    obtain ⟨k2, hk2, -, hs⟩ :=
      (buildTree_leaf_mem fs hnd (splitSep k) _ hn b fn).1 (by simpa [treeNode.leaves] using hmem)
    have := hbelow (k2, fn) hk2 (by rw [hs]; exact List.prefix_append _ _)
    simp only at this
    rw [this] at hs
    exact append_singleton_ne_self _ _ hs.symm
  have hc : c = [] := by
    apply List.eq_nil_iff_forall_not_mem.2
    rintro ⟨s, ch⟩ hmem
    have h1 : s ∈ mapKeys (treeNode.mk l c).children := List.mem_map.2 ⟨(s, ch), hmem, rfl⟩
    have h2 := (sub_child_isSome (buildTree fs) (splitSep k) _ hn s).2 h1
    rcases (buildTree_sub_isSome fs (splitSep k ++ [s])).1 h2 with h3 | ⟨kv, hkv, h3 | ⟨-, h3⟩⟩
    · simp at h3
    · have hpre : splitSep k <+: splitSep kv.1 :=
        (List.prefix_append _ _).trans (h3.trans (List.dropLast_prefix _))
      have := hbelow kv hkv hpre
      rw [this] at h3
      have hlen := h3.length_le
      have hne := splitSep_ne_nil k
      rw [List.length_append, List.length_dropLast] at hlen
      simp only [List.length_singleton] at hlen
      have : 0 < (splitSep k).length := List.length_pos.2 hne
      omega
    · have hpre : splitSep k <+: splitSep kv.1 := by
        rw [← h3]; exact List.prefix_append _ _
      have := hbelow kv hkv hpre
      rw [this] at h3
      exact append_singleton_ne_self _ _ h3
  rw [hl, hc]

/-- C26: for every flat map, the tree that `buildTree` returns is a tree of Go maps in which
every entry that is not an empty-directory marker, with the key `s1/.../sn/base`, is the leaf
named `base` of the directory reached from the root through the children `s1`, ..., `sn`;
every empty-directory marker with that key gives a child directory named `base` there, which
is empty when no other entry lies below the key; every leaf of the tree is such an entry, and
every directory node lies on the way to an entry or is the directory of a marker.  The tree is
the same, as a tree of maps, for every order in which the flat map is walked. -/
theorem buildTree_spec (fs : List (String × fileSysNode)) (hnd : (mapKeys fs).Nodup) :
    (buildTree fs).WF ∧
    (∀ k fn, (k, fn) ∈ fs → fn.emptyDirectoryMarker = false →
      ∃ p, (buildTree fs).sub (splitSep k).dropLast = some p ∧
        mapGet p.leaves ((splitSep k).getLastD "") = some fn) ∧
    (∀ k fn, (k, fn) ∈ fs → fn.emptyDirectoryMarker = true →
      ∃ p n, (buildTree fs).sub (splitSep k).dropLast = some p ∧
        mapGet p.children ((splitSep k).getLastD "") = some n ∧
        ((∀ kv ∈ fs, splitSep k <+: splitSep kv.1 → kv.1 = k) → n = .mk [] [])) ∧
    (∀ q p b fn, (buildTree fs).sub q = some p → (b, fn) ∈ p.leaves →
      ∃ k, (k, fn) ∈ fs ∧ fn.emptyDirectoryMarker = false ∧ splitSep k = q ++ [b]) ∧
    (∀ q p, (buildTree fs).sub q = some p → q = [] ∨
      ∃ kv ∈ fs, q <+: (splitSep kv.1).dropLast ∨
        (kv.2.emptyDirectoryMarker = true ∧ q = splitSep kv.1)) ∧
    (∀ fs2, fs.Perm fs2 → (buildTree fs).Reordered (buildTree fs2)) := by
  refine ⟨?_, ?_, ?_, ?_, ?_, ?_⟩
  · rw [buildTree_eq_foldl]
    exact foldl_buildTreeStep_WF fs _ treeNode.WF_empty
  · intro k fn hmem hm
    have h := (buildTree_leafAt fs hnd (splitSep k).dropLast ((splitSep k).getLastD "") fn).2
      ⟨k, hmem, hm, (splitSep_dropLast k).symm⟩
    simp only [treeNode.leafAt] at h
    cases hs : (buildTree fs).sub (splitSep k).dropLast with
    | none => rw [hs] at h; cases h
    | some p => rw [hs] at h; exact ⟨p, rfl, h⟩
  · intro k fn hmem hm
    have h := (buildTree_sub_isSome fs (splitSep k)).2 (.inr ⟨(k, fn), hmem, .inr ⟨hm, rfl⟩⟩)
    cases hs : (buildTree fs).sub (splitSep k) with
    | none => rw [hs] at h; cases h
    | some n =>
      have h2 := hs
      rw [← splitSep_dropLast k, treeNode.sub_append] at h2
      cases hp : (buildTree fs).sub (splitSep k).dropLast with
      | none => rw [hp] at h2; cases h2
      | some p =>
        rw [hp] at h2
        obtain ⟨pl, pc⟩ := p
        simp only [treeNode.sub_cons] at h2
        cases hg : mapGet pc ((splitSep k).getLastD "") with
        | none => rw [hg] at h2; cases h2
        | some c =>
          rw [hg] at h2
          simp only [treeNode.sub_nil, Option.some.injEq] at h2
          subst h2
          exact ⟨_, c, rfl, hg, buildTree_marker_empty fs hnd k c hs⟩
  · intro q p b fn hq hmem
    exact (buildTree_leaf_mem fs hnd q p hq b fn).1 hmem
  · intro q p hq
    exact (buildTree_sub_isSome fs q).1 (by rw [hq]; rfl)
  · intro fs2 hp
    exact buildTree_reordered fs fs2 hnd ((hp.map Prod.fst).nodup_iff.1 hnd)
      (mapGet_of_perm fs fs2 hnd hp)

/-- C26 at the flat map of the examples, with the files `a.txt`, `d/b.txt` and `d/sub/c.txt`
and the empty directory `d/empty`. -/
theorem buildTree_spec_witness :
    (mapKeys exampleFlat).Nodup ∧
      (∃ p, (buildTree exampleFlat).sub ["d", "sub"] = some p ∧
        mapGet p.leaves "c.txt" = some (exampleLoaded "C" "/e/d/sub/c.txt")) ∧
      ∃ p n, (buildTree exampleFlat).sub ["d"] = some p ∧
        mapGet p.children "empty" = some n ∧
        ((∀ kv ∈ exampleFlat, splitSep "d/empty" <+: splitSep kv.1 → kv.1 = "d/empty") →
          n = .mk [] []) :=
  have h := buildTree_spec exampleFlat (by decide)
  ⟨by decide,
    h.2.1 "d/sub/c.txt" (exampleLoaded "C" "/e/d/sub/c.txt") (by decide) (by decide),
    h.2.2.1 "d/empty" exampleMarker (by decide) (by decide)⟩

end Client

namespace Client

/-! ## C27: the symlink resolver -/

/-- C27 fails as stated: for the exec root `/a` and the path `b/c/d/e.go`, where `b` is a
symlink to `bb`, `evalParentSymlinks` returns the path `bb/c/d/e.go` and the symlinks `[b]`,
both relative to the exec root, and not `/a/bb/c/d/e.go` and `[a/b]`. -/
theorem evalParentSymlinks_example_relative :
    (exampleEvalHost.Get "/a/b").Symlink = some { Target := "bb", IsDangling := false } ∧
      evalParentSymlinks exampleEvalHost "/a" "b/c/d/e.go" false =
        .ok ("bb/c/d/e.go", ["b"]) ∧
      evalParentSymlinks exampleEvalHost "/a" "b/c/d/e.go" false ≠
        .ok ("/a/bb/c/d/e.go", ["a/b"]) ∧
      Join ["/a", "bb/c/d/e.go"] = "/a/bb/c/d/e.go" ∧ Join ["/a", "b"] = "/a/b" := by
  decide

/-- C27, amended: `evalParentSymlinks` goes through the parent elements of the path and
leaves the last element, the basename, as it is.  A parent element that names no symlink is
kept; one that names a symlink is replaced by the target of the link, in the form relative to
the directory of the link, and the path of the link up to this element, relative to the exec
root, is recorded.  The target of a link is read relative to the directory that the elements
before it lead to: the exec root, followed by the elements that name no symlink and by the
targets of the links, an absolute target starting afresh.  When the target of a link is not
under the exec root the function fails with the error of `getTargetRelPath`, or keeps the
element if such links are to be materialized.  The function returns a path and a list of
links exactly when the parent elements are written in this way; the path holds the elements
so written and the basename, joined by separators, and is relative to the exec root, as are
the links.  It returns an error exactly when links that point outside are not materialized
and the elements, gone through in this way, come to a link whose target is not under the exec
root; the error is that of `getTargetRelPath`.  It does not fail when such links are
materialized, and it returns the path unchanged, with no symlinks, when no parent element
names a symlink. -/
theorem evalParentSymlinks_resolved (host : Host) (execRoot relPath : String) (mat : Bool) :
    (∀ evaled symlinks, evalParentSymlinks host execRoot relPath mat = .ok (evaled, symlinks) ↔
      ∃ parts, ParentsResolved host execRoot mat [] (execRoot ++ "/")
          (splitSep relPath).dropLast parts symlinks ∧
        evaled = joinSep (parts ++ [(splitSep relPath).getLastD ""])) ∧
    (∀ e, evalParentSymlinks host execRoot relPath mat = .error e ↔
      mat = false ∧
        ParentsFail host execRoot [] (execRoot ++ "/") (splitSep relPath).dropLast e) ∧
    (mat = true → ∃ r, evalParentSymlinks host execRoot relPath mat = .ok r) ∧
    ((∀ i, i < (splitSep relPath).dropLast.length →
        (host.Get (Join [execRoot,
          joinSep ((splitSep relPath).dropLast.take (i + 1))])).Symlink = none) →
      evalParentSymlinks host execRoot relPath mat = .ok (relPath, [])) := by
  refine ⟨?_, ?_, ?_, ?_⟩
  · intro evaled symlinks
    constructor
    · intro h
      rw [evalParentSymlinks, ← splitSep_dropLast relPath] at h
      obtain ⟨parts, symsNew, hres, hsy, hev⟩ :=
        evalParentSymlinksLoop_resolved host execRoot mat _ _ [] (execRoot ++ "/") true "" _ []
          evaled symlinks rfl (by simp) rfl h
      rw [List.nil_append] at hsy hev
      subst hsy
      exact ⟨parts, hres, hev⟩
    · rintro ⟨parts, hres, hev⟩
      have h := evalParentSymlinksLoop_of_resolved host execRoot mat
        ((splitSep relPath).getLastD "") [] (execRoot ++ "/") _ parts symlinks hres true ""
        (execRoot ++ "/") [] rfl (by simp) rfl
      rw [splitSep_dropLast, List.nil_append, List.nil_append, ← hev] at h
      exact h
  · intro e
    constructor
    · intro h
      rw [evalParentSymlinks, ← splitSep_dropLast relPath] at h
      exact evalParentSymlinksLoop_fails host execRoot mat _ e _ [] (execRoot ++ "/") true ""
        _ [] rfl (by simp) rfl h
    · rintro ⟨hm, hres⟩
      subst hm
      have h := evalParentSymlinksLoop_of_fails host execRoot
        ((splitSep relPath).getLastD "") e [] (execRoot ++ "/") _ hres true ""
        (execRoot ++ "/") [] rfl (by simp) rfl
      rw [splitSep_dropLast] at h
      exact h
  · intro hm
    subst hm
    exact evalParentSymlinksLoop_materialize host execRoot _ _ _ _ _
  · intro hno
    rw [evalParentSymlinks]
    conv_lhs => rw [← splitSep_dropLast relPath]
    rw [evalParentSymlinksLoop_plain host execRoot mat _ _ [] true "" _ [] rfl (by simp)
      (by simpa using hno)]
    rw [List.nil_append, splitSep_dropLast, joinSep_splitSep]

/-- C27, amended, at the exec root `/a` and the path `b/c/d/e.go`, where `b` is a symlink to
`bb`: the link `b` is replaced by `bb`, its target read relative to `/a/`, the elements `c` and
`d` are kept, the link `b` is recorded, and the basename `e.go` is left as it is, so that the
function returns `bb/c/d/e.go` and `[b]`.  At the exec root `/e` and the path `m/f`, where `m`
is a symlink to `/o/t`, the function fails with the error that `/o/t` is not under `/e`. -/
theorem evalParentSymlinks_resolved_witness :
    (splitSep "m/f").dropLast = ["m"] ∧
      ParentsFail exampleOutsideHost "/e" [] "/e/" ["m"] (.notUnder "/o/t" "/e") ∧
      evalParentSymlinks exampleOutsideHost "/e" "m/f" false =
        .error (.notUnder "/o/t" "/e") ∧
      (splitSep "b/c/d/e.go").dropLast = ["b", "c", "d"] ∧
      (splitSep "b/c/d/e.go").getLastD "" = "e.go" ∧
      "/a" ++ "/" = "/a/" ∧
      getTargetRelPath "/a" "b" ("/a/" ++ "bb") = .ok ("bb", "bb") ∧
      ParentsResolved exampleEvalHost "/a" false [] "/a/" ["b", "c", "d"] ["bb", "c", "d"]
        ["b"] ∧
      evalParentSymlinks exampleEvalHost "/a" "b/c/d/e.go" false =
        .ok ("bb/c/d/e.go", ["b"]) :=
  have htrace : ParentsResolved exampleEvalHost "/a" false [] "/a/" ["b", "c", "d"]
      ["bb", "c", "d"] ["b"] :=
    .replace [] "/a/" "b" ["c", "d"] ["c", "d"] [] { Target := "bb", IsDangling := false }
      "bb" "bb" (by decide) (by decide)
      (.keep ["bb"] "/a/bb/" "c" ["d"] ["d"] [] (by decide)
        (.keep ["bb", "c"] "/a/bb/c/" "d" [] [] [] (by decide) (.done _ _)))
  have hfail : ParentsFail exampleOutsideHost "/e" [] "/e/" ["m"] (.notUnder "/o/t" "/e") :=
    .here [] "/e/" "m" [] { Target := "/o/t", IsDangling := false } _ (by decide) (by decide)
  ⟨by decide, hfail,
    ((evalParentSymlinks_resolved exampleOutsideHost "/e" "m/f" false).2.1
      (.notUnder "/o/t" "/e")).2 ⟨rfl, hfail⟩,
    by decide, by decide, by decide, by decide, htrace,
    ((evalParentSymlinks_resolved exampleEvalHost "/a" "b/c/d/e.go" false).1 "bb/c/d/e.go"
      ["b"]).2 ⟨["bb", "c", "d"], htrace, by decide⟩⟩

end Client

namespace Client

/-! ## C28: the two packagers agree -/

/-- C28: for every tree node `t` of Go maps on which `packageTree` succeeds, with the root
digest `dg` and the blob map `blobs`, `packageDirectories` succeeds too; the digest of the
root descriptor that it returns is `dg`; the keys of the map of files that it returns are the
digests of the file leaves of the tree, which are the keys of `blobs` other than the digests
of the directories; and on every directory node of the tree the two packagers build the same
descriptor.  Conversely, when `packageDirectories` succeeds and its root descriptor can be
serialized, `packageTree` succeeds with the digest of that descriptor. -/
theorem packageDirectories_agrees_packageTree (deps : Deps) (t : treeNode) (hwf : t.WF) :
    (∀ st pfx dg blobs st2, packageTree deps t st pfx = (.ok (dg, blobs), st2) →
      ∃ root files treePb ue, packageDirectories deps t = .ok (root, files, treePb) ∧
        EntryFromProto deps root = .ok ue ∧ ue.Digest = dg ∧
        (∀ d, d ∈ mapKeys files ↔ d ∈ t.fileEntries.map (fun e => e.Digest)) ∧
        (∀ d, d ∈ mapKeys blobs ↔ d ∈ mapKeys files ∨ d ∈ t.dirDigests deps) ∧
        ∀ n ∈ t.nodes, ∀ st3 pfx3, ∃ r f tp b,
          packageDirectories deps n = .ok (r, f, tp) ∧
          (packageTreeDir deps n st3 pfx3).1 = .ok (r, b)) ∧
    (∀ root files treePb ue, packageDirectories deps t = .ok (root, files, treePb) →
      EntryFromProto deps root = .ok ue →
      ∀ st pfx, ∃ blobs, (packageTree deps t st pfx).1 = .ok (ue.Digest, blobs)) := by
  constructor
  · intro st pfx dg blobs st2 h
    have hres : packageTreeRes deps t = .ok (dg, blobs) := by
      rw [← packageTree_fst deps t st pfx, h]
    have hok : (packageTreeRes deps t).isOk = true := by rw [hres]; rfl
    have hall := ((packageTreeRes_isOk deps t).1 hok).1
    obtain ⟨files, ch, hpd, -⟩ := (packageDirectories_spec deps t hwf).1 hall
    obtain ⟨ue, hue, hdg, -⟩ := packageTreeRes_digest deps t dg blobs hres
    have hpok : (packageDirectories deps t).isOk = true := by rw [hpd]; rfl
    have hkeys := pdFiles_keys deps t hwf hpok
    rw [(pd_of_eq deps t _ _ _ hpd).2.1] at hkeys
    refine ⟨_, files, _, ue, hpd, hue, hdg.symm, hkeys, ?_, ?_⟩
    · intro d
      rw [(packageTreeRes_blobs deps t dg blobs hres).1 d, hkeys d]
    · intro n hn st3 pfx3
      have hnok := packageTreeRes_isOk_of_mem deps t n hok hn
      have hnall := ((packageTreeRes_isOk deps n).1 hnok).1
      obtain ⟨f, c, hnpd, -⟩ :=
        (packageDirectories_spec deps n (treeNode.WF_of_mem t n hwf hn)).1 hnall
      obtain ⟨b, hb⟩ := packageTreeDir_descriptor deps n st3 pfx3 hnall
      exact ⟨_, f, _, b, hnpd, hb⟩
  · intro root files treePb ue hpd hue st pfx
    have hpok : (packageDirectories deps t).isOk = true := by rw [hpd]; rfl
    have hall := packageDirectories_children_ok deps t hwf hpok
    obtain ⟨files2, ch, hpd2, -⟩ := (packageDirectories_spec deps t hwf).1 hall
    rw [hpd] at hpd2
    simp only [Except.ok.injEq, Prod.mk.injEq] at hpd2
    have hroot := hpd2.1
    subst hroot
    have hok : (packageTreeRes deps t).isOk = true :=
      (packageTreeRes_isOk deps t).2 ⟨hall, by rw [hue]; rfl⟩
    obtain ⟨ue2, hue2, hrd⟩ := rootDigest_of_isOk deps t hok
    rw [hue] at hue2
    cases hue2
    rw [packageTree_fst]
    cases hres : packageTreeRes deps t with
    | error e => rw [hres] at hok; cases hok
    | ok r =>
      obtain ⟨dg, blobs⟩ := r
      have := (rootDigest_of_ok deps t dg blobs hres).1
      exact ⟨blobs, by rw [← this, hrd]⟩

/-- C28 at the tree of the examples: both packagers succeed, and the digest of the root
descriptor of `packageDirectories` is the root digest of `packageTree`. -/
theorem packageDirectories_agrees_packageTree_witness :
    exampleTree.WF ∧
      packageTree exampleDeps exampleTree pkgState.zero "" =
        (.ok (exampleRootDigest, exampleBlobs),
          { stats := exampleStats, tree := none }) ∧
      ∃ root files treePb ue,
        packageDirectories exampleDeps exampleTree = .ok (root, files, treePb) ∧
        EntryFromProto exampleDeps root = .ok ue ∧ ue.Digest = exampleRootDigest ∧
        (∀ d, d ∈ mapKeys files ↔ d ∈ exampleTree.fileEntries.map (fun e => e.Digest)) ∧
        (∀ d, d ∈ mapKeys exampleBlobs ↔
          d ∈ mapKeys files ∨ d ∈ exampleTree.dirDigests exampleDeps) ∧
        ∀ n ∈ exampleTree.nodes, ∀ st3 pfx3, ∃ r f tp b,
          packageDirectories exampleDeps n = .ok (r, f, tp) ∧
          (packageTreeDir exampleDeps n st3 pfx3).1 = .ok (r, b) :=
  ⟨by decide, by decide,
    (packageDirectories_agrees_packageTree exampleDeps exampleTree (by decide)).1
      pkgState.zero "" exampleRootDigest exampleBlobs { stats := exampleStats, tree := none }
      (by decide)⟩

end Client

namespace Client

/-! ## C29: whether the loader ends -/

theorem loadFilesLoop_round (host : Host) (execRoot lwd rwd : String)
    (excl : List InputExclusion) (opts : TreeSymlinkOpts)
    (np : List (String × NodeProperties)) (fuel : Nat) (s s2 : loadState) (path : String)
    (rest : List String) (h : s.filesToProcess = path :: rest)
    (hstep : loadFilesStep host execRoot lwd rwd excl opts np path
      { s with filesToProcess := rest } = .ok s2) :
    loadFilesLoop host execRoot lwd rwd excl opts np (fuel + 1) s =
      loadFilesLoop host execRoot lwd rwd excl opts np fuel s2 := by
  rewrite [loadFilesLoop_succ host execRoot lwd rwd excl opts np fuel s path rest h, hstep]
  rfl

theorem loadFilesLoop_cycle (fuel : Nat) :
    loadFilesLoop exampleCycleHost "/e" "" "" [] examplePreserve [] fuel
        { filesToProcess := ["."], fs := exampleCycleFlat, seenAncestorSymlinkRel := [] } =
        none ∧
      loadFilesLoop exampleCycleHost "/e" "" "" [] examplePreserve [] fuel
        { filesToProcess := ["d"], fs := exampleCycleFlat, seenAncestorSymlinkRel := [] } =
        none ∧
      loadFilesLoop exampleCycleHost "/e" "" "" [] examplePreserve [] fuel
        { filesToProcess := ["d/l"], fs := exampleCycleFlat, seenAncestorSymlinkRel := [] } =
        none := by
  induction fuel with
  | zero =>
    exact ⟨loadFilesLoop_zero _ _ _ _ _ _ _ _ "." [] rfl,
      loadFilesLoop_zero _ _ _ _ _ _ _ _ "d" [] rfl,
      loadFilesLoop_zero _ _ _ _ _ _ _ _ "d/l" [] rfl⟩
  | succ n ih =>
    obtain ⟨h1, h2, h3⟩ := ih
    have s1 : loadFilesStep exampleCycleHost "/e" "" "" [] examplePreserve [] "."
        { filesToProcess := [], fs := exampleCycleFlat, seenAncestorSymlinkRel := [] } =
        .ok { filesToProcess := ["d"], fs := exampleCycleFlat,
              seenAncestorSymlinkRel := [] } := by decide
    have s2 : loadFilesStep exampleCycleHost "/e" "" "" [] examplePreserve [] "d"
        { filesToProcess := [], fs := exampleCycleFlat, seenAncestorSymlinkRel := [] } =
        .ok { filesToProcess := ["d/l"], fs := exampleCycleFlat,
              seenAncestorSymlinkRel := [] } := by decide
    have s3 : loadFilesStep exampleCycleHost "/e" "" "" [] examplePreserve [] "d/l"
        { filesToProcess := [], fs := exampleCycleFlat, seenAncestorSymlinkRel := [] } =
        .ok { filesToProcess := ["."], fs := exampleCycleFlat,
              seenAncestorSymlinkRel := [] } := by decide
    refine ⟨?_, ?_, ?_⟩
    · exact (loadFilesLoop_round _ _ _ _ _ _ _ n _ _ "." [] rfl s1).trans h2
    · exact (loadFilesLoop_round _ _ _ _ _ _ _ n _ _ "d" [] rfl s2).trans h3
    · exact (loadFilesLoop_round _ _ _ _ _ _ _ n _ _ "d/l" [] rfl s3).trans h1

/-- C29 fails as stated: no round of the loader looks whether a path was processed before.
In `exampleCycleHost` the directory `d` of the exec root `/e` holds the symlink `l` to `..`,
the exec root, an ancestor of `d`; with symlinks preserved and their targets followed, the
round of `d` appends `d/l`, the round of `d/l` appends `.`, the target of the link, and the
round of `.` appends `d` again: whatever the number of rounds, the queue is not empty and the
loader has returned neither a flat map nor an error. -/
theorem loadFiles_symlink_to_ancestor_never_ends :
    examplePreserve.Preserved = true ∧ examplePreserve.FollowsTarget = true ∧
      exampleCycleHost.Readdirnames "/e/d" = .ok ["l"] ∧
      (exampleCycleHost.Get "/e/d/l").Symlink = some { Target := "..", IsDangling := false } ∧
      ∀ fuel : Nat,
        loadFiles exampleCycleHost fuel "/e" "" "" [] ["d"] [] (some examplePreserve) [] =
          none := by
  refine ⟨rfl, rfl, rfl, rfl, ?_⟩
  intro fuel
  rw [loadFiles, Option.getD_some]
  cases fuel with
  | zero => exact loadFilesLoop_zero _ _ _ _ _ _ _ _ "d" [] rfl
  | succ n =>
    have s2 : loadFilesStep exampleCycleHost "/e" "" "" [] examplePreserve [] "d"
        { filesToProcess := [], fs := [], seenAncestorSymlinkRel := [] } =
        .ok { filesToProcess := ["d/l"], fs := [], seenAncestorSymlinkRel := [] } := by
      decide
    refine (loadFilesLoop_round _ _ _ _ _ _ _ n _ _ "d" [] rfl s2).trans ?_
    cases n with
    | zero => exact loadFilesLoop_zero _ _ _ _ _ _ _ _ "d/l" [] rfl
    | succ m =>
      have s3 : loadFilesStep exampleCycleHost "/e" "" "" [] examplePreserve [] "d/l"
          { filesToProcess := [], fs := [], seenAncestorSymlinkRel := [] } =
          .ok { filesToProcess := ["."], fs := exampleCycleFlat,
                seenAncestorSymlinkRel := [] } := by decide
      exact (loadFilesLoop_round _ _ _ _ _ _ _ m _ _ "d/l" [] rfl s3).trans
        (loadFilesLoop_cycle m).1

/-- C29, amended: for every file system, every input list and each symlink policy, when the
chains of paths that a round can append to the queue (the parent symlinks of a path, the
entries of the directory that it names, the target of the symlink that it names when targets
are followed) have fewer than `n` paths from every input, the loader returns, a flat map or
an error, within as many rounds as the inputs unfold into. -/
theorem loadFiles_ends (host : Host) (execRoot lwd rwd : String)
    (excl : List InputExclusion) (opts : Option TreeSymlinkOpts)
    (np : List (String × NodeProperties)) (inputs : List String)
    (fs : List (String × fileSysNode)) (n fuel : Nat)
    (hwithin : ∀ p ∈ inputs, loadFilesWithin
      (loadFilesAdds host execRoot lwd rwd excl (opts.getD DefaultTreeSymlinkOpts) np) n p =
        true)
    (hfuel : (inputs.map (loadFilesRounds
      (loadFilesAdds host execRoot lwd rwd excl (opts.getD DefaultTreeSymlinkOpts) np)
        n)).sum ≤ fuel) :
    ∃ r, loadFiles host fuel execRoot lwd rwd excl inputs fs opts np = some r := by
  have h := loadFilesLoop_ends host execRoot lwd rwd excl
    (opts.getD DefaultTreeSymlinkOpts) np fuel (inputs.map (fun p => (n, p))) fs []
    (by
      intro a ha
      obtain ⟨p, hp, rfl⟩ := List.mem_map.1 ha
      exact hwithin p hp)
    (by
      rw [List.map_map]
      exact hfuel)
  rw [List.map_map] at h
  have hid : inputs.map ((fun a : Nat × String => a.2) ∘ fun p => (n, p)) = inputs :=
    List.map_id _
  rw [hid] at h
  exact h

/-- C29, witness: in `exampleAncestorHost`, with symlinks preserved and targets followed, the
chains from the input `a/x.txt` (its parent symlink `a`, the target `realdir` of `a`, the two
files of `realdir`) have fewer than four paths and unfold into five rounds, and the loader
returns with five rounds. -/
theorem loadFiles_ends_witness :
    (∀ p ∈ ["a/x.txt"], loadFilesWithin (loadFilesAdds exampleAncestorHost "/e" "" "" []
        ((some examplePreserve).getD DefaultTreeSymlinkOpts) []) 4 p = true) ∧
      ((["a/x.txt"].map (loadFilesRounds (loadFilesAdds exampleAncestorHost "/e" "" "" []
        ((some examplePreserve).getD DefaultTreeSymlinkOpts) []) 4)).sum ≤ 5) ∧
      ∃ r, loadFiles exampleAncestorHost 5 "/e" "" "" [] ["a/x.txt"] []
        (some examplePreserve) [] = some r :=
  ⟨by decide, by decide,
    loadFiles_ends exampleAncestorHost "/e" "" "" [] (some examplePreserve) [] ["a/x.txt"] []
      4 5 (by decide) (by decide)⟩

end Client

namespace Client

/-! ## Input paths that are not in their clean form -/

/-- X3. An input path that is not in its clean form, under the preserve policy with targets
followed: for the input `./a/x.txt` the resolver of parent symlinks returns the parent symlink
under the name `./a`, and the loader marks `./a`; the round of that path looks the mark up
under the clean name `a`, finds none and follows the target of the symlink.  The flat map for
the input `./a/x.txt` holds `realdir/y.txt`, which the flat map for the input `a/x.txt` does
not hold. -/
theorem loadFiles_ancestor_unclean_input :
    evalParentSymlinks exampleAncestorHost "/e" "./a/x.txt" false =
        .ok ("./realdir/x.txt", ["./a"]) ∧
      getExecRootRelPaths (Join ["/e", "./a"]) "/e" "" "" = .ok ("a", "a") ∧
      (loadFiles exampleAncestorHost 10 "/e" "" "" [] ["./a/x.txt"] []
          (some examplePreserve) []).map (fun r => r.map mapKeys) =
        some (.ok ["realdir/x.txt", "a", "realdir/y.txt"]) ∧
      (loadFiles exampleAncestorHost 10 "/e" "" "" [] ["a/x.txt"] []
          (some examplePreserve) []).map (fun r => r.map mapKeys) =
        some (.ok ["realdir/x.txt", "a"]) := by
  decide

end Client
